import Mathlib

namespace QuickHull

/-- Modelled from the spec: `Number.h` is not part of the sources; the spec asks for exact
arithmetic, so `Number` is the field of rationals. -/
abbrev Number := ℚ

/-- Class `Point` of PointHandler.h: two public coordinates. -/
structure Point where
  x : Number
  y : Number
deriving DecidableEq

/-- The empty constructor `Point::Point()` initialises both coordinates with 0. -/
instance : Inhabited Point := ⟨⟨0, 0⟩⟩

/-- Lambda of `find_poles`, which is also `Point::operator <`. -/
def Point.lt (a b : Point) : Bool :=
  decide (a.x < b.x) || (decide (a.x = b.x) && decide (a.y < b.y))

/-- `Point::operator <=`. -/
def Point.le (a b : Point) : Bool :=
  decide (a.x < b.x) || (decide (a.x = b.x) && decide (a.y ≤ b.y))

/-- `Point::operator >`. -/
def Point.gt (a b : Point) : Bool :=
  decide (a.x > b.x) || (decide (a.x = b.x) && decide (a.y > b.y))

/-- `Point::operator ==`. -/
def Point.eq (a b : Point) : Bool :=
  decide (a.x = b.x) && decide (a.y = b.y)

/-- `Point::operator !=`. -/
def Point.ne (a b : Point) : Bool :=
  decide (a.x ≠ b.x) || decide (a.y ≠ b.y)

/-- `enum class Orientation`. -/
inductive Orientation where
  | CLOCKWISE
  | COLLINEAR
  | COUNTERCLOCKWISE
deriving DecidableEq

open Orientation

/-- `getOrientation` of PointHandler.cpp. -/
def getOrientation (p q r : Point) : Orientation :=
  let value := (q.x - p.x) * (r.y - p.y) - (q.y - p.y) * (r.x - p.x)
  if value = 0 then COLLINEAR
  else if value < 0 then CLOCKWISE else COUNTERCLOCKWISE

/-- `computeSquaredDistanceFromPointToSegment` of PointHandler.cpp. -/
def computeSquaredDistanceFromPointToSegment (r p q : Point) : Number :=
  let diffX := q.x - p.x
  let diffY := q.y - p.y
  if diffX = 0 ∧ diffY = 0 then
    let diffX := r.x - p.x
    let diffY := r.y - p.y
    diffX * diffX + diffY * diffY
  else
    let t := ((r.x - p.x) * diffX + (r.y - p.y) * diffY) / (diffX * diffX + diffY * diffY)
    if t < 0 then
      let diffX := r.x - p.x
      let diffY := r.y - p.y
      diffX * diffX + diffY * diffY
    else if t > 1 then
      let diffX := r.x - q.x
      let diffY := r.y - q.y
      diffX * diffX + diffY * diffY
    else
      let diffX' := r.x - (p.x + t * diffX)
      let diffY' := r.y - (p.y + t * diffY)
      diffX' * diffX' + diffY' * diffY'

/-- `PointSequence` is `std::vector<Point>`; iterators are positions counted from `begin()`. -/
abbrev PointSequence := List Point

/-- Dereference `*it` of the iterator at position `i`. -/
def deref (a : PointSequence) (i : Nat) : Point := a.getD i default

/-- Assignment `*it = p` through the iterator at position `i`. -/
def assign (a : PointSequence) (i : Nat) (p : Point) : PointSequence := a.set i p

/-- `std::iter_swap(i, j)`. -/
def iter_swap (a : PointSequence) (i j : Nat) : PointSequence :=
  assign (assign a i (deref a j)) j (deref a i)

/-- Loop of `PointSequenceFulfillsMinimalRequirements`: `k` iterations remain when started at `i`
with `i + k = size`. -/
def collinearLoop (a : PointSequence) : Nat → Nat → Bool → Bool
  | 0, _, c => c
  | k + 1, i, c =>
    if c then
      collinearLoop a k (i + 1)
        (decide (getOrientation (deref a 0) (deref a 1) (deref a i) = COLLINEAR))
    else c

/-- `PointSequenceFulfillsMinimalRequirements` of PointHandler.cpp. -/
def PointSequenceFulfillsMinimalRequirements (a : PointSequence) : Bool :=
  if a.length < 3 then false
  else
    let allPointsAreCollinear := collinearLoop a (a.length - 2) 2 true
    if allPointsAreCollinear then false else true

/-- The scan of `std::minmax_element(first, past, comp)` with `comp = Point.lt`: the result is
the first smallest and the last largest element, as the C++ standard prescribes. `k` elements
remain, the next one is at position `i`. -/
def minmaxLoop (a : PointSequence) : Nat → Nat → Nat → Nat → Nat × Nat
  | 0, _, mn, mx => (mn, mx)
  | k + 1, i, mn, mx =>
    let mn' := if (deref a i).lt (deref a mn) then i else mn
    let mx' := if (deref a i).lt (deref a mx) then mx else i
    minmaxLoop a k (i + 1) mn' mx'

/-- `find_poles`. -/
def find_poles (a : PointSequence) (first past : Nat) : Nat × Nat :=
  if first = past then (first, first)
  else minmaxLoop a (past - first - 1) (first + 1) first first

/-- `parallel_iter_swap`. -/
def parallel_iter_swap (a : PointSequence) (st nd rd th : Nat) : PointSequence :=
  let a := iter_swap a st rd
  if th = st then iter_swap a nd rd else iter_swap a nd th

/-- First inner loop of `std::partition` (bidirectional iterators): advance `first` while the
predicate holds; `k = last - first`. -/
def partitionFwd (pred : PointSequence → Point → Bool) (a : PointSequence) : Nat → Nat → Nat
  | 0, first => first
  | k + 1, first => if pred a (deref a first) then partitionFwd pred a k (first + 1) else first

/-- Second inner loop of `std::partition`: retreat `last` while the predicate fails;
`k = last - first`. -/
def partitionBwd (pred : PointSequence → Point → Bool) (a : PointSequence) : Nat → Nat → Nat
  | 0, last => last
  | k + 1, last => if pred a (deref a last) then last else partitionBwd pred a k (last - 1)

/-- Outer loop of `std::partition` for bidirectional iterators. The predicate reads the
sequence, since the lambdas of the callers dereference captured iterators at each call. -/
def partitionLoop (pred : PointSequence → Point → Bool) :
    Nat → PointSequence → Nat → Nat → PointSequence × Nat
  | 0, a, first, _ => (a, first)
  | fuel + 1, a, first, last =>
    let first := partitionFwd pred a (last - first) first
    if first = last then (a, first)
    else
      let last := last - 1
      let last := partitionBwd pred a (last - first) last
      if first = last then (a, first)
      else partitionLoop pred fuel (iter_swap a first last) (first + 1) last

/-- `std::partition(first, last, pred)`. -/
def std_partition (pred : PointSequence → Point → Bool) (a : PointSequence) (first last : Nat) :
    PointSequence × Nat :=
  partitionLoop pred (last - first + 1) a first last

/-- `partition_left_right`. -/
def partition_left_right (a : PointSequence) (first past antipole : Nat) : PointSequence × Nat :=
  let pole := first
  std_partition
    (fun s q => decide (COUNTERCLOCKWISE ≠ getOrientation (deref s pole) q (deref s antipole)))
    a (pole + 1) past

/-- `partition_right_left`. -/
def partition_right_left (a : PointSequence) (first last leftMostP rightMostP : Nat) :
    PointSequence × Nat :=
  std_partition
    (fun s q => decide (CLOCKWISE ≠ getOrientation (deref s leftMostP) q (deref s rightMostP)))
    a first last

/-- Loop of `swap_blocks`; `k = last - source`. -/
def swapBlocksLoop : Nat → PointSequence → Nat → Nat → PointSequence × Nat
  | 0, a, source, hole =>
    (assign a hole (deref a source), source)
  | k + 1, a, source, hole =>
    let a := assign a hole (deref a source)
    let hole := hole + 1
    let a := assign a source (deref a hole)
    swapBlocksLoop k a (source + 1) hole

/-- `swap_blocks`. -/
def swap_blocks (a : PointSequence) (source past target : Nat) : PointSequence :=
  if source = target ∨ source = past then a
  else
    let hole := target
    let p := deref a target
    let last := past - 1
    let r := swapBlocksLoop (last - source) a source hole
    assign r.1 r.2 p

/-- `move_away`. -/
def move_away (a : PointSequence) (here rest past : Nat) : PointSequence :=
  if here = rest ∨ rest = past then a
  else if rest - here < past - rest then
    let target := past - (rest - here)
    swap_blocks a here rest target
  else swap_blocks a rest past here

/-- Loop of the four-argument `find_furthest`; `k` elements remain from position `i`. -/
def furthestLoop (a : PointSequence) (leftMost rightMost : Nat) :
    Nat → Nat → Nat → Number → Nat
  | 0, _, furthest, _ => furthest
  | k + 1, i, furthest, maxSquaredDistance =>
    let d := computeSquaredDistanceFromPointToSegment (deref a i) (deref a leftMost)
      (deref a rightMost)
    if maxSquaredDistance < d then furthestLoop a leftMost rightMost k (i + 1) i d
    else if maxSquaredDistance = d ∧ (deref a i).x < (deref a furthest).x then
      furthestLoop a leftMost rightMost k (i + 1) i maxSquaredDistance
    else furthestLoop a leftMost rightMost k (i + 1) furthest maxSquaredDistance

/-- `find_furthest(first, past, leftMost, rightMost)`. -/
def find_furthest (a : PointSequence) (first past leftMost rightMost : Nat) : Nat :=
  furthestLoop a leftMost rightMost (past - first) first first 0

/-- `find_furthest(first, past, antipole)`: the pole is `first`, the scan starts behind it. -/
def find_furthest3 (a : PointSequence) (first past antipole : Nat) : Nat :=
  let pole := first
  furthestLoop a pole antipole (past - (first + 1)) (first + 1) pole 0

/-- While loop of `lowerPartition`, which `upperPartition` repeats word for word;
`k = g2 - current` iterations remain. The result is the sequence with `current` and the two
group cursors. -/
def partition3Loop (leftMostP rightMostP furthestP : Nat) :
    Nat → PointSequence → Nat → Nat → Nat → PointSequence × Nat × Nat × Nat
  | 0, a, current, g1, g2 => (a, current, g1, g2)
  | k + 1, a, current, g1, g2 =>
    if getOrientation (deref a leftMostP) (deref a furthestP) (deref a current) = CLOCKWISE then
      partition3Loop leftMostP rightMostP furthestP k (iter_swap a current g1)
        (current + 1) (g1 + 1) g2
    else if getOrientation (deref a furthestP) (deref a rightMostP) (deref a current)
        = CLOCKWISE then
      partition3Loop leftMostP rightMostP furthestP k (iter_swap a current g2)
        current g1 (g2 - 1)
    else partition3Loop leftMostP rightMostP furthestP k a (current + 1) g1 g2

/-- `lowerPartition`: the scan, then the element the loop leaves out, which is tested on its
x-coordinate first. The result is the sequence with the two group cursors
`itrForNextOfLastPointOfFirstGroup` and `itrForFirstPointOfSecondGroup`. -/
def lowerPartition (a : PointSequence) (g1 g2 leftMostP rightMostP furthestP : Nat) :
    PointSequence × Nat × Nat :=
  let r := partition3Loop leftMostP rightMostP furthestP (g2 - g1) a g1 g1 g2
  let a := r.1
  let current := r.2.1
  let g1 := r.2.2.1
  let g2 := r.2.2.2
  if (deref a current).x < (deref a furthestP).x then
    if getOrientation (deref a leftMostP) (deref a furthestP) (deref a current) = CLOCKWISE then
      (iter_swap a current g1, g1 + 1, g2 + 1)
    else (a, g1, g2 + 1)
  else
    if getOrientation (deref a furthestP) (deref a rightMostP) (deref a current)
        = COUNTERCLOCKWISE then
      (a, g1, g2 + 1)
    else (a, g1, g2)

/-- `upperPartition`: as `lowerPartition`, with the comparison of the x-coordinates turned
round. -/
def upperPartition (a : PointSequence) (g1 g2 leftMostP rightMostP furthestP : Nat) :
    PointSequence × Nat × Nat :=
  let r := partition3Loop leftMostP rightMostP furthestP (g2 - g1) a g1 g1 g2
  let a := r.1
  let current := r.2.1
  let g1 := r.2.2.1
  let g2 := r.2.2.2
  if (deref a current).x > (deref a furthestP).x then
    if getOrientation (deref a leftMostP) (deref a furthestP) (deref a current) = CLOCKWISE then
      (iter_swap a current g1, g1 + 1, g2 + 1)
    else (a, g1, g2 + 1)
  else
    if getOrientation (deref a furthestP) (deref a rightMostP) (deref a current)
        = COUNTERCLOCKWISE then
      (a, g1, g2 + 1)
    else (a, g1, g2)

/-- Constant `LOWER` of ConvexHullInplaceQuickHull.cpp, an index into `partition[2]`. -/
def LOWER : Nat := 0

/-- Constant `UPPER` of ConvexHullInplaceQuickHull.cpp, an index into `partition[2]`. -/
def UPPER : Nat := 1

/-- The table `partition[2] = {lowerPartition, upperPartition}` applied at `location`. -/
def partition (location : Nat) (a : PointSequence) (g1 g2 leftMostP rightMostP furthestP : Nat) :
    PointSequence × Nat × Nat :=
  if location = LOWER then lowerPartition a g1 g2 leftMostP rightMostP furthestP
  else upperPartition a g1 g2 leftMostP rightMostP furthestP

/-- `findHullInPlace`; the result is the sequence and the cursor `itrForNextHullPoint`.
`none` only when the fuel is used up. -/
def findHullInPlace : Nat → PointSequence → Nat → Nat → Nat → Nat → Nat → Nat →
    Option (PointSequence × Nat)
  | 0, _, _, _, _, _, _, _ => none
  | fuel + 1, a, first, past, leftMost, rightMost, itrForNextHullPoint, location =>
    let sizeOfPoints := past - first
    if sizeOfPoints = 1 then some (iter_swap a first itrForNextHullPoint, itrForNextHullPoint + 1)
    else if sizeOfPoints = 0 then some (a, itrForNextHullPoint)
    else
      let furthestPoint := find_furthest a first past leftMost rightMost
      let last := past - 1
      let a := iter_swap a furthestPoint last
      let furthestPoint := last
      let r := partition location a first (last - 1) leftMost rightMost furthestPoint
      let a := r.1
      let g1 := r.2.1
      let g2 := r.2.2
      match findHullInPlace fuel a first g1 leftMost furthestPoint itrForNextHullPoint location with
      | none => none
      | some (a, itrForNextHullPoint) =>
        let a := iter_swap a furthestPoint itrForNextHullPoint
        let furthestPoint := itrForNextHullPoint
        let g2' := if itrForNextHullPoint = g2 then g2 + 1 else g2
        let last' := if itrForNextHullPoint = g2 then last + 1 else last
        findHullInPlace fuel a g2' last' furthestPoint rightMost (itrForNextHullPoint + 1) location

/-- `ConvexHullInPlaceQuickHull`; the result is the sequence after the call and the returned
position. -/
def ConvexHullInPlaceQuickHull (pointSeq : PointSequence) : Option (PointSequence × Nat) :=
  if ! PointSequenceFulfillsMinimalRequirements pointSeq then some (pointSeq, 0)
  else
    let first := 0
    let past := pointSeq.length
    let pair := find_poles pointSeq first past
    let itrForLeftMostPoint := first
    let itrForRightMostPoint := past - 1
    let a := parallel_iter_swap pointSeq itrForLeftMostPoint itrForRightMostPoint pair.1 pair.2
    let first := first + 1
    let past := itrForRightMostPoint
    let itrForNextHullPoint := first
    let r := partition_right_left a first past itrForLeftMostPoint itrForRightMostPoint
    let a := r.1
    let g2 := r.2
    match findHullInPlace pointSeq.length a first g2 itrForLeftMostPoint itrForRightMostPoint
        itrForNextHullPoint LOWER with
    | none => none
    | some (a, itrForNextHullPoint) =>
      let a := iter_swap a itrForRightMostPoint itrForNextHullPoint
      let itrForRightMostPoint := itrForNextHullPoint
      let g2' := if itrForNextHullPoint = g2 then g2 + 1 else g2
      let past' := if itrForNextHullPoint = g2 then past + 1 else past
      findHullInPlace pointSeq.length a g2' past' itrForRightMostPoint itrForLeftMostPoint
        (itrForNextHullPoint + 1) UPPER

/-- `chain`; the result is the sequence and the returned position. `none` only when the fuel
is used up. -/
def chain : Nat → PointSequence → Nat → Nat → Nat → Option (PointSequence × Nat)
  | 0, _, _, _, _ => none
  | fuel + 1, a, pole, past, antipole =>
    let n := past - pole
    if n = 1 then some (a, past)
    else if n = 2 then
      if getOrientation (deref a (pole + 1)) (deref a pole) (deref a antipole) = COLLINEAR then
        some (a, pole + 1)
      else some (a, past)
    else
      let pivot := find_furthest3 a pole past antipole
      if getOrientation (deref a pivot) (deref a pole) (deref a antipole) = COLLINEAR then
        some (a, pole + 1)
      else
        let last := past - 1
        let a := iter_swap a pivot last
        let r := partition_left_right a pole last last
        let a := r.1
        let mid := r.2
        match chain fuel a pole mid last with
        | none => none
        | some (a, eliminated) =>
          let a := iter_swap a mid last
          let a := iter_swap a eliminated mid
          let pivot := eliminated
          let m := past - mid
          let mid := mid + 1
          let eliminated := eliminated + 1
          let a := move_away a eliminated mid past
          let border := pivot + m
          let r := partition_left_right a pivot border antipole
          let a := r.1
          let interior := r.2
          chain fuel a pivot interior antipole

/-- `TheirConvexHullInPlaceQuickHull`; the result is the sequence after the call and the
returned position. -/
def TheirConvexHullInPlaceQuickHull (pointSeq : PointSequence) : Option (PointSequence × Nat) :=
  if ! PointSequenceFulfillsMinimalRequirements pointSeq then some (pointSeq, 0)
  else
    let first := 0
    let past := pointSeq.length
    let pair := find_poles pointSeq first past
    let west := first
    let east := past - 1
    let a := parallel_iter_swap pointSeq west east pair.1 pair.2
    if (deref a west).eq (deref a east) then some (a, first + 1)
    else
      let r := partition_left_right a west east east
      let a := r.1
      let middle := r.2
      let m := past - middle
      match chain pointSeq.length a first middle east with
      | none => none
      | some (a, eliminated) =>
        let a := iter_swap a middle east
        let a := iter_swap a eliminated middle
        let east := eliminated
        let middle := middle + 1
        let eliminated := eliminated + 1
        let a := move_away a eliminated middle past
        let border := east + m
        chain pointSeq.length a east border west


/-- The scan of `ConvexHullQuickHull` for the leftmost and the rightmost point; `k` points
remain from index `i`. -/
def extremesLoop (pointSeq : PointSequence) : Nat → Nat → Point → Point → Point × Point
  | 0, _, leftMostPoint, rightMostPoint => (leftMostPoint, rightMostPoint)
  | k + 1, i, leftMostPoint, rightMostPoint =>
    if (deref pointSeq i).lt leftMostPoint then
      extremesLoop pointSeq k (i + 1) (deref pointSeq i) rightMostPoint
    else if (deref pointSeq i).gt rightMostPoint then
      extremesLoop pointSeq k (i + 1) leftMostPoint (deref pointSeq i)
    else extremesLoop pointSeq k (i + 1) leftMostPoint rightMostPoint

/-- The loop of `ConvexHullQuickHull` that splits the points into `pointSeqAbove` and
`pointSeqBelow`; the result is the pair of the two sequences, `push_back` is `++ [c]`. -/
def sideLoop (leftMostPoint rightMostPoint : Point) :
    List Point → PointSequence → PointSequence → PointSequence × PointSequence
  | [], pointSeqAbove, pointSeqBelow => (pointSeqAbove, pointSeqBelow)
  | c :: rest, pointSeqAbove, pointSeqBelow =>
    if getOrientation leftMostPoint rightMostPoint c = COUNTERCLOCKWISE then
      sideLoop leftMostPoint rightMostPoint rest (pointSeqAbove ++ [c]) pointSeqBelow
    else if getOrientation leftMostPoint rightMostPoint c = CLOCKWISE then
      sideLoop leftMostPoint rightMostPoint rest pointSeqAbove (pointSeqBelow ++ [c])
    else sideLoop leftMostPoint rightMostPoint rest pointSeqAbove pointSeqBelow

namespace OutOfPlace

/-- Constant `UPPER` of ConvexHullQuickHull.cpp. -/
def UPPER : Nat := 0

/-- Constant `LOWER` of ConvexHullQuickHull.cpp. -/
def LOWER : Nat := 1

/-- The scan of `findHull` for the point furthest from the segment from `p` to `q`; `k` points
remain from index `i`. The source leaves `index` without an initial value and reads it only in
the tie test; the scan starts it at 0, which is the value it gets at the first point whenever
that point has a positive distance. -/
def furthestIndexLoop (pointSeq : PointSequence) (p q : Point) : Nat → Nat → Nat → Number → Nat
  | 0, _, index, _ => index
  | k + 1, i, index, maxSquaredDistance =>
    let squaredDistanceFromPointToSegment :=
      computeSquaredDistanceFromPointToSegment (deref pointSeq i) p q
    if maxSquaredDistance < squaredDistanceFromPointToSegment then
      furthestIndexLoop pointSeq p q k (i + 1) i squaredDistanceFromPointToSegment
    else if maxSquaredDistance = squaredDistanceFromPointToSegment
        ∧ (deref pointSeq i).x < (deref pointSeq index).x then
      furthestIndexLoop pointSeq p q k (i + 1) i maxSquaredDistance
    else furthestIndexLoop pointSeq p q k (i + 1) index maxSquaredDistance

/-- The loop of `findHull` for `location == LOWER` that fills `pointSeq1` and `pointSeq2`. -/
def splitLower (p q furthestPoint : Point) :
    List Point → PointSequence → PointSequence → PointSequence × PointSequence
  | [], pointSeq1, pointSeq2 => (pointSeq1, pointSeq2)
  | c :: rest, pointSeq1, pointSeq2 =>
    if c.x < furthestPoint.x then
      if getOrientation p furthestPoint c = CLOCKWISE then
        splitLower p q furthestPoint rest (pointSeq1 ++ [c]) pointSeq2
      else splitLower p q furthestPoint rest pointSeq1 pointSeq2
    else
      if getOrientation furthestPoint q c = CLOCKWISE then
        splitLower p q furthestPoint rest pointSeq1 (pointSeq2 ++ [c])
      else splitLower p q furthestPoint rest pointSeq1 pointSeq2

/-- The loop of `findHull` for the other `location` that fills `pointSeq1` and `pointSeq2`. -/
def splitUpper (p q furthestPoint : Point) :
    List Point → PointSequence → PointSequence → PointSequence × PointSequence
  | [], pointSeq1, pointSeq2 => (pointSeq1, pointSeq2)
  | c :: rest, pointSeq1, pointSeq2 =>
    if c.x > furthestPoint.x then
      if getOrientation p furthestPoint c = CLOCKWISE then
        splitUpper p q furthestPoint rest (pointSeq1 ++ [c]) pointSeq2
      else splitUpper p q furthestPoint rest pointSeq1 pointSeq2
    else
      if getOrientation furthestPoint q c = CLOCKWISE then
        splitUpper p q furthestPoint rest pointSeq1 (pointSeq2 ++ [c])
      else splitUpper p q furthestPoint rest pointSeq1 pointSeq2

/-- `findHull` of ConvexHullQuickHull.cpp; the result is `ccwPointSeq` after the call. `none`
only when the fuel is used up. -/
def findHull : Nat → PointSequence → Point → Point → List Point → Nat → Option (List Point)
  | 0, _, _, _, _, _ => none
  | fuel + 1, pointSeq, p, q, ccwPointSeq, location =>
    if pointSeq.length = 0 then some ccwPointSeq
    else if pointSeq.length = 1 then some (ccwPointSeq ++ [deref pointSeq 0])
    else
      let numOfElements := pointSeq.length
      let index := furthestIndexLoop pointSeq p q numOfElements 0 0 0
      let furthestPoint := deref pointSeq index
      let r := if location = LOWER then splitLower p q furthestPoint pointSeq [] []
        else splitUpper p q furthestPoint pointSeq [] []
      match findHull fuel r.1 p furthestPoint ccwPointSeq location with
      | none => none
      | some ccwPointSeq =>
        findHull fuel r.2 furthestPoint q (ccwPointSeq ++ [furthestPoint]) location

end OutOfPlace

/-- `ConvexHullQuickHull`; the result is the returned `ccwPointSeq`. -/
def ConvexHullQuickHull (pointSeq : PointSequence) : Option (List Point) :=
  if ! PointSequenceFulfillsMinimalRequirements pointSeq then some []
  else
    let numOfElements := pointSeq.length
    let e := extremesLoop pointSeq (numOfElements - 1) 1 (deref pointSeq 0) (deref pointSeq 0)
    let leftMostPoint := e.1
    let rightMostPoint := e.2
    let r := sideLoop leftMostPoint rightMostPoint pointSeq [] []
    let pointSeqAbove := r.1
    let pointSeqBelow := r.2
    let ccwPointSeq := [leftMostPoint]
    match OutOfPlace.findHull (numOfElements + 1) pointSeqBelow leftMostPoint rightMostPoint
        ccwPointSeq OutOfPlace.LOWER with
    | none => none
    | some ccwPointSeq =>
      OutOfPlace.findHull (numOfElements + 1) pointSeqAbove rightMostPoint leftMostPoint
        (ccwPointSeq ++ [rightMostPoint]) OutOfPlace.UPPER

/-- The output of an orchestrator call that returned position `r.2` on the final sequence
`r.1`: the points of the prefix `[begin, r.2)`. -/
def outputPoints (r : PointSequence × Nat) : List Point := r.1.take r.2

/-- All points of `s` lie on one common line `a * x + b * y = c`. -/
def OnCommonLine (s : PointSequence) : Prop :=
  ∃ a b c : Number, (a ≠ 0 ∨ b ≠ 0) ∧ ∀ p ∈ s, a * p.x + b * p.y = c

/-- The coordinates of a point as a vector of the plane. -/
def Point.toVec (p : Point) : ℚ × ℚ := (p.x, p.y)

/-- The point `c` lies on or inside the convex hull of the points of `pts`. -/
def InConvexHull (pts : List Point) (c : Point) : Prop :=
  c.toVec ∈ convexHull ℚ {v : ℚ × ℚ | ∃ p ∈ pts, p.toVec = v}

/-- The point `c` lies on the closed segment between `u` and `v`. -/
def OnClosedSegment (u v c : Point) : Prop :=
  ∃ t : Number, 0 ≤ t ∧ t ≤ 1 ∧ c.x = u.x + t * (v.x - u.x) ∧ c.y = u.y + t * (v.y - u.y)

/-- The points of `t`, in the order of the list, go counterclockwise or straight on: no three
points taken in the order of the list make a clockwise turn. -/
def CounterclockwiseOrder (t : List Point) : Prop :=
  ∀ i j k, i < j → j < k → k < t.length →
    getOrientation (deref t i) (deref t j) (deref t k) ≠ Orientation.CLOCKWISE

/-- No three cyclically adjacent points of `t` make a clockwise turn; the successor of the last
point is the first one. -/
def AdjacentNotClockwise (t : List Point) : Prop :=
  ∀ i, i < t.length →
    getOrientation (deref t i) (deref t ((i + 1) % t.length)) (deref t ((i + 2) % t.length))
      ≠ Orientation.CLOCKWISE

/-- No point of `t` lies strictly inside the convex hull of the points at the other positions
of `t`. -/
def NoPointStrictlyInside (t : List Point) : Prop :=
  ∀ i, i < t.length →
    (deref t i).toVec ∉
      interior (convexHull ℚ {v : ℚ × ℚ | ∃ j, j < t.length ∧ j ≠ i ∧ (deref t j).toVec = v})

end QuickHull

namespace QuickHull

/-- The value of the cross product that `getOrientation p q r` tests. -/
def cross (p q r : Point) : Number :=
  (q.x - p.x) * (r.y - p.y) - (q.y - p.y) * (r.x - p.x)

/-- The sequence `a'` arises from `a` by permuting the positions of `[lo, hi)`: the lengths
agree and a bijection of the positions that fixes every position outside `[lo, hi)` carries
the entries of `a` to those of `a'`. -/
def RangePerm (lo hi : Nat) (a a' : PointSequence) : Prop :=
  a'.length = a.length ∧
    ∃ σ : Equiv.Perm Nat, (∀ i, i < lo ∨ hi ≤ i → σ i = i) ∧ ∀ i, deref a' i = deref a (σ i)

/-- The vectors of the points stored at the positions of `[lo, hi)`. -/
def rangeSet (a : PointSequence) (lo hi : Nat) : Set (ℚ × ℚ) :=
  {v | ∃ j, lo ≤ j ∧ j < hi ∧ (deref a j).toVec = v}

/-- The direction in which the x-coordinates grow from the pole to the antipole in a call of
`findHullInPlace`: 1 for `LOWER`, -1 otherwise. -/
def sideSign (location : Nat) : Number := if location = LOWER then 1 else -1

/-- What a call of `chain` with pole `P` and antipole `A` requires of a point `c` of its
range: `c` is not left of the directed line from `P` to `A`, it lies on the segment from `P`
to `A` when it is collinear with them, and its x-coordinate lies between theirs, where `sg`
is 1 when x grows from `P` to `A` and -1 when it falls. -/
def ChainPoint (sg : Number) (P A c : Point) : Prop :=
  cross P c A ≤ 0 ∧ (cross P c A = 0 → OnClosedSegment P A c) ∧
    0 ≤ sg * (c.x - P.x) ∧ 0 ≤ sg * (A.x - c.x)

/-- The point `c` did not win against the pivot `F` in `find_furthest`: it is not further from
the segment from `P` to `A`, and where it is as far, its x-coordinate is not smaller. -/
def NotFurther (P A F c : Point) : Prop :=
  computeSquaredDistanceFromPointToSegment c P A
      ≤ computeSquaredDistanceFromPointToSegment F P A ∧
    (computeSquaredDistanceFromPointToSegment c P A
      = computeSquaredDistanceFromPointToSegment F P A → F.x ≤ c.x)

/-- What a call of `findHullInPlace` with pole `P` and antipole `R` requires of a point `c` of
its range: `c` is not left of the directed line from `P` to `R`, it lies on the segment from
`P` to `R` when it is collinear with them, its x-coordinate lies between theirs, and it is
collinear with them when it has the x-coordinate of the pole. -/
def HullCand (sg : Number) (P R c : Point) : Prop :=
  cross P R c ≤ 0 ∧ (cross P R c = 0 → OnClosedSegment P R c) ∧
    0 ≤ sg * (c.x - P.x) ∧ 0 ≤ sg * (R.x - c.x) ∧ (c.x = P.x → cross P R c = 0)

/-- The points `o lo, ..., o (hi - 1)` form a chain from the pole `P` to the antipole `R` that
never turns clockwise and is monotone in x: no triple of points of the chain taken in order,
also with `P` in front or `R` behind, makes a clockwise turn. -/
def WeakChain (sg : Number) (P R : Point) (o : Nat → Point) (lo hi : Nat) : Prop :=
  (∀ i j, lo ≤ i → i < j → j < hi → 0 ≤ cross P (o i) (o j)) ∧
  (∀ i j, lo ≤ i → i < j → j < hi → 0 ≤ cross (o i) (o j) R) ∧
  (∀ i j k, lo ≤ i → i < j → j < k → k < hi → 0 ≤ cross (o i) (o j) (o k)) ∧
  (∀ i j, lo ≤ i → i < j → j < hi → 0 ≤ sg * ((o j).x - (o i).x))

/-- The points `o lo, ..., o (hi - 1)` form a chain from the pole `P` to the antipole `R` that
turns counterclockwise at every triple of its points taken in order, also with `P` in front or
`R` behind, and is monotone in x. -/
def StrictChain (sg : Number) (P R : Point) (o : Nat → Point) (lo hi : Nat) : Prop :=
  (∀ i j, lo ≤ i → i < j → j < hi → 0 < cross P (o i) (o j)) ∧
  (∀ i j, lo ≤ i → i < j → j < hi → 0 < cross (o i) (o j) R) ∧
  (∀ i j k, lo ≤ i → i < j → j < k → k < hi → 0 < cross (o i) (o j) (o k)) ∧
  (∀ i j, lo ≤ i → i < j → j < hi → 0 ≤ sg * ((o j).x - (o i).x))

/-- What a call of the out-of-place `findHull` with the points `P` and `R` requires of a
point `c` of its sequence: `c` is strictly right of the directed line from `P` to `R`, and its
x-coordinate lies between theirs. -/
def RightCand (sg : Number) (P R c : Point) : Prop :=
  cross P R c < 0 ∧ 0 ≤ sg * (c.x - P.x) ∧ 0 ≤ sg * (R.x - c.x)

/-- The direction in which the x-coordinates grow from `p` to `q` in a call of the out-of-place
`findHull`: 1 for `LOWER`, -1 otherwise. -/
def OutOfPlace.sideSign (location : Nat) : Number := if location = OutOfPlace.LOWER then 1 else -1

end QuickHull

namespace QuickHull

open Orientation

/-! ### Reading and writing positions -/

theorem length_assign (a : PointSequence) (i : Nat) (p : Point) :
    (assign a i p).length = a.length := by
  simp [assign]

theorem deref_assign (a : PointSequence) (i j : Nat) (p : Point) :
    deref (assign a i p) j = if i = j ∧ i < a.length then p else deref a j := by
  unfold deref assign
  by_cases hj : j < a.length
  · rw [List.getD_eq_getElem _ _ (by simpa using hj), List.getD_eq_getElem _ _ hj,
      List.getElem_set]
    by_cases hij : i = j
    · subst hij
      simp [hj]
    · simp [hij]
  · have h1 : a.length ≤ j := Nat.le_of_not_lt hj
    rw [List.getD_eq_default _ _ (by simpa using h1), List.getD_eq_default _ _ h1]
    have : ¬ (i = j ∧ i < a.length) := fun h => hj (h.1 ▸ h.2)
    simp [this]

theorem deref_assign_self (a : PointSequence) (i : Nat) (p : Point) (h : i < a.length) :
    deref (assign a i p) i = p := by
  simp [deref_assign, h]

theorem deref_assign_ne (a : PointSequence) (i j : Nat) (p : Point) (h : i ≠ j) :
    deref (assign a i p) j = deref a j := by
  simp [deref_assign, h]

theorem length_iter_swap (a : PointSequence) (i j : Nat) :
    (iter_swap a i j).length = a.length := by
  simp [iter_swap, length_assign]

theorem deref_iter_swap (a : PointSequence) (i j k : Nat) (hi : i < a.length)
    (hj : j < a.length) :
    deref (iter_swap a i j) k = deref a (Equiv.swap i j k) := by
  unfold iter_swap
  rw [deref_assign, length_assign]
  by_cases hjk : j = k
  · subst hjk
    simp [hj]
  · rw [deref_assign]
    by_cases hik : i = k
    · subst hik
      simp [hjk, hi]
    · have : Equiv.swap i j k = k := Equiv.swap_apply_of_ne_of_ne (Ne.symm hik) (Ne.symm hjk)
      simp [hjk, hik, this]

theorem iter_swap_self (a : PointSequence) (i : Nat) : iter_swap a i i = a := by
  unfold iter_swap assign deref
  apply List.ext_getElem
  · simp
  · intro n h1 h2
    simp only [List.length_set] at h1
    rw [List.getElem_set, List.getElem_set]
    by_cases h : i = n
    · subst h
      simp [List.getElem?_eq_getElem h2]
    · simp [h]

theorem deref_of_length_le (a : PointSequence) (i : Nat) (h : a.length ≤ i) :
    deref a i = default := by
  unfold deref
  exact List.getD_eq_default _ _ h

theorem ext_deref (a b : PointSequence) (hlen : a.length = b.length)
    (h : ∀ i, i < a.length → deref a i = deref b i) : a = b := by
  apply List.ext_getElem hlen
  intro n h1 h2
  have := h n h1
  unfold deref at this
  rwa [List.getD_eq_getElem _ _ h1, List.getD_eq_getElem _ _ h2] at this

theorem eq_map_range (a : PointSequence) : a = (List.range a.length).map (deref a) := by
  apply List.ext_getElem
  · simp
  · intro n h1 h2
    simp [deref, List.getElem?_eq_getElem h1]

/-! ### Permutations of a range of positions -/

theorem RangePerm.refl (lo hi : Nat) (a : PointSequence) : RangePerm lo hi a a :=
  ⟨rfl, Equiv.refl _, fun _ _ => rfl, fun _ => rfl⟩

theorem RangePerm.length_eq {lo hi : Nat} {a a' : PointSequence} (h : RangePerm lo hi a a') :
    a'.length = a.length := h.1

theorem RangePerm.trans {lo hi : Nat} {a b c : PointSequence} (h1 : RangePerm lo hi a b)
    (h2 : RangePerm lo hi b c) : RangePerm lo hi a c := by
  obtain ⟨l1, σ1, f1, e1⟩ := h1
  obtain ⟨l2, σ2, f2, e2⟩ := h2
  refine ⟨l2.trans l1, σ2.trans σ1, ?_, ?_⟩
  · intro i hi
    simp [Equiv.trans_apply, f2 i hi, f1 i hi]
  · intro i
    simp [Equiv.trans_apply, e2 i, e1 (σ2 i)]

theorem RangePerm.mono {lo hi lo' hi' : Nat} {a b : PointSequence} (h : RangePerm lo hi a b)
    (hlo : lo' ≤ lo) (hhi : hi ≤ hi') : RangePerm lo' hi' a b := by
  obtain ⟨l, σ, f, e⟩ := h
  exact ⟨l, σ, fun i hi => f i (by omega), e⟩

theorem RangePerm.symm {lo hi : Nat} {a b : PointSequence} (h : RangePerm lo hi a b) :
    RangePerm lo hi b a := by
  obtain ⟨l, σ, f, e⟩ := h
  refine ⟨l.symm, σ.symm, ?_, ?_⟩
  · intro i hi
    have := f i hi
    exact (Equiv.symm_apply_eq σ).mpr this.symm
  · intro i
    rw [e (σ.symm i)]
    simp

theorem RangePerm.frame {lo hi : Nat} {a b : PointSequence} (h : RangePerm lo hi a b) (i : Nat)
    (hi : i < lo ∨ hi ≤ i) : deref b i = deref a i := by
  obtain ⟨_, σ, f, e⟩ := h
  rw [e i, f i hi]

theorem perm_maps_range (σ : Equiv.Perm Nat) (lo hi : Nat) (f : ∀ i, i < lo ∨ hi ≤ i → σ i = i)
    (i : Nat) (h1 : lo ≤ i) (h2 : i < hi) : lo ≤ σ i ∧ σ i < hi := by
  by_contra hc
  have hout : σ i < lo ∨ hi ≤ σ i := by omega
  have h3 : σ (σ i) = σ i := f (σ i) hout
  have h4 : σ i = i := σ.injective h3
  omega

theorem RangePerm.exists_source {lo hi : Nat} {a b : PointSequence} (h : RangePerm lo hi a b)
    (i : Nat) (h1 : lo ≤ i) (h2 : i < hi) : ∃ j, lo ≤ j ∧ j < hi ∧ deref b i = deref a j := by
  obtain ⟨_, σ, f, e⟩ := h
  obtain ⟨h3, h4⟩ := perm_maps_range σ lo hi f i h1 h2
  exact ⟨σ i, h3, h4, e i⟩

theorem RangePerm.forall_range {lo hi : Nat} {a b : PointSequence} (h : RangePerm lo hi a b)
    (P : Point → Prop) (hP : ∀ i, lo ≤ i → i < hi → P (deref a i)) :
    ∀ i, lo ≤ i → i < hi → P (deref b i) := by
  intro i h1 h2
  obtain ⟨j, h3, h4, e⟩ := h.exists_source i h1 h2
  rw [e]
  exact hP j h3 h4

theorem RangePerm.forall_wider {lo hi : Nat} {a b : PointSequence} (h : RangePerm lo hi a b)
    (x y : Nat) (hx : x ≤ lo) (hy : hi ≤ y) (P : Point → Prop)
    (hP : ∀ i, x ≤ i → i < y → P (deref a i)) : ∀ i, x ≤ i → i < y → P (deref b i) :=
  (h.mono hx hy).forall_range P hP

theorem RangePerm.perm {lo hi : Nat} {a b : PointSequence} (h : RangePerm lo hi a b)
    (hhi : hi ≤ a.length) : b.Perm a := by
  obtain ⟨l, σ, f, e⟩ := h
  have hb : b = ((List.range a.length).map σ).map (deref a) := by
    rw [List.map_map]
    conv_lhs => rw [eq_map_range b, l]
    apply List.map_congr_left
    intro i _
    exact e i
  have hmaps : ∀ i, i < a.length → σ i < a.length := by
    intro i hia
    by_cases h1 : i < hi
    · by_cases h2 : lo ≤ i
      · have := (perm_maps_range σ lo hi f i h2 h1).2
        omega
      · rw [f i (by omega)]
        exact hia
    · rw [f i (by omega)]
      exact hia
  have hmaps' : ∀ i, i < a.length → σ.symm i < a.length := by
    intro i hia
    by_contra hc
    have h1 : σ (σ.symm i) = σ.symm i := f _ (by omega)
    have h2 : σ (σ.symm i) = i := by simp
    omega
  have hperm : ((List.range a.length).map σ).Perm (List.range a.length) := by
    apply (List.perm_ext_iff_of_nodup ((List.nodup_range _).map σ.injective)
      (List.nodup_range _)).mpr
    intro x
    simp only [List.mem_map, List.mem_range]
    constructor
    · rintro ⟨i, hi, rfl⟩
      exact hmaps i hi
    · intro hx
      exact ⟨σ.symm x, hmaps' x hx, by simp⟩
  rw [hb]
  conv_rhs => rw [eq_map_range a]
  exact hperm.map _

theorem iter_swap_rangePerm (a : PointSequence) (lo hi i j : Nat) (hi1 : lo ≤ i) (hi2 : i < hi)
    (hj1 : lo ≤ j) (hj2 : j < hi) (hlen : hi ≤ a.length) :
    RangePerm lo hi a (iter_swap a i j) := by
  refine ⟨length_iter_swap a i j, Equiv.swap i j, ?_, ?_⟩
  · intro k hk
    apply Equiv.swap_apply_of_ne_of_ne <;> omega
  · intro k
    exact deref_iter_swap a i j k (by omega) (by omega)

theorem deref_iter_swap_left (a : PointSequence) (i j : Nat) (hi : i < a.length)
    (hj : j < a.length) : deref (iter_swap a i j) i = deref a j := by
  rw [deref_iter_swap a i j i hi hj, Equiv.swap_apply_left]

theorem deref_iter_swap_right (a : PointSequence) (i j : Nat) (hi : i < a.length)
    (hj : j < a.length) : deref (iter_swap a i j) j = deref a i := by
  rw [deref_iter_swap a i j j hi hj, Equiv.swap_apply_right]

theorem deref_iter_swap_other (a : PointSequence) (i j k : Nat) (hi : i < a.length)
    (hj : j < a.length) (hki : k ≠ i) (hkj : k ≠ j) :
    deref (iter_swap a i j) k = deref a k := by
  rw [deref_iter_swap a i j k hi hj, Equiv.swap_apply_of_ne_of_ne hki hkj]

end QuickHull

namespace QuickHull

open Orientation

/-! ### The lexicographic order and the poles -/

theorem Point.lt_iff (a b : Point) :
    a.lt b = true ↔ a.x < b.x ∨ (a.x = b.x ∧ a.y < b.y) := by
  simp [Point.lt]

theorem Point.lt_irrefl (a : Point) : a.lt a = false := by
  simp [Point.lt]

theorem Point.lt_trans {a b c : Point} (h1 : a.lt b = true) (h2 : b.lt c = true) :
    a.lt c = true := by
  rw [Point.lt_iff] at *
  rcases h1 with h1 | ⟨h1, h1'⟩ <;> rcases h2 with h2 | ⟨h2, h2'⟩
  · left; linarith
  · left; linarith
  · left; linarith
  · right; exact ⟨by linarith, by linarith⟩

theorem Point.lt_of_lt_of_not_lt {a b c : Point} (h1 : a.lt b = true) (h2 : ¬ c.lt b = true) :
    a.lt c = true := by
  rw [Point.lt_iff] at *
  push_neg at h2
  rcases h1 with h1 | ⟨h1, h1'⟩
  · by_cases hx : a.x < c.x
    · left; exact hx
    · exfalso
      have h5 : b.x ≤ c.x := h2.1
      have h6 : c.x ≤ a.x := not_lt.mp hx
      linarith
  · by_cases hx : a.x < c.x
    · left; exact hx
    · have h3 : b.x ≤ c.x := h2.1
      have h6 : c.x ≤ a.x := not_lt.mp hx
      have h7 : c.x = b.x := by linarith
      right
      exact ⟨by linarith, by linarith [h2.2 h7]⟩

theorem Point.lt_of_not_lt_of_lt {a b c : Point} (h1 : ¬ b.lt a = true) (h2 : b.lt c = true) :
    a.lt c = true := by
  rw [Point.lt_iff] at *
  push_neg at h1
  rcases h2 with h2 | ⟨h2, h2'⟩
  · by_cases hx : a.x < c.x
    · left; exact hx
    · exfalso
      have h3 : a.x ≤ b.x := h1.1
      have h6 : c.x ≤ a.x := not_lt.mp hx
      linarith
  · by_cases hx : a.x < c.x
    · left; exact hx
    · have h3 : a.x ≤ b.x := h1.1
      have h6 : c.x ≤ a.x := not_lt.mp hx
      have h7 : b.x = a.x := by linarith
      right
      exact ⟨by linarith, by linarith [h1.2 h7]⟩

theorem Point.eq_of_not_lt {a b : Point} (h1 : ¬ a.lt b = true) (h2 : ¬ b.lt a = true) :
    a = b := by
  rw [Point.lt_iff] at *
  push_neg at h1 h2
  have hx : a.x = b.x := le_antisymm h2.1 h1.1
  have hy : a.y = b.y := le_antisymm (h2.2 hx.symm) (h1.2 hx)
  cases a; cases b; simp_all

/-- What the scan of `std::minmax_element` has established once it stands at position `i`:
`mn` is the first smallest and `mx` the last largest entry of `[first, i)`. -/
theorem minmaxLoop_spec (a : PointSequence) (first : Nat) (k i mn mx : Nat)
    (hmn : first ≤ mn ∧ mn < i) (hmx : first ≤ mx ∧ mx < i)
    (h1 : ∀ j, first ≤ j → j < i → ¬ (deref a j).lt (deref a mn) = true)
    (h2 : ∀ j, first ≤ j → j < i → ¬ (deref a mx).lt (deref a j) = true)
    (h3 : ∀ j, first ≤ j → j < mn → (deref a mn).lt (deref a j) = true)
    (h4 : ∀ j, mx < j → j < i → (deref a j).lt (deref a mx) = true) :
    let r := minmaxLoop a k i mn mx
    (first ≤ r.1 ∧ r.1 < i + k) ∧ (first ≤ r.2 ∧ r.2 < i + k) ∧
    (∀ j, first ≤ j → j < i + k → ¬ (deref a j).lt (deref a r.1) = true) ∧
    (∀ j, first ≤ j → j < i + k → ¬ (deref a r.2).lt (deref a j) = true) ∧
    (∀ j, first ≤ j → j < r.1 → (deref a r.1).lt (deref a j) = true) ∧
    (∀ j, r.2 < j → j < i + k → (deref a j).lt (deref a r.2) = true) := by
  induction k generalizing i mn mx with
  | zero => exact ⟨hmn, hmx, h1, h2, h3, h4⟩
  | succ k ih =>
    simp only [minmaxLoop]
    have hik : i + (k + 1) = (i + 1) + k := by omega
    rw [hik]
    apply ih
    · split <;> omega
    · split <;> omega
    · intro j hj1 hj2
      by_cases hc : (deref a i).lt (deref a mn) = true
      · simp only [hc, if_true]
        by_cases hji : j = i
        · subst hji
          simp [Point.lt_irrefl]
        · intro hlt
          exact h1 j hj1 (by omega) (Point.lt_trans hlt hc)
      · simp only [hc]
        by_cases hji : j = i
        · subst hji
          simpa using hc
        · simpa using h1 j hj1 (by omega)
    · intro j hj1 hj2
      by_cases hc : (deref a i).lt (deref a mx) = true
      · simp only [hc, if_true]
        by_cases hji : j = i
        · subst hji
          intro hlt
          have := Point.lt_trans hlt hc
          simp [Point.lt_irrefl] at this
        · exact h2 j hj1 (by omega)
      · simp only [hc]
        by_cases hji : j = i
        · subst hji
          simp [Point.lt_irrefl]
        · intro hlt
          have h5 := h2 j hj1 (by omega)
          exact h5 (Point.lt_of_not_lt_of_lt hc hlt)
    · intro j hj1 hj2
      by_cases hc : (deref a i).lt (deref a mn) = true
      · simp only [hc, if_true] at hj2 ⊢
        exact Point.lt_of_lt_of_not_lt hc (h1 j hj1 (by omega))
      · simp only [hc] at hj2 ⊢
        exact h3 j hj1 (by simpa using hj2)
    · intro j hj1 hj2
      by_cases hc : (deref a i).lt (deref a mx) = true
      · simp only [hc, if_true] at hj1 ⊢
        by_cases hji : j = i
        · subst hji
          exact hc
        · exact h4 j hj1 (by omega)
      · simp only [hc] at hj1 ⊢
        simp at hj1
        omega

/-- The poles that `find_poles` returns on a non-empty range: positions of the range, the
first holding the first smallest point, the second the last largest point. -/
theorem find_poles_spec (a : PointSequence) (first past : Nat) (h : first < past) :
    let r := find_poles a first past
    (first ≤ r.1 ∧ r.1 < past) ∧ (first ≤ r.2 ∧ r.2 < past) ∧
    (∀ j, first ≤ j → j < past → ¬ (deref a j).lt (deref a r.1) = true) ∧
    (∀ j, first ≤ j → j < past → ¬ (deref a r.2).lt (deref a j) = true) ∧
    (∀ j, first ≤ j → j < r.1 → (deref a r.1).lt (deref a j) = true) ∧
    (∀ j, r.2 < j → j < past → (deref a j).lt (deref a r.2) = true) := by
  have hne : first ≠ past := by omega
  simp only [find_poles, hne, if_false]
  have hk : past = (first + 1) + (past - first - 1) := by omega
  have key := minmaxLoop_spec a first (past - first - 1) (first + 1) first first
    ⟨le_refl _, by omega⟩ ⟨le_refl _, by omega⟩
    (by
      intro j h1 h2
      have : j = first := by omega
      subst this
      simp [Point.lt_irrefl])
    (by
      intro j h1 h2
      have : j = first := by omega
      subst this
      simp [Point.lt_irrefl])
    (by intro j h1 h2; omega)
    (by intro j h1 h2; omega)
  rw [← hk] at key
  exact key

theorem find_poles_ne (a : PointSequence) (first past : Nat) (h : first + 1 < past) :
    (find_poles a first past).1 ≠ (find_poles a first past).2 := by
  obtain ⟨⟨h1, h2⟩, ⟨h3, h4⟩, h5, h6, h7, h8⟩ := find_poles_spec a first past (by omega)
  intro heq
  by_cases hf : (find_poles a first past).1 = first
  · have h9 := h8 (first + 1) (by omega) h
    have h10 := h5 (first + 1) (by omega) h
    rw [heq] at h10
    exact h10 h9
  · have h9 := h7 first (le_refl _) (by omega)
    have h10 := h6 first (le_refl _) (by omega)
    rw [← heq] at h10
    exact h10 h9

/-- The effect of `parallel_iter_swap(0, n-1, mn, mx)` for two different positions `mn`, `mx`
of a sequence of at least two points: a permutation that brings the entry of `mn` to the front
and the entry of `mx` to the back. -/
theorem parallel_iter_swap_spec (a : PointSequence) (n mn mx : Nat) (hn : a.length = n)
    (h2 : 2 ≤ n) (hmn : mn < n) (hmx : mx < n) (hne : mn ≠ mx) :
    let b := parallel_iter_swap a 0 (n - 1) mn mx
    RangePerm 0 n a b ∧ deref b 0 = deref a mn ∧ deref b (n - 1) = deref a mx := by
  simp only [parallel_iter_swap]
  have hl1 : (iter_swap a 0 mn).length = n := by rw [length_iter_swap, hn]
  have hp1 : RangePerm 0 n a (iter_swap a 0 mn) :=
    iter_swap_rangePerm a 0 n 0 mn (le_refl _) (by omega) (Nat.zero_le _) hmn (by omega)
  by_cases hth : mx = 0
  · simp only [hth, if_true]
    subst hth
    have hp2 : RangePerm 0 n (iter_swap a 0 mn) (iter_swap (iter_swap a 0 mn) (n - 1) mn) :=
      iter_swap_rangePerm _ 0 n (n - 1) mn (Nat.zero_le _) (by omega) (Nat.zero_le _) hmn
        (by omega)
    refine ⟨hp1.trans hp2, ?_, ?_⟩
    · by_cases hmn1 : mn = n - 1
      · rw [hmn1, iter_swap_self]
        exact deref_iter_swap_left a 0 (n - 1) (by omega) (by omega)
      · rw [deref_iter_swap_other _ _ _ _ (by omega) (by omega) (by omega) (by omega)]
        exact deref_iter_swap_left a 0 mn (by omega) (by omega)
    · rw [deref_iter_swap_left _ _ _ (by omega) (by omega)]
      exact deref_iter_swap_right a 0 mn (by omega) (by omega)
  · simp only [hth, if_false]
    have hp2 : RangePerm 0 n (iter_swap a 0 mn) (iter_swap (iter_swap a 0 mn) (n - 1) mx) :=
      iter_swap_rangePerm _ 0 n (n - 1) mx (Nat.zero_le _) (by omega) (Nat.zero_le _) hmx
        (by omega)
    refine ⟨hp1.trans hp2, ?_, ?_⟩
    · rw [deref_iter_swap_other _ _ _ _ (by omega) (by omega) (by omega) (by omega)]
      exact deref_iter_swap_left a 0 mn (by omega) (by omega)
    · rw [deref_iter_swap_left _ _ _ (by omega) (by omega)]
      exact deref_iter_swap_other a 0 mn mx (by omega) (by omega) hth (Ne.symm hne)

end QuickHull

namespace QuickHull

open Orientation

/-! ### `std::partition` -/

theorem partitionFwd_spec (pred : PointSequence → Point → Bool) (a : PointSequence)
    (k first : Nat) :
    first ≤ partitionFwd pred a k first ∧ partitionFwd pred a k first ≤ first + k ∧
    (∀ j, first ≤ j → j < partitionFwd pred a k first → pred a (deref a j) = true) ∧
    (partitionFwd pred a k first < first + k →
      pred a (deref a (partitionFwd pred a k first)) = false) := by
  induction k generalizing first with
  | zero =>
    refine ⟨le_refl _, le_refl _, ?_, ?_⟩
    · intro j h1 h2
      simp only [partitionFwd] at h2
      omega
    · intro h
      simp only [partitionFwd] at h
      omega
  | succ k ih =>
    cases hp : pred a (deref a first) with
    | true =>
      have he : partitionFwd pred a (k + 1) first = partitionFwd pred a k (first + 1) := by
        simp only [partitionFwd, hp, if_true]
      rw [he]
      obtain ⟨h1, h2, h3, h4⟩ := ih (first + 1)
      refine ⟨by omega, by omega, ?_, ?_⟩
      · intro j hj1 hj2
        by_cases hjf : j = first
        · subst hjf; exact hp
        · exact h3 j (by omega) hj2
      · intro h
        exact h4 (by omega)
    | false =>
      have he : partitionFwd pred a (k + 1) first = first := by
        simp only [partitionFwd, hp, Bool.false_eq_true, if_false]
      rw [he]
      refine ⟨le_refl _, by omega, ?_, ?_⟩
      · intro j hj1 hj2
        omega
      · intro _
        exact hp

theorem partitionBwd_spec (pred : PointSequence → Point → Bool) (a : PointSequence)
    (k last : Nat) (hk : k ≤ last) :
    last - k ≤ partitionBwd pred a k last ∧ partitionBwd pred a k last ≤ last ∧
    (∀ j, partitionBwd pred a k last < j → j ≤ last → pred a (deref a j) = false) ∧
    (last - k < partitionBwd pred a k last →
      pred a (deref a (partitionBwd pred a k last)) = true) := by
  induction k generalizing last with
  | zero =>
    refine ⟨by simp [partitionBwd], by simp [partitionBwd], ?_, ?_⟩
    · intro j h1 h2
      simp only [partitionBwd] at h1
      omega
    · intro h
      simp only [partitionBwd] at h
      omega
  | succ k ih =>
    cases hp : pred a (deref a last) with
    | true =>
      have he : partitionBwd pred a (k + 1) last = last := by
        simp only [partitionBwd, hp, if_true]
      rw [he]
      refine ⟨by omega, le_refl _, ?_, ?_⟩
      · intro j hj1 hj2
        omega
      · intro _
        exact hp
    | false =>
      have he : partitionBwd pred a (k + 1) last = partitionBwd pred a k (last - 1) := by
        simp only [partitionBwd, hp, Bool.false_eq_true, if_false]
      rw [he]
      obtain ⟨h1, h2, h3, h4⟩ := ih (last - 1) (by omega)
      refine ⟨by omega, by omega, ?_, ?_⟩
      · intro j hj1 hj2
        by_cases hjl : j = last
        · subst hjl; exact hp
        · exact h3 j hj1 (by omega)
      · intro h
        exact h4 (by omega)

/-- The loop of `std::partition` keeps its invariant: left of `first` the predicate holds,
from `last` on it fails, and the sequence is a permutation of the range. The predicate may
read the sequence, but only outside the range. -/
theorem partitionLoop_spec (pred : PointSequence → Point → Bool) (a0 : PointSequence)
    (lo hi : Nat) (hhi : hi ≤ a0.length)
    (hstable : ∀ b, RangePerm lo hi a0 b → pred b = pred a0) :
    ∀ (fuel : Nat) (a : PointSequence) (first last : Nat), RangePerm lo hi a0 a →
      lo ≤ first → first ≤ last → last ≤ hi → last - first < fuel →
      (∀ j, lo ≤ j → j < first → pred a0 (deref a j) = true) →
      (∀ j, last ≤ j → j < hi → pred a0 (deref a j) = false) →
      RangePerm lo hi a0 (partitionLoop pred fuel a first last).1 ∧
      lo ≤ (partitionLoop pred fuel a first last).2 ∧
      (partitionLoop pred fuel a first last).2 ≤ hi ∧
      (∀ j, lo ≤ j → j < (partitionLoop pred fuel a first last).2 →
        pred a0 (deref (partitionLoop pred fuel a first last).1 j) = true) ∧
      (∀ j, (partitionLoop pred fuel a first last).2 ≤ j → j < hi →
        pred a0 (deref (partitionLoop pred fuel a first last).1 j) = false) := by
  intro fuel
  induction fuel with
  | zero => intro a first last _ _ _ _ hf; omega
  | succ fuel ih =>
    intro a first last hperm hlo hfl hlast hfuel hleft hright
    have hpa : pred a = pred a0 := hstable a hperm
    obtain ⟨f1, f2, f3, f4⟩ := partitionFwd_spec pred a (last - first) first
    simp only [partitionLoop]
    generalize hF : partitionFwd pred a (last - first) first = F at f1 f2 f3 f4
    have hleft' : ∀ j, lo ≤ j → j < F → pred a0 (deref a j) = true := by
      intro j hj1 hj2
      by_cases hjf : j < first
      · exact hleft j hj1 hjf
      · rw [← hpa]; exact f3 j (by omega) hj2
    by_cases hFl : F = last
    · simp only [hFl, if_true]
      subst hFl
      exact ⟨hperm, by omega, by omega, hleft', hright⟩
    · simp only [hFl, if_false]
      have hFlt : F < last := by omega
      have hFfalse : pred a0 (deref a F) = false := by
        rw [← hpa]; exact f4 (by omega)
      obtain ⟨b1, b2, b3, b4⟩ := partitionBwd_spec pred a (last - 1 - F) (last - 1) (by omega)
      generalize hB : partitionBwd pred a (last - 1 - F) (last - 1) = B at b1 b2 b3 b4
      have hright' : ∀ j, B < j → j < hi → pred a0 (deref a j) = false := by
        intro j hj1 hj2
        by_cases hjl : last ≤ j
        · exact hright j hjl hj2
        · rw [← hpa]; exact b3 j hj1 (by omega)
      by_cases hFB : F = B
      · simp only [hFB, if_true]
        subst hFB
        refine ⟨hperm, by omega, by omega, hleft', ?_⟩
        intro j hj1 hj2
        by_cases hjF : j = F
        · subst hjF; exact hFfalse
        · exact hright' j (by omega) hj2
      · simp only [hFB, if_false]
        have hBtrue : pred a0 (deref a B) = true := by
          rw [← hpa]; exact b4 (by omega)
        have hlen : a.length = a0.length := hperm.length_eq
        have hsw : RangePerm lo hi a (iter_swap a F B) :=
          iter_swap_rangePerm a lo hi F B (by omega) (by omega) (by omega) (by omega)
            (by omega)
        apply ih (iter_swap a F B) (F + 1) B (hperm.trans hsw) (by omega) (by omega)
          (by omega) (by omega)
        · intro j hj1 hj2
          by_cases hjF : j = F
          · subst hjF
            rw [deref_iter_swap_left a j B (by omega) (by omega)]
            exact hBtrue
          · rw [deref_iter_swap_other a F B j (by omega) (by omega) hjF (by omega)]
            exact hleft' j hj1 (by omega)
        · intro j hj1 hj2
          by_cases hjB : j = B
          · subst hjB
            rw [deref_iter_swap_right a F j (by omega) (by omega)]
            exact hFfalse
          · rw [deref_iter_swap_other a F B j (by omega) (by omega) (by omega) hjB]
            exact hright' j (by omega) hj2

/-- The contract of `std::partition` on `[first, last)` for a predicate that reads the
sequence outside the range only. -/
theorem std_partition_spec (pred : PointSequence → Point → Bool) (a : PointSequence)
    (first last : Nat) (hfl : first ≤ last) (hlast : last ≤ a.length)
    (hstable : ∀ b, RangePerm first last a b → pred b = pred a) :
    RangePerm first last a (std_partition pred a first last).1 ∧
    first ≤ (std_partition pred a first last).2 ∧
    (std_partition pred a first last).2 ≤ last ∧
    (∀ j, first ≤ j → j < (std_partition pred a first last).2 →
      pred a (deref (std_partition pred a first last).1 j) = true) ∧
    (∀ j, (std_partition pred a first last).2 ≤ j → j < last →
      pred a (deref (std_partition pred a first last).1 j) = false) := by
  unfold std_partition
  exact partitionLoop_spec pred a first last hlast hstable (last - first + 1) a first last
    (RangePerm.refl _ _ _) (le_refl _) hfl (le_refl _) (by omega)
    (by intro j h1 h2; omega) (by intro j h1 h2; omega)

/-- The contract of `partition_left_right` when the antipole lies outside the range. -/
theorem partition_left_right_spec (a : PointSequence) (first past antipole : Nat)
    (hfp : first + 1 ≤ past) (hpast : past ≤ a.length)
    (hanti : antipole ≤ first ∨ past ≤ antipole) :
    RangePerm (first + 1) past a (partition_left_right a first past antipole).1 ∧
    first + 1 ≤ (partition_left_right a first past antipole).2 ∧
    (partition_left_right a first past antipole).2 ≤ past ∧
    (∀ j, first + 1 ≤ j → j < (partition_left_right a first past antipole).2 →
      getOrientation (deref a first) (deref (partition_left_right a first past antipole).1 j)
        (deref a antipole) ≠ COUNTERCLOCKWISE) ∧
    (∀ j, (partition_left_right a first past antipole).2 ≤ j → j < past →
      getOrientation (deref a first) (deref (partition_left_right a first past antipole).1 j)
        (deref a antipole) = COUNTERCLOCKWISE) := by
  unfold partition_left_right
  have hst : ∀ b, RangePerm (first + 1) past a b →
      (fun (s : PointSequence) q => decide (COUNTERCLOCKWISE ≠
        getOrientation (deref s first) q (deref s antipole))) b =
      (fun (s : PointSequence) q => decide (COUNTERCLOCKWISE ≠
        getOrientation (deref s first) q (deref s antipole))) a := by
    intro b hb
    funext q
    simp only [hb.frame first (by omega), hb.frame antipole (by omega)]
  obtain ⟨h1, h2, h3, h4, h5⟩ := std_partition_spec _ a (first + 1) past hfp hpast hst
  refine ⟨h1, h2, h3, ?_, ?_⟩
  · intro j hj1 hj2
    have := h4 j hj1 hj2
    simp only [decide_eq_true_eq] at this
    exact fun h => this h.symm
  · intro j hj1 hj2
    have := h5 j hj1 hj2
    simp only [decide_eq_false_iff_not, not_not] at this
    exact this.symm

/-- The contract of `partition_right_left` when both poles lie outside the range. -/
theorem partition_right_left_spec (a : PointSequence) (first last l r : Nat)
    (hfl : first ≤ last) (hlast : last ≤ a.length)
    (hl : l < first ∨ last ≤ l) (hr : r < first ∨ last ≤ r) :
    RangePerm first last a (partition_right_left a first last l r).1 ∧
    first ≤ (partition_right_left a first last l r).2 ∧
    (partition_right_left a first last l r).2 ≤ last ∧
    (∀ j, first ≤ j → j < (partition_right_left a first last l r).2 →
      getOrientation (deref a l) (deref (partition_right_left a first last l r).1 j)
        (deref a r) ≠ CLOCKWISE) ∧
    (∀ j, (partition_right_left a first last l r).2 ≤ j → j < last →
      getOrientation (deref a l) (deref (partition_right_left a first last l r).1 j)
        (deref a r) = CLOCKWISE) := by
  unfold partition_right_left
  have hst : ∀ b, RangePerm first last a b →
      (fun (s : PointSequence) q => decide (CLOCKWISE ≠
        getOrientation (deref s l) q (deref s r))) b =
      (fun (s : PointSequence) q => decide (CLOCKWISE ≠
        getOrientation (deref s l) q (deref s r))) a := by
    intro b hb
    funext q
    simp only [hb.frame l hl, hb.frame r hr]
  obtain ⟨h1, h2, h3, h4, h5⟩ := std_partition_spec _ a first last hfl hlast hst
  refine ⟨h1, h2, h3, ?_, ?_⟩
  · intro j hj1 hj2
    have := h4 j hj1 hj2
    simp only [decide_eq_true_eq] at this
    exact fun h => this h.symm
  · intro j hj1 hj2
    have := h5 j hj1 hj2
    simp only [decide_eq_false_iff_not, not_not] at this
    exact this.symm

end QuickHull

namespace QuickHull

/-! ### Block relocation -/

/-- The loop of `swap_blocks` on two disjoint blocks: the block at `hole` receives the block
at `source` in order, the block at `source`, its last position apart, receives the entries
that follow `hole`. -/
theorem swapBlocksLoop_spec (k : Nat) (a : PointSequence) (source hole : Nat)
    (hdis : source + k < hole ∨ hole + k < source) (hs : source + k < a.length)
    (hh : hole + k < a.length) :
    (swapBlocksLoop k a source hole).2 = source + k ∧
    (swapBlocksLoop k a source hole).1.length = a.length ∧
    ∀ j, deref (swapBlocksLoop k a source hole).1 j =
      if hole ≤ j ∧ j ≤ hole + k then deref a (source + (j - hole))
      else if source ≤ j ∧ j < source + k then deref a (hole + (j - source) + 1)
      else deref a j := by
  induction k generalizing a source hole with
  | zero =>
    refine ⟨rfl, by simp [swapBlocksLoop, length_assign], ?_⟩
    intro j
    simp only [swapBlocksLoop]
    rw [deref_assign]
    split_ifs <;> first | rfl | (exfalso; omega) | (congr 1; omega)
  | succ k ih =>
    simp only [swapBlocksLoop]
    have hl2 : (assign (assign a hole (deref a source)) source
        (deref (assign a hole (deref a source)) (hole + 1))).length = a.length := by
      simp [length_assign]
    obtain ⟨h1, h2, h3⟩ := ih (assign (assign a hole (deref a source)) source
        (deref (assign a hole (deref a source)) (hole + 1))) (source + 1) (hole + 1)
        (by omega) (by omega) (by omega)
    refine ⟨by omega, by omega, ?_⟩
    intro j
    rw [h3 j]
    have hA : ∀ x, deref (assign (assign a hole (deref a source)) source
        (deref (assign a hole (deref a source)) (hole + 1))) x =
        if x = source then deref a (hole + 1) else if x = hole then deref a source
        else deref a x := by
      intro x
      rw [deref_assign, length_assign, deref_assign, deref_assign]
      split_ifs <;> first | rfl | (exfalso; omega) | (congr 1; omega)
    rw [hA, hA, hA]
    split_ifs <;> first | rfl | (exfalso; omega) | (congr 1; omega)

/-- The position from which `swap_blocks(source, source + len, target)` fills position `j`. -/
theorem swap_blocks_deref (a : PointSequence) (source past target : Nat) (hsp : source < past)
    (hdis : past ≤ target ∨ target + (past - source) ≤ source)
    (hs : past ≤ a.length) (ht : target + (past - source) ≤ a.length) :
    (swap_blocks a source past target).length = a.length ∧
    ∀ j, deref (swap_blocks a source past target) j =
      if target ≤ j ∧ j < target + (past - source) then deref a (source + (j - target))
      else if source ≤ j ∧ j < past - 1 then deref a (target + (j - source) + 1)
      else if j = past - 1 then deref a target
      else deref a j := by
  have hne : ¬ (source = target ∨ source = past) := by omega
  simp only [swap_blocks, hne, if_false]
  obtain ⟨h1, h2, h3⟩ := swapBlocksLoop_spec (past - 1 - source) a source target (by omega)
    (by omega) (by omega)
  refine ⟨by rw [length_assign, h2], ?_⟩
  intro j
  rw [deref_assign, h1, h2, h3 j]
  split_ifs <;> first | rfl | (exfalso; omega) | (congr 1; omega)

/-- The index map of `swap_blocks` is a bijection, hence `swap_blocks` permutes any range
that holds both blocks. -/
theorem swap_blocks_rangePerm (a : PointSequence) (source past target lo hi : Nat)
    (hsp : source < past) (hdis : past ≤ target ∨ target + (past - source) ≤ source)
    (hlo1 : lo ≤ source) (hlo2 : lo ≤ target) (hhi1 : past ≤ hi)
    (hhi2 : target + (past - source) ≤ hi) (hlen : hi ≤ a.length) :
    RangePerm lo hi a (swap_blocks a source past target) := by
  obtain ⟨h1, h2⟩ := swap_blocks_deref a source past target hsp hdis (by omega) (by omega)
  refine ⟨h1, ⟨fun j =>
      if target ≤ j ∧ j < target + (past - source) then source + (j - target)
      else if source ≤ j ∧ j < past - 1 then target + (j - source) + 1
      else if j = past - 1 then target
      else j,
    fun j =>
      if source ≤ j ∧ j < past then target + (j - source)
      else if target + 1 ≤ j ∧ j < target + (past - source) then source + (j - target - 1)
      else if j = target then past - 1
      else j, ?_, ?_⟩, ?_, ?_⟩
  · intro j
    simp only
    split_ifs <;> omega
  · intro j
    simp only
    split_ifs <;> omega
  · intro j hj
    simp only [Equiv.coe_fn_mk]
    split_ifs <;> omega
  · intro j
    rw [h2 j]
    simp only [Equiv.coe_fn_mk]
    split_ifs <;> rfl

/-- What `move_away(here, rest, past)` guarantees: a permutation of `[here, past)` after which
the first positions hold the entries of the block `[rest, past)` and the last positions the
entries of the block `[here, rest)`. -/
theorem move_away_spec (a : PointSequence) (here rest past : Nat) (h1 : here ≤ rest)
    (h2 : rest ≤ past) (h3 : past ≤ a.length) :
    RangePerm here past a (move_away a here rest past) ∧
    (∀ i, here ≤ i → i < here + (past - rest) →
      ∃ j, rest ≤ j ∧ j < past ∧ deref (move_away a here rest past) i = deref a j) ∧
    (∀ i, here + (past - rest) ≤ i → i < past →
      ∃ j, here ≤ j ∧ j < rest ∧ deref (move_away a here rest past) i = deref a j) := by
  unfold move_away
  by_cases hc : here = rest ∨ rest = past
  · simp only [hc, if_true]
    refine ⟨RangePerm.refl _ _ _, ?_, ?_⟩
    · intro i hi1 hi2
      exact ⟨i, by omega, by omega, rfl⟩
    · intro i hi1 hi2
      exact ⟨i, by omega, by omega, rfl⟩
  · simp only [hc, if_false]
    by_cases hlt : rest - here < past - rest
    · simp only [hlt, if_true]
      refine ⟨swap_blocks_rangePerm a here rest (past - (rest - here)) here past (by omega)
        (by omega) (le_refl _) (by omega) (by omega) (by omega) h3, ?_, ?_⟩
      · obtain ⟨_, hd⟩ := swap_blocks_deref a here rest (past - (rest - here)) (by omega)
          (by omega) (by omega) (by omega)
        intro i hi1 hi2
        rw [hd i]
        split_ifs with c1 c2 c3
        · omega
        · exact ⟨_, by omega, by omega, rfl⟩
        · exact ⟨_, by omega, by omega, rfl⟩
        · exact ⟨i, by omega, by omega, rfl⟩
      · obtain ⟨_, hd⟩ := swap_blocks_deref a here rest (past - (rest - here)) (by omega)
          (by omega) (by omega) (by omega)
        intro i hi1 hi2
        rw [hd i]
        split_ifs with c1 c2 c3
        · exact ⟨_, by omega, by omega, rfl⟩
        · omega
        · omega
        · omega
    · simp only [hlt, if_false]
      refine ⟨swap_blocks_rangePerm a rest past here here past (by omega)
        (by omega) (by omega) (le_refl _) (le_refl _) (by omega) h3, ?_, ?_⟩
      · obtain ⟨_, hd⟩ := swap_blocks_deref a rest past here (by omega)
          (by omega) (by omega) (by omega)
        intro i hi1 hi2
        rw [hd i]
        split_ifs with c1 c2 c3
        · exact ⟨_, by omega, by omega, rfl⟩
        · omega
        · omega
        · omega
      · obtain ⟨_, hd⟩ := swap_blocks_deref a rest past here (by omega)
          (by omega) (by omega) (by omega)
        intro i hi1 hi2
        rw [hd i]
        split_ifs with c1 c2 c3
        · omega
        · exact ⟨_, by omega, by omega, rfl⟩
        · exact ⟨_, by omega, by omega, rfl⟩
        · exact ⟨i, by omega, by omega, rfl⟩

end QuickHull

namespace QuickHull

open Orientation

/-! ### The squared distance and the furthest-point search -/

theorem sqDist_nonneg (r p q : Point) : 0 ≤ computeSquaredDistanceFromPointToSegment r p q := by
  unfold computeSquaredDistanceFromPointToSegment
  simp only
  split_ifs <;> nlinarith [sq_nonneg (r.x - p.x), sq_nonneg (r.y - p.y), sq_nonneg (r.x - q.x),
    sq_nonneg (r.y - q.y),
    sq_nonneg (r.x - (p.x + ((r.x - p.x) * (q.x - p.x) + (r.y - p.y) * (q.y - p.y)) /
      ((q.x - p.x) * (q.x - p.x) + (q.y - p.y) * (q.y - p.y)) * (q.x - p.x))),
    sq_nonneg (r.y - (p.y + ((r.x - p.x) * (q.x - p.x) + (r.y - p.y) * (q.y - p.y)) /
      ((q.x - p.x) * (q.x - p.x) + (q.y - p.y) * (q.y - p.y)) * (q.y - p.y)))]

theorem sqDist_self_left (p q : Point) : computeSquaredDistanceFromPointToSegment p p q = 0 := by
  unfold computeSquaredDistanceFromPointToSegment
  simp only [sub_self, zero_mul, add_zero, zero_div, lt_self_iff_false, if_false]
  split_ifs with h1 h2
  · ring
  · exfalso; linarith
  · ring

/-- The scan of `find_furthest`: the position returned holds a point of largest squared
distance, and among the points of that distance one of smallest x-coordinate. -/
theorem furthestLoop_spec (a : PointSequence) (l r lo : Nat) (k i f : Nat) (m : Number)
    (hf : lo ≤ f ∧ f < i + k) (hi : lo ≤ i)
    (hle : ∀ j, lo ≤ j → j < i →
      computeSquaredDistanceFromPointToSegment (deref a j) (deref a l) (deref a r) ≤ m)
    (heq : (m = computeSquaredDistanceFromPointToSegment (deref a f) (deref a l) (deref a r)
        ∧ f < i) ∨ (m = 0 ∧ i ≤ f))
    (hx : ∀ j, lo ≤ j → j < i →
      computeSquaredDistanceFromPointToSegment (deref a j) (deref a l) (deref a r) = m →
      (deref a f).x ≤ (deref a j).x) :
    (lo ≤ furthestLoop a l r k i f m ∧ furthestLoop a l r k i f m < i + k) ∧
    (∀ j, lo ≤ j → j < i + k →
      computeSquaredDistanceFromPointToSegment (deref a j) (deref a l) (deref a r) ≤
      computeSquaredDistanceFromPointToSegment (deref a (furthestLoop a l r k i f m))
        (deref a l) (deref a r)) ∧
    (∀ j, lo ≤ j → j < i + k →
      computeSquaredDistanceFromPointToSegment (deref a j) (deref a l) (deref a r) =
      computeSquaredDistanceFromPointToSegment (deref a (furthestLoop a l r k i f m))
        (deref a l) (deref a r) →
      (deref a (furthestLoop a l r k i f m)).x ≤ (deref a j).x) := by
  induction k generalizing i f m with
  | zero =>
    simp only [furthestLoop, Nat.add_zero] at *
    rcases heq with ⟨h1, _⟩ | ⟨_, h2⟩
    · subst h1
      exact ⟨hf, hle, hx⟩
    · omega
  | succ k ih =>
    have hik : i + (k + 1) = (i + 1) + k := by omega
    rw [hik]
    simp only [furthestLoop]
    have hd0 := sqDist_nonneg (deref a i) (deref a l) (deref a r)
    by_cases c1 : m < computeSquaredDistanceFromPointToSegment (deref a i) (deref a l) (deref a r)
    · rw [if_pos c1]
      apply ih
      · omega
      · omega
      · intro j hj1 hj2
        by_cases hji : j = i
        · subst hji; exact le_refl _
        · exact le_trans (hle j hj1 (by omega)) (le_of_lt c1)
      · left; exact ⟨rfl, by omega⟩
      · intro j hj1 hj2 hj3
        by_cases hji : j = i
        · subst hji; exact le_refl _
        · have := hle j hj1 (by omega)
          linarith
    · rw [if_neg c1]
      by_cases c2 : m = computeSquaredDistanceFromPointToSegment (deref a i) (deref a l)
          (deref a r) ∧ (deref a i).x < (deref a f).x
      · rw [if_pos c2]
        apply ih
        · omega
        · omega
        · intro j hj1 hj2
          by_cases hji : j = i
          · subst hji; exact le_of_eq c2.1.symm
          · exact hle j hj1 (by omega)
        · left; exact ⟨c2.1, by omega⟩
        · intro j hj1 hj2 hj3
          by_cases hji : j = i
          · subst hji; exact le_refl _
          · exact le_trans (le_of_lt c2.2) (hx j hj1 (by omega) hj3)
      · rw [if_neg c2]
        have hmi : computeSquaredDistanceFromPointToSegment (deref a i) (deref a l) (deref a r)
            ≤ m := not_lt.mp c1
        apply ih
        · omega
        · omega
        · intro j hj1 hj2
          by_cases hji : j = i
          · subst hji; exact hmi
          · exact hle j hj1 (by omega)
        · rcases heq with ⟨h1, h2⟩ | ⟨h1, h2⟩
          · left; exact ⟨h1, by omega⟩
          · by_cases hfi : f = i
            · subst hfi
              left
              exact ⟨by linarith, by omega⟩
            · right; exact ⟨h1, by omega⟩
        · intro j hj1 hj2 hj3
          by_cases hji : j = i
          · subst hji
            by_contra hc
            exact c2 ⟨hj3.symm, not_le.mp hc⟩
          · exact hx j hj1 (by omega) hj3

/-- The four-argument `find_furthest` on a non-empty range. -/
theorem find_furthest_spec (a : PointSequence) (first past l r : Nat) (h : first < past) :
    (first ≤ find_furthest a first past l r ∧ find_furthest a first past l r < past) ∧
    (∀ j, first ≤ j → j < past →
      computeSquaredDistanceFromPointToSegment (deref a j) (deref a l) (deref a r) ≤
      computeSquaredDistanceFromPointToSegment (deref a (find_furthest a first past l r))
        (deref a l) (deref a r)) ∧
    (∀ j, first ≤ j → j < past →
      computeSquaredDistanceFromPointToSegment (deref a j) (deref a l) (deref a r) =
      computeSquaredDistanceFromPointToSegment (deref a (find_furthest a first past l r))
        (deref a l) (deref a r) →
      (deref a (find_furthest a first past l r)).x ≤ (deref a j).x) := by
  unfold find_furthest
  have hk : past = first + (past - first) := by omega
  have key := furthestLoop_spec a l r first (past - first) first first 0 (by omega) (le_refl _)
    (by intro j h1 h2; omega) (Or.inr ⟨rfl, le_refl _⟩) (by intro j h1 h2; omega)
  rw [← hk] at key
  exact key

/-- The three-argument `find_furthest` on a range that starts at the pole. -/
theorem find_furthest3_spec (a : PointSequence) (first past antipole : Nat) (h : first < past) :
    (first ≤ find_furthest3 a first past antipole ∧ find_furthest3 a first past antipole < past) ∧
    (∀ j, first ≤ j → j < past →
      computeSquaredDistanceFromPointToSegment (deref a j) (deref a first) (deref a antipole) ≤
      computeSquaredDistanceFromPointToSegment (deref a (find_furthest3 a first past antipole))
        (deref a first) (deref a antipole)) ∧
    (∀ j, first ≤ j → j < past →
      computeSquaredDistanceFromPointToSegment (deref a j) (deref a first) (deref a antipole) =
      computeSquaredDistanceFromPointToSegment (deref a (find_furthest3 a first past antipole))
        (deref a first) (deref a antipole) →
      (deref a (find_furthest3 a first past antipole)).x ≤ (deref a j).x) := by
  unfold find_furthest3
  have hk : past = (first + 1) + (past - (first + 1)) := by omega
  have key := furthestLoop_spec a first antipole first (past - (first + 1)) (first + 1) first 0
    (by omega) (by omega)
    (by
      intro j h1 h2
      have : j = first := by omega
      subst this
      rw [sqDist_self_left])
    (Or.inl ⟨(sqDist_self_left _ _).symm, by omega⟩)
    (by
      intro j h1 h2 _
      have : j = first := by omega
      subst this
      exact le_refl _)
  rw [← hk] at key
  exact key

end QuickHull

namespace QuickHull

open Orientation

/-! ### The three-way partition of `findHullInPlace` -/

/-- The invariant of the scan of `lowerPartition` and `upperPartition`: the entries left of
`g1` are clockwise of (pole, F), the entries between `g1` and `current` are clockwise of
neither segment, and the entries behind `g2` are clockwise of (F, antipole). -/
theorem partition3Loop_spec (a0 : PointSequence) (l r f lo hi : Nat)
    (hl : l < lo ∨ hi < l) (hr : r < lo ∨ hi < r) (hf : f < lo ∨ hi < f)
    (hlen : hi < a0.length) :
    ∀ (k : Nat) (a : PointSequence) (cur g1 g2 : Nat), RangePerm lo (hi + 1) a0 a →
      lo ≤ g1 → g1 ≤ cur → cur + k = g2 → g2 ≤ hi →
      (∀ j, lo ≤ j → j < g1 →
        getOrientation (deref a0 l) (deref a0 f) (deref a j) = CLOCKWISE) →
      (∀ j, g1 ≤ j → j < cur →
        getOrientation (deref a0 l) (deref a0 f) (deref a j) ≠ CLOCKWISE ∧
        getOrientation (deref a0 f) (deref a0 r) (deref a j) ≠ CLOCKWISE) →
      (∀ j, g2 < j → j ≤ hi →
        getOrientation (deref a0 l) (deref a0 f) (deref a j) ≠ CLOCKWISE ∧
        getOrientation (deref a0 f) (deref a0 r) (deref a j) = CLOCKWISE) →
      RangePerm lo (hi + 1) a0 (partition3Loop l r f k a cur g1 g2).1 ∧
      (partition3Loop l r f k a cur g1 g2).2.1 = (partition3Loop l r f k a cur g1 g2).2.2.2 ∧
      lo ≤ (partition3Loop l r f k a cur g1 g2).2.2.1 ∧
      (partition3Loop l r f k a cur g1 g2).2.2.1 ≤ (partition3Loop l r f k a cur g1 g2).2.1 ∧
      (partition3Loop l r f k a cur g1 g2).2.1 ≤ hi ∧
      (∀ j, lo ≤ j → j < (partition3Loop l r f k a cur g1 g2).2.2.1 →
        getOrientation (deref a0 l) (deref a0 f)
          (deref (partition3Loop l r f k a cur g1 g2).1 j) = CLOCKWISE) ∧
      (∀ j, (partition3Loop l r f k a cur g1 g2).2.2.1 ≤ j →
        j < (partition3Loop l r f k a cur g1 g2).2.1 →
        getOrientation (deref a0 l) (deref a0 f)
          (deref (partition3Loop l r f k a cur g1 g2).1 j) ≠ CLOCKWISE ∧
        getOrientation (deref a0 f) (deref a0 r)
          (deref (partition3Loop l r f k a cur g1 g2).1 j) ≠ CLOCKWISE) ∧
      (∀ j, (partition3Loop l r f k a cur g1 g2).2.2.2 < j → j ≤ hi →
        getOrientation (deref a0 l) (deref a0 f)
          (deref (partition3Loop l r f k a cur g1 g2).1 j) ≠ CLOCKWISE ∧
        getOrientation (deref a0 f) (deref a0 r)
          (deref (partition3Loop l r f k a cur g1 g2).1 j) = CLOCKWISE) := by
  intro k
  induction k with
  | zero =>
    intro a cur g1 g2 hperm h1 h2 h3 h4 hA hB hC
    simp only [partition3Loop]
    exact ⟨hperm, by omega, h1, h2, by omega, hA, hB, hC⟩
  | succ k ih =>
    intro a cur g1 g2 hperm h1 h2 h3 h4 hA hB hC
    have el : deref a l = deref a0 l := hperm.frame l (by omega)
    have er : deref a r = deref a0 r := hperm.frame r (by omega)
    have ef : deref a f = deref a0 f := hperm.frame f (by omega)
    have hlen' : a.length = a0.length := hperm.length_eq
    simp only [partition3Loop, el, er, ef]
    by_cases c1 : getOrientation (deref a0 l) (deref a0 f) (deref a cur) = CLOCKWISE
    · rw [if_pos c1]
      have hsw : RangePerm lo (hi + 1) a (iter_swap a cur g1) :=
        iter_swap_rangePerm a lo (hi + 1) cur g1 (by omega) (by omega) (by omega) (by omega)
          (by omega)
      apply ih (iter_swap a cur g1) (cur + 1) (g1 + 1) g2 (hperm.trans hsw) (by omega)
        (by omega) (by omega) h4
      · intro j hj1 hj2
        by_cases hjg : j = g1
        · subst hjg
          rw [deref_iter_swap_right a cur j (by omega) (by omega)]
          exact c1
        · rw [deref_iter_swap_other a cur g1 j (by omega) (by omega) (by omega) hjg]
          exact hA j hj1 (by omega)
      · intro j hj1 hj2
        by_cases hjc : j = cur
        · subst hjc
          rw [deref_iter_swap_left a j g1 (by omega) (by omega)]
          exact hB g1 (le_refl _) (by omega)
        · rw [deref_iter_swap_other a cur g1 j (by omega) (by omega) hjc (by omega)]
          exact hB j (by omega) (by omega)
      · intro j hj1 hj2
        rw [deref_iter_swap_other a cur g1 j (by omega) (by omega) (by omega) (by omega)]
        exact hC j hj1 hj2
    · rw [if_neg c1]
      by_cases c2 : getOrientation (deref a0 f) (deref a0 r) (deref a cur) = CLOCKWISE
      · rw [if_pos c2]
        have hsw : RangePerm lo (hi + 1) a (iter_swap a cur g2) :=
          iter_swap_rangePerm a lo (hi + 1) cur g2 (by omega) (by omega) (by omega)
            (by omega) (by omega)
        have hres := ih (iter_swap a cur g2) cur g1 (g2 - 1) (hperm.trans hsw) h1 h2
          (by omega) (by omega)
          (by
            intro j hj1 hj2
            rw [deref_iter_swap_other a cur g2 j (by omega) (by omega) (by omega) (by omega)]
            exact hA j hj1 hj2)
          (by
            intro j hj1 hj2
            rw [deref_iter_swap_other a cur g2 j (by omega) (by omega) (by omega) (by omega)]
            exact hB j hj1 hj2)
          (by
            intro j hj1 hj2
            by_cases hjg : j = g2
            · subst hjg
              rw [deref_iter_swap_right a cur j (by omega) (by omega)]
              exact ⟨c1, c2⟩
            · rw [deref_iter_swap_other a cur g2 j (by omega) (by omega) (by omega) hjg]
              exact hC j (by omega) hj2)
        exact hres
      · rw [if_neg c2]
        apply ih a (cur + 1) g1 g2 hperm h1 (by omega) (by omega) h4 hA
        · intro j hj1 hj2
          by_cases hjc : j = cur
          · subst hjc
            exact ⟨c1, c2⟩
          · exact hB j hj1 (by omega)
        · exact hC

/-- The contract of `lowerPartition` on a range `[first, last)` that holds at least one point,
with the pole, the antipole and F outside the range: what the two returned cursors bound. The
element that the scan leaves out is classified after a comparison of x-coordinates. -/
theorem lowerPartition_spec (a : PointSequence) (first last l r f : Nat) (hfl : first < last)
    (hlast : last ≤ a.length)
    (hl : l < first ∨ last ≤ l) (hr : r < first ∨ last ≤ r) (hf : f < first ∨ last ≤ f)
    (b : PointSequence) (G1 G2 : Nat)
    (hres : lowerPartition a first (last - 1) l r f = (b, G1, G2)) :
    RangePerm first last a b ∧ first ≤ G1 ∧ G1 ≤ G2 ∧ G2 ≤ last ∧
    (∀ j, first ≤ j → j < G1 →
      getOrientation (deref a l) (deref a f) (deref b j) = CLOCKWISE) ∧
    (∀ j, G1 ≤ j → j < G2 →
      (getOrientation (deref a l) (deref a f) (deref b j) ≠ CLOCKWISE ∧
        getOrientation (deref a f) (deref a r) (deref b j) ≠ CLOCKWISE) ∨
      ((deref b j).x < (deref a f).x ∧
        getOrientation (deref a l) (deref a f) (deref b j) ≠ CLOCKWISE) ∨
      (¬ (deref b j).x < (deref a f).x ∧
        getOrientation (deref a f) (deref a r) (deref b j) = COUNTERCLOCKWISE)) ∧
    (∀ j, G2 ≤ j → j < last →
      (getOrientation (deref a l) (deref a f) (deref b j) ≠ CLOCKWISE ∧
        getOrientation (deref a f) (deref a r) (deref b j) = CLOCKWISE) ∨
      (j = G2 ∧ ¬ (deref b j).x < (deref a f).x ∧
        getOrientation (deref a f) (deref a r) (deref b j) ≠ COUNTERCLOCKWISE)) := by
  have hhi : last - 1 + 1 = last := by omega
  obtain ⟨p1, p2, p3, p4, p5, pA, pB, pC⟩ := partition3Loop_spec a l r f first (last - 1)
    (by omega) (by omega) (by omega) (by omega) (last - 1 - first) a first first (last - 1)
    (RangePerm.refl _ _ _) (le_refl _) (le_refl _) (by omega) (le_refl _)
    (by intro j h1 h2; omega) (by intro j h1 h2; omega) (by intro j h1 h2; omega)
  rw [hhi] at p1
  unfold lowerPartition at hres
  generalize partition3Loop l r f (last - 1 - first) a first first (last - 1) = res at *
  obtain ⟨c, cur, g1, g2⟩ := res
  simp only at p1 p2 p3 p4 p5 pA pB pC hres
  subst p2
  have el : deref c l = deref a l := p1.frame l (by omega)
  have er : deref c r = deref a r := p1.frame r (by omega)
  have ef : deref c f = deref a f := p1.frame f (by omega)
  have hlen' : c.length = a.length := p1.length_eq
  rw [el, er, ef] at hres
  by_cases t : (deref c cur).x < (deref a f).x
  · rw [if_pos t] at hres
    by_cases c1 : getOrientation (deref a l) (deref a f) (deref c cur) = CLOCKWISE
    · rw [if_pos c1] at hres
      simp only [Prod.mk.injEq] at hres
      obtain ⟨rfl, rfl, rfl⟩ := hres
      have hsw : RangePerm first last c (iter_swap c cur g1) :=
        iter_swap_rangePerm c first last cur g1 (by omega) (by omega) (by omega) (by omega)
          (by omega)
      refine ⟨p1.trans hsw, by omega, by omega, by omega, ?_, ?_, ?_⟩
      · intro j hj1 hj2
        by_cases hjg : j = g1
        · subst hjg
          rw [deref_iter_swap_right c cur j (by omega) (by omega)]
          exact c1
        · rw [deref_iter_swap_other c cur g1 j (by omega) (by omega) (by omega) hjg]
          exact pA j hj1 (by omega)
      · intro j hj1 hj2
        by_cases hjc : j = cur
        · subst hjc
          rw [deref_iter_swap_left c j g1 (by omega) (by omega)]
          exact Or.inl (pB g1 (le_refl _) (by omega))
        · rw [deref_iter_swap_other c cur g1 j (by omega) (by omega) hjc (by omega)]
          exact Or.inl (pB j (by omega) (by omega))
      · intro j hj1 hj2
        rw [deref_iter_swap_other c cur g1 j (by omega) (by omega) (by omega) (by omega)]
        exact Or.inl (pC j (by omega) (by omega))
    · rw [if_neg c1] at hres
      simp only [Prod.mk.injEq] at hres
      obtain ⟨rfl, rfl, rfl⟩ := hres
      refine ⟨p1, by omega, by omega, by omega, ?_, ?_, ?_⟩
      · intro j hj1 hj2
        exact pA j hj1 hj2
      · intro j hj1 hj2
        by_cases hjc : j = cur
        · subst hjc
          exact Or.inr (Or.inl ⟨t, c1⟩)
        · exact Or.inl (pB j hj1 (by omega))
      · intro j hj1 hj2
        exact Or.inl (pC j (by omega) (by omega))
  · rw [if_neg t] at hres
    by_cases c2 : getOrientation (deref a f) (deref a r) (deref c cur) = COUNTERCLOCKWISE
    · rw [if_pos c2] at hres
      simp only [Prod.mk.injEq] at hres
      obtain ⟨rfl, rfl, rfl⟩ := hres
      refine ⟨p1, by omega, by omega, by omega, ?_, ?_, ?_⟩
      · intro j hj1 hj2
        exact pA j hj1 hj2
      · intro j hj1 hj2
        by_cases hjc : j = cur
        · subst hjc
          exact Or.inr (Or.inr ⟨t, c2⟩)
        · exact Or.inl (pB j hj1 (by omega))
      · intro j hj1 hj2
        exact Or.inl (pC j (by omega) (by omega))
    · rw [if_neg c2] at hres
      simp only [Prod.mk.injEq] at hres
      obtain ⟨rfl, rfl, rfl⟩ := hres
      refine ⟨p1, by omega, by omega, by omega, ?_, ?_, ?_⟩
      · intro j hj1 hj2
        exact pA j hj1 hj2
      · intro j hj1 hj2
        exact Or.inl (pB j hj1 (by omega))
      · intro j hj1 hj2
        by_cases hjc : j = cur
        · subst hjc
          exact Or.inr ⟨rfl, t, c2⟩
        · exact Or.inl (pC j (by omega) (by omega))

/-- The contract of `upperPartition`: that of `lowerPartition` with the comparison of the
x-coordinates turned round. -/
theorem upperPartition_spec (a : PointSequence) (first last l r f : Nat) (hfl : first < last)
    (hlast : last ≤ a.length)
    (hl : l < first ∨ last ≤ l) (hr : r < first ∨ last ≤ r) (hf : f < first ∨ last ≤ f)
    (b : PointSequence) (G1 G2 : Nat)
    (hres : upperPartition a first (last - 1) l r f = (b, G1, G2)) :
    RangePerm first last a b ∧ first ≤ G1 ∧ G1 ≤ G2 ∧ G2 ≤ last ∧
    (∀ j, first ≤ j → j < G1 →
      getOrientation (deref a l) (deref a f) (deref b j) = CLOCKWISE) ∧
    (∀ j, G1 ≤ j → j < G2 →
      (getOrientation (deref a l) (deref a f) (deref b j) ≠ CLOCKWISE ∧
        getOrientation (deref a f) (deref a r) (deref b j) ≠ CLOCKWISE) ∨
      ((deref b j).x > (deref a f).x ∧
        getOrientation (deref a l) (deref a f) (deref b j) ≠ CLOCKWISE) ∨
      (¬ (deref b j).x > (deref a f).x ∧
        getOrientation (deref a f) (deref a r) (deref b j) = COUNTERCLOCKWISE)) ∧
    (∀ j, G2 ≤ j → j < last →
      (getOrientation (deref a l) (deref a f) (deref b j) ≠ CLOCKWISE ∧
        getOrientation (deref a f) (deref a r) (deref b j) = CLOCKWISE) ∨
      (j = G2 ∧ ¬ (deref b j).x > (deref a f).x ∧
        getOrientation (deref a f) (deref a r) (deref b j) ≠ COUNTERCLOCKWISE)) := by
  have hhi : last - 1 + 1 = last := by omega
  obtain ⟨p1, p2, p3, p4, p5, pA, pB, pC⟩ := partition3Loop_spec a l r f first (last - 1)
    (by omega) (by omega) (by omega) (by omega) (last - 1 - first) a first first (last - 1)
    (RangePerm.refl _ _ _) (le_refl _) (le_refl _) (by omega) (le_refl _)
    (by intro j h1 h2; omega) (by intro j h1 h2; omega) (by intro j h1 h2; omega)
  rw [hhi] at p1
  unfold upperPartition at hres
  generalize partition3Loop l r f (last - 1 - first) a first first (last - 1) = res at *
  obtain ⟨c, cur, g1, g2⟩ := res
  simp only at p1 p2 p3 p4 p5 pA pB pC hres
  subst p2
  have el : deref c l = deref a l := p1.frame l (by omega)
  have er : deref c r = deref a r := p1.frame r (by omega)
  have ef : deref c f = deref a f := p1.frame f (by omega)
  have hlen' : c.length = a.length := p1.length_eq
  rw [el, er, ef] at hres
  by_cases t : (deref c cur).x > (deref a f).x
  · rw [if_pos t] at hres
    by_cases c1 : getOrientation (deref a l) (deref a f) (deref c cur) = CLOCKWISE
    · rw [if_pos c1] at hres
      simp only [Prod.mk.injEq] at hres
      obtain ⟨rfl, rfl, rfl⟩ := hres
      have hsw : RangePerm first last c (iter_swap c cur g1) :=
        iter_swap_rangePerm c first last cur g1 (by omega) (by omega) (by omega) (by omega)
          (by omega)
      refine ⟨p1.trans hsw, by omega, by omega, by omega, ?_, ?_, ?_⟩
      · intro j hj1 hj2
        by_cases hjg : j = g1
        · subst hjg
          rw [deref_iter_swap_right c cur j (by omega) (by omega)]
          exact c1
        · rw [deref_iter_swap_other c cur g1 j (by omega) (by omega) (by omega) hjg]
          exact pA j hj1 (by omega)
      · intro j hj1 hj2
        by_cases hjc : j = cur
        · subst hjc
          rw [deref_iter_swap_left c j g1 (by omega) (by omega)]
          exact Or.inl (pB g1 (le_refl _) (by omega))
        · rw [deref_iter_swap_other c cur g1 j (by omega) (by omega) hjc (by omega)]
          exact Or.inl (pB j (by omega) (by omega))
      · intro j hj1 hj2
        rw [deref_iter_swap_other c cur g1 j (by omega) (by omega) (by omega) (by omega)]
        exact Or.inl (pC j (by omega) (by omega))
    · rw [if_neg c1] at hres
      simp only [Prod.mk.injEq] at hres
      obtain ⟨rfl, rfl, rfl⟩ := hres
      refine ⟨p1, by omega, by omega, by omega, ?_, ?_, ?_⟩
      · intro j hj1 hj2
        exact pA j hj1 hj2
      · intro j hj1 hj2
        by_cases hjc : j = cur
        · subst hjc
          exact Or.inr (Or.inl ⟨t, c1⟩)
        · exact Or.inl (pB j hj1 (by omega))
      · intro j hj1 hj2
        exact Or.inl (pC j (by omega) (by omega))
  · rw [if_neg t] at hres
    by_cases c2 : getOrientation (deref a f) (deref a r) (deref c cur) = COUNTERCLOCKWISE
    · rw [if_pos c2] at hres
      simp only [Prod.mk.injEq] at hres
      obtain ⟨rfl, rfl, rfl⟩ := hres
      refine ⟨p1, by omega, by omega, by omega, ?_, ?_, ?_⟩
      · intro j hj1 hj2
        exact pA j hj1 hj2
      · intro j hj1 hj2
        by_cases hjc : j = cur
        · subst hjc
          exact Or.inr (Or.inr ⟨t, c2⟩)
        · exact Or.inl (pB j hj1 (by omega))
      · intro j hj1 hj2
        exact Or.inl (pC j (by omega) (by omega))
    · rw [if_neg c2] at hres
      simp only [Prod.mk.injEq] at hres
      obtain ⟨rfl, rfl, rfl⟩ := hres
      refine ⟨p1, by omega, by omega, by omega, ?_, ?_, ?_⟩
      · intro j hj1 hj2
        exact pA j hj1 hj2
      · intro j hj1 hj2
        exact Or.inl (pB j hj1 (by omega))
      · intro j hj1 hj2
        by_cases hjc : j = cur
        · subst hjc
          exact Or.inr ⟨rfl, t, c2⟩
        · exact Or.inl (pC j (by omega) (by omega))

end QuickHull

namespace QuickHull

open Orientation

/-! ### The recursion of `findHullInPlace` -/

theorem partition_spec (loc : Nat) (a : PointSequence) (first last l r f : Nat)
    (hfl : first < last) (hlast : last ≤ a.length)
    (hl : l < first ∨ last ≤ l) (hr : r < first ∨ last ≤ r) (hf : f < first ∨ last ≤ f)
    (b : PointSequence) (G1 G2 : Nat)
    (hres : partition loc a first (last - 1) l r f = (b, G1, G2)) :
    RangePerm first last a b ∧ first ≤ G1 ∧ G1 ≤ G2 ∧ G2 ≤ last := by
  unfold partition at hres
  by_cases hloc : loc = LOWER
  · rw [if_pos hloc] at hres
    obtain ⟨h1, h2, h3, h4, _⟩ := lowerPartition_spec a first last l r f hfl hlast hl hr hf
      b G1 G2 hres
    exact ⟨h1, h2, h3, h4⟩
  · rw [if_neg hloc] at hres
    obtain ⟨h1, h2, h3, h4, _⟩ := upperPartition_spec a first last l r f hfl hlast hl hr hf
      b G1 G2 hres
    exact ⟨h1, h2, h3, h4⟩

theorem findHullInPlace_empty (fuel : Nat) (a : PointSequence) (first past l r cursor loc : Nat)
    (h : past - first = 0) :
    findHullInPlace (fuel + 1) a first past l r cursor loc = some (a, cursor) := by
  simp [findHullInPlace, h]

theorem findHullInPlace_single (fuel : Nat) (a : PointSequence) (first past l r cursor loc : Nat)
    (h : past - first = 1) :
    findHullInPlace (fuel + 1) a first past l r cursor loc
      = some (iter_swap a first cursor, cursor + 1) := by
  simp [findHullInPlace, h]

/-- The general case of `findHullInPlace`, unfolded once: after the partition and the first
recursive call, the call continues with the second recursive call. -/
theorem findHullInPlace_general (fuel : Nat) (a : PointSequence)
    (first past l r cursor loc : Nat) (h : 2 ≤ past - first)
    (a2 : PointSequence) (g1 g2 : Nat)
    (hpart : partition loc (iter_swap a (find_furthest a first past l r) (past - 1)) first
      (past - 1 - 1) l r (past - 1) = (a2, g1, g2))
    (a3 : PointSequence) (c1 : Nat)
    (h1 : findHullInPlace fuel a2 first g1 l (past - 1) cursor loc = some (a3, c1)) :
    findHullInPlace (fuel + 1) a first past l r cursor loc =
      findHullInPlace fuel (iter_swap a3 (past - 1) c1) (if c1 = g2 then g2 + 1 else g2)
        (if c1 = g2 then past - 1 + 1 else past - 1) c1 r (c1 + 1) loc := by
  have e1 : ¬ past - first = 1 := by omega
  have e0 : ¬ past - first = 0 := by omega
  simp only [findHullInPlace, e1, e0, if_false, hpart, h1]

/-- Structure of `findHullInPlace`: with enough fuel the call returns; it permutes the
positions from the output cursor to the end of the range, and the cursor advances by at most
the size of the range. -/
theorem findHullInPlace_struct : ∀ (fuel : Nat) (a : PointSequence)
    (first past l r cursor loc : Nat), past - first < fuel → cursor ≤ first → first ≤ past →
    past ≤ a.length → (l < cursor ∨ past ≤ l) → (r < cursor ∨ past ≤ r) →
    ∃ a' c', findHullInPlace fuel a first past l r cursor loc = some (a', c') ∧
      RangePerm cursor past a a' ∧ cursor ≤ c' ∧ c' ≤ cursor + (past - first) := by
  intro fuel
  induction fuel with
  | zero => intro a first past l r cursor loc h; omega
  | succ fuel ih =>
    intro a first past l r cursor loc hfuel hcf hfp hlen hl hr
    by_cases h0 : past - first = 0
    · exact ⟨a, cursor, findHullInPlace_empty fuel a first past l r cursor loc h0,
        RangePerm.refl _ _ _, le_refl _, by omega⟩
    by_cases h1 : past - first = 1
    · exact ⟨_, _, findHullInPlace_single fuel a first past l r cursor loc h1,
        iter_swap_rangePerm a cursor past first cursor hcf (by omega) (le_refl _) (by omega)
          hlen, by omega, by omega⟩
    obtain ⟨⟨hF1, hF2⟩, _⟩ := find_furthest_spec a first past l r (by omega)
    have hsw : RangePerm first past a (iter_swap a (find_furthest a first past l r) (past - 1)) :=
      iter_swap_rangePerm a first past _ _ hF1 hF2 (by omega) (by omega) hlen
    obtain ⟨a2, g1, g2, hpart⟩ : ∃ a2 g1 g2,
        partition loc (iter_swap a (find_furthest a first past l r) (past - 1)) first
          (past - 1 - 1) l r (past - 1) = (a2, g1, g2) := ⟨_, _, _, rfl⟩
    have hlen1 : (iter_swap a (find_furthest a first past l r) (past - 1)).length = a.length :=
      length_iter_swap _ _ _
    obtain ⟨hp, hg1, hg12, hg2⟩ := partition_spec loc _ first (past - 1) l r (past - 1)
      (by omega) (by omega) (by omega) (by omega) (by omega) a2 g1 g2 hpart
    have hlen2 : a2.length = a.length := by rw [hp.length_eq, hlen1]
    obtain ⟨a3, c1, hc1, hp3, hc1a, hc1b⟩ := ih a2 first g1 l (past - 1) cursor loc (by omega)
      hcf hg1 (by omega) (by omega) (by omega)
    have hlen3 : a3.length = a.length := by rw [hp3.length_eq, hlen2]
    have hsw2 : RangePerm cursor past a3 (iter_swap a3 (past - 1) c1) :=
      iter_swap_rangePerm a3 cursor past _ _ (by omega) (by omega) hc1a (by omega) (by omega)
    have hlen4 : (iter_swap a3 (past - 1) c1).length = a.length := by
      rw [length_iter_swap, hlen3]
    rw [findHullInPlace_general fuel a first past l r cursor loc (by omega) a2 g1 g2 hpart a3 c1
      hc1]
    obtain ⟨a5, c2, hc2, hp5, hc2a, hc2b⟩ := ih (iter_swap a3 (past - 1) c1)
      (if c1 = g2 then g2 + 1 else g2) (if c1 = g2 then past - 1 + 1 else past - 1) c1 r
      (c1 + 1) loc (by split_ifs <;> omega) (by split_ifs <;> omega) (by split_ifs <;> omega)
      (by split_ifs <;> omega) (by omega) (by split_ifs <;> omega)
    refine ⟨a5, c2, hc2, ?_, by omega, ?_⟩
    · exact (((hsw.mono hcf (le_refl _)).trans (hp.mono hcf (by omega))).trans
        (hp3.mono (le_refl _) (by omega))).trans (hsw2.trans (hp5.mono (by omega)
          (by split_ifs <;> omega)))
    · revert hc2b
      split_ifs <;> intro hc2b <;> omega

end QuickHull

namespace QuickHull

open Orientation

/-! ### The recursion of `chain` -/

theorem getOrientation_self_left (p q : Point) : getOrientation p p q = COLLINEAR := by
  simp [getOrientation]

theorem chain_one (fuel : Nat) (a : PointSequence) (pole past antipole : Nat)
    (h : past - pole = 1) : chain (fuel + 1) a pole past antipole = some (a, past) := by
  simp [chain, h]

theorem chain_two (fuel : Nat) (a : PointSequence) (pole past antipole : Nat)
    (h : past - pole = 2) :
    chain (fuel + 1) a pole past antipole =
      if getOrientation (deref a (pole + 1)) (deref a pole) (deref a antipole) = COLLINEAR
      then some (a, pole + 1) else some (a, past) := by
  have e1 : ¬ past - pole = 1 := by omega
  simp [chain, h]

theorem chain_collapse (fuel : Nat) (a : PointSequence) (pole past antipole : Nat)
    (h1 : past - pole ≠ 1) (h2 : past - pole ≠ 2)
    (hc : getOrientation (deref a (find_furthest3 a pole past antipole)) (deref a pole)
      (deref a antipole) = COLLINEAR) :
    chain (fuel + 1) a pole past antipole = some (a, pole + 1) := by
  simp [chain, h1, h2, hc]

/-- The general case of `chain`, unfolded once: after the first recursive call the pivot is
brought to its final place, the eliminated points are moved away, and the call continues with
the second recursive call. -/
theorem chain_general (fuel : Nat) (a : PointSequence) (pole past antipole : Nat)
    (h1 : past - pole ≠ 1) (h2 : past - pole ≠ 2)
    (hc : getOrientation (deref a (find_furthest3 a pole past antipole)) (deref a pole)
      (deref a antipole) ≠ COLLINEAR)
    (a1 : PointSequence) (mid : Nat)
    (hpart : partition_left_right
      (iter_swap a (find_furthest3 a pole past antipole) (past - 1)) pole (past - 1) (past - 1)
        = (a1, mid))
    (a2 : PointSequence) (e1 : Nat)
    (hch : chain fuel a1 pole mid (past - 1) = some (a2, e1)) :
    chain (fuel + 1) a pole past antipole =
      chain fuel
        (partition_left_right
          (move_away (iter_swap (iter_swap a2 mid (past - 1)) e1 mid) (e1 + 1) (mid + 1) past)
          e1 (e1 + (past - mid)) antipole).1
        e1
        (partition_left_right
          (move_away (iter_swap (iter_swap a2 mid (past - 1)) e1 mid) (e1 + 1) (mid + 1) past)
          e1 (e1 + (past - mid)) antipole).2
        antipole := by
  simp only [chain, h1, h2, hc, if_false, hpart, hch]

/-- Structure of `chain`: with enough fuel the call returns a position behind the pole and
not behind the range; the pole stays in place and the rest of the range is permuted. -/
theorem chain_struct : ∀ (fuel : Nat) (a : PointSequence) (pole past antipole : Nat),
    past - pole < fuel → pole < past → past ≤ a.length →
    (antipole < pole ∨ past ≤ antipole) →
    ∃ a' e, chain fuel a pole past antipole = some (a', e) ∧
      RangePerm (pole + 1) past a a' ∧ pole < e ∧ e ≤ past := by
  intro fuel
  induction fuel with
  | zero => intro a pole past antipole h; omega
  | succ fuel ih =>
    intro a pole past antipole hfuel hpp hlen hanti
    by_cases h1 : past - pole = 1
    · exact ⟨a, past, chain_one fuel a pole past antipole h1, RangePerm.refl _ _ _, hpp,
        le_refl _⟩
    by_cases h2 : past - pole = 2
    · rw [chain_two fuel a pole past antipole h2]
      split_ifs
      · exact ⟨a, pole + 1, rfl, RangePerm.refl _ _ _, by omega, by omega⟩
      · exact ⟨a, past, rfl, RangePerm.refl _ _ _, by omega, by omega⟩
    by_cases hc : getOrientation (deref a (find_furthest3 a pole past antipole)) (deref a pole)
        (deref a antipole) = COLLINEAR
    · exact ⟨a, pole + 1, chain_collapse fuel a pole past antipole h1 h2 hc,
        RangePerm.refl _ _ _, by omega, by omega⟩
    obtain ⟨⟨hF1, hF2⟩, _⟩ := find_furthest3_spec a pole past antipole hpp
    have hFne : find_furthest3 a pole past antipole ≠ pole := by
      intro he
      rw [he] at hc
      exact hc (getOrientation_self_left _ _)
    have hsw : RangePerm (pole + 1) past a
        (iter_swap a (find_furthest3 a pole past antipole) (past - 1)) :=
      iter_swap_rangePerm a (pole + 1) past _ _ (by omega) hF2 (by omega) (by omega) hlen
    have hlen0 : (iter_swap a (find_furthest3 a pole past antipole) (past - 1)).length
        = a.length := length_iter_swap _ _ _
    obtain ⟨a1, mid, hpart⟩ : ∃ a1 mid, partition_left_right
        (iter_swap a (find_furthest3 a pole past antipole) (past - 1)) pole (past - 1)
        (past - 1) = (a1, mid) := ⟨_, _, rfl⟩
    obtain ⟨hp1, hm1, hm2, _⟩ := partition_left_right_spec
      (iter_swap a (find_furthest3 a pole past antipole) (past - 1)) pole (past - 1) (past - 1)
      (by omega) (by omega) (by omega)
    rw [hpart] at hp1 hm1 hm2
    simp only at hp1 hm1 hm2
    have hlen1 : a1.length = a.length := by rw [hp1.length_eq, hlen0]
    obtain ⟨a2, e1, hch, hp2, he1, he2⟩ := ih a1 pole mid (past - 1) (by omega) (by omega)
      (by omega) (by omega)
    have hlen2 : a2.length = a.length := by rw [hp2.length_eq, hlen1]
    rw [chain_general fuel a pole past antipole h1 h2 hc a1 mid hpart a2 e1 hch]
    have hsw1 : RangePerm (pole + 1) past a2 (iter_swap a2 mid (past - 1)) :=
      iter_swap_rangePerm a2 (pole + 1) past _ _ (by omega) (by omega) (by omega) (by omega)
        (by omega)
    have hlen3 : (iter_swap a2 mid (past - 1)).length = a.length := by
      rw [length_iter_swap, hlen2]
    have hsw2 : RangePerm (pole + 1) past (iter_swap a2 mid (past - 1))
        (iter_swap (iter_swap a2 mid (past - 1)) e1 mid) :=
      iter_swap_rangePerm _ (pole + 1) past _ _ (by omega) (by omega) (by omega) (by omega)
        (by omega)
    have hlen4 : (iter_swap (iter_swap a2 mid (past - 1)) e1 mid).length = a.length := by
      rw [length_iter_swap, hlen3]
    obtain ⟨hmv, _, _⟩ := move_away_spec (iter_swap (iter_swap a2 mid (past - 1)) e1 mid)
      (e1 + 1) (mid + 1) past (by omega) (by omega) (by omega)
    have hlen5 : (move_away (iter_swap (iter_swap a2 mid (past - 1)) e1 mid) (e1 + 1)
        (mid + 1) past).length = a.length := by rw [hmv.length_eq, hlen4]
    obtain ⟨a6, interior, hpart2⟩ : ∃ a6 interior, partition_left_right
        (move_away (iter_swap (iter_swap a2 mid (past - 1)) e1 mid) (e1 + 1) (mid + 1) past)
        e1 (e1 + (past - mid)) antipole = (a6, interior) := ⟨_, _, rfl⟩
    obtain ⟨hp6, hi1, hi2, _⟩ := partition_left_right_spec
      (move_away (iter_swap (iter_swap a2 mid (past - 1)) e1 mid) (e1 + 1) (mid + 1) past)
      e1 (e1 + (past - mid)) antipole (by omega) (by omega) (by omega)
    rw [hpart2] at hp6 hi1 hi2 ⊢
    simp only at hp6 hi1 hi2 ⊢
    have hlen6 : a6.length = a.length := by rw [hp6.length_eq, hlen5]
    obtain ⟨a7, e, hch2, hp7, he3, he4⟩ := ih a6 e1 interior antipole (by omega) (by omega)
      (by omega) (by omega)
    refine ⟨a7, e, hch2, ?_, by omega, by omega⟩
    exact ((((((hsw.trans (hp1.mono (le_refl _) (by omega))).trans
      (hp2.mono (le_refl _) (by omega))).trans hsw1).trans hsw2).trans
      (hmv.mono (by omega) (le_refl _))).trans (hp6.mono (by omega) (by omega))).trans
      (hp7.mono (by omega) (by omega))

end QuickHull

namespace QuickHull

open Orientation

/-! ### The two orchestrators -/

theorem length_of_minimalRequirements (s : PointSequence)
    (h : PointSequenceFulfillsMinimalRequirements s = true) : 3 ≤ s.length := by
  unfold PointSequenceFulfillsMinimalRequirements at h
  by_contra hc
  have : s.length < 3 := by omega
  simp [this] at h

theorem inPlace_rejected (s : PointSequence)
    (h : PointSequenceFulfillsMinimalRequirements s = false) :
    ConvexHullInPlaceQuickHull s = some (s, 0) := by
  simp [ConvexHullInPlaceQuickHull, h]

theorem their_rejected (s : PointSequence)
    (h : PointSequenceFulfillsMinimalRequirements s = false) :
    TheirConvexHullInPlaceQuickHull s = some (s, 0) := by
  simp [TheirConvexHullInPlaceQuickHull, h]

/-- `ConvexHullInPlaceQuickHull` on an accepted sequence, unfolded once: poles, partition, the
call of `findHullInPlace` for the lower side, and then the call for the upper side. -/
theorem inPlace_accepted (s : PointSequence)
    (h : PointSequenceFulfillsMinimalRequirements s = true)
    (a2 : PointSequence) (g2 : Nat)
    (hpart : partition_right_left
      (parallel_iter_swap s 0 (s.length - 1) (find_poles s 0 s.length).1
        (find_poles s 0 s.length).2) 1 (s.length - 1) 0 (s.length - 1) = (a2, g2))
    (a3 : PointSequence) (c1 : Nat)
    (hlow : findHullInPlace s.length a2 1 g2 0 (s.length - 1) 1 LOWER = some (a3, c1)) :
    ConvexHullInPlaceQuickHull s =
      findHullInPlace s.length (iter_swap a3 (s.length - 1) c1)
        (if c1 = g2 then g2 + 1 else g2)
        (if c1 = g2 then s.length - 1 + 1 else s.length - 1) c1 0 (c1 + 1) UPPER := by
  simp only [ConvexHullInPlaceQuickHull, h, Bool.not_true, Bool.false_eq_true, if_false,
    Nat.zero_add, hpart, hlow]

/-- `TheirConvexHullInPlaceQuickHull` on an accepted sequence whose poles differ, unfolded
once: poles, partition, the first call of `chain`, the relocation, and the second call. -/
theorem their_accepted (s : PointSequence)
    (h : PointSequenceFulfillsMinimalRequirements s = true)
    (hne : (deref (parallel_iter_swap s 0 (s.length - 1) (find_poles s 0 s.length).1
        (find_poles s 0 s.length).2) 0).eq
      (deref (parallel_iter_swap s 0 (s.length - 1) (find_poles s 0 s.length).1
        (find_poles s 0 s.length).2) (s.length - 1)) = false)
    (a2 : PointSequence) (middle : Nat)
    (hpart : partition_left_right
      (parallel_iter_swap s 0 (s.length - 1) (find_poles s 0 s.length).1
        (find_poles s 0 s.length).2) 0 (s.length - 1) (s.length - 1) = (a2, middle))
    (a3 : PointSequence) (e1 : Nat)
    (hch : chain s.length a2 0 middle (s.length - 1) = some (a3, e1)) :
    TheirConvexHullInPlaceQuickHull s =
      chain s.length
        (move_away (iter_swap (iter_swap a3 middle (s.length - 1)) e1 middle) (e1 + 1)
          (middle + 1) s.length)
        e1 (e1 + (s.length - middle)) 0 := by
  simp only [TheirConvexHullInPlaceQuickHull, h, Bool.not_true, Bool.false_eq_true, if_false,
    hne, hpart, hch]

theorem their_equal_poles (s : PointSequence)
    (h : PointSequenceFulfillsMinimalRequirements s = true)
    (he : (deref (parallel_iter_swap s 0 (s.length - 1) (find_poles s 0 s.length).1
        (find_poles s 0 s.length).2) 0).eq
      (deref (parallel_iter_swap s 0 (s.length - 1) (find_poles s 0 s.length).1
        (find_poles s 0 s.length).2) (s.length - 1)) = true) :
    TheirConvexHullInPlaceQuickHull s =
      some (parallel_iter_swap s 0 (s.length - 1) (find_poles s 0 s.length).1
        (find_poles s 0 s.length).2, 1) := by
  simp only [TheirConvexHullInPlaceQuickHull, h, Bool.not_true, Bool.false_eq_true, if_false,
    he, if_true, Nat.zero_add]

/-- Structure of `ConvexHullInPlaceQuickHull`: the call returns, the final sequence is a
permutation of all positions, and the returned position is not behind the end. -/
theorem inPlace_struct (s : PointSequence) :
    ∃ a r, ConvexHullInPlaceQuickHull s = some (a, r) ∧ RangePerm 0 s.length s a ∧
      r ≤ s.length := by
  cases hreq : PointSequenceFulfillsMinimalRequirements s with
  | false => exact ⟨s, 0, inPlace_rejected s hreq, RangePerm.refl _ _ _, Nat.zero_le _⟩
  | true =>
    have hn := length_of_minimalRequirements s hreq
    obtain ⟨⟨_, hmn⟩, ⟨_, hmx⟩, _⟩ := find_poles_spec s 0 s.length (by omega)
    have hne := find_poles_ne s 0 s.length (by omega)
    obtain ⟨hp1, _, _⟩ := parallel_iter_swap_spec s s.length _ _ rfl (by omega) hmn hmx hne
    have hlen1 := hp1.length_eq
    obtain ⟨a2, g2, hpart⟩ : ∃ a2 g2, partition_right_left
        (parallel_iter_swap s 0 (s.length - 1) (find_poles s 0 s.length).1
          (find_poles s 0 s.length).2) 1 (s.length - 1) 0 (s.length - 1) = (a2, g2) :=
      ⟨_, _, rfl⟩
    obtain ⟨hp2, hg1, hg2, _⟩ := partition_right_left_spec
      (parallel_iter_swap s 0 (s.length - 1) (find_poles s 0 s.length).1
        (find_poles s 0 s.length).2) 1 (s.length - 1) 0 (s.length - 1) (by omega) (by omega)
      (by omega) (by omega)
    rw [hpart] at hp2 hg1 hg2
    simp only at hp2 hg1 hg2
    have hlen2 : a2.length = s.length := by rw [hp2.length_eq, hlen1]
    obtain ⟨a3, c1, hlow, hp3, hc1a, hc1b⟩ := findHullInPlace_struct s.length a2 1 g2 0
      (s.length - 1) 1 LOWER (by omega) (le_refl _) hg1 (by omega) (by omega) (by omega)
    have hlen3 : a3.length = s.length := by rw [hp3.length_eq, hlen2]
    have hsw : RangePerm 0 s.length a3 (iter_swap a3 (s.length - 1) c1) :=
      iter_swap_rangePerm a3 0 s.length _ _ (Nat.zero_le _) (by omega) (Nat.zero_le _)
        (by omega) (by omega)
    have hlen4 : (iter_swap a3 (s.length - 1) c1).length = s.length := by
      rw [length_iter_swap, hlen3]
    rw [inPlace_accepted s hreq a2 g2 hpart a3 c1 hlow]
    obtain ⟨a5, c2, hup, hp5, hc2a, hc2b⟩ := findHullInPlace_struct s.length
      (iter_swap a3 (s.length - 1) c1) (if c1 = g2 then g2 + 1 else g2)
      (if c1 = g2 then s.length - 1 + 1 else s.length - 1) c1 0 (c1 + 1) UPPER
      (by split_ifs <;> omega) (by split_ifs <;> omega) (by split_ifs <;> omega)
      (by split_ifs <;> omega) (by omega) (by omega)
    refine ⟨a5, c2, hup, ?_, ?_⟩
    · exact (((hp1.trans (hp2.mono (by omega) (by omega))).trans
        (hp3.mono (by omega) (by omega))).trans hsw).trans
        (hp5.mono (by omega) (by split_ifs <;> omega))
    · revert hc2b
      split_ifs <;> intro hc2b <;> omega

/-- Structure of `TheirConvexHullInPlaceQuickHull`: the call returns, the final sequence is a
permutation of all positions, and the returned position is not behind the end. -/
theorem their_struct (s : PointSequence) :
    ∃ a r, TheirConvexHullInPlaceQuickHull s = some (a, r) ∧ RangePerm 0 s.length s a ∧
      r ≤ s.length := by
  cases hreq : PointSequenceFulfillsMinimalRequirements s with
  | false => exact ⟨s, 0, their_rejected s hreq, RangePerm.refl _ _ _, Nat.zero_le _⟩
  | true =>
    have hn := length_of_minimalRequirements s hreq
    obtain ⟨⟨_, hmn⟩, ⟨_, hmx⟩, _⟩ := find_poles_spec s 0 s.length (by omega)
    have hne := find_poles_ne s 0 s.length (by omega)
    obtain ⟨hp1, _, _⟩ := parallel_iter_swap_spec s s.length _ _ rfl (by omega) hmn hmx hne
    have hlen1 := hp1.length_eq
    cases heq : (deref (parallel_iter_swap s 0 (s.length - 1) (find_poles s 0 s.length).1
        (find_poles s 0 s.length).2) 0).eq
      (deref (parallel_iter_swap s 0 (s.length - 1) (find_poles s 0 s.length).1
        (find_poles s 0 s.length).2) (s.length - 1)) with
    | true => exact ⟨_, 1, their_equal_poles s hreq heq, hp1, by omega⟩
    | false =>
      obtain ⟨a2, middle, hpart⟩ : ∃ a2 middle, partition_left_right
          (parallel_iter_swap s 0 (s.length - 1) (find_poles s 0 s.length).1
            (find_poles s 0 s.length).2) 0 (s.length - 1) (s.length - 1) = (a2, middle) :=
        ⟨_, _, rfl⟩
      obtain ⟨hp2, hm1, hm2, _⟩ := partition_left_right_spec
        (parallel_iter_swap s 0 (s.length - 1) (find_poles s 0 s.length).1
          (find_poles s 0 s.length).2) 0 (s.length - 1) (s.length - 1) (by omega) (by omega)
        (by omega)
      rw [hpart] at hp2 hm1 hm2
      simp only at hp2 hm1 hm2
      have hlen2 : a2.length = s.length := by rw [hp2.length_eq, hlen1]
      obtain ⟨a3, e1, hch, hp3, he1, he2⟩ := chain_struct s.length a2 0 middle (s.length - 1)
        (by omega) (by omega) (by omega) (by omega)
      have hlen3 : a3.length = s.length := by rw [hp3.length_eq, hlen2]
      have hsw1 : RangePerm 0 s.length a3 (iter_swap a3 middle (s.length - 1)) :=
        iter_swap_rangePerm a3 0 s.length _ _ (Nat.zero_le _) (by omega) (Nat.zero_le _)
          (by omega) (by omega)
      have hlen4 : (iter_swap a3 middle (s.length - 1)).length = s.length := by
        rw [length_iter_swap, hlen3]
      have hsw2 : RangePerm 0 s.length (iter_swap a3 middle (s.length - 1))
          (iter_swap (iter_swap a3 middle (s.length - 1)) e1 middle) :=
        iter_swap_rangePerm _ 0 s.length _ _ (Nat.zero_le _) (by omega) (Nat.zero_le _)
          (by omega) (by omega)
      have hlen5 : (iter_swap (iter_swap a3 middle (s.length - 1)) e1 middle).length
          = s.length := by rw [length_iter_swap, hlen4]
      obtain ⟨hmv, _, _⟩ := move_away_spec
        (iter_swap (iter_swap a3 middle (s.length - 1)) e1 middle) (e1 + 1) (middle + 1)
        s.length (by omega) (by omega) (by omega)
      have hlen6 := hmv.length_eq
      rw [their_accepted s hreq heq a2 middle hpart a3 e1 hch]
      obtain ⟨a7, e, hch2, hp7, he3, he4⟩ := chain_struct s.length
        (move_away (iter_swap (iter_swap a3 middle (s.length - 1)) e1 middle) (e1 + 1)
          (middle + 1) s.length) e1 (e1 + (s.length - middle)) 0 (by omega) (by omega)
        (by omega) (by omega)
      refine ⟨a7, e, hch2, ?_, by omega⟩
      exact (((((hp1.trans (hp2.mono (by omega) (by omega))).trans
        (hp3.mono (by omega) (by omega))).trans hsw1).trans hsw2).trans
        (hmv.mono (by omega) (le_refl _))).trans (hp7.mono (by omega) (by omega))

/-- Claim C10. Both orchestrators return on every input sequence; the sequence they leave has
the length of the input and is a permutation of it, and the returned position lies between
the begin and the end of the sequence. -/
theorem permutation_only (s : PointSequence) :
    (∃ a r, ConvexHullInPlaceQuickHull s = some (a, r) ∧ a.length = s.length ∧
      List.Perm a s ∧ 0 ≤ r ∧ r ≤ s.length) ∧
    (∃ a r, TheirConvexHullInPlaceQuickHull s = some (a, r) ∧ a.length = s.length ∧
      List.Perm a s ∧ 0 ≤ r ∧ r ≤ s.length) := by
  constructor
  · obtain ⟨a, r, h1, h2, h3⟩ := inPlace_struct s
    exact ⟨a, r, h1, h2.length_eq, h2.perm (le_refl _), Nat.zero_le _, h3⟩
  · obtain ⟨a, r, h1, h2, h3⟩ := their_struct s
    exact ⟨a, r, h1, h2.length_eq, h2.perm (le_refl _), Nat.zero_le _, h3⟩

end QuickHull

namespace QuickHull

open Orientation

/-! ### Orientation and the sign of the cross product -/

theorem getOrientation_eq_cross (p q r : Point) :
    getOrientation p q r =
      if cross p q r = 0 then COLLINEAR
      else if cross p q r < 0 then CLOCKWISE else COUNTERCLOCKWISE := rfl

theorem orientation_cw_iff (p q r : Point) :
    getOrientation p q r = CLOCKWISE ↔ cross p q r < 0 := by
  rw [getOrientation_eq_cross]
  split_ifs with h1 h2
  · simp [h1]
  · simp [h2]
  · simp [h2]

theorem orientation_ccw_iff (p q r : Point) :
    getOrientation p q r = COUNTERCLOCKWISE ↔ 0 < cross p q r := by
  rw [getOrientation_eq_cross]
  split_ifs with h1 h2
  · simp [h1]
  · simp only [reduceCtorEq, false_iff, not_lt]
    exact le_of_lt h2
  · simp only [true_iff]
    exact lt_of_le_of_ne (not_lt.mp h2) (Ne.symm h1)

theorem orientation_col_iff (p q r : Point) :
    getOrientation p q r = COLLINEAR ↔ cross p q r = 0 := by
  rw [getOrientation_eq_cross]
  split_ifs with h1 h2
  · simp [h1]
  · simp [h1]
  · simp [h1]

theorem orientation_ne_ccw_iff (p q r : Point) :
    getOrientation p q r ≠ COUNTERCLOCKWISE ↔ cross p q r ≤ 0 := by
  rw [Ne, orientation_ccw_iff, not_lt]

theorem orientation_ne_cw_iff (p q r : Point) :
    getOrientation p q r ≠ CLOCKWISE ↔ 0 ≤ cross p q r := by
  rw [Ne, orientation_cw_iff, not_lt]

theorem cross_swap_last (p q r : Point) : cross p r q = - cross p q r := by
  unfold cross; ring

theorem cross_rotate (p q r : Point) : cross q r p = cross p q r := by
  unfold cross; ring

theorem cross_swap_first (p q r : Point) : cross q p r = - cross p q r := by
  unfold cross; ring

/-! ### The squared distance to a segment -/

theorem sqDist_of_eq (r p : Point) :
    computeSquaredDistanceFromPointToSegment r p p
      = (r.x - p.x) * (r.x - p.x) + (r.y - p.y) * (r.y - p.y) := by
  simp [computeSquaredDistanceFromPointToSegment]

/-- The three cases of `computeSquaredDistanceFromPointToSegment` for a segment with two
different end points, with the division carried out: `d` is the dot product of `r - p` with
`q - p` and `L` the squared length of the segment. -/
theorem sqDist_cases (r p q : Point) (hL : 0 < (q.x - p.x) * (q.x - p.x) + (q.y - p.y) * (q.y - p.y)) :
    ((r.x - p.x) * (q.x - p.x) + (r.y - p.y) * (q.y - p.y) < 0 ∧
      computeSquaredDistanceFromPointToSegment r p q
        = (r.x - p.x) * (r.x - p.x) + (r.y - p.y) * (r.y - p.y)) ∨
    ((q.x - p.x) * (q.x - p.x) + (q.y - p.y) * (q.y - p.y)
        < (r.x - p.x) * (q.x - p.x) + (r.y - p.y) * (q.y - p.y) ∧
      computeSquaredDistanceFromPointToSegment r p q
        = (r.x - q.x) * (r.x - q.x) + (r.y - q.y) * (r.y - q.y)) ∨
    (0 ≤ (r.x - p.x) * (q.x - p.x) + (r.y - p.y) * (q.y - p.y) ∧
      (r.x - p.x) * (q.x - p.x) + (r.y - p.y) * (q.y - p.y)
        ≤ (q.x - p.x) * (q.x - p.x) + (q.y - p.y) * (q.y - p.y) ∧
      computeSquaredDistanceFromPointToSegment r p q
          * ((q.x - p.x) * (q.x - p.x) + (q.y - p.y) * (q.y - p.y))
        = cross p q r * cross p q r) := by
  have hne : ¬ (q.x - p.x = 0 ∧ q.y - p.y = 0) := by
    rintro ⟨h1, h2⟩
    rw [h1, h2] at hL
    simp at hL
  unfold computeSquaredDistanceFromPointToSegment
  simp only [hne, if_false]
  by_cases h1 : ((r.x - p.x) * (q.x - p.x) + (r.y - p.y) * (q.y - p.y)) /
      ((q.x - p.x) * (q.x - p.x) + (q.y - p.y) * (q.y - p.y)) < 0
  · left
    rw [if_pos h1]
    refine ⟨?_, rfl⟩
    rw [div_lt_iff₀ hL] at h1
    linarith
  · rw [if_neg h1]
    by_cases h2 : ((r.x - p.x) * (q.x - p.x) + (r.y - p.y) * (q.y - p.y)) /
        ((q.x - p.x) * (q.x - p.x) + (q.y - p.y) * (q.y - p.y)) > 1
    · right; left
      rw [if_pos h2]
      refine ⟨?_, rfl⟩
      rw [gt_iff_lt, lt_div_iff₀ hL] at h2
      linarith
    · right; right
      rw [if_neg h2]
      have h1' := not_lt.mp h1
      have h2' := not_lt.mp h2
      rw [le_div_iff₀ hL] at h1'
      rw [div_le_iff₀ hL] at h2'
      refine ⟨by linarith, by linarith, ?_⟩
      unfold cross
      field_simp
      ring

theorem segLen_pos_of_ne (p q : Point) (h : p ≠ q) :
    0 < (q.x - p.x) * (q.x - p.x) + (q.y - p.y) * (q.y - p.y) := by
  by_contra hc
  have h0 : (q.x - p.x) * (q.x - p.x) + (q.y - p.y) * (q.y - p.y) = 0 :=
    le_antisymm (not_lt.mp hc) (by nlinarith [sq_nonneg (q.x - p.x), sq_nonneg (q.y - p.y)])
  have hx : q.x - p.x = 0 := by nlinarith [sq_nonneg (q.x - p.x), sq_nonneg (q.y - p.y)]
  have hy : q.y - p.y = 0 := by nlinarith [sq_nonneg (q.x - p.x), sq_nonneg (q.y - p.y)]
  apply h
  cases p; cases q
  simp only [Point.mk.injEq]
  simp only at hx hy
  constructor <;> linarith

/-- A point at squared distance 0 from the segment lies on the segment. -/
theorem onSegment_of_sqDist_zero (r p q : Point)
    (h : computeSquaredDistanceFromPointToSegment r p q = 0) : OnClosedSegment p q r := by
  by_cases hpq : p = q
  · subst hpq
    rw [sqDist_of_eq] at h
    have hx : r.x - p.x = 0 := by nlinarith [sq_nonneg (r.x - p.x), sq_nonneg (r.y - p.y)]
    have hy : r.y - p.y = 0 := by nlinarith [sq_nonneg (r.x - p.x), sq_nonneg (r.y - p.y)]
    exact ⟨0, le_refl _, zero_le_one, by linarith, by linarith⟩
  · have hL := segLen_pos_of_ne p q hpq
    rcases sqDist_cases r p q hL with ⟨_, h2⟩ | ⟨_, h2⟩ | ⟨h1, h2, h3⟩
    · rw [h] at h2
      have hx : r.x - p.x = 0 := by nlinarith [sq_nonneg (r.x - p.x), sq_nonneg (r.y - p.y)]
      have hy : r.y - p.y = 0 := by nlinarith [sq_nonneg (r.x - p.x), sq_nonneg (r.y - p.y)]
      exact ⟨0, le_refl _, zero_le_one, by linarith, by linarith⟩
    · rw [h] at h2
      have hx : r.x - q.x = 0 := by nlinarith [sq_nonneg (r.x - q.x), sq_nonneg (r.y - q.y)]
      have hy : r.y - q.y = 0 := by nlinarith [sq_nonneg (r.x - q.x), sq_nonneg (r.y - q.y)]
      exact ⟨1, zero_le_one, le_refl _, by linarith, by linarith⟩
    · rw [h, zero_mul] at h3
      have hc : cross p q r = 0 := by
        rcases mul_self_eq_zero.mp h3.symm with h4
        exact h4
      unfold cross at hc
      refine ⟨((r.x - p.x) * (q.x - p.x) + (r.y - p.y) * (q.y - p.y)) /
        ((q.x - p.x) * (q.x - p.x) + (q.y - p.y) * (q.y - p.y)), ?_, ?_, ?_, ?_⟩
      · exact div_nonneg h1 (le_of_lt hL)
      · rw [div_le_one hL]; exact h2
      · field_simp
        linear_combination (-(q.y - p.y)) * hc
      · field_simp
        linear_combination (q.x - p.x) * hc

/-- A point of the segment has squared distance 0 from it. -/
theorem sqDist_zero_of_onSegment (r p q : Point) (h : OnClosedSegment p q r) :
    computeSquaredDistanceFromPointToSegment r p q = 0 := by
  obtain ⟨t, ht0, ht1, hx, hy⟩ := h
  by_cases hpq : p = q
  · subst hpq
    rw [sqDist_of_eq]
    have e1 : r.x - p.x = 0 := by rw [hx]; ring
    have e2 : r.y - p.y = 0 := by rw [hy]; ring
    rw [e1, e2]; ring
  · have hL := segLen_pos_of_ne p q hpq
    have hd : (r.x - p.x) * (q.x - p.x) + (r.y - p.y) * (q.y - p.y)
        = t * ((q.x - p.x) * (q.x - p.x) + (q.y - p.y) * (q.y - p.y)) := by
      rw [hx, hy]; ring
    have hcr : cross p q r = 0 := by
      unfold cross; rw [hx, hy]; ring
    rcases sqDist_cases r p q hL with ⟨h1, _⟩ | ⟨h1, _⟩ | ⟨_, _, h3⟩
    · rw [hd] at h1
      nlinarith
    · rw [hd] at h1
      nlinarith
    · rw [hcr, mul_zero] at h3
      rcases mul_eq_zero.mp h3 with h4 | h4
      · exact h4
      · exact absurd h4 (ne_of_gt hL)

end QuickHull

namespace QuickHull

open Orientation

/-- The squared distance does not depend on the order of the end points of the segment. -/
theorem sqDist_symm (r p q : Point) :
    computeSquaredDistanceFromPointToSegment r p q
      = computeSquaredDistanceFromPointToSegment r q p := by
  by_cases hpq : p = q
  · subst hpq; rfl
  · have hL := segLen_pos_of_ne p q hpq
    have hL' := segLen_pos_of_ne q p (Ne.symm hpq)
    have hLL : (p.x - q.x) * (p.x - q.x) + (p.y - q.y) * (p.y - q.y)
        = (q.x - p.x) * (q.x - p.x) + (q.y - p.y) * (q.y - p.y) := by ring
    have hd : (r.x - q.x) * (p.x - q.x) + (r.y - q.y) * (p.y - q.y)
        = ((q.x - p.x) * (q.x - p.x) + (q.y - p.y) * (q.y - p.y))
          - ((r.x - p.x) * (q.x - p.x) + (r.y - p.y) * (q.y - p.y)) := by ring
    rcases sqDist_cases r p q hL with ⟨h1, e1⟩ | ⟨h1, e1⟩ | ⟨h1, h1', e1⟩ <;>
      rcases sqDist_cases r q p hL' with ⟨h2, e2⟩ | ⟨h2, e2⟩ | ⟨h2, h2', e2⟩
    · exfalso; rw [hd] at h2; linarith
    · rw [e1, e2]
    · exfalso; rw [hd, hLL] at h2'; linarith
    · rw [e1, e2]
    · exfalso; rw [hd, hLL] at h2; linarith
    · exfalso; rw [hd] at h2; linarith
    · exfalso; rw [hd] at h2; linarith
    · exfalso; rw [hd, hLL] at h2; linarith
    · rw [hLL] at e2
      have e3 : cross q p r * cross q p r = cross p q r * cross p q r := by
        rw [cross_swap_first]; ring
      rw [e3, ← e1] at e2
      exact (mul_right_cancel₀ (ne_of_gt hL) e2).symm

/-- The algebra behind `sqDist_lt_of_beyond`: `u` is the vector of the segment, `w` the vector
from `p` to `F`, and `DF`, `Dc` are the squared distances of `F` and of `p + μ w`, each
given by one of the three cases of the distance function. -/
theorem beyond_algebra (ux uy wx wy μ DF Dc : ℚ) (hμ : 1 < μ)
    (hL : 0 < ux * ux + uy * uy) (hDF : 0 < DF)
    (hF : (wx * ux + wy * uy < 0 ∧ DF = wx * wx + wy * wy) ∨
      (ux * ux + uy * uy < wx * ux + wy * uy ∧
        DF = (wx - ux) * (wx - ux) + (wy - uy) * (wy - uy)) ∨
      (0 ≤ wx * ux + wy * uy ∧ wx * ux + wy * uy ≤ ux * ux + uy * uy ∧
        DF * (ux * ux + uy * uy) = (ux * wy - uy * wx) * (ux * wy - uy * wx)))
    (hc : (μ * (wx * ux + wy * uy) < 0 ∧ Dc = μ * wx * (μ * wx) + μ * wy * (μ * wy)) ∨
      (ux * ux + uy * uy < μ * (wx * ux + wy * uy) ∧
        Dc = (μ * wx - ux) * (μ * wx - ux) + (μ * wy - uy) * (μ * wy - uy)) ∨
      (0 ≤ μ * (wx * ux + wy * uy) ∧ μ * (wx * ux + wy * uy) ≤ ux * ux + uy * uy ∧
        Dc * (ux * ux + uy * uy)
          = μ * (ux * wy - uy * wx) * (μ * (ux * wy - uy * wx)))) :
    DF < Dc := by
  have hμ0 : 0 < μ := by linarith
  have hμ1 : 0 < μ - 1 := by linarith
  have hμ2 : 0 < μ * μ - 1 := by nlinarith
  rcases hF with ⟨h1, e1⟩ | ⟨h1, e1⟩ | ⟨h1, h1', e1⟩
  · have hneg : μ * (wx * ux + wy * uy) < 0 := mul_neg_of_pos_of_neg hμ0 h1
    rcases hc with ⟨h2, e2⟩ | ⟨h2, e2⟩ | ⟨h2, h2', e2⟩
    · have e : Dc - DF = (μ * μ - 1) * DF := by rw [e2, e1]; ring
      have := mul_pos hμ2 hDF
      linarith
    · exfalso; linarith
    · exfalso; linarith
  · have hdpos : 0 < wx * ux + wy * uy := by linarith
    have hbig : ux * ux + uy * uy < μ * (wx * ux + wy * uy) := by
      have := mul_pos hμ1 hdpos
      linarith
    have hcs : (wx * ux + wy * uy) * (wx * ux + wy * uy)
        ≤ (wx * wx + wy * wy) * (ux * ux + uy * uy) := by
      have e : (wx * wx + wy * wy) * (ux * ux + uy * uy)
          - (wx * ux + wy * uy) * (wx * ux + wy * uy)
          = (wx * uy - wy * ux) * (wx * uy - wy * ux) := by ring
      have := mul_self_nonneg (wx * uy - wy * ux)
      linarith
    have hwd : wx * ux + wy * uy < wx * wx + wy * wy := by
      by_contra hcon
      have hcon' := not_lt.mp hcon
      have h2 : (wx * wx + wy * wy) * (ux * ux + uy * uy)
          ≤ (wx * ux + wy * uy) * (ux * ux + uy * uy) :=
        mul_le_mul_of_nonneg_right hcon' (le_of_lt hL)
      have h3 : (wx * ux + wy * uy) * (ux * ux + uy * uy)
          < (wx * ux + wy * uy) * (wx * ux + wy * uy) :=
        mul_lt_mul_of_pos_left h1 hdpos
      linarith
    rcases hc with ⟨h2, e2⟩ | ⟨h2, e2⟩ | ⟨h2, h2', e2⟩
    · exfalso; linarith
    · have key : Dc - DF = (μ - 1) * ((μ + 1) * (wx * wx + wy * wy)
          - 2 * (wx * ux + wy * uy)) := by rw [e2, e1]; ring
      have hW : 0 < wx * wx + wy * wy := by linarith
      have hpos : 0 < (μ + 1) * (wx * wx + wy * wy) - 2 * (wx * ux + wy * uy) := by
        have := mul_pos hμ1 hW
        linarith
      have := mul_pos hμ1 hpos
      linarith
    · exfalso; linarith
  · have hcr : 0 < (ux * wy - uy * wx) * (ux * wy - uy * wx) := by
      rw [← e1]; exact mul_pos hDF hL
    have hgain : 0 < (μ * μ - 1) * ((ux * wy - uy * wx) * (ux * wy - uy * wx)) :=
      mul_pos hμ2 hcr
    have hnn : 0 ≤ μ * (wx * ux + wy * uy) := mul_nonneg (le_of_lt hμ0) h1
    rcases hc with ⟨h2, e2⟩ | ⟨h2, e2⟩ | ⟨h2, h2', e2⟩
    · exfalso; linarith
    · have e : Dc * (ux * ux + uy * uy)
          - μ * (ux * wy - uy * wx) * (μ * (ux * wy - uy * wx))
          = ((μ * wx - ux) * ux + (μ * wy - uy) * uy) *
            ((μ * wx - ux) * ux + (μ * wy - uy) * uy) := by rw [e2]; ring
      have hsq := mul_self_nonneg ((μ * wx - ux) * ux + (μ * wy - uy) * uy)
      have h3 : DF * (ux * ux + uy * uy) < Dc * (ux * ux + uy * uy) := by
        rw [e1]
        have e' : μ * (ux * wy - uy * wx) * (μ * (ux * wy - uy * wx))
            - (ux * wy - uy * wx) * (ux * wy - uy * wx)
            = (μ * μ - 1) * ((ux * wy - uy * wx) * (ux * wy - uy * wx)) := by ring
        linarith
      exact lt_of_mul_lt_mul_right h3 (le_of_lt hL)
    · have h3 : DF * (ux * ux + uy * uy) < Dc * (ux * ux + uy * uy) := by
        rw [e1, e2]
        have e' : μ * (ux * wy - uy * wx) * (μ * (ux * wy - uy * wx))
            - (ux * wy - uy * wx) * (ux * wy - uy * wx)
            = (μ * μ - 1) * ((ux * wy - uy * wx) * (ux * wy - uy * wx)) := by ring
        linarith
      exact lt_of_mul_lt_mul_right h3 (le_of_lt hL)

/-- A point `c` behind `F` on the ray from the end point `p` through `F` is further from the
segment than `F`, when `F` is not on the segment. -/
theorem sqDist_lt_of_beyond (p q F c : Point) (μ : Number) (hμ : 1 < μ)
    (hcx : c.x = p.x + μ * (F.x - p.x)) (hcy : c.y = p.y + μ * (F.y - p.y))
    (hD : 0 < computeSquaredDistanceFromPointToSegment F p q) :
    computeSquaredDistanceFromPointToSegment F p q
      < computeSquaredDistanceFromPointToSegment c p q := by
  by_cases hpq : p = q
  · subst hpq
    rw [sqDist_of_eq] at hD
    rw [sqDist_of_eq, sqDist_of_eq, hcx, hcy]
    have hμ2 : 0 < μ * μ - 1 := by nlinarith
    have e : (p.x + μ * (F.x - p.x) - p.x) * (p.x + μ * (F.x - p.x) - p.x)
        + (p.y + μ * (F.y - p.y) - p.y) * (p.y + μ * (F.y - p.y) - p.y)
        - ((F.x - p.x) * (F.x - p.x) + (F.y - p.y) * (F.y - p.y))
        = (μ * μ - 1) * ((F.x - p.x) * (F.x - p.x) + (F.y - p.y) * (F.y - p.y)) := by ring
    have := mul_pos hμ2 hD
    linarith
  · have hL := segLen_pos_of_ne p q hpq
    have e1 : c.x - p.x = μ * (F.x - p.x) := by rw [hcx]; ring
    have e2 : c.y - p.y = μ * (F.y - p.y) := by rw [hcy]; ring
    have e3 : c.x - q.x = μ * (F.x - p.x) - (q.x - p.x) := by rw [hcx]; ring
    have e4 : c.y - q.y = μ * (F.y - p.y) - (q.y - p.y) := by rw [hcy]; ring
    have e5 : F.x - q.x = (F.x - p.x) - (q.x - p.x) := by ring
    have e6 : F.y - q.y = (F.y - p.y) - (q.y - p.y) := by ring
    have hFc := sqDist_cases F p q hL
    have hcc := sqDist_cases c p q hL
    unfold cross at hFc hcc
    rw [e1, e2, e3, e4] at hcc
    rw [e5, e6] at hFc
    apply beyond_algebra (q.x - p.x) (q.y - p.y) (F.x - p.x) (F.y - p.y) μ _ _ hμ hL hD hFc
    rcases hcc with ⟨h1, h2⟩ | ⟨h1, h2⟩ | ⟨h1, h1', h2⟩
    · left
      exact ⟨by linarith, h2⟩
    · right; left
      exact ⟨by linarith, h2⟩
    · right; right
      exact ⟨by linarith, by linarith, by rw [h2]; ring⟩

theorem sqDist_pos_of_cross_ne (F p q : Point) (h : cross p F q ≠ 0) :
    0 < computeSquaredDistanceFromPointToSegment F p q := by
  rcases lt_or_eq_of_le (sqDist_nonneg F p q) with h1 | h1
  · exact h1
  · exfalso
    obtain ⟨t, _, _, hx, hy⟩ := onSegment_of_sqDist_zero F p q h1.symm
    apply h
    unfold cross
    rw [hx, hy]; ring

/-- A point of the line through `p` and `F`, written as `p + μ (F - p)`. -/
theorem exists_param_of_collinear (p F c : Point) (hpF : p ≠ F) (hc : cross p c F = 0) :
    ∃ μ : Number, c.x = p.x + μ * (F.x - p.x) ∧ c.y = p.y + μ * (F.y - p.y) := by
  have hL := segLen_pos_of_ne p F hpF
  unfold cross at hc
  refine ⟨((c.x - p.x) * (F.x - p.x) + (c.y - p.y) * (F.y - p.y)) /
    ((F.x - p.x) * (F.x - p.x) + (F.y - p.y) * (F.y - p.y)), ?_, ?_⟩
  · field_simp
    linear_combination (F.y - p.y) * hc
  · field_simp
    linear_combination (-(F.x - p.x)) * hc

/-- In a call of `chain` with pivot `F`, a point of the range that is collinear with the pole
`p` and `F` lies on the segment from `p` to `F`. -/
theorem onSegment_pole_pivot (p q F c : Point) (hF : cross p F q < 0) (hc1 : cross p c q ≤ 0)
    (hD : computeSquaredDistanceFromPointToSegment c p q
      ≤ computeSquaredDistanceFromPointToSegment F p q)
    (hcol : cross p c F = 0) : OnClosedSegment p F c := by
  have hpF : p ≠ F := by
    intro h
    subst h
    unfold cross at hF
    simp at hF
  obtain ⟨μ, hx, hy⟩ := exists_param_of_collinear p F c hpF hcol
  have hcr : cross p c q = μ * cross p F q := by
    unfold cross; rw [hx, hy]; ring
  have hμ0 : 0 ≤ μ := by
    by_contra hneg
    have : μ < 0 := not_le.mp hneg
    rw [hcr] at hc1
    nlinarith
  have hμ1 : μ ≤ 1 := by
    by_contra hgt
    have h1 : 1 < μ := not_le.mp hgt
    have := sqDist_lt_of_beyond p q F c μ h1 hx hy (sqDist_pos_of_cross_ne F p q (ne_of_lt hF))
    linarith
  exact ⟨μ, hμ0, hμ1, hx, hy⟩

/-- In a call of `chain` with pivot `F`, a point of the range that is collinear with `F` and
the antipole `q` lies on the segment from `F` to `q`. -/
theorem onSegment_pivot_antipole (p q F c : Point) (hF : cross p F q < 0)
    (hc1 : cross p c q ≤ 0)
    (hD : computeSquaredDistanceFromPointToSegment c p q
      ≤ computeSquaredDistanceFromPointToSegment F p q)
    (hcol : cross F c q = 0) : OnClosedSegment F q c := by
  have hqF : q ≠ F := by
    intro h
    subst h
    unfold cross at hF
    simp at hF
    linarith
  have hcol' : cross q c F = 0 := by
    have : cross q c F = - cross F c q := by unfold cross; ring
    rw [this, hcol]; ring
  obtain ⟨μ, hx, hy⟩ := exists_param_of_collinear q F c hqF hcol'
  have hcr : cross p c q = μ * cross p F q := by
    unfold cross; rw [hx, hy]; ring
  have hμ0 : 0 ≤ μ := by
    by_contra hneg
    have : μ < 0 := not_le.mp hneg
    rw [hcr] at hc1
    nlinarith
  have hμ1 : μ ≤ 1 := by
    by_contra hgt
    have h1 : 1 < μ := not_le.mp hgt
    have hpos : 0 < computeSquaredDistanceFromPointToSegment F q p := by
      rw [← sqDist_symm]
      exact sqDist_pos_of_cross_ne F p q (ne_of_lt hF)
    have := sqDist_lt_of_beyond q p F c μ h1 hx hy hpos
    rw [← sqDist_symm F p q, ← sqDist_symm c p q] at this
    linarith
  exact ⟨1 - μ, by linarith, by linarith, by rw [hx]; ring, by rw [hy]; ring⟩

/-! ### Membership in a convex hull -/

theorem toVec_mem_rangeSet (a : PointSequence) (lo hi i : Nat) (h1 : lo ≤ i) (h2 : i < hi) :
    (deref a i).toVec ∈ rangeSet a lo hi := ⟨i, h1, h2, rfl⟩

theorem hull_of_three (S : Set (ℚ × ℚ)) (P F Q : ℚ × ℚ) (hP : P ∈ convexHull ℚ S)
    (hF : F ∈ convexHull ℚ S) (hQ : Q ∈ convexHull ℚ S) (u v w : ℚ) (hu : 0 ≤ u)
    (hv : 0 ≤ v) (hw : 0 ≤ w) (huvw : u + v + w = 1) :
    u • P + v • F + w • Q ∈ convexHull ℚ S := by
  have h := (convex_convexHull ℚ S).sum_mem (t := Finset.univ) (w := ![u, v, w])
    (z := ![P, F, Q])
    (by
      intro i _
      fin_cases i <;> simp [hu, hv, hw])
    (by simp [Fin.sum_univ_three, huvw])
    (by
      intro i _
      fin_cases i <;> simp [hP, hF, hQ])
  simpa [Fin.sum_univ_three] using h

/-- A point of the closed segment between two points of a convex hull lies in the hull. -/
theorem hull_of_onSegment (S : Set (ℚ × ℚ)) (p q c : Point) (hp : p.toVec ∈ convexHull ℚ S)
    (hq : q.toVec ∈ convexHull ℚ S) (h : OnClosedSegment p q c) :
    c.toVec ∈ convexHull ℚ S := by
  obtain ⟨t, ht0, ht1, hx, hy⟩ := h
  have h3 := hull_of_three S p.toVec q.toVec q.toVec hp hq hq (1 - t) t 0 (by linarith) ht0
    (le_refl _) (by ring)
  have e : c.toVec = (1 - t) • p.toVec + t • q.toVec + (0 : ℚ) • q.toVec := by
    unfold Point.toVec
    ext
    · simp only [Prod.mk_add_mk, Prod.smul_mk, smul_eq_mul]
      rw [hx]; ring
    · simp only [Prod.mk_add_mk, Prod.smul_mk, smul_eq_mul]
      rw [hy]; ring
  rw [e]
  exact h3

/-- A point that `chain` eliminates lies in the triangle of pole, pivot and antipole. -/
theorem hull_of_triangle (S : Set (ℚ × ℚ)) (p F q c : Point) (hp : p.toVec ∈ convexHull ℚ S)
    (hF : F.toVec ∈ convexHull ℚ S) (hq : q.toVec ∈ convexHull ℚ S)
    (hA : cross p F q < 0) (h1 : cross p c q ≤ 0) (h2 : 0 ≤ cross p c F)
    (h3 : 0 ≤ cross F c q) : c.toVec ∈ convexHull ℚ S := by
  have hA' : cross p F q ≠ 0 := ne_of_lt hA
  have hsum : cross F c q / (- cross p F q) + cross p c q / cross p F q
      + cross p c F / (- cross p F q) = 1 := by
    have e : cross F c q / (- cross p F q) + cross p c q / cross p F q
        + cross p c F / (- cross p F q)
        = (- cross F c q + cross p c q - cross p c F) / cross p F q := by
      rw [div_neg, div_neg]
      ring
    rw [e, div_eq_one_iff_eq hA']
    unfold cross
    ring
  have h := hull_of_three S p.toVec F.toVec q.toVec hp hF hq
    (cross F c q / (- cross p F q)) (cross p c q / cross p F q)
    (cross p c F / (- cross p F q))
    (div_nonneg h3 (by linarith)) (div_nonneg_of_nonpos h1 (le_of_lt hA))
    (div_nonneg h2 (by linarith)) hsum
  have ex : c.x = cross F c q / (- cross p F q) * p.x + cross p c q / cross p F q * F.x
      + cross p c F / (- cross p F q) * q.x := by
    have e : cross F c q / (- cross p F q) * p.x + cross p c q / cross p F q * F.x
        + cross p c F / (- cross p F q) * q.x
        = (- cross F c q * p.x + cross p c q * F.x - cross p c F * q.x) / cross p F q := by
      rw [div_neg, div_neg]
      ring
    rw [e, eq_div_iff hA']
    unfold cross
    ring
  have ey : c.y = cross F c q / (- cross p F q) * p.y + cross p c q / cross p F q * F.y
      + cross p c F / (- cross p F q) * q.y := by
    have e : cross F c q / (- cross p F q) * p.y + cross p c q / cross p F q * F.y
        + cross p c F / (- cross p F q) * q.y
        = (- cross F c q * p.y + cross p c q * F.y - cross p c F * q.y) / cross p F q := by
      rw [div_neg, div_neg]
      ring
    rw [e, eq_div_iff hA']
    unfold cross
    ring
  have e : c.toVec = (cross F c q / (- cross p F q)) • p.toVec
      + (cross p c q / cross p F q) • F.toVec + (cross p c F / (- cross p F q)) • q.toVec := by
    unfold Point.toVec
    ext
    · simp only [Prod.mk_add_mk, Prod.smul_mk, smul_eq_mul]
      exact ex
    · simp only [Prod.mk_add_mk, Prod.smul_mk, smul_eq_mul]
      exact ey
  rw [e]
  exact h

end QuickHull

namespace QuickHull

open Orientation

/-! ### The squared distance as a minimum over the segment -/

/-- No point of the segment is closer to `r` than the squared distance says. -/
theorem sqDist_le_point (r p q : Point) (τ : Number) (h0 : 0 ≤ τ) (h1 : τ ≤ 1) :
    computeSquaredDistanceFromPointToSegment r p q ≤
      (r.x - (p.x + τ * (q.x - p.x))) * (r.x - (p.x + τ * (q.x - p.x)))
        + (r.y - (p.y + τ * (q.y - p.y))) * (r.y - (p.y + τ * (q.y - p.y))) := by
  by_cases hpq : p = q
  · subst hpq
    rw [sqDist_of_eq]
    have e1 : p.x + τ * (p.x - p.x) = p.x := by ring
    have e2 : p.y + τ * (p.y - p.y) = p.y := by ring
    rw [e1, e2]
  · have hL := segLen_pos_of_ne p q hpq
    have key : (r.x - (p.x + τ * (q.x - p.x))) * (r.x - (p.x + τ * (q.x - p.x)))
        + (r.y - (p.y + τ * (q.y - p.y))) * (r.y - (p.y + τ * (q.y - p.y)))
        = ((r.x - p.x) * (r.x - p.x) + (r.y - p.y) * (r.y - p.y))
          - 2 * τ * ((r.x - p.x) * (q.x - p.x) + (r.y - p.y) * (q.y - p.y))
          + τ * τ * ((q.x - p.x) * (q.x - p.x) + (q.y - p.y) * (q.y - p.y)) := by ring
    rw [key]
    rcases sqDist_cases r p q hL with ⟨c1, e⟩ | ⟨c1, e⟩ | ⟨c1, c2, e⟩
    · rw [e]
      have t1 : 0 ≤ τ * (-((r.x - p.x) * (q.x - p.x) + (r.y - p.y) * (q.y - p.y))) :=
        mul_nonneg h0 (by linarith)
      have t2 : 0 ≤ τ * τ * ((q.x - p.x) * (q.x - p.x) + (q.y - p.y) * (q.y - p.y)) :=
        mul_nonneg (mul_nonneg h0 h0) (le_of_lt hL)
      linarith
    · rw [e]
      have e' : (r.x - q.x) * (r.x - q.x) + (r.y - q.y) * (r.y - q.y)
          = ((r.x - p.x) * (r.x - p.x) + (r.y - p.y) * (r.y - p.y))
            - 2 * ((r.x - p.x) * (q.x - p.x) + (r.y - p.y) * (q.y - p.y))
            + ((q.x - p.x) * (q.x - p.x) + (q.y - p.y) * (q.y - p.y)) := by ring
      rw [e']
      have t1 : 0 ≤ (1 - τ) * (2 * ((r.x - p.x) * (q.x - p.x) + (r.y - p.y) * (q.y - p.y))
          - (1 + τ) * ((q.x - p.x) * (q.x - p.x) + (q.y - p.y) * (q.y - p.y))) := by
        apply mul_nonneg (by linarith)
        have : τ * ((q.x - p.x) * (q.x - p.x) + (q.y - p.y) * (q.y - p.y))
            ≤ 1 * ((q.x - p.x) * (q.x - p.x) + (q.y - p.y) * (q.y - p.y)) :=
          mul_le_mul_of_nonneg_right h1 (le_of_lt hL)
        linarith
      linarith
    · have hlag : cross p q r * cross p q r ≤
          (((r.x - p.x) * (r.x - p.x) + (r.y - p.y) * (r.y - p.y))
            - 2 * τ * ((r.x - p.x) * (q.x - p.x) + (r.y - p.y) * (q.y - p.y))
            + τ * τ * ((q.x - p.x) * (q.x - p.x) + (q.y - p.y) * (q.y - p.y)))
          * ((q.x - p.x) * (q.x - p.x) + (q.y - p.y) * (q.y - p.y)) := by
        have e' : (((r.x - p.x) * (r.x - p.x) + (r.y - p.y) * (r.y - p.y))
            - 2 * τ * ((r.x - p.x) * (q.x - p.x) + (r.y - p.y) * (q.y - p.y))
            + τ * τ * ((q.x - p.x) * (q.x - p.x) + (q.y - p.y) * (q.y - p.y)))
            * ((q.x - p.x) * (q.x - p.x) + (q.y - p.y) * (q.y - p.y))
            - cross p q r * cross p q r
            = (((r.x - p.x) * (q.x - p.x) + (r.y - p.y) * (q.y - p.y))
                - τ * ((q.x - p.x) * (q.x - p.x) + (q.y - p.y) * (q.y - p.y)))
              * (((r.x - p.x) * (q.x - p.x) + (r.y - p.y) * (q.y - p.y))
                - τ * ((q.x - p.x) * (q.x - p.x) + (q.y - p.y) * (q.y - p.y))) := by
          unfold cross; ring
        have := mul_self_nonneg (((r.x - p.x) * (q.x - p.x) + (r.y - p.y) * (q.y - p.y))
                - τ * ((q.x - p.x) * (q.x - p.x) + (q.y - p.y) * (q.y - p.y)))
        linarith
      rw [← e] at hlag
      exact le_of_mul_le_mul_right hlag hL

/-- Some point of the segment is at the squared distance from `r`. -/
theorem sqDist_attained (r p q : Point) :
    ∃ τ : Number, 0 ≤ τ ∧ τ ≤ 1 ∧ computeSquaredDistanceFromPointToSegment r p q =
      (r.x - (p.x + τ * (q.x - p.x))) * (r.x - (p.x + τ * (q.x - p.x)))
        + (r.y - (p.y + τ * (q.y - p.y))) * (r.y - (p.y + τ * (q.y - p.y))) := by
  by_cases hpq : p = q
  · subst hpq
    refine ⟨0, le_refl _, zero_le_one, ?_⟩
    rw [sqDist_of_eq]; ring
  · have hL := segLen_pos_of_ne p q hpq
    rcases sqDist_cases r p q hL with ⟨c1, e⟩ | ⟨c1, e⟩ | ⟨c1, c2, e⟩
    · exact ⟨0, le_refl _, zero_le_one, by rw [e]; ring⟩
    · exact ⟨1, zero_le_one, le_refl _, by rw [e]; ring⟩
    · refine ⟨((r.x - p.x) * (q.x - p.x) + (r.y - p.y) * (q.y - p.y)) /
        ((q.x - p.x) * (q.x - p.x) + (q.y - p.y) * (q.y - p.y)),
        div_nonneg c1 (le_of_lt hL), (div_le_one hL).mpr c2, ?_⟩
      have hLne := ne_of_gt hL
      apply mul_right_cancel₀ hLne
      rw [e]
      unfold cross
      field_simp
      ring

/-- A point `c` behind `F` on the ray from a point of the segment through `F` is at least
`μ` times as far from the segment as `F`, in squares. -/
theorem sqDist_scaling (p q F c : Point) (σ μ : Number) (hσ0 : 0 ≤ σ) (hσ1 : σ ≤ 1)
    (hμ : 1 ≤ μ)
    (hcx : c.x = (p.x + σ * (q.x - p.x)) + μ * (F.x - (p.x + σ * (q.x - p.x))))
    (hcy : c.y = (p.y + σ * (q.y - p.y)) + μ * (F.y - (p.y + σ * (q.y - p.y)))) :
    μ * μ * computeSquaredDistanceFromPointToSegment F p q
      ≤ computeSquaredDistanceFromPointToSegment c p q := by
  obtain ⟨τ, hτ0, hτ1, hτ⟩ := sqDist_attained c p q
  have hμ0 : 0 < μ := by linarith
  have hle := sqDist_le_point F p q (σ + (τ - σ) / μ)
    (by
      have e : σ + (τ - σ) / μ = (σ * (μ - 1) + τ) / μ := by field_simp; ring
      rw [e]
      exact div_nonneg (by nlinarith) (le_of_lt hμ0))
    (by
      have e : σ + (τ - σ) / μ = (σ * (μ - 1) + τ) / μ := by field_simp; ring
      rw [e, div_le_one hμ0]
      nlinarith)
  have hFx : F.x - (p.x + (σ + (τ - σ) / μ) * (q.x - p.x))
      = (c.x - (p.x + τ * (q.x - p.x))) / μ := by
    rw [hcx]; field_simp; ring
  have hFy : F.y - (p.y + (σ + (τ - σ) / μ) * (q.y - p.y))
      = (c.y - (p.y + τ * (q.y - p.y))) / μ := by
    rw [hcy]; field_simp; ring
  rw [hFx, hFy] at hle
  rw [hτ]
  have e : (c.x - (p.x + τ * (q.x - p.x))) / μ * ((c.x - (p.x + τ * (q.x - p.x))) / μ)
      + (c.y - (p.y + τ * (q.y - p.y))) / μ * ((c.y - (p.y + τ * (q.y - p.y))) / μ)
      = ((c.x - (p.x + τ * (q.x - p.x))) * (c.x - (p.x + τ * (q.x - p.x)))
        + (c.y - (p.y + τ * (q.y - p.y))) * (c.y - (p.y + τ * (q.y - p.y)))) / (μ * μ) := by
    field_simp
  rw [e, le_div_iff₀ (mul_pos hμ0 hμ0)] at hle
  linarith

/-- The coordinates of `c` seen from the furthest point `F`: `c - F` is a combination of
`F - P` and `F - R` whose coefficients are quotients of cross products. -/
theorem wedge_coordinates (P R F c : Point) (hK : cross P R F ≠ 0) :
    c.x = F.x + cross F R c / cross P R F * (F.x - P.x)
        + cross P F c / cross P R F * (F.x - R.x) ∧
    c.y = F.y + cross F R c / cross P R F * (F.y - P.y)
        + cross P F c / cross P R F * (F.y - R.y) := by
  have ex : cross P R F * (c.x - F.x)
      = cross F R c * (F.x - P.x) + cross P F c * (F.x - R.x) := by
    unfold cross; ring
  have ey : cross P R F * (c.y - F.y)
      = cross F R c * (F.y - P.y) + cross P F c * (F.y - R.y) := by
    unfold cross; ring
  constructor
  · have e : cross F R c / cross P R F * (F.x - P.x) + cross P F c / cross P R F * (F.x - R.x)
        = (cross F R c * (F.x - P.x) + cross P F c * (F.x - R.x)) / cross P R F := by ring
    rw [add_assoc, e, ← ex, mul_div_cancel_left₀ _ hK]
    ring
  · have e : cross F R c / cross P R F * (F.y - P.y) + cross P F c / cross P R F * (F.y - R.y)
        = (cross F R c * (F.y - P.y) + cross P F c * (F.y - R.y)) / cross P R F := by ring
    rw [add_assoc, e, ← ey, mul_div_cancel_left₀ _ hK]
    ring

/-- The wedge behind the furthest point is empty: a point strictly right of (P, F) and on or
right of (F, R), where F lies strictly right of (P, R), is further from the segment than F. -/
theorem sqDist_lt_of_wedge (P R F c : Point) (hK : cross P R F < 0) (h1 : cross P F c < 0)
    (h2 : cross F R c ≤ 0) :
    computeSquaredDistanceFromPointToSegment F P R
      < computeSquaredDistanceFromPointToSegment c P R := by
  have hKne : cross P R F ≠ 0 := ne_of_lt hK
  obtain ⟨hx, hy⟩ := wedge_coordinates P R F c hKne
  have hβ : 0 < cross P F c / cross P R F := div_pos_of_neg_of_neg h1 hK
  have hα : 0 ≤ cross F R c / cross P R F := div_nonneg_of_nonpos h2 (le_of_lt hK)
  generalize cross P F c / cross P R F = β at hx hy hβ
  generalize cross F R c / cross P R F = α at hx hy hα
  have hsum : 0 < α + β := by linarith
  have hs := ne_of_gt hsum
  have hsc := sqDist_scaling P R F c (β / (α + β)) (1 + α + β)
    (div_nonneg (le_of_lt hβ) (le_of_lt hsum))
    (by rw [div_le_one hsum]; linarith)
    (by linarith)
    (by
      rw [hx]
      field_simp
      ring)
    (by
      rw [hy]
      field_simp
      ring)
  have hDpos : 0 < computeSquaredDistanceFromPointToSegment F P R := by
    apply sqDist_pos_of_cross_ne
    rw [cross_swap_last]
    exact neg_ne_zero.mpr hKne
  have hμ2 : 1 < (1 + α + β) * (1 + α + β) := by nlinarith
  have := mul_lt_mul_of_pos_right hμ2 hDpos
  linarith

end QuickHull

namespace QuickHull

open Orientation

/-! ### Geometry of the three-way partition -/

theorem onClosedSegment_swap {u v c : Point} (h : OnClosedSegment u v c) :
    OnClosedSegment v u c := by
  obtain ⟨t, h0, h1, hx, hy⟩ := h
  exact ⟨1 - t, by linarith, by linarith, by rw [hx]; ring, by rw [hy]; ring⟩

theorem sideSign_cases (loc : Nat) : sideSign loc = 1 ∨ sideSign loc = -1 := by
  unfold sideSign
  split_ifs
  · left; rfl
  · right; rfl

/-- The identity behind the classification of the element that the scan leaves out. -/
theorem cross_x_identity (P R F c : Point) :
    (F.x - P.x) * cross F R c = (R.x - F.x) * cross P F c - (F.x - c.x) * cross P R F := by
  unfold cross; ring

/-- A point on the pole side of F (by its x-coordinate) that is not right of (P, F) is not
right of (F, R) either. -/
theorem cross_nonneg_of_poleSide (sg : Number) (hsg : sg = 1 ∨ sg = -1) (P R F c : Point)
    (hT : 0 < sg * (F.x - c.x)) (hP : 0 ≤ sg * (c.x - P.x)) (hR : 0 ≤ sg * (R.x - F.x))
    (hZ : cross P R F ≤ 0) (hY : 0 ≤ cross P F c) : 0 ≤ cross F R c := by
  have hid := cross_x_identity P R F c
  have ha : 0 < sg * (F.x - P.x) := by
    have : sg * (F.x - P.x) = sg * (F.x - c.x) + sg * (c.x - P.x) := by ring
    linarith
  have h1 : sg * (F.x - P.x) * cross F R c
      = sg * (R.x - F.x) * cross P F c + sg * (F.x - c.x) * (- cross P R F) := by
    have : sg * (F.x - P.x) * cross F R c = sg * ((F.x - P.x) * cross F R c) := by ring
    rw [this, hid]; ring
  have h2 : 0 ≤ sg * (R.x - F.x) * cross P F c := mul_nonneg hR hY
  have h3 : 0 ≤ sg * (F.x - c.x) * (- cross P R F) := mul_nonneg (le_of_lt hT) (by linarith)
  have h4 : 0 ≤ sg * (F.x - P.x) * cross F R c := by linarith
  by_contra hneg
  have hneg' : cross F R c < 0 := not_le.mp hneg
  have := mul_neg_of_pos_of_neg ha hneg'
  linarith

/-- A point on the antipole side of F (by its x-coordinate) that is strictly left of (F, R)
is not right of (P, F). -/
theorem cross_nonneg_of_antipoleSide (sg : Number) (hsg : sg = 1 ∨ sg = -1) (P R F c : Point)
    (hT : 0 ≤ sg * (c.x - F.x)) (hR : 0 ≤ sg * (R.x - c.x)) (hP : 0 ≤ sg * (F.x - P.x))
    (hZ : cross P R F ≤ 0) (hX : 0 < cross F R c) : 0 ≤ cross P F c := by
  have hid := cross_x_identity P R F c
  have h1 : sg * (R.x - F.x) * cross P F c
      = sg * (F.x - P.x) * cross F R c + sg * (c.x - F.x) * (- cross P R F) := by
    have : sg * (F.x - P.x) * cross F R c = sg * ((F.x - P.x) * cross F R c) := by ring
    rw [this, hid]; ring
  have h2 : 0 ≤ sg * (F.x - P.x) * cross F R c := mul_nonneg hP (le_of_lt hX)
  have h3 : 0 ≤ sg * (c.x - F.x) * (- cross P R F) := mul_nonneg hT (by linarith)
  have hb : 0 ≤ sg * (R.x - F.x) := by
    have : sg * (R.x - F.x) = sg * (R.x - c.x) + sg * (c.x - F.x) := by ring
    linarith
  rcases lt_or_eq_of_le hb with hb' | hb'
  · by_contra hneg
    have hneg' : cross P F c < 0 := not_le.mp hneg
    have := mul_neg_of_pos_of_neg hb' hneg'
    linarith
  · exfalso
    have hcF : sg * (c.x - F.x) = 0 := by
      have : sg * (R.x - F.x) = sg * (R.x - c.x) + sg * (c.x - F.x) := by ring
      linarith
    have hsgne : sg ≠ 0 := by rcases hsg with h | h <;> rw [h] <;> norm_num
    have e1 : R.x - F.x = 0 := by
      rcases mul_eq_zero.mp hb'.symm with h | h
      · exact absurd h hsgne
      · exact h
    have e2 : c.x - F.x = 0 := by
      rcases mul_eq_zero.mp hcF with h | h
      · exact absurd h hsgne
      · exact h
    have : cross F R c = 0 := by
      unfold cross
      rw [e1, e2]; ring
    linarith

/-- The points of the first group lie between the pole and F in x-direction. -/
theorem group1_x_bound (sg : Number) (hsg : sg = 1 ∨ sg = -1) (P R F c : Point)
    (hZ : cross P R F < 0) (hY : cross P F c < 0)
    (hR : 0 ≤ sg * (R.x - c.x)) (hP : 0 ≤ sg * (F.x - P.x))
    (hD : computeSquaredDistanceFromPointToSegment c P R
      ≤ computeSquaredDistanceFromPointToSegment F P R) :
    0 ≤ sg * (F.x - c.x) := by
  by_contra hneg
  have hT : 0 ≤ sg * (c.x - F.x) := by
    have : sg * (c.x - F.x) = - (sg * (F.x - c.x)) := by ring
    rw [this]
    linarith
  by_cases hX : 0 < cross F R c
  · have := cross_nonneg_of_antipoleSide sg hsg P R F c hT hR hP (le_of_lt hZ) hX
    linarith
  · have := sqDist_lt_of_wedge P R F c hZ hY (not_lt.mp hX)
    linarith

/-- The points of the second group lie between F and the antipole in x-direction. -/
theorem group2_x_bound (sg : Number) (hsg : sg = 1 ∨ sg = -1) (P R F c : Point)
    (hZ : cross P R F ≤ 0) (hP : 0 ≤ sg * (c.x - P.x)) (hR : 0 ≤ sg * (R.x - F.x))
    (h : (0 ≤ cross P F c ∧ cross F R c < 0) ∨ (0 ≤ sg * (c.x - F.x) ∧ cross F R c ≤ 0)) :
    0 ≤ sg * (c.x - F.x) := by
  rcases h with ⟨hY, hX⟩ | ⟨hT, _⟩
  · by_contra hneg
    have hT : 0 < sg * (F.x - c.x) := by
      have : sg * (F.x - c.x) = - (sg * (c.x - F.x)) := by ring
      rw [this]
      linarith [not_le.mp hneg]
    have := cross_nonneg_of_poleSide sg hsg P R F c hT hP hR hZ hY
    linarith
  · exact hT

/-- A point of the second group that is collinear with F and the antipole R lies on the
segment from F to R. -/
theorem onSegment_pivot_antipole_right (P R F c : Point) (hZ : cross P R F < 0)
    (hQ : cross P R c ≤ 0)
    (hD : computeSquaredDistanceFromPointToSegment c P R
      ≤ computeSquaredDistanceFromPointToSegment F P R)
    (hcol : cross F R c = 0) : OnClosedSegment F R c := by
  apply onClosedSegment_swap
  apply onSegment_pole_pivot R P F c
  · rw [cross_rotate P R F]; exact hZ
  · rw [cross_rotate P R c]; exact hQ
  · rw [← sqDist_symm c P R, ← sqDist_symm F P R]; exact hD
  · rw [cross_rotate F R c]; exact hcol

/-- An eliminated point of `findHullInPlace` lies in the triangle of pole, F and antipole. -/
theorem hull_of_triangle_right (S : Set (ℚ × ℚ)) (P R F c : Point)
    (hP : P.toVec ∈ convexHull ℚ S) (hF : F.toVec ∈ convexHull ℚ S)
    (hR : R.toVec ∈ convexHull ℚ S) (hZ : cross P R F < 0) (hQ : cross P R c ≤ 0)
    (hY : 0 ≤ cross P F c) (hX : 0 ≤ cross F R c) : c.toVec ∈ convexHull ℚ S := by
  apply hull_of_triangle S R F P c hR hF hP
  · rw [cross_rotate P R F]; exact hZ
  · rw [cross_rotate P R c]; exact hQ
  · rw [cross_rotate F R c]; exact hX
  · rw [cross_rotate P F c]; exact hY

end QuickHull

namespace QuickHull

/-! ### Bringing the pivot to its place and moving the eliminated points away -/

/-- The two swaps and the `move_away` that `chain` and `TheirConvexHullInPlaceQuickHull`
perform after the first recursive call, on a sequence whose block `[e1, mid)` holds the
eliminated points, whose block `[mid, past - 1)` holds the points still to be treated, and
whose position `past - 1` holds the pivot: the pivot comes to `e1`, the points still to be
treated follow it, and the eliminated points end up behind them. -/
theorem relocate_spec (a : PointSequence) (e1 mid past : Nat) (he : e1 ≤ mid) (hm : mid < past)
    (hlen : past ≤ a.length) :
    RangePerm e1 past a
      (move_away (iter_swap (iter_swap a mid (past - 1)) e1 mid) (e1 + 1) (mid + 1) past) ∧
    deref (move_away (iter_swap (iter_swap a mid (past - 1)) e1 mid) (e1 + 1) (mid + 1) past) e1
      = deref a (past - 1) ∧
    (∀ i, e1 + 1 ≤ i → i < e1 + (past - mid) → ∃ j, mid ≤ j ∧ j < past - 1 ∧
      deref (move_away (iter_swap (iter_swap a mid (past - 1)) e1 mid) (e1 + 1) (mid + 1) past) i
        = deref a j) ∧
    (∀ i, e1 + (past - mid) ≤ i → i < past → ∃ j, e1 ≤ j ∧ j < mid ∧
      deref (move_away (iter_swap (iter_swap a mid (past - 1)) e1 mid) (e1 + 1) (mid + 1) past) i
        = deref a j) := by
  have hl3 : (iter_swap a mid (past - 1)).length = a.length := length_iter_swap _ _ _
  have hl4 : (iter_swap (iter_swap a mid (past - 1)) e1 mid).length = a.length := by
    rw [length_iter_swap, hl3]
  have hsw1 : RangePerm e1 past a (iter_swap a mid (past - 1)) :=
    iter_swap_rangePerm a e1 past _ _ he hm (by omega) (by omega) hlen
  have hsw2 : RangePerm e1 past (iter_swap a mid (past - 1))
      (iter_swap (iter_swap a mid (past - 1)) e1 mid) :=
    iter_swap_rangePerm _ e1 past _ _ (le_refl _) (by omega) he hm (by omega)
  obtain ⟨hmv, mvR, mvG⟩ := move_away_spec (iter_swap (iter_swap a mid (past - 1)) e1 mid)
    (e1 + 1) (mid + 1) past (by omega) (by omega) (by omega)
  have h4e : deref (iter_swap (iter_swap a mid (past - 1)) e1 mid) e1 = deref a (past - 1) := by
    rw [deref_iter_swap_left _ _ _ (by omega) (by omega)]
    exact deref_iter_swap_left a mid (past - 1) (by omega) (by omega)
  have h4G : ∀ j, e1 + 1 ≤ j → j < mid + 1 → ∃ j', e1 ≤ j' ∧ j' < mid ∧
      deref (iter_swap (iter_swap a mid (past - 1)) e1 mid) j = deref a j' := by
    intro j hj1 hj2
    by_cases hjm : j = mid
    · subst hjm
      refine ⟨e1, le_refl _, by omega, ?_⟩
      rw [deref_iter_swap_right _ _ _ (by omega) (by omega)]
      exact deref_iter_swap_other a _ _ e1 (by omega) (by omega) (by omega) (by omega)
    · refine ⟨j, by omega, by omega, ?_⟩
      rw [deref_iter_swap_other _ _ _ j (by omega) (by omega) (by omega) hjm]
      exact deref_iter_swap_other a _ _ j (by omega) (by omega) hjm (by omega)
  have h4R : ∀ j, mid + 1 ≤ j → j < past → ∃ j', mid ≤ j' ∧ j' < past - 1 ∧
      deref (iter_swap (iter_swap a mid (past - 1)) e1 mid) j = deref a j' := by
    intro j hj1 hj2
    by_cases hjl : j = past - 1
    · subst hjl
      refine ⟨mid, le_refl _, by omega, ?_⟩
      rw [deref_iter_swap_other _ _ _ (past - 1) (by omega) (by omega) (by omega) (by omega)]
      exact deref_iter_swap_right a mid (past - 1) (by omega) (by omega)
    · refine ⟨j, by omega, by omega, ?_⟩
      rw [deref_iter_swap_other _ _ _ j (by omega) (by omega) (by omega) (by omega)]
      exact deref_iter_swap_other a _ _ j (by omega) (by omega) (by omega) hjl
  refine ⟨(hsw1.trans hsw2).trans (hmv.mono (by omega) (le_refl _)), ?_, ?_, ?_⟩
  · rw [hmv.frame e1 (by omega)]
    exact h4e
  · intro i hi1 hi2
    obtain ⟨j, hj1, hj2, hj3⟩ := mvR i hi1 (by omega)
    obtain ⟨j', hj1', hj2', hj3'⟩ := h4R j hj1 hj2
    exact ⟨j', hj1', hj2', by rw [hj3, hj3']⟩
  · intro i hi1 hi2
    obtain ⟨j, hj1, hj2, hj3⟩ := mvG i (by omega) hi2
    obtain ⟨j', hj1', hj2', hj3'⟩ := h4G j hj1 hj2
    exact ⟨j', hj1', hj2', by rw [hj3, hj3']⟩

end QuickHull

namespace QuickHull

open Orientation

/-! ### Completeness of `chain` -/

theorem hull_mono_of_subset {S T : Set (ℚ × ℚ)} (h : S ⊆ convexHull ℚ T) {v : ℚ × ℚ}
    (hv : v ∈ convexHull ℚ S) : v ∈ convexHull ℚ T :=
  convexHull_min h (convex_convexHull ℚ T) hv

/-- Completeness of `chain`. If every point of the range lies on or left of the directed
line from the pole to the antipole, and the points on that line lie between pole and antipole,
then every point of the range lies in the convex hull of the returned prefix and the
antipole. -/
theorem chain_complete : ∀ (fuel : Nat) (a : PointSequence) (pole past antipole : Nat),
    past - pole < fuel → pole < past → past ≤ a.length →
    (antipole < pole ∨ past ≤ antipole) →
    (∀ i, pole < i → i < past → cross (deref a pole) (deref a i) (deref a antipole) ≤ 0) →
    (∀ i, pole < i → i < past → cross (deref a pole) (deref a i) (deref a antipole) = 0 →
      OnClosedSegment (deref a pole) (deref a antipole) (deref a i)) →
    ∀ a' e, chain fuel a pole past antipole = some (a', e) →
      ∀ i, pole ≤ i → i < past →
        (deref a' i).toVec ∈ convexHull ℚ (rangeSet a' pole e ∪ {(deref a antipole).toVec}) := by
  intro fuel
  induction fuel with
  | zero => intro a pole past antipole h; omega
  | succ fuel ih =>
    intro a pole past antipole hfuel hpp hlen hanti hP1 hP2 a' e hres i hi1 hi2
    by_cases h1 : past - pole = 1
    · rw [chain_one fuel a pole past antipole h1] at hres
      simp only [Option.some.injEq, Prod.mk.injEq] at hres
      obtain ⟨rfl, rfl⟩ := hres
      exact subset_convexHull ℚ _ (Or.inl (toVec_mem_rangeSet a pole past i hi1 hi2))
    by_cases h2 : past - pole = 2
    · rw [chain_two fuel a pole past antipole h2] at hres
      split_ifs at hres with hc
      · simp only [Option.some.injEq, Prod.mk.injEq] at hres
        obtain ⟨rfl, rfl⟩ := hres
        have hpole : (deref a pole).toVec ∈ convexHull ℚ
            (rangeSet a pole (pole + 1) ∪ {(deref a antipole).toVec}) :=
          subset_convexHull ℚ _ (Or.inl (toVec_mem_rangeSet a pole (pole + 1) pole (le_refl _)
            (by omega)))
        by_cases hip : i = pole
        · subst hip; exact hpole
        · have hi : i = pole + 1 := by omega
          subst hi
          rw [orientation_col_iff, cross_swap_first] at hc
          have hseg := hP2 (pole + 1) (by omega) (by omega) (by linarith)
          exact hull_of_onSegment _ _ _ _ hpole
            (subset_convexHull ℚ _ (Or.inr rfl)) hseg
      · simp only [Option.some.injEq, Prod.mk.injEq] at hres
        obtain ⟨rfl, rfl⟩ := hres
        exact subset_convexHull ℚ _ (Or.inl (toVec_mem_rangeSet a pole past i hi1 hi2))
    obtain ⟨⟨hF1, hF2⟩, hFmax, _⟩ := find_furthest3_spec a pole past antipole hpp
    by_cases hc : getOrientation (deref a (find_furthest3 a pole past antipole)) (deref a pole)
        (deref a antipole) = COLLINEAR
    · rw [chain_collapse fuel a pole past antipole h1 h2 hc] at hres
      simp only [Option.some.injEq, Prod.mk.injEq] at hres
      obtain ⟨rfl, rfl⟩ := hres
      have hpole : (deref a pole).toVec ∈ convexHull ℚ
          (rangeSet a pole (pole + 1) ∪ {(deref a antipole).toVec}) :=
        subset_convexHull ℚ _ (Or.inl (toVec_mem_rangeSet a pole (pole + 1) pole (le_refl _)
          (by omega)))
      have hD0 : computeSquaredDistanceFromPointToSegment
          (deref a (find_furthest3 a pole past antipole)) (deref a pole) (deref a antipole)
          = 0 := by
        by_cases hFp : find_furthest3 a pole past antipole = pole
        · rw [hFp]; exact sqDist_self_left _ _
        · rw [orientation_col_iff, cross_swap_first] at hc
          exact sqDist_zero_of_onSegment _ _ _
            (hP2 _ (by omega) hF2 (by linarith))
      have hDi := hFmax i hi1 hi2
      rw [hD0] at hDi
      have hDi0 := le_antisymm hDi (sqDist_nonneg _ _ _)
      exact hull_of_onSegment _ _ _ _ hpole (subset_convexHull ℚ _ (Or.inr rfl))
        (onSegment_of_sqDist_zero _ _ _ hDi0)
    -- the general case
    have hFne : find_furthest3 a pole past antipole ≠ pole := by
      intro he
      rw [he] at hc
      exact hc (getOrientation_self_left _ _)
    have hAF : cross (deref a pole) (deref a (find_furthest3 a pole past antipole))
        (deref a antipole) < 0 := by
      have h3 := hP1 _ (by omega) hF2
      rcases lt_or_eq_of_le h3 with h4 | h4
      · exact h4
      · exfalso
        apply hc
        rw [orientation_col_iff, cross_swap_first, h4]
        ring
    have hQa : ∀ j, pole + 1 ≤ j → j < past →
        (cross (deref a pole) (deref a j) (deref a antipole) ≤ 0 ∧
          computeSquaredDistanceFromPointToSegment (deref a j) (deref a pole)
            (deref a antipole) ≤
          computeSquaredDistanceFromPointToSegment
            (deref a (find_furthest3 a pole past antipole)) (deref a pole)
            (deref a antipole)) := by
      intro j hj1 hj2
      exact ⟨hP1 j (by omega) hj2, hFmax j (by omega) hj2⟩
    have hsw : RangePerm (pole + 1) past a
        (iter_swap a (find_furthest3 a pole past antipole) (past - 1)) :=
      iter_swap_rangePerm a (pole + 1) past _ _ (by omega) hF2 (by omega) (by omega) hlen
    have hlen0 : (iter_swap a (find_furthest3 a pole past antipole) (past - 1)).length
        = a.length := length_iter_swap _ _ _
    have hF0 : deref (iter_swap a (find_furthest3 a pole past antipole) (past - 1)) (past - 1)
        = deref a (find_furthest3 a pole past antipole) :=
      deref_iter_swap_right a _ _ (by omega) (by omega)
    obtain ⟨a1, mid, hpart⟩ : ∃ a1 mid, partition_left_right
        (iter_swap a (find_furthest3 a pole past antipole) (past - 1)) pole (past - 1)
        (past - 1) = (a1, mid) := ⟨_, _, rfl⟩
    obtain ⟨hp1, hm1, hm2, hg1, hg2⟩ := partition_left_right_spec
      (iter_swap a (find_furthest3 a pole past antipole) (past - 1)) pole (past - 1) (past - 1)
      (by omega) (by omega) (by omega)
    rw [hpart] at hp1 hm1 hm2 hg1 hg2
    simp only at hp1 hm1 hm2 hg1 hg2
    rw [hsw.frame pole (by omega), hF0] at hg1 hg2
    have hlen1 : a1.length = a.length := by rw [hp1.length_eq, hlen0]
    have hpa1 : RangePerm (pole + 1) past a a1 := hsw.trans (hp1.mono (le_refl _) (by omega))
    have hpole1 : deref a1 pole = deref a pole := hpa1.frame pole (by omega)
    have hanti1 : deref a1 antipole = deref a antipole := hpa1.frame antipole (by omega)
    have hF1' : deref a1 (past - 1) = deref a (find_furthest3 a pole past antipole) := by
      rw [hp1.frame (past - 1) (by omega), hF0]
    have hQ1 := hpa1.forall_range (fun c =>
      cross (deref a pole) c (deref a antipole) ≤ 0 ∧
        computeSquaredDistanceFromPointToSegment c (deref a pole) (deref a antipole) ≤
        computeSquaredDistanceFromPointToSegment
          (deref a (find_furthest3 a pole past antipole)) (deref a pole) (deref a antipole)) hQa
    obtain ⟨a2, e1, hch, hp2, he1, he2⟩ := chain_struct fuel a1 pole mid (past - 1) (by omega)
      (by omega) (by omega) (by omega)
    have hlen2 : a2.length = a.length := by rw [hp2.length_eq, hlen1]
    have hIH1 := ih a1 pole mid (past - 1) (by omega) (by omega) (by omega) (by omega)
      (by
        intro j hj1 hj2
        rw [hpole1, hF1']
        exact (orientation_ne_ccw_iff _ _ _).mp (hg1 j (by omega) hj2))
      (by
        intro j hj1 hj2 hcol
        rw [hpole1, hF1'] at hcol ⊢
        obtain ⟨q1, q2⟩ := hQ1 j (by omega) (by omega)
        exact onSegment_pole_pivot _ _ _ _ hAF q1 q2 hcol)
      a2 e1 hch
    rw [hF1'] at hIH1
    rw [chain_general fuel a pole past antipole h1 h2 hc a1 mid hpart a2 e1 hch] at hres
    obtain ⟨hrel, hrelF, hrelR, hrelG⟩ := relocate_spec a2 e1 mid past (by omega) (by omega)
      (by omega)
    generalize move_away (iter_swap (iter_swap a2 mid (past - 1)) e1 mid) (e1 + 1) (mid + 1)
      past = a5 at hres hrel hrelF hrelR hrelG
    have hlen5 : a5.length = a.length := by rw [hrel.length_eq, hlen2]
    have hF2' : deref a2 (past - 1) = deref a (find_furthest3 a pole past antipole) := by
      rw [hp2.frame (past - 1) (by omega), hF1']
    rw [hF2'] at hrelF
    obtain ⟨a6, interior, hpart2⟩ : ∃ a6 interior,
        partition_left_right a5 e1 (e1 + (past - mid)) antipole = (a6, interior) := ⟨_, _, rfl⟩
    obtain ⟨hp6, hi6a, hi6b, hk1, hk2⟩ := partition_left_right_spec a5 e1
      (e1 + (past - mid)) antipole (by omega) (by omega) (by omega)
    rw [hpart2] at hp6 hi6a hi6b hk1 hk2 hres
    simp only at hp6 hi6a hi6b hk1 hk2 hres
    have hanti5 : deref a5 antipole = deref a antipole := by
      rw [hrel.frame antipole (by omega), hp2.frame antipole (by omega), hanti1]
    rw [hrelF, hanti5] at hk1 hk2
    have hlen6 : a6.length = a.length := by rw [hp6.length_eq, hlen5]
    have hpole6 : deref a6 e1 = deref a (find_furthest3 a pole past antipole) := by
      rw [hp6.frame e1 (by omega), hrelF]
    have hanti6 : deref a6 antipole = deref a antipole := by
      rw [hp6.frame antipole (by omega), hanti5]
    -- the points that follow the pivot are points of the rest
    have hR5 : ∀ j, e1 + 1 ≤ j → j < e1 + (past - mid) →
        (0 < cross (deref a pole) (deref a5 j)
            (deref a (find_furthest3 a pole past antipole)) ∧
          cross (deref a pole) (deref a5 j) (deref a antipole) ≤ 0 ∧
          computeSquaredDistanceFromPointToSegment (deref a5 j) (deref a pole)
            (deref a antipole) ≤
          computeSquaredDistanceFromPointToSegment
            (deref a (find_furthest3 a pole past antipole)) (deref a pole)
            (deref a antipole)) := by
      intro j hj1 hj2
      obtain ⟨j', hj1', hj2', hj3'⟩ := hrelR j hj1 hj2
      rw [hj3', hp2.frame j' (by omega)]
      exact ⟨(orientation_ccw_iff _ _ _).mp (hg2 j' hj1' hj2'), hQ1 j' (by omega) (by omega)⟩
    have hR6 := hp6.forall_range (fun c =>
      0 < cross (deref a pole) c (deref a (find_furthest3 a pole past antipole)) ∧
        cross (deref a pole) c (deref a antipole) ≤ 0 ∧
        computeSquaredDistanceFromPointToSegment c (deref a pole) (deref a antipole) ≤
        computeSquaredDistanceFromPointToSegment
          (deref a (find_furthest3 a pole past antipole)) (deref a pole) (deref a antipole))
      hR5
    obtain ⟨a7, e', hch2, hp7, he3, he4⟩ := chain_struct fuel a6 e1 interior antipole
      (by omega) (by omega) (by omega) (by omega)
    rw [hch2] at hres
    simp only [Option.some.injEq, Prod.mk.injEq] at hres
    obtain ⟨rfl, rfl⟩ := hres
    have hIH2 := ih a6 e1 interior antipole (by omega) (by omega) (by omega) (by omega)
      (by
        intro j hj1 hj2
        rw [hpole6, hanti6]
        exact (orientation_ne_ccw_iff _ _ _).mp (hk1 j (by omega) hj2))
      (by
        intro j hj1 hj2 hcol
        rw [hpole6, hanti6] at hcol ⊢
        obtain ⟨_, q1, q2⟩ := hR6 j (by omega) (by omega)
        exact onSegment_pivot_antipole _ _ _ _ hAF q1 q2 hcol)
      a7 e' hch2
    rw [hanti6] at hIH2
    -- frames of the final sequence
    have hfin_lt : ∀ j, j ≤ e1 → deref a7 j = deref a6 j := fun j hj => hp7.frame j (by omega)
    have hpole7 : deref a7 pole = deref a pole := by
      rw [hfin_lt pole (by omega), hp6.frame pole (by omega), hrel.frame pole (by omega),
        hp2.frame pole (by omega), hpole1]
    have hF7 : deref a7 e1 = deref a (find_furthest3 a pole past antipole) := by
      rw [hfin_lt e1 (le_refl _), hpole6]
    have hkeep : ∀ j, pole ≤ j → j < e1 → deref a7 j = deref a2 j := by
      intro j hj1 hj2
      rw [hfin_lt j (by omega), hp6.frame j (by omega), hrel.frame j (by omega)]
    have hsub1 : rangeSet a2 pole e1 ∪ {(deref a (find_furthest3 a pole past antipole)).toVec}
        ⊆ convexHull ℚ (rangeSet a7 pole e' ∪ {(deref a antipole).toVec}) := by
      intro v hv
      rcases hv with ⟨j, hj1, hj2, rfl⟩ | hv
      · apply subset_convexHull
        left
        exact ⟨j, hj1, by omega, by rw [hkeep j hj1 hj2]⟩
      · rw [Set.mem_singleton_iff] at hv
        subst hv
        apply subset_convexHull
        left
        exact ⟨e1, by omega, he3, by rw [hF7]⟩
    have hsub2 : rangeSet a7 e1 e' ∪ {(deref a antipole).toVec}
        ⊆ convexHull ℚ (rangeSet a7 pole e' ∪ {(deref a antipole).toVec}) := by
      intro v hv
      apply subset_convexHull
      rcases hv with ⟨j, hj1, hj2, rfl⟩ | hv
      · left
        exact ⟨j, by omega, hj2, rfl⟩
      · right
        exact hv
    by_cases c1 : i < e1
    · exact subset_convexHull ℚ _ (Or.inl (toVec_mem_rangeSet a7 pole e' i hi1 (by omega)))
    by_cases c2 : i < interior
    · exact hull_mono_of_subset hsub2 (hIH2 i (by omega) c2)
    by_cases c3 : i < e1 + (past - mid)
    · rw [hp7.frame i (by omega)]
      obtain ⟨r1, r2, r3⟩ := hR6 i (by omega) c3
      have r4 := (orientation_ccw_iff _ _ _).mp (hk2 i (by omega) c3)
      apply hull_of_triangle _ (deref a pole) (deref a (find_furthest3 a pole past antipole))
        (deref a antipole) _ ?_ ?_ ?_ hAF r2 (le_of_lt r1) (le_of_lt r4)
      · apply subset_convexHull
        left
        exact ⟨pole, le_refl _, by omega, by rw [hpole7]⟩
      · apply subset_convexHull
        left
        exact ⟨e1, by omega, he3, by rw [hF7]⟩
      · exact subset_convexHull ℚ _ (Or.inr rfl)
    · rw [hp7.frame i (by omega), hp6.frame i (by omega)]
      obtain ⟨j, hj1, hj2, hj3⟩ := hrelG i (by omega) hi2
      rw [hj3]
      exact hull_mono_of_subset hsub1 (hIH1 j (by omega) hj2)

end QuickHull

namespace QuickHull

open Orientation

/-! ### Completeness of `TheirConvexHullInPlaceQuickHull` -/

/-- A point between the lexicographically smallest point `w` and the largest point `e` that
is collinear with them lies on the segment from `w` to `e`. -/
theorem onSegment_of_lex_between (w e c : Point) (h1 : ¬ c.lt w = true) (h2 : ¬ e.lt c = true)
    (hcol : cross w c e = 0) : OnClosedSegment w e c := by
  rw [Point.lt_iff] at h1 h2
  push_neg at h1 h2
  obtain ⟨h1x, h1y⟩ := h1
  obtain ⟨h2x, h2y⟩ := h2
  unfold cross at hcol
  by_cases hx : w.x < e.x
  · have hpos : 0 < e.x - w.x := by linarith
    refine ⟨(c.x - w.x) / (e.x - w.x), div_nonneg (by linarith) (le_of_lt hpos), ?_, ?_, ?_⟩
    · rw [div_le_one hpos]; linarith
    · field_simp
    · field_simp
      linear_combination (-1 : ℚ) * hcol
  · have hwe : w.x = e.x := le_antisymm (le_trans h1x h2x) (not_lt.mp hx)
    have hcx : c.x = w.x := le_antisymm (by linarith) h1x
    have hy1 : w.y ≤ c.y := h1y hcx
    have hy2 : c.y ≤ e.y := h2y (by linarith)
    by_cases hy : w.y < e.y
    · have hpos : 0 < e.y - w.y := by linarith
      refine ⟨(c.y - w.y) / (e.y - w.y), div_nonneg (by linarith) (le_of_lt hpos), ?_, ?_, ?_⟩
      · rw [div_le_one hpos]; linarith
      · rw [hcx, hwe]; ring
      · field_simp
    · exact ⟨0, le_refl _, zero_le_one, by rw [hcx]; ring, by linarith⟩

theorem deref_mem_take (a : PointSequence) (r j : Nat) (hj : j < r) (hr : r ≤ a.length) :
    deref a j ∈ a.take r := by
  have h1 : j < (a.take r).length := by simp; omega
  have h2 : (a.take r)[j] = deref a j := by
    unfold deref
    rw [List.getElem_take, List.getD_eq_getElem _ _ (by omega)]
  rw [← h2]
  exact List.getElem_mem h1

theorem rangeSet_subset_output (a : PointSequence) (r : Nat) (hr : r ≤ a.length) :
    rangeSet a 0 r ⊆ {v : ℚ × ℚ | ∃ p ∈ outputPoints (a, r), p.toVec = v} := by
  rintro v ⟨j, _, hj, rfl⟩
  exact ⟨deref a j, deref_mem_take a r j hj hr, rfl⟩

theorem exists_pos_of_mem (s : PointSequence) (p : Point) (h : p ∈ s) :
    ∃ i, i < s.length ∧ deref s i = p := by
  obtain ⟨i, hi, rfl⟩ := List.getElem_of_mem h
  exact ⟨i, hi, by unfold deref; rw [List.getD_eq_getElem _ _ hi]⟩

theorem Point.eq_iff (a b : Point) : a.eq b = true ↔ a = b := by
  cases a; cases b
  simp [Point.eq]

/-- Completeness of `TheirConvexHullInPlaceQuickHull`, stated on positions: every entry of
the final sequence lies in the convex hull of the entries of the returned prefix. -/
theorem their_complete_positions (s : PointSequence)
    (h : PointSequenceFulfillsMinimalRequirements s = true) :
    ∃ a r, TheirConvexHullInPlaceQuickHull s = some (a, r) ∧ RangePerm 0 s.length s a ∧
      r ≤ s.length ∧
      ∀ i, i < s.length → (deref a i).toVec ∈ convexHull ℚ (rangeSet a 0 r) := by
  have hn := length_of_minimalRequirements s h
  obtain ⟨⟨_, hmn⟩, ⟨_, hmx⟩, hmin, hmax, _⟩ := find_poles_spec s 0 s.length (by omega)
  have hne := find_poles_ne s 0 s.length (by omega)
  obtain ⟨hp1, hw, he⟩ := parallel_iter_swap_spec s s.length _ _ rfl (by omega) hmn hmx hne
  have hequal := their_equal_poles s h
  have haccept := their_accepted s h
  obtain ⟨a1, ha1⟩ : ∃ a1, parallel_iter_swap s 0 (s.length - 1) (find_poles s 0 s.length).1
    (find_poles s 0 s.length).2 = a1 := ⟨_, rfl⟩
  rw [ha1] at hp1 hw he hequal haccept
  have hlen1 := hp1.length_eq
  have hlex1 := hp1.forall_range (fun c =>
    ¬ c.lt (deref s (find_poles s 0 s.length).1) = true ∧
    ¬ (deref s (find_poles s 0 s.length).2).lt c = true)
    (fun j hj1 hj2 => ⟨hmin j hj1 hj2, hmax j hj1 hj2⟩)
  rw [← hw, ← he] at hlex1
  cases heq : (deref a1 0).eq (deref a1 (s.length - 1)) with
  | true =>
    refine ⟨a1, 1, hequal heq, hp1, by omega, ?_⟩
    intro i hi
    have hWE : deref a1 0 = deref a1 (s.length - 1) := (Point.eq_iff _ _).mp heq
    obtain ⟨l1, l2⟩ := hlex1 i (Nat.zero_le _) hi
    rw [← hWE] at l2
    have : deref a1 i = deref a1 0 := Point.eq_of_not_lt l1 l2
    rw [this]
    exact subset_convexHull ℚ _ (toVec_mem_rangeSet a1 0 1 0 (le_refl _) (by omega))
  | false =>
    obtain ⟨a2, middle, hpart⟩ : ∃ a2 middle,
        partition_left_right a1 0 (s.length - 1) (s.length - 1) = (a2, middle) := ⟨_, _, rfl⟩
    obtain ⟨hp2, hm1, hm2, hg1, hg2⟩ := partition_left_right_spec a1 0 (s.length - 1)
      (s.length - 1) (by omega) (by omega) (by omega)
    rw [hpart] at hp2 hm1 hm2 hg1 hg2
    simp only at hp2 hm1 hm2 hg1 hg2
    have hlen2 : a2.length = s.length := by rw [hp2.length_eq, hlen1]
    have hW2 : deref a2 0 = deref a1 0 := hp2.frame 0 (by omega)
    have hE2 : deref a2 (s.length - 1) = deref a1 (s.length - 1) :=
      hp2.frame (s.length - 1) (by omega)
    have hlex2 := (hp2.mono (Nat.zero_le _) (by omega : s.length - 1 ≤ s.length)).forall_range
      (fun c => ¬ c.lt (deref a1 0) = true ∧ ¬ (deref a1 (s.length - 1)).lt c = true) hlex1
    obtain ⟨a3, e1, hch, hp3, he1, he2⟩ := chain_struct s.length a2 0 middle (s.length - 1)
      (by omega) (by omega) (by omega) (by omega)
    have hlen3 : a3.length = s.length := by rw [hp3.length_eq, hlen2]
    have hpost1 := chain_complete s.length a2 0 middle (s.length - 1) (by omega) (by omega)
      (by omega) (by omega)
      (by
        intro j hj1 hj2
        rw [hW2, hE2]
        exact (orientation_ne_ccw_iff _ _ _).mp (hg1 j (by omega) hj2))
      (by
        intro j hj1 hj2 hcol
        rw [hW2, hE2] at hcol ⊢
        obtain ⟨l1, l2⟩ := hlex2 j (Nat.zero_le _) (by omega)
        exact onSegment_of_lex_between _ _ _ l1 l2 hcol)
      a3 e1 hch
    rw [hE2] at hpost1
    obtain ⟨hrel, hrelF, hrelR, hrelG⟩ := relocate_spec a3 e1 middle s.length (by omega)
      (by omega) (by omega)
    have hacc := haccept heq a2 middle hpart a3 e1 hch
    obtain ⟨a5, ha5⟩ : ∃ a5, move_away (iter_swap (iter_swap a3 middle (s.length - 1)) e1 middle)
      (e1 + 1) (middle + 1) s.length = a5 := ⟨_, rfl⟩
    rw [ha5] at hrel hrelF hrelR hrelG hacc
    have hlen5 : a5.length = s.length := by rw [hrel.length_eq, hlen3]
    have hE3 : deref a3 (s.length - 1) = deref a1 (s.length - 1) := by
      rw [hp3.frame (s.length - 1) (by omega), hE2]
    have hW3 : deref a3 0 = deref a1 0 := by rw [hp3.frame 0 (by omega), hW2]
    rw [hE3] at hrelF
    have hW5 : deref a5 0 = deref a1 0 := by rw [hrel.frame 0 (by omega), hW3]
    obtain ⟨a7, e, hch2, hp7, he3, he4⟩ := chain_struct s.length a5 e1
      (e1 + (s.length - middle)) 0 (by omega) (by omega) (by omega) (by omega)
    have hpost2 := chain_complete s.length a5 e1 (e1 + (s.length - middle)) 0 (by omega)
      (by omega) (by omega) (by omega)
      (by
        intro j hj1 hj2
        obtain ⟨j', hj1', hj2', hj3'⟩ := hrelR j (by omega) hj2
        rw [hrelF, hW5, hj3', hp3.frame j' (by omega)]
        have := (orientation_ccw_iff _ _ _).mp (hg2 j' hj1' hj2')
        have e : cross (deref a1 (s.length - 1)) (deref a2 j') (deref a1 0)
            = - cross (deref a1 0) (deref a2 j') (deref a1 (s.length - 1)) := by
          unfold cross; ring
        rw [e]
        linarith)
      (by
        intro j hj1 hj2 hcol
        exfalso
        obtain ⟨j', hj1', hj2', hj3'⟩ := hrelR j (by omega) hj2
        rw [hrelF, hW5, hj3', hp3.frame j' (by omega)] at hcol
        have := (orientation_ccw_iff _ _ _).mp (hg2 j' hj1' hj2')
        have e : cross (deref a1 (s.length - 1)) (deref a2 j') (deref a1 0)
            = - cross (deref a1 0) (deref a2 j') (deref a1 (s.length - 1)) := by
          unfold cross; ring
        rw [e] at hcol
        linarith)
      a7 e hch2
    rw [hW5] at hpost2
    have hW7 : deref a7 0 = deref a1 0 := by rw [hp7.frame 0 (by omega), hW5]
    have hE7 : deref a7 e1 = deref a1 (s.length - 1) := by
      rw [hp7.frame e1 (by omega), hrelF]
    have hkeep : ∀ j, j < e1 → deref a7 j = deref a3 j := by
      intro j hj
      rw [hp7.frame j (by omega), hrel.frame j (by omega)]
    have hsub1 : rangeSet a3 0 e1 ∪ {(deref a1 (s.length - 1)).toVec}
        ⊆ convexHull ℚ (rangeSet a7 0 e) := by
      intro v hv
      apply subset_convexHull
      rcases hv with ⟨j, hj1, hj2, rfl⟩ | hv
      · exact ⟨j, hj1, by omega, by rw [hkeep j hj2]⟩
      · rw [Set.mem_singleton_iff] at hv
        subst hv
        exact ⟨e1, Nat.zero_le _, he3, by rw [hE7]⟩
    have hsub2 : rangeSet a7 e1 e ∪ {(deref a1 0).toVec} ⊆ convexHull ℚ (rangeSet a7 0 e) := by
      intro v hv
      apply subset_convexHull
      rcases hv with ⟨j, hj1, hj2, rfl⟩ | hv
      · exact ⟨j, Nat.zero_le _, hj2, rfl⟩
      · rw [Set.mem_singleton_iff] at hv
        subst hv
        exact ⟨0, le_refl _, by omega, by rw [hW7]⟩
    refine ⟨a7, e, hacc.trans hch2, ?_, by omega, ?_⟩
    · exact (((hp1.trans (hp2.mono (by omega) (by omega))).trans
        (hp3.mono (by omega) (by omega))).trans (hrel.mono (by omega) (le_refl _))).trans
        (hp7.mono (by omega) (by omega))
    · intro i hi
      by_cases c1 : i < e1
      · exact subset_convexHull ℚ _ (toVec_mem_rangeSet a7 0 e i (Nat.zero_le _) (by omega))
      by_cases c2 : i < e1 + (s.length - middle)
      · exact hull_mono_of_subset hsub2 (hpost2 i (by omega) c2)
      · rw [hp7.frame i (by omega)]
        obtain ⟨j, hj1, hj2, hj3⟩ := hrelG i (by omega) hi
        rw [hj3]
        exact hull_mono_of_subset hsub1 (hpost1 j (by omega) hj2)

/-- Claim C3. For every point sequence that meets the minimal requirements,
`TheirConvexHullInPlaceQuickHull` returns, and every point of the input lies on or inside the
convex hull of the points of the output prefix. -/
theorem their_completeness (s : PointSequence)
    (h : PointSequenceFulfillsMinimalRequirements s = true) :
    ∃ r, TheirConvexHullInPlaceQuickHull s = some r ∧
      ∀ p ∈ s, InConvexHull (outputPoints r) p := by
  obtain ⟨a, r, hres, hperm, hr, hpos⟩ := their_complete_positions s h
  refine ⟨(a, r), hres, ?_⟩
  intro p hp
  obtain ⟨i, hi, rfl⟩ := exists_pos_of_mem s p hp
  obtain ⟨j, _, hj, hij⟩ := hperm.symm.exists_source i (Nat.zero_le _) hi
  rw [hij]
  unfold InConvexHull
  have hlen : r ≤ a.length := by rw [hperm.length_eq]; exact hr
  exact convexHull_mono (rangeSet_subset_output a r hlen) (hpos j hj)

/-- Claim C3 at the square with an interior point: the five input points lie in the convex
hull of the prefix that `TheirConvexHullInPlaceQuickHull` returns. -/
theorem their_completeness_witness :
    ∃ r, TheirConvexHullInPlaceQuickHull [⟨0, 0⟩, ⟨4, 0⟩, ⟨4, 4⟩, ⟨0, 4⟩, ⟨2, 2⟩] = some r ∧
      ∀ p ∈ [(⟨0, 0⟩ : Point), ⟨4, 0⟩, ⟨4, 4⟩, ⟨0, 4⟩, ⟨2, 2⟩],
        InConvexHull (outputPoints r) p :=
  their_completeness [⟨0, 0⟩, ⟨4, 0⟩, ⟨4, 4⟩, ⟨0, 4⟩, ⟨2, 2⟩] (by with_unfolding_all decide)

end QuickHull

namespace QuickHull

open Orientation

/-! ### The three-way partition in terms of cross products -/

theorem sideSign_lower : sideSign LOWER = 1 := by simp [sideSign]

theorem sideSign_upper : sideSign UPPER = -1 := by simp [sideSign, LOWER, UPPER]

/-- The contract of `partition[location]`, with the orientation tests written as signs of
cross products and the comparison of x-coordinates written with `sideSign`. -/
theorem partition_geom_spec (loc : Nat) (a : PointSequence) (first last l r f : Nat)
    (hfl : first < last) (hlast : last ≤ a.length)
    (hl : l < first ∨ last ≤ l) (hr : r < first ∨ last ≤ r) (hf : f < first ∨ last ≤ f)
    (b : PointSequence) (G1 G2 : Nat)
    (hres : partition loc a first (last - 1) l r f = (b, G1, G2)) :
    (∀ j, first ≤ j → j < G1 → cross (deref a l) (deref a f) (deref b j) < 0) ∧
    (∀ j, G1 ≤ j → j < G2 →
      (0 ≤ cross (deref a l) (deref a f) (deref b j) ∧
        0 ≤ cross (deref a f) (deref a r) (deref b j)) ∨
      (0 < sideSign loc * ((deref a f).x - (deref b j).x) ∧
        0 ≤ cross (deref a l) (deref a f) (deref b j)) ∨
      (0 ≤ sideSign loc * ((deref b j).x - (deref a f).x) ∧
        0 < cross (deref a f) (deref a r) (deref b j))) ∧
    (∀ j, G2 ≤ j → j < last →
      (0 ≤ cross (deref a l) (deref a f) (deref b j) ∧
        cross (deref a f) (deref a r) (deref b j) < 0) ∨
      (0 ≤ sideSign loc * ((deref b j).x - (deref a f).x) ∧
        cross (deref a f) (deref a r) (deref b j) ≤ 0)) := by
  unfold partition at hres
  by_cases hloc : loc = LOWER
  · rw [if_pos hloc] at hres
    obtain ⟨_, _, _, _, hA, hB, hC⟩ := lowerPartition_spec a first last l r f hfl hlast hl hr
      hf b G1 G2 hres
    have hs : sideSign loc = 1 := by rw [hloc]; exact sideSign_lower
    rw [hs]
    refine ⟨?_, ?_, ?_⟩
    · intro j h1 h2
      exact (orientation_cw_iff _ _ _).mp (hA j h1 h2)
    · intro j h1 h2
      rcases hB j h1 h2 with ⟨c1, c2⟩ | ⟨c1, c2⟩ | ⟨c1, c2⟩
      · exact Or.inl ⟨(orientation_ne_cw_iff _ _ _).mp c1, (orientation_ne_cw_iff _ _ _).mp c2⟩
      · exact Or.inr (Or.inl ⟨by linarith, (orientation_ne_cw_iff _ _ _).mp c2⟩)
      · exact Or.inr (Or.inr ⟨by linarith [not_lt.mp c1], (orientation_ccw_iff _ _ _).mp c2⟩)
    · intro j h1 h2
      rcases hC j h1 h2 with ⟨c1, c2⟩ | ⟨_, c1, c2⟩
      · exact Or.inl ⟨(orientation_ne_cw_iff _ _ _).mp c1, (orientation_cw_iff _ _ _).mp c2⟩
      · exact Or.inr ⟨by linarith [not_lt.mp c1], (orientation_ne_ccw_iff _ _ _).mp c2⟩
  · rw [if_neg hloc] at hres
    obtain ⟨_, _, _, _, hA, hB, hC⟩ := upperPartition_spec a first last l r f hfl hlast hl hr
      hf b G1 G2 hres
    have hs : sideSign loc = -1 := by simp [sideSign, hloc]
    rw [hs]
    refine ⟨?_, ?_, ?_⟩
    · intro j h1 h2
      exact (orientation_cw_iff _ _ _).mp (hA j h1 h2)
    · intro j h1 h2
      rcases hB j h1 h2 with ⟨c1, c2⟩ | ⟨c1, c2⟩ | ⟨c1, c2⟩
      · exact Or.inl ⟨(orientation_ne_cw_iff _ _ _).mp c1, (orientation_ne_cw_iff _ _ _).mp c2⟩
      · exact Or.inr (Or.inl ⟨by linarith, (orientation_ne_cw_iff _ _ _).mp c2⟩)
      · exact Or.inr (Or.inr ⟨by linarith [not_lt.mp c1], (orientation_ccw_iff _ _ _).mp c2⟩)
    · intro j h1 h2
      rcases hC j h1 h2 with ⟨c1, c2⟩ | ⟨_, c1, c2⟩
      · exact Or.inl ⟨(orientation_ne_cw_iff _ _ _).mp c1, (orientation_cw_iff _ _ _).mp c2⟩
      · exact Or.inr ⟨by linarith [not_lt.mp c1], (orientation_ne_ccw_iff _ _ _).mp c2⟩

/-- After the first recursive call of `findHullInPlace` and the swap of F to the output
cursor, the range of the second recursive call holds the points of the second group: each
position of the new range comes from a position of the group and back. -/
theorem second_range_spec (a3 : PointSequence) (c1 g2 last : Nat) (hc : c1 ≤ g2)
    (hg : g2 ≤ last) (hlen : last < a3.length) :
    deref (iter_swap a3 last c1) c1 = deref a3 last ∧
    (∀ k, k < c1 → deref (iter_swap a3 last c1) k = deref a3 k) ∧
    (∀ j', (if c1 = g2 then g2 + 1 else g2) ≤ j' →
      j' < (if c1 = g2 then last + 1 else last) →
      ∃ j, g2 ≤ j ∧ j < last ∧ deref (iter_swap a3 last c1) j' = deref a3 j) ∧
    (∀ j, g2 ≤ j → j < last →
      ∃ j', (if c1 = g2 then g2 + 1 else g2) ≤ j' ∧
        j' < (if c1 = g2 then last + 1 else last) ∧
        deref a3 j = deref (iter_swap a3 last c1) j') := by
  refine ⟨deref_iter_swap_right a3 last c1 (by omega) (by omega), ?_, ?_, ?_⟩
  · intro k hk
    exact deref_iter_swap_other a3 last c1 k (by omega) (by omega) (by omega) (by omega)
  · intro j' h1 h2
    by_cases hcg : c1 = g2
    · rw [if_pos hcg] at h1 h2
      by_cases hj : j' = last
      · subst hj
        refine ⟨g2, le_refl _, by omega, ?_⟩
        rw [deref_iter_swap_left a3 j' c1 (by omega) (by omega), hcg]
      · refine ⟨j', by omega, by omega, ?_⟩
        exact deref_iter_swap_other a3 last c1 j' (by omega) (by omega) hj (by omega)
    · rw [if_neg hcg] at h1 h2
      refine ⟨j', h1, h2, ?_⟩
      exact deref_iter_swap_other a3 last c1 j' (by omega) (by omega) (by omega) (by omega)
  · intro j h1 h2
    by_cases hcg : c1 = g2
    · rw [if_pos hcg, if_pos hcg]
      by_cases hj : j = g2
      · subst hj
        refine ⟨last, by omega, by omega, ?_⟩
        rw [deref_iter_swap_left a3 last c1 (by omega) (by omega), hcg]
      · refine ⟨j, by omega, by omega, ?_⟩
        exact (deref_iter_swap_other a3 last c1 j (by omega) (by omega) (by omega)
          (by omega)).symm
    · rw [if_neg hcg, if_neg hcg]
      refine ⟨j, h1, h2, ?_⟩
      exact (deref_iter_swap_other a3 last c1 j (by omega) (by omega) (by omega)
        (by omega)).symm

end QuickHull

namespace QuickHull

open Orientation

/-! ### Completeness of `findHullInPlace` -/

theorem mem_pair_left (S : Set (ℚ × ℚ)) (x y : ℚ × ℚ) : x ∈ S ∪ {x, y} :=
  Set.mem_union_right _ (Set.mem_insert _ _)

theorem mem_pair_right (S : Set (ℚ × ℚ)) (x y : ℚ × ℚ) : y ∈ S ∪ {x, y} :=
  Set.mem_union_right _ (Set.mem_insert_of_mem _ (Set.mem_singleton _))

/-- Completeness of `findHullInPlace`. If every point of the range lies on or right of the
directed line from the pole `P` to the antipole `R`, between them in x-direction, and on the
segment when it is collinear with them, then every point of the range lies in the convex hull
of the points written to the output and the two poles. -/
theorem findHull_complete : ∀ (fuel : Nat) (a : PointSequence)
    (first past l r cursor loc : Nat) (P R : Point), deref a l = P → deref a r = R →
    past - first < fuel → cursor ≤ first → first ≤ past → past ≤ a.length →
    (l < cursor ∨ past ≤ l) → (r < cursor ∨ past ≤ r) →
    (∀ i, first ≤ i → i < past →
      cross P R (deref a i) ≤ 0 ∧
      (cross P R (deref a i) = 0 → OnClosedSegment P R (deref a i)) ∧
      0 ≤ sideSign loc * ((deref a i).x - P.x) ∧
      0 ≤ sideSign loc * (R.x - (deref a i).x)) →
    ∀ a' c', findHullInPlace fuel a first past l r cursor loc = some (a', c') →
      ∀ i, first ≤ i → i < past →
        (deref a i).toVec ∈ convexHull ℚ (rangeSet a' cursor c' ∪ {P.toVec, R.toVec}) := by
  intro fuel
  induction fuel with
  | zero => intro a first past l r cursor loc P R _ _ h; omega
  | succ fuel ih =>
    intro a first past l r cursor loc P R hP hR hfuel hcf hfp hlen hl hr hInv a' c' hres i hi1
      hi2
    have hsg := sideSign_cases loc
    by_cases h1 : past - first = 1
    · rw [findHullInPlace_single fuel a first past l r cursor loc h1] at hres
      simp only [Option.some.injEq, Prod.mk.injEq] at hres
      obtain ⟨rfl, rfl⟩ := hres
      have hi : i = first := by omega
      subst hi
      apply subset_convexHull
      left
      exact ⟨cursor, le_refl _, by omega,
        by rw [deref_iter_swap_right a i cursor (by omega) (by omega)]⟩
    obtain ⟨⟨hf1, hf2⟩, hmax, _⟩ := find_furthest_spec a first past l r (by omega)
    rw [hP, hR] at hmax
    obtain ⟨f, hf⟩ : ∃ f, find_furthest a first past l r = f := ⟨_, rfl⟩
    rw [hf] at hf1 hf2 hmax
    obtain ⟨F, hF⟩ : ∃ F, deref a f = F := ⟨_, rfl⟩
    rw [hF] at hmax
    obtain ⟨hZle, hFseg, hFx1, hFx2⟩ := hInv f hf1 hf2
    rw [hF] at hZle hFseg hFx1 hFx2
    have hPhull : ∀ S : Set (ℚ × ℚ), P.toVec ∈ convexHull ℚ (S ∪ {P.toVec, R.toVec}) :=
      fun S => subset_convexHull ℚ _ (mem_pair_left S _ _)
    have hRhull : ∀ S : Set (ℚ × ℚ), R.toVec ∈ convexHull ℚ (S ∪ {P.toVec, R.toVec}) :=
      fun S => subset_convexHull ℚ _ (mem_pair_right S _ _)
    by_cases hdeg : cross P R F = 0
    · -- all points of the range lie on the segment from P to R
      have hD0 := sqDist_zero_of_onSegment F P R (hFseg hdeg)
      have hDi := hmax i hi1 hi2
      rw [hD0] at hDi
      have hDi0 := le_antisymm hDi (sqDist_nonneg _ _ _)
      exact hull_of_onSegment _ _ _ _ (hPhull _) (hRhull _)
        (onSegment_of_sqDist_zero _ _ _ hDi0)
    have hZ : cross P R F < 0 := lt_of_le_of_ne hZle hdeg
    have hsw : RangePerm first past a (iter_swap a f (past - 1)) :=
      iter_swap_rangePerm a first past _ _ hf1 hf2 (by omega) (by omega) hlen
    have hlen0 : (iter_swap a f (past - 1)).length = a.length := length_iter_swap _ _ _
    have hF0 : deref (iter_swap a f (past - 1)) (past - 1) = F := by
      rw [deref_iter_swap_right a f (past - 1) (by omega) (by omega), hF]
    have hP0 : deref (iter_swap a f (past - 1)) l = P := by
      rw [hsw.frame l (by omega), hP]
    have hR0 : deref (iter_swap a f (past - 1)) r = R := by
      rw [hsw.frame r (by omega), hR]
    obtain ⟨a2, g1, g2, hpart⟩ : ∃ a2 g1 g2,
        partition loc (iter_swap a (find_furthest a first past l r) (past - 1)) first
          (past - 1 - 1) l r (past - 1) = (a2, g1, g2) := ⟨_, _, _, rfl⟩
    have hpart' := hpart
    rw [hf] at hpart'
    obtain ⟨hp, hg1, hg12, hg2⟩ := partition_spec loc _ first (past - 1) l r (past - 1)
      (by omega) (by omega) (by omega) (by omega) (by omega) a2 g1 g2 hpart'
    obtain ⟨hA, hB, hC⟩ := partition_geom_spec loc _ first (past - 1) l r (past - 1)
      (by omega) (by omega) (by omega) (by omega) (by omega) a2 g1 g2 hpart'
    simp only [hP0, hR0, hF0] at hA hB hC
    have hlen2 : a2.length = a.length := by rw [hp.length_eq, hlen0]
    have hpa2 : RangePerm first past a a2 := hsw.trans (hp.mono (le_refl _) (by omega))
    have hP2 : deref a2 l = P := by rw [hpa2.frame l (by omega), hP]
    have hR2 : deref a2 r = R := by rw [hpa2.frame r (by omega), hR]
    have hF2 : deref a2 (past - 1) = F := by rw [hp.frame (past - 1) (by omega), hF0]
    have hInv2 := hpa2.forall_range (fun c =>
      (cross P R c ≤ 0 ∧ (cross P R c = 0 → OnClosedSegment P R c) ∧
        0 ≤ sideSign loc * (c.x - P.x) ∧ 0 ≤ sideSign loc * (R.x - c.x)) ∧
      computeSquaredDistanceFromPointToSegment c P R
        ≤ computeSquaredDistanceFromPointToSegment F P R)
      (fun j hj1 hj2 => ⟨hInv j hj1 hj2, hmax j hj1 hj2⟩)
    obtain ⟨a3, c1, hc1, hp3, hc1a, hc1b⟩ := findHullInPlace_struct fuel a2 first g1 l
      (past - 1) cursor loc (by omega) hcf hg1 (by omega) (by omega) (by omega)
    have hlen3 : a3.length = a.length := by rw [hp3.length_eq, hlen2]
    have hIH1 := ih a2 first g1 l (past - 1) cursor loc P F hP2 hF2 (by omega) hcf hg1
      (by omega) (by omega) (by omega)
      (by
        intro j hj1 hj2
        have hY := hA j hj1 hj2
        obtain ⟨⟨q1, _, q3, q4⟩, q5⟩ := hInv2 j hj1 (by omega)
        refine ⟨le_of_lt hY, ?_, q3, ?_⟩
        · intro h0
          exfalso
          linarith
        · exact group1_x_bound _ hsg P R F _ hZ hY q4 hFx1 q5)
      a3 c1 hc1
    rw [findHullInPlace_general fuel a first past l r cursor loc (by omega) a2 g1 g2 hpart a3 c1
      hc1] at hres
    obtain ⟨s1, s2, s3, s4⟩ := second_range_spec a3 c1 g2 (past - 1) (by omega) hg2
      (by omega)
    have hF3 : deref a3 (past - 1) = F := by rw [hp3.frame (past - 1) (by omega), hF2]
    rw [hF3] at s1
    have hlen4 : (iter_swap a3 (past - 1) c1).length = a.length := by
      rw [length_iter_swap, hlen3]
    have hR4 : deref (iter_swap a3 (past - 1) c1) r = R := by
      rw [deref_iter_swap_other a3 (past - 1) c1 r (by omega) (by omega) (by omega) (by omega),
        hp3.frame r (by omega), hR2]
    obtain ⟨a5, c2, hc2, hp5, hc2a, hc2b⟩ := findHullInPlace_struct fuel
      (iter_swap a3 (past - 1) c1) (if c1 = g2 then g2 + 1 else g2)
      (if c1 = g2 then past - 1 + 1 else past - 1) c1 r (c1 + 1) loc
      (by split_ifs <;> omega) (by split_ifs <;> omega) (by split_ifs <;> omega)
      (by split_ifs <;> omega) (by omega) (by split_ifs <;> omega)
    rw [hc2] at hres
    simp only [Option.some.injEq, Prod.mk.injEq] at hres
    obtain ⟨rfl, rfl⟩ := hres
    have hG2 : ∀ j, g2 ≤ j → j < past - 1 →
        cross F R (deref a2 j) ≤ 0 ∧
        (cross F R (deref a2 j) = 0 → OnClosedSegment F R (deref a2 j)) ∧
        0 ≤ sideSign loc * ((deref a2 j).x - F.x) ∧
        0 ≤ sideSign loc * (R.x - (deref a2 j).x) := by
      intro j hj1 hj2
      obtain ⟨⟨q1, _, q3, q4⟩, q5⟩ := hInv2 j (by omega) (by omega)
      have hCj := hC j hj1 hj2
      refine ⟨?_, ?_, ?_, q4⟩
      · rcases hCj with ⟨_, hX⟩ | ⟨_, hX⟩
        · exact le_of_lt hX
        · exact hX
      · intro hcol
        exact onSegment_pivot_antipole_right P R F _ hZ q1 q5 hcol
      · exact group2_x_bound _ hsg P R F _ hZle q3 hFx2 hCj
    have hIH2 := ih (iter_swap a3 (past - 1) c1) (if c1 = g2 then g2 + 1 else g2)
      (if c1 = g2 then past - 1 + 1 else past - 1) c1 r (c1 + 1) loc F R s1 hR4
      (by split_ifs <;> omega) (by split_ifs <;> omega) (by split_ifs <;> omega)
      (by split_ifs <;> omega) (by omega) (by split_ifs <;> omega)
      (by
        intro j' hj1 hj2
        obtain ⟨j, hj3, hj4, hj5⟩ := s3 j' hj1 hj2
        rw [hj5, hp3.frame j (by omega)]
        exact hG2 j hj3 hj4)
      a5 c2 hc2
    -- the final sequence
    have hF5 : deref a5 c1 = F := by rw [hp5.frame c1 (by omega), s1]
    have hFout : F.toVec ∈ convexHull ℚ (rangeSet a5 cursor c2 ∪ {P.toVec, R.toVec}) := by
      apply subset_convexHull
      left
      exact ⟨c1, hc1a, by omega, by rw [hF5]⟩
    have hsub1 : rangeSet a3 cursor c1 ∪ {P.toVec, F.toVec}
        ⊆ convexHull ℚ (rangeSet a5 cursor c2 ∪ {P.toVec, R.toVec}) := by
      intro v hv
      rcases hv with ⟨k, hk1, hk2, rfl⟩ | hv
      · apply subset_convexHull
        left
        exact ⟨k, hk1, by omega, by rw [hp5.frame k (by omega), s2 k hk2]⟩
      · rcases hv with hv | hv
        · rw [hv]; exact hPhull _
        · rw [Set.mem_singleton_iff] at hv
          rw [hv]; exact hFout
    have hsub2 : rangeSet a5 (c1 + 1) c2 ∪ {F.toVec, R.toVec}
        ⊆ convexHull ℚ (rangeSet a5 cursor c2 ∪ {P.toVec, R.toVec}) := by
      intro v hv
      rcases hv with ⟨k, hk1, hk2, rfl⟩ | hv
      · apply subset_convexHull
        left
        exact ⟨k, by omega, hk2, rfl⟩
      · rcases hv with hv | hv
        · rw [hv]; exact hFout
        · rw [Set.mem_singleton_iff] at hv
          rw [hv]; exact hRhull _
    obtain ⟨j, hj1, hj2, hij⟩ := hpa2.symm.exists_source i hi1 hi2
    rw [hij]
    by_cases c1' : j = past - 1
    · rw [c1', hF2]; exact hFout
    by_cases c2' : j < g1
    · exact hull_mono_of_subset hsub1 (hIH1 j hj1 c2')
    by_cases c3' : j < g2
    · obtain ⟨⟨q1, _, q3, q4⟩, q5⟩ := hInv2 j hj1 hj2
      have hYX : 0 ≤ cross P F (deref a2 j) ∧ 0 ≤ cross F R (deref a2 j) := by
        rcases hB j (by omega) c3' with ⟨b1, b2⟩ | ⟨b1, b2⟩ | ⟨b1, b2⟩
        · exact ⟨b1, b2⟩
        · exact ⟨b2, cross_nonneg_of_poleSide _ hsg P R F _ b1 q3 hFx2 hZle b2⟩
        · exact ⟨cross_nonneg_of_antipoleSide _ hsg P R F _ b1 q4 hFx1 hZle b2, le_of_lt b2⟩
      exact hull_of_triangle_right _ P R F _ (hPhull _) hFout (hRhull _) hZ q1 hYX.1 hYX.2
    · obtain ⟨j', hj1', hj2', hj3'⟩ := s4 j (by omega) (by omega)
      rw [← hp3.frame j (by omega), hj3']
      exact hull_mono_of_subset hsub2 (hIH2 j' hj1' hj2')

end QuickHull

namespace QuickHull

open Orientation

/-! ### Completeness of `ConvexHullInPlaceQuickHull` -/

theorem x_le_of_not_lt (c w : Point) (h : ¬ c.lt w = true) : w.x ≤ c.x := by
  rw [Point.lt_iff] at h
  push_neg at h
  exact h.1

/-- Completeness of `ConvexHullInPlaceQuickHull`, stated on positions: every entry of the
final sequence lies in the convex hull of the entries of the returned prefix. -/
theorem inPlace_complete_positions (s : PointSequence)
    (h : PointSequenceFulfillsMinimalRequirements s = true) :
    ∃ a r, ConvexHullInPlaceQuickHull s = some (a, r) ∧ RangePerm 0 s.length s a ∧
      r ≤ s.length ∧
      ∀ p ∈ s, p.toVec ∈ convexHull ℚ (rangeSet a 0 r) := by
  have hn := length_of_minimalRequirements s h
  obtain ⟨⟨_, hmn⟩, ⟨_, hmx⟩, hmin, hmax, _⟩ := find_poles_spec s 0 s.length (by omega)
  have hne := find_poles_ne s 0 s.length (by omega)
  obtain ⟨hp1, hw, he⟩ := parallel_iter_swap_spec s s.length _ _ rfl (by omega) hmn hmx hne
  have haccept := inPlace_accepted s h
  obtain ⟨a1, ha1⟩ : ∃ a1, parallel_iter_swap s 0 (s.length - 1) (find_poles s 0 s.length).1
    (find_poles s 0 s.length).2 = a1 := ⟨_, rfl⟩
  rw [ha1] at hp1 hw he haccept
  have hlen1 := hp1.length_eq
  have hlex1 := hp1.forall_range (fun c =>
    ¬ c.lt (deref s (find_poles s 0 s.length).1) = true ∧
    ¬ (deref s (find_poles s 0 s.length).2).lt c = true)
    (fun j hj1 hj2 => ⟨hmin j hj1 hj2, hmax j hj1 hj2⟩)
  rw [← hw, ← he] at hlex1
  obtain ⟨W, hW⟩ : ∃ W, deref a1 0 = W := ⟨_, rfl⟩
  obtain ⟨E, hE⟩ : ∃ E, deref a1 (s.length - 1) = E := ⟨_, rfl⟩
  rw [hW, hE] at hlex1
  obtain ⟨a2, g2, hpart⟩ : ∃ a2 g2,
      partition_right_left a1 1 (s.length - 1) 0 (s.length - 1) = (a2, g2) := ⟨_, _, rfl⟩
  obtain ⟨hp2, hg1, hg2, hlo, hup⟩ := partition_right_left_spec a1 1 (s.length - 1) 0
    (s.length - 1) (by omega) (by omega) (by omega) (by omega)
  rw [hpart] at hp2 hg1 hg2 hlo hup
  simp only [hW, hE] at hp2 hg1 hg2 hlo hup
  have hlen2 : a2.length = s.length := by rw [hp2.length_eq, hlen1]
  have hW2 : deref a2 0 = W := by rw [hp2.frame 0 (by omega), hW]
  have hE2 : deref a2 (s.length - 1) = E := by rw [hp2.frame (s.length - 1) (by omega), hE]
  have hps2 : RangePerm 0 s.length s a2 := hp1.trans (hp2.mono (by omega) (by omega))
  have hlex2 := (hp2.mono (Nat.zero_le _) (by omega : s.length - 1 ≤ s.length)).forall_range
    (fun c => ¬ c.lt W = true ∧ ¬ E.lt c = true) hlex1
  obtain ⟨a3, c1, hlow, hp3, hc1a, hc1b⟩ := findHullInPlace_struct s.length a2 1 g2 0
    (s.length - 1) 1 LOWER (by omega) (le_refl _) hg1 (by omega) (by omega) (by omega)
  have hlen3 : a3.length = s.length := by rw [hp3.length_eq, hlen2]
  have hIH1 := findHull_complete s.length a2 1 g2 0 (s.length - 1) 1 LOWER W E hW2 hE2
    (by omega) (le_refl _) hg1 (by omega) (by omega) (by omega)
    (by
      intro j hj1 hj2
      obtain ⟨l1, l2⟩ := hlex2 j (Nat.zero_le _) (by omega)
      have hc := (orientation_ne_cw_iff _ _ _).mp (hlo j hj1 hj2)
      have e := cross_swap_last W (deref a2 j) E
      rw [sideSign_lower]
      refine ⟨by linarith, ?_, ?_, ?_⟩
      · intro h0
        exact onSegment_of_lex_between _ _ _ l1 l2 (by linarith)
      · have := x_le_of_not_lt _ _ l1
        linarith
      · have := x_le_of_not_lt _ _ l2
        linarith)
    a3 c1 hlow
  have hacc := haccept a2 g2 hpart a3 c1 hlow
  obtain ⟨s1, s2, s3, s4⟩ := second_range_spec a3 c1 g2 (s.length - 1) (by omega) hg2
    (by omega)
  have hE3 : deref a3 (s.length - 1) = E := by rw [hp3.frame (s.length - 1) (by omega), hE2]
  have hW3 : deref a3 0 = W := by rw [hp3.frame 0 (by omega), hW2]
  rw [hE3] at s1
  have hW4 : deref (iter_swap a3 (s.length - 1) c1) 0 = W := by
    rw [s2 0 (by omega), hW3]
  have hlen4 : (iter_swap a3 (s.length - 1) c1).length = s.length := by
    rw [length_iter_swap, hlen3]
  obtain ⟨a5, c2, hupper, hp5, hc2a, hc2b⟩ := findHullInPlace_struct s.length
    (iter_swap a3 (s.length - 1) c1) (if c1 = g2 then g2 + 1 else g2)
    (if c1 = g2 then s.length - 1 + 1 else s.length - 1) c1 0 (c1 + 1) UPPER
    (by split_ifs <;> omega) (by split_ifs <;> omega) (by split_ifs <;> omega)
    (by split_ifs <;> omega) (by omega) (by omega)
  have hIH2 := findHull_complete s.length (iter_swap a3 (s.length - 1) c1)
    (if c1 = g2 then g2 + 1 else g2) (if c1 = g2 then s.length - 1 + 1 else s.length - 1)
    c1 0 (c1 + 1) UPPER E W s1 hW4
    (by split_ifs <;> omega) (by split_ifs <;> omega) (by split_ifs <;> omega)
    (by split_ifs <;> omega) (by omega) (by omega)
    (by
      intro j' hj1 hj2
      obtain ⟨j, hj3, hj4, hj5⟩ := s3 j' hj1 hj2
      rw [hj5, hp3.frame j (by omega)]
      obtain ⟨l1, l2⟩ := hlex2 j (Nat.zero_le _) (by omega)
      have hc := (orientation_cw_iff _ _ _).mp (hup j hj3 hj4)
      have e : cross E W (deref a2 j) = cross W (deref a2 j) E := by
        unfold cross; ring
      rw [sideSign_upper, e]
      refine ⟨le_of_lt hc, ?_, ?_, ?_⟩
      · intro h0
        exfalso
        linarith
      · have := x_le_of_not_lt _ _ l2
        linarith
      · have := x_le_of_not_lt _ _ l1
        linarith)
    a5 c2 hupper
  have hc2le : c2 ≤ s.length := by
    revert hc2b
    split_ifs <;> intro hc2b <;> omega
  have hW5 : deref a5 0 = W := by rw [hp5.frame 0 (by omega), hW4]
  have hE5 : deref a5 c1 = E := by rw [hp5.frame c1 (by omega), s1]
  have hWout : W.toVec ∈ convexHull ℚ (rangeSet a5 0 c2) :=
    subset_convexHull ℚ _ ⟨0, le_refl _, by omega, by rw [hW5]⟩
  have hEout : E.toVec ∈ convexHull ℚ (rangeSet a5 0 c2) :=
    subset_convexHull ℚ _ ⟨c1, Nat.zero_le _, by omega, by rw [hE5]⟩
  have hsub1 : rangeSet a3 1 c1 ∪ {W.toVec, E.toVec} ⊆ convexHull ℚ (rangeSet a5 0 c2) := by
    intro v hv
    rcases hv with ⟨k, hk1, hk2, rfl⟩ | hv
    · apply subset_convexHull
      exact ⟨k, Nat.zero_le _, by omega, by rw [hp5.frame k (by omega), s2 k hk2]⟩
    · rcases hv with hv | hv
      · rw [hv]; exact hWout
      · rw [Set.mem_singleton_iff] at hv
        rw [hv]; exact hEout
  have hsub2 : rangeSet a5 (c1 + 1) c2 ∪ {E.toVec, W.toVec}
      ⊆ convexHull ℚ (rangeSet a5 0 c2) := by
    intro v hv
    rcases hv with ⟨k, hk1, hk2, rfl⟩ | hv
    · apply subset_convexHull
      exact ⟨k, Nat.zero_le _, hk2, rfl⟩
    · rcases hv with hv | hv
      · rw [hv]; exact hEout
      · rw [Set.mem_singleton_iff] at hv
        rw [hv]; exact hWout
  have hsw : RangePerm 0 s.length a3 (iter_swap a3 (s.length - 1) c1) :=
    iter_swap_rangePerm a3 0 s.length _ _ (Nat.zero_le _) (by omega) (Nat.zero_le _)
      (by omega) (by omega)
  refine ⟨a5, c2, hacc.trans hupper, ?_, hc2le, ?_⟩
  · exact ((hps2.trans (hp3.mono (by omega) (by omega))).trans hsw).trans
      (hp5.mono (by omega) (by split_ifs <;> omega))
  · intro p hp
    obtain ⟨i, hi, rfl⟩ := exists_pos_of_mem s p hp
    obtain ⟨j, _, hj, hij⟩ := hps2.symm.exists_source i (Nat.zero_le _) hi
    rw [hij]
    by_cases c0 : j = 0
    · rw [c0, hW2]; exact hWout
    by_cases cl : j = s.length - 1
    · rw [cl, hE2]; exact hEout
    by_cases cg : j < g2
    · exact hull_mono_of_subset hsub1 (hIH1 j (by omega) cg)
    · obtain ⟨j', hj1', hj2', hj3'⟩ := s4 j (by omega) (by omega)
      rw [← hp3.frame j (by omega), hj3']
      exact hull_mono_of_subset hsub2 (hIH2 j' hj1' hj2')

/-- Claim C2. For every point sequence that meets the minimal requirements,
`ConvexHullInPlaceQuickHull` returns, and every point of the input lies on or inside the
convex hull of the points of the output prefix. -/
theorem inPlace_completeness (s : PointSequence)
    (h : PointSequenceFulfillsMinimalRequirements s = true) :
    ∃ r, ConvexHullInPlaceQuickHull s = some r ∧
      ∀ p ∈ s, InConvexHull (outputPoints r) p := by
  obtain ⟨a, r, hres, hperm, hr, hpos⟩ := inPlace_complete_positions s h
  refine ⟨(a, r), hres, ?_⟩
  intro p hp
  unfold InConvexHull
  have hlen : r ≤ a.length := by rw [hperm.length_eq]; exact hr
  exact convexHull_mono (rangeSet_subset_output a r hlen) (hpos p hp)

/-- Claim C2 at the square with an interior point: the five input points lie in the convex
hull of the prefix that `ConvexHullInPlaceQuickHull` returns. -/
theorem inPlace_completeness_witness :
    ∃ r, ConvexHullInPlaceQuickHull [⟨0, 0⟩, ⟨4, 0⟩, ⟨4, 4⟩, ⟨0, 4⟩, ⟨2, 2⟩] = some r ∧
      ∀ p ∈ [(⟨0, 0⟩ : Point), ⟨4, 0⟩, ⟨4, 4⟩, ⟨0, 4⟩, ⟨2, 2⟩],
        InConvexHull (outputPoints r) p :=
  inPlace_completeness [⟨0, 0⟩, ⟨4, 0⟩, ⟨4, 4⟩, ⟨0, 4⟩, ⟨2, 2⟩] (by with_unfolding_all decide)

end QuickHull

namespace QuickHull

open Orientation

/-! ### The squared distance to a segment is convex -/

/-- Convexity of the squared distance to the segment from `p` to `q`: at a convex combination
of two points `u`, `v` and the two end points it is bounded by the distances of `u` and `v`. -/
theorem sqDist_convex (p q u v F : Point) (α β γ δ : Number) (hα : 0 ≤ α) (hβ : 0 ≤ β)
    (hγ : 0 ≤ γ) (hδ : 0 ≤ δ) (hsum : α + β + γ + δ = 1)
    (hx : F.x = α * u.x + β * v.x + γ * p.x + δ * q.x)
    (hy : F.y = α * u.y + β * v.y + γ * p.y + δ * q.y) :
    computeSquaredDistanceFromPointToSegment F p q
      ≤ (α + β) * (α * computeSquaredDistanceFromPointToSegment u p q
        + β * computeSquaredDistanceFromPointToSegment v p q) := by
  obtain ⟨τu, hu0, hu1, hu⟩ := sqDist_attained u p q
  obtain ⟨τv, hv0, hv1, hv⟩ := sqDist_attained v p q
  have hγe : γ = 1 - α - β - δ := by linarith
  have hle := sqDist_le_point F p q (α * τu + β * τv + δ)
    (by
      have := mul_nonneg hα hu0
      have := mul_nonneg hβ hv0
      linarith)
    (by
      have := mul_le_of_le_one_right hα hu1
      have := mul_le_of_le_one_right hβ hv1
      linarith)
  have ex : F.x - (p.x + (α * τu + β * τv + δ) * (q.x - p.x))
      = α * (u.x - (p.x + τu * (q.x - p.x))) + β * (v.x - (p.x + τv * (q.x - p.x))) := by
    rw [hx, hγe]; ring
  have ey : F.y - (p.y + (α * τu + β * τv + δ) * (q.y - p.y))
      = α * (u.y - (p.y + τu * (q.y - p.y))) + β * (v.y - (p.y + τv * (q.y - p.y))) := by
    rw [hy, hγe]; ring
  rw [ex, ey] at hle
  rw [hu, hv]
  generalize u.x - (p.x + τu * (q.x - p.x)) = Ux at hle ⊢
  generalize u.y - (p.y + τu * (q.y - p.y)) = Uy at hle ⊢
  generalize v.x - (p.x + τv * (q.x - p.x)) = Vx at hle ⊢
  generalize v.y - (p.y + τv * (q.y - p.y)) = Vy at hle ⊢
  have key : (α + β) * (α * (Ux * Ux + Uy * Uy) + β * (Vx * Vx + Vy * Vy))
      - ((α * Ux + β * Vx) * (α * Ux + β * Vx) + (α * Uy + β * Vy) * (α * Uy + β * Vy))
      = α * β * ((Ux - Vx) * (Ux - Vx) + (Uy - Vy) * (Uy - Vy)) := by ring
  have hnn : 0 ≤ α * β * ((Ux - Vx) * (Ux - Vx) + (Uy - Vy) * (Uy - Vy)) :=
    mul_nonneg (mul_nonneg hα hβ)
      (add_nonneg (mul_self_nonneg _) (mul_self_nonneg _))
  linarith

/-- The three parts of a triangle as seen from a fourth point add up to the triangle. -/
theorem cross_decompose (u v w F : Point) :
    cross u v w = cross F v w + cross u F w + cross u v F := by
  unfold cross; ring

/-- Barycentric coordinates of `F` in the triangle `u`, `v`, `w`. -/
theorem tri_coordinates (u v w F : Point) (hK : cross u v w ≠ 0) :
    F.x = cross F v w / cross u v w * u.x + cross u F w / cross u v w * v.x
        + cross u v F / cross u v w * w.x ∧
    F.y = cross F v w / cross u v w * u.y + cross u F w / cross u v w * v.y
        + cross u v F / cross u v w * w.y := by
  constructor
  · field_simp
    unfold cross; ring
  · field_simp
    unfold cross; ring

/-! ### The junction at the pivot of `chain` -/

/-- The turn at the pivot towards the antipole: a point `y` left of (P, F) that is not further
from the segment than the pivot `F` sees `F` and then the antipole `A` in clockwise order. -/
theorem junction_antipole (P A F y : Point) (hK : cross P F A < 0) (hy : cross P y F < 0)
    (hD : computeSquaredDistanceFromPointToSegment y P A
      ≤ computeSquaredDistanceFromPointToSegment F P A) : cross y F A < 0 := by
  by_contra h
  have h0 : 0 ≤ cross y F A := not_lt.mp h
  have hdec := cross_decompose P y A F
  have e1 : cross F y A = - cross y F A := cross_swap_first y F A
  have hKK : cross P y A < 0 := by linarith
  have hne : cross P y A ≠ 0 := ne_of_lt hKK
  obtain ⟨hx, hy'⟩ := tri_coordinates P y A F hne
  have hsum : cross F y A / cross P y A + cross P F A / cross P y A
      + cross P y F / cross P y A = 1 := by
    rw [← add_div, ← add_div, ← hdec]
    exact div_self hne
  have h1 : 0 ≤ cross F y A / cross P y A :=
    div_nonneg_of_nonpos (by linarith) (le_of_lt hKK)
  have h2 : 0 < cross P F A / cross P y A := div_pos_of_neg_of_neg hK hKK
  have h3 : 0 < cross P y F / cross P y A := div_pos_of_neg_of_neg hy hKK
  generalize cross F y A / cross P y A = lP at hx hy' hsum h1
  generalize cross P F A / cross P y A = ly at hx hy' hsum h2
  generalize cross P y F / cross P y A = lA at hx hy' hsum h3
  have hcv := sqDist_convex P A y y F ly 0 lP lA (le_of_lt h2) (le_refl _) h1 (le_of_lt h3)
    (by linarith) (by rw [hx]; ring) (by rw [hy']; ring)
  have hpos : 0 < computeSquaredDistanceFromPointToSegment F P A :=
    sqDist_pos_of_cross_ne F P A (ne_of_lt hK)
  have hly : ly < 1 := by linarith
  generalize computeSquaredDistanceFromPointToSegment F P A = DF at hD hcv hpos
  generalize computeSquaredDistanceFromPointToSegment y P A = Dy at hD hcv
  have hb : ly * ly * Dy ≤ ly * ly * DF :=
    mul_le_mul_of_nonneg_left hD (mul_nonneg (le_of_lt h2) (le_of_lt h2))
  have hc : ly * ly < 1 := by nlinarith
  have hd : ly * ly * DF < 1 * DF := mul_lt_mul_of_pos_right hc hpos
  have he : (ly + 0) * (ly * Dy + 0 * Dy) = ly * ly * Dy := by ring
  rw [he] at hcv
  linarith

/-- Two monotone steps of which the middle one is vertical cannot both turn clockwise. -/
theorem vertical_absurd (sg : Number) (hsg : sg = 1 ∨ sg = -1) (a b c d : Point)
    (m1 : 0 ≤ sg * (b.x - a.x)) (m3 : 0 ≤ sg * (d.x - c.x)) (hv : c.x = b.x)
    (h1 : cross a b c < 0) (h2 : cross b c d < 0) : False := by
  have e1 : cross a b c = (sg * (b.x - a.x)) * (sg * (c.y - b.y)) := by
    rcases hsg with h | h <;> rw [h] <;> unfold cross <;> rw [hv] <;> ring
  have e2 : cross b c d = - ((sg * (c.y - b.y)) * (sg * (d.x - c.x))) := by
    rcases hsg with h | h <;> rw [h] <;> unfold cross <;> rw [hv] <;> ring
  rw [e1] at h1
  rw [e2] at h2
  generalize sg * (b.x - a.x) = X at m1 h1
  generalize sg * (d.x - c.x) = Y at m3 h2
  generalize sg * (c.y - b.y) = s at h1 h2
  by_cases hs : 0 ≤ s
  · have := mul_nonneg m1 hs
    linarith
  · have hs' : 0 ≤ -s := by linarith
    have := mul_nonneg hs' m3
    linarith

theorem sg_mul_eq_zero (sg : Number) (hsg : sg = 1 ∨ sg = -1) (t : Number)
    (h : sg * t = 0) : t = 0 := by
  rcases hsg with h1 | h1 <;> rw [h1] at h <;> linarith

/-- Along a chain that is monotone in x, two consecutive clockwise turns make the first edge
see the fourth point clockwise. -/
theorem cw_trans_left (sg : Number) (hsg : sg = 1 ∨ sg = -1) (a b c d : Point)
    (m1 : 0 ≤ sg * (b.x - a.x)) (m2 : 0 ≤ sg * (c.x - b.x)) (m3 : 0 ≤ sg * (d.x - c.x))
    (h1 : cross a b c < 0) (h2 : cross b c d < 0) : cross a b d < 0 := by
  by_cases hv : c.x = b.x
  · exact (vertical_absurd sg hsg a b c d m1 m3 hv h1 h2).elim
  have hpos : 0 < sg * (c.x - b.x) := by
    rcases lt_or_eq_of_le m2 with h | h
    · exact h
    · exfalso
      apply hv
      have := sg_mul_eq_zero sg hsg _ h.symm
      linarith
  have hid : sg * (c.x - b.x) * cross a b d
      = sg * (d.x - b.x) * cross a b c + sg * (b.x - a.x) * cross b c d := by
    unfold cross; ring
  have t1 : 0 < sg * (d.x - b.x) := by
    have : sg * (d.x - b.x) = sg * (d.x - c.x) + sg * (c.x - b.x) := by ring
    linarith
  have t2 := mul_neg_of_pos_of_neg t1 h1
  have t3 : sg * (b.x - a.x) * cross b c d ≤ 0 :=
    mul_nonpos_of_nonneg_of_nonpos m1 (le_of_lt h2)
  by_contra hneg
  have := mul_nonneg (le_of_lt hpos) (not_lt.mp hneg)
  linarith

/-- Along a chain that is monotone in x, two consecutive clockwise turns make the first point
see the last edge clockwise. -/
theorem cw_trans_right (sg : Number) (hsg : sg = 1 ∨ sg = -1) (a b c d : Point)
    (m1 : 0 ≤ sg * (b.x - a.x)) (m2 : 0 ≤ sg * (c.x - b.x)) (m3 : 0 ≤ sg * (d.x - c.x))
    (h1 : cross a b c < 0) (h2 : cross b c d < 0) : cross a c d < 0 := by
  by_cases hv : c.x = b.x
  · exact (vertical_absurd sg hsg a b c d m1 m3 hv h1 h2).elim
  have hpos : 0 < sg * (c.x - b.x) := by
    rcases lt_or_eq_of_le m2 with h | h
    · exact h
    · exfalso
      apply hv
      have := sg_mul_eq_zero sg hsg _ h.symm
      linarith
  have hid : sg * (c.x - b.x) * cross a c d
      = sg * (c.x - a.x) * cross b c d + sg * (d.x - c.x) * cross a b c := by
    unfold cross; ring
  have t1 : 0 < sg * (c.x - a.x) := by
    have : sg * (c.x - a.x) = sg * (c.x - b.x) + sg * (b.x - a.x) := by ring
    linarith
  have t2 := mul_neg_of_pos_of_neg t1 h2
  have t3 : sg * (d.x - c.x) * cross a b c ≤ 0 :=
    mul_nonpos_of_nonneg_of_nonpos m3 (le_of_lt h1)
  by_contra hneg
  have := mul_nonneg (le_of_lt hpos) (not_lt.mp hneg)
  linarith

/-- The turn at the pivot between a point `y` of the first part and a point `z` of the second
part of a call of `chain`: the pivot is a furthest point with the smallest x-coordinate among
the furthest points, so it does not lie on or below the line from `y` to `z`. -/
theorem junction_pair (sg : Number) (hsg : sg = 1 ∨ sg = -1) (P A F y z : Point)
    (hK : cross P F A < 0) (hy : cross P y F < 0) (hz : cross F z A < 0)
    (hDy : computeSquaredDistanceFromPointToSegment y P A
      ≤ computeSquaredDistanceFromPointToSegment F P A)
    (hDz : computeSquaredDistanceFromPointToSegment z P A
      ≤ computeSquaredDistanceFromPointToSegment F P A)
    (hty : computeSquaredDistanceFromPointToSegment y P A
      = computeSquaredDistanceFromPointToSegment F P A → F.x ≤ y.x)
    (htz : computeSquaredDistanceFromPointToSegment z P A
      = computeSquaredDistanceFromPointToSegment F P A → F.x ≤ z.x)
    (hF1 : 0 ≤ sg * (F.x - P.x)) (hF2 : 0 ≤ sg * (A.x - F.x)) : cross y F z < 0 := by
  have hJ := junction_antipole P A F y hK hy hDy
  by_contra h
  have h0 : 0 ≤ cross y F z := not_lt.mp h
  have hdec := cross_decompose y z A F
  have e1 : cross y z F = - cross y F z := cross_swap_last y F z
  have hKK : cross y z A < 0 := by linarith
  have hne : cross y z A ≠ 0 := ne_of_lt hKK
  obtain ⟨hx, hy'⟩ := tri_coordinates y z A F hne
  have hsum : cross F z A / cross y z A + cross y F A / cross y z A
      + cross y z F / cross y z A = 1 := by
    rw [← add_div, ← add_div, ← hdec]
    exact div_self hne
  have h1 : 0 < cross F z A / cross y z A := div_pos_of_neg_of_neg hz hKK
  have h2 : 0 < cross y F A / cross y z A := div_pos_of_neg_of_neg hJ hKK
  have h3 : 0 ≤ cross y z F / cross y z A :=
    div_nonneg_of_nonpos (by linarith) (le_of_lt hKK)
  generalize cross F z A / cross y z A = ly at hx hy' hsum h1
  generalize cross y F A / cross y z A = lz at hx hy' hsum h2
  generalize cross y z F / cross y z A = lA at hx hy' hsum h3
  have hcv := sqDist_convex P A y z F ly lz 0 lA (le_of_lt h1) (le_of_lt h2) (le_refl _) h3
    (by linarith) (by rw [hx]; ring) (by rw [hy']; ring)
  have hpos : 0 < computeSquaredDistanceFromPointToSegment F P A :=
    sqDist_pos_of_cross_ne F P A (ne_of_lt hK)
  generalize computeSquaredDistanceFromPointToSegment F P A = DF at hDy hDz hty htz hcv hpos
  generalize computeSquaredDistanceFromPointToSegment y P A = Dy at hDy hty hcv
  generalize computeSquaredDistanceFromPointToSegment z P A = Dz at hDz htz hcv
  have b1 : ly * Dy ≤ ly * DF := mul_le_mul_of_nonneg_left hDy (le_of_lt h1)
  have b2 : lz * Dz ≤ lz * DF := mul_le_mul_of_nonneg_left hDz (le_of_lt h2)
  rcases lt_or_eq_of_le h3 with h3' | h3'
  · -- the pivot lies strictly inside: it is closer than one of the two points
    have hs : ly + lz < 1 := by linarith
    have hs0 : 0 < ly + lz := by linarith
    have c1 : (ly + lz) * (ly * Dy + lz * Dz) ≤ (ly + lz) * ((ly + lz) * DF) :=
      mul_le_mul_of_nonneg_left (by linarith) (le_of_lt hs0)
    have c2 : (ly + lz) * DF < 1 * DF := mul_lt_mul_of_pos_right hs hpos
    have c3 : (ly + lz) * ((ly + lz) * DF) ≤ (ly + lz) * (1 * DF) :=
      mul_le_mul_of_nonneg_left (le_of_lt c2) (le_of_lt hs0)
    have c4 : (ly + lz) * (1 * DF) < 1 * (1 * DF) :=
      mul_lt_mul_of_pos_right hs (by linarith)
    linarith
  · -- the pivot lies between the two points, which are as far as the pivot
    have hs : ly + lz = 1 := by linarith
    rw [hs, one_mul] at hcv
    have hDF : DF = ly * DF + lz * DF := by
      have : ly * DF + lz * DF = (ly + lz) * DF := by ring
      rw [this, hs, one_mul]
    have eqy : Dy = DF := by
      by_contra hne'
      have hlt : Dy < DF := lt_of_le_of_ne hDy hne'
      have := mul_lt_mul_of_pos_left hlt h1
      linarith
    have eqz : Dz = DF := by
      by_contra hne'
      have hlt : Dz < DF := lt_of_le_of_ne hDz hne'
      have := mul_lt_mul_of_pos_left hlt h2
      linarith
    have x1 := hty eqy
    have x2 := htz eqz
    have hxx : F.x = ly * y.x + lz * z.x := by rw [hx, ← h3']; ring
    have hxs : ly * (y.x - F.x) + lz * (z.x - F.x) = 0 := by
      have : ly * (y.x - F.x) + lz * (z.x - F.x) = ly * y.x + lz * z.x - (ly + lz) * F.x := by
        ring
      rw [this, hs, ← hxx]; ring
    have p1 : 0 ≤ ly * (y.x - F.x) := mul_nonneg (le_of_lt h1) (by linarith)
    have p2 : 0 ≤ lz * (z.x - F.x) := mul_nonneg (le_of_lt h2) (by linarith)
    have p3 : ly * (y.x - F.x) = 0 := by linarith
    have hyx : F.x = y.x := by
      rcases mul_eq_zero.mp p3 with q | q
      · linarith
      · linarith
    exact vertical_absurd sg hsg P y F A (by rw [← hyx]; exact hF1) hF2 hyx hy hJ

/-- A point strictly on the other side of the base of a monotone chain, and between the
end points of the base in x-direction, lies clockwise of every edge of the chain. -/
theorem opposite_side (sg : Number) (P A a b z : Point) (hPA : 0 < sg * (A.x - P.x))
    (hz : 0 < cross P z A) (hzA : 0 ≤ sg * (A.x - z.x)) (hzP : 0 ≤ sg * (z.x - P.x))
    (hab : 0 ≤ sg * (b.x - a.x)) (hP : cross a b P ≤ 0) (hA : cross a b A ≤ 0)
    (hs : (0 < sg * (z.x - P.x) ∧ cross a b A < 0) ∨ 0 < sg * (b.x - a.x)) :
    cross a b z < 0 := by
  have hid : sg * (A.x - P.x) * cross a b z
      = sg * (A.x - z.x) * cross a b P + sg * (z.x - P.x) * cross a b A
        + sg * (b.x - a.x) * cross P A z := by
    unfold cross; ring
  have e : cross P A z = - cross P z A := cross_swap_last P z A
  have hneg : cross P A z < 0 := by linarith
  have t1 : sg * (A.x - z.x) * cross a b P ≤ 0 := mul_nonpos_of_nonneg_of_nonpos hzA hP
  have t2 : sg * (z.x - P.x) * cross a b A ≤ 0 := mul_nonpos_of_nonneg_of_nonpos hzP hA
  have t3 : sg * (b.x - a.x) * cross P A z ≤ 0 :=
    mul_nonpos_of_nonneg_of_nonpos hab (le_of_lt hneg)
  have hlt : sg * (A.x - P.x) * cross a b z < 0 := by
    rcases hs with ⟨s1, s2⟩ | s1
    · have := mul_neg_of_pos_of_neg s1 s2
      linarith
    · have := mul_neg_of_pos_of_neg s1 hneg
      linarith
  by_contra hcon
  have := mul_nonneg (le_of_lt hPA) (not_lt.mp hcon)
  linarith

/-- A point of a closed segment is collinear with its end points. -/
theorem cross_eq_zero_of_onSegment (u v c : Point) (h : OnClosedSegment u v c) :
    cross u v c = 0 := by
  obtain ⟨t, _, _, hx, hy⟩ := h
  unfold cross
  rw [hx, hy]; ring

/-! ### The x-coordinates in the two parts of a call of `chain` -/

theorem neg_sg_cases (sg : Number) (hsg : sg = 1 ∨ sg = -1) : -sg = 1 ∨ -sg = -1 := by
  rcases hsg with h | h
  · right; rw [h]
  · left; rw [h]; ring

/-- The points of the first part of a call of `chain` lie between the pole and the pivot in
x-direction. -/
theorem chain1_x_bound (sg : Number) (hsg : sg = 1 ∨ sg = -1) (P A F c : Point)
    (hK : cross P F A < 0) (hc : cross P c F ≤ 0) (hcA : cross P c A ≤ 0)
    (hD : computeSquaredDistanceFromPointToSegment c P A
      ≤ computeSquaredDistanceFromPointToSegment F P A)
    (hcx : 0 ≤ sg * (A.x - c.x)) (hFP : 0 ≤ sg * (F.x - P.x)) : 0 ≤ sg * (F.x - c.x) := by
  rcases lt_or_eq_of_le hc with hlt | hcol
  · have eK : cross A P F = cross P F A := by unfold cross; ring
    have e1 : cross F P c = cross P c F := by unfold cross; ring
    have hw : 0 ≤ cross A F c := by
      by_contra hneg
      have := sqDist_lt_of_wedge A P F c (by rw [eK]; exact hK) (not_le.mp hneg)
        (by rw [e1]; exact hc)
      rw [← sqDist_symm F P A, ← sqDist_symm c P A] at this
      linarith
    have := group2_x_bound (-sg) (neg_sg_cases sg hsg) A P F c (by rw [eK]; exact le_of_lt hK)
      (by
        have : -sg * (c.x - A.x) = sg * (A.x - c.x) := by ring
        rw [this]; exact hcx)
      (by
        have : -sg * (P.x - F.x) = sg * (F.x - P.x) := by ring
        rw [this]; exact hFP)
      (Or.inl ⟨hw, by rw [e1]; exact hlt⟩)
    have e : -sg * (c.x - F.x) = sg * (F.x - c.x) := by ring
    rw [e] at this
    exact this
  · obtain ⟨t, ht0, ht1, hx, _⟩ := onSegment_pole_pivot P A F c hK hcA hD hcol
    have e : sg * (F.x - c.x) = (1 - t) * (sg * (F.x - P.x)) := by rw [hx]; ring
    rw [e]
    exact mul_nonneg (by linarith) hFP

/-- The points of the second part of a call of `chain` lie between the pivot and the antipole
in x-direction. -/
theorem chain2_x_bound (sg : Number) (hsg : sg = 1 ∨ sg = -1) (P A F c : Point)
    (hK : cross P F A < 0) (hc : cross F c A ≤ 0) (hcA : cross P c A ≤ 0)
    (hD : computeSquaredDistanceFromPointToSegment c P A
      ≤ computeSquaredDistanceFromPointToSegment F P A)
    (hcx : 0 ≤ sg * (c.x - P.x)) (hFA : 0 ≤ sg * (A.x - F.x)) : 0 ≤ sg * (c.x - F.x) := by
  rcases lt_or_eq_of_le hc with hlt | hcol
  · have eK : cross A P F = cross P F A := by unfold cross; ring
    have e1 : cross A F c = cross F c A := by unfold cross; ring
    have := group1_x_bound (-sg) (neg_sg_cases sg hsg) A P F c (by rw [eK]; exact hK)
      (by rw [e1]; exact hlt)
      (by
        have : -sg * (P.x - c.x) = sg * (c.x - P.x) := by ring
        rw [this]; exact hcx)
      (by
        have : -sg * (F.x - A.x) = sg * (A.x - F.x) := by ring
        rw [this]; exact hFA)
      (by rw [← sqDist_symm F P A, ← sqDist_symm c P A]; exact hD)
    have e : -sg * (F.x - c.x) = sg * (c.x - F.x) := by ring
    rw [e] at this
    exact this
  · obtain ⟨t, ht0, ht1, hx, _⟩ := onSegment_pivot_antipole P A F c hK hcA hD hcol
    have e : sg * (c.x - F.x) = t * (sg * (A.x - F.x)) := by rw [hx]; ring
    rw [e]
    exact mul_nonneg ht0 hFA

end QuickHull

namespace QuickHull

open Orientation

/-! ### Minimality of `chain` -/

/-- Minimality of `chain`. If the points of the range lie on or right of the directed line from
the pole `P` to the antipole `A` and between them in x-direction, then the returned prefix,
followed by the antipole, turns clockwise at every triple of its points, and its x-coordinates
are monotone. -/
theorem chain_minimal : ∀ (fuel : Nat) (a : PointSequence) (pole past antipole : Nat)
    (sg : Number) (P A : Point), (sg = 1 ∨ sg = -1) → deref a pole = P →
    deref a antipole = A → past - pole < fuel → pole < past → past ≤ a.length →
    (antipole < pole ∨ past ≤ antipole) →
    (∀ i, pole < i → i < past → ChainPoint sg P A (deref a i)) →
    ∀ a' e, chain fuel a pole past antipole = some (a', e) →
      (∀ i j, pole ≤ i → i < j → j < e → cross (deref a' i) (deref a' j) A < 0) ∧
      (∀ i j k, pole ≤ i → i < j → j < k → k < e →
        cross (deref a' i) (deref a' j) (deref a' k) < 0) ∧
      (∀ i j, pole ≤ i → i < j → j < e → 0 ≤ sg * ((deref a' j).x - (deref a' i).x)) := by
  intro fuel
  induction fuel with
  | zero => intro a pole past antipole sg P A _ _ _ h; omega
  | succ fuel ih =>
    intro a pole past antipole sg P A hsg hP hA hfuel hpp hlen hanti hPre a' e hres
    by_cases h1 : past - pole = 1
    · rw [chain_one fuel a pole past antipole h1] at hres
      simp only [Option.some.injEq, Prod.mk.injEq] at hres
      obtain ⟨rfl, rfl⟩ := hres
      refine ⟨?_, ?_, ?_⟩
      · intro i j _ _ _; omega
      · intro i j k _ _ _ _; omega
      · intro i j _ _ _; omega
    by_cases h2 : past - pole = 2
    · rw [chain_two fuel a pole past antipole h2] at hres
      split_ifs at hres with hc
      · simp only [Option.some.injEq, Prod.mk.injEq] at hres
        obtain ⟨rfl, rfl⟩ := hres
        refine ⟨?_, ?_, ?_⟩
        · intro i j _ _ _; omega
        · intro i j k _ _ _ _; omega
        · intro i j _ _ _; omega
      · simp only [Option.some.injEq, Prod.mk.injEq] at hres
        obtain ⟨rfl, rfl⟩ := hres
        obtain ⟨q1, _, q3, _⟩ := hPre (pole + 1) (by omega) (by omega)
        rw [hP, hA, orientation_col_iff, cross_swap_first] at hc
        refine ⟨?_, ?_, ?_⟩
        · intro i j hi hij hj
          have ei : i = pole := by omega
          have ej : j = pole + 1 := by omega
          rw [ei, ej, hP]
          rcases lt_or_eq_of_le q1 with h | h
          · exact h
          · exfalso; apply hc; rw [h]; ring
        · intro i j k _ _ _ _; omega
        · intro i j hi hij hj
          have ei : i = pole := by omega
          have ej : j = pole + 1 := by omega
          rw [ei, ej, hP]
          exact q3
    obtain ⟨⟨hF1, hF2⟩, hFmax, hFtie⟩ := find_furthest3_spec a pole past antipole hpp
    by_cases hc : getOrientation (deref a (find_furthest3 a pole past antipole)) (deref a pole)
        (deref a antipole) = COLLINEAR
    · rw [chain_collapse fuel a pole past antipole h1 h2 hc] at hres
      simp only [Option.some.injEq, Prod.mk.injEq] at hres
      obtain ⟨rfl, rfl⟩ := hres
      refine ⟨?_, ?_, ?_⟩
      · intro i j _ _ _; omega
      · intro i j k _ _ _ _; omega
      · intro i j _ _ _; omega
    -- the general case
    have hFne : find_furthest3 a pole past antipole ≠ pole := by
      intro he
      rw [he] at hc
      exact hc (getOrientation_self_left _ _)
    obtain ⟨a1, mid, hpart⟩ : ∃ a1 mid, partition_left_right
        (iter_swap a (find_furthest3 a pole past antipole) (past - 1)) pole (past - 1)
        (past - 1) = (a1, mid) := ⟨_, _, rfl⟩
    have hc0 := hc
    have hpart0 := hpart
    rw [hP, hA] at hFmax hFtie hc
    obtain ⟨f, hf⟩ : ∃ f, find_furthest3 a pole past antipole = f := ⟨_, rfl⟩
    rw [hf] at hF1 hF2 hFmax hFtie hc hFne hpart
    obtain ⟨F, hF⟩ : ∃ F, deref a f = F := ⟨_, rfl⟩
    rw [hF] at hFmax hFtie hc
    obtain ⟨hFc, _, hFx1, hFx2⟩ := hPre f (by omega) hF2
    rw [hF] at hFc hFx1 hFx2
    have hK : cross P F A < 0 := by
      rcases lt_or_eq_of_le hFc with h4 | h4
      · exact h4
      · exfalso
        apply hc
        rw [orientation_col_iff, cross_swap_first, h4]
        ring
    have hQa : ∀ j, pole + 1 ≤ j → j < past →
        (ChainPoint sg P A (deref a j) ∧ NotFurther P A F (deref a j)) := by
      intro j hj1 hj2
      exact ⟨hPre j (by omega) hj2, hFmax j (by omega) hj2, hFtie j (by omega) hj2⟩
    have hsw : RangePerm (pole + 1) past a (iter_swap a f (past - 1)) :=
      iter_swap_rangePerm a (pole + 1) past _ _ (by omega) hF2 (by omega) (by omega) hlen
    have hlen0 : (iter_swap a f (past - 1)).length = a.length := length_iter_swap _ _ _
    have hF0 : deref (iter_swap a f (past - 1)) (past - 1) = F := by
      rw [deref_iter_swap_right a _ _ (by omega) (by omega), hF]
    have hP0 : deref (iter_swap a f (past - 1)) pole = P := by
      rw [hsw.frame pole (by omega), hP]
    obtain ⟨hp1, hm1, hm2, hg1, hg2⟩ := partition_left_right_spec
      (iter_swap a f (past - 1)) pole (past - 1) (past - 1)
      (by omega) (by omega) (by omega)
    rw [hpart] at hp1 hm1 hm2 hg1 hg2
    simp only [hP0, hF0] at hp1 hm1 hm2 hg1 hg2
    have hlen1 : a1.length = a.length := by rw [hp1.length_eq, hlen0]
    have hpa1 : RangePerm (pole + 1) past a a1 := hsw.trans (hp1.mono (le_refl _) (by omega))
    have hpole1 : deref a1 pole = P := by rw [hpa1.frame pole (by omega), hP]
    have hanti1 : deref a1 antipole = A := by rw [hpa1.frame antipole (by omega), hA]
    have hF1' : deref a1 (past - 1) = F := by rw [hp1.frame (past - 1) (by omega), hF0]
    have hQ1 := hpa1.forall_range (fun c => ChainPoint sg P A c ∧ NotFurther P A F c) hQa
    -- the requirements of the first call
    have hB1 : ∀ j, pole + 1 ≤ j → j < mid →
        (ChainPoint sg P F (deref a1 j) ∧ NotFurther P A F (deref a1 j)) := by
      intro j hj1 hj2
      obtain ⟨⟨q1, q2, q3, q4⟩, q5⟩ := hQ1 j hj1 (by omega)
      have hg := (orientation_ne_ccw_iff _ _ _).mp (hg1 j hj1 hj2)
      exact ⟨⟨hg, fun hcol => onSegment_pole_pivot P A F _ hK q1 q5.1 hcol, q3,
        chain1_x_bound sg hsg P A F _ hK hg q1 q5.1 q4 hFx1⟩, q5⟩
    obtain ⟨a2, e1, hch, hp2, he1, he2⟩ := chain_struct fuel a1 pole mid (past - 1) (by omega)
      (by omega) (by omega) (by omega)
    have hlen2 : a2.length = a.length := by rw [hp2.length_eq, hlen1]
    obtain ⟨hT2a, hT3a, hMa⟩ := ih a1 pole mid (past - 1) sg P F hsg hpole1 hF1' (by omega)
      (by omega) (by omega) (by omega) (fun j hj1 hj2 => (hB1 j (by omega) hj2).1) a2 e1 hch
    have hB1' := hp2.forall_range
      (fun c => ChainPoint sg P F c ∧ NotFurther P A F c) hB1
    rw [chain_general fuel a pole past antipole h1 h2 hc0 a1 mid hpart0 a2 e1 hch] at hres
    obtain ⟨hrel, hrelF, hrelR, hrelG⟩ := relocate_spec a2 e1 mid past (by omega) (by omega)
      (by omega)
    generalize move_away (iter_swap (iter_swap a2 mid (past - 1)) e1 mid) (e1 + 1) (mid + 1)
      past = a5 at hres hrel hrelF hrelR hrelG
    have hlen5 : a5.length = a.length := by rw [hrel.length_eq, hlen2]
    have hF2' : deref a2 (past - 1) = F := by rw [hp2.frame (past - 1) (by omega), hF1']
    rw [hF2'] at hrelF
    obtain ⟨a6, interior, hpart2⟩ : ∃ a6 interior,
        partition_left_right a5 e1 (e1 + (past - mid)) antipole = (a6, interior) := ⟨_, _, rfl⟩
    obtain ⟨hp6, hi6a, hi6b, hk1, hk2⟩ := partition_left_right_spec a5 e1
      (e1 + (past - mid)) antipole (by omega) (by omega) (by omega)
    rw [hpart2] at hp6 hi6a hi6b hk1 hk2 hres
    simp only at hp6 hi6a hi6b hk1 hk2 hres
    have hanti5 : deref a5 antipole = A := by
      rw [hrel.frame antipole (by omega), hp2.frame antipole (by omega), hanti1]
    rw [hrelF, hanti5] at hk1 hk2
    have hlen6 : a6.length = a.length := by rw [hp6.length_eq, hlen5]
    have hpole6 : deref a6 e1 = F := by rw [hp6.frame e1 (by omega), hrelF]
    have hanti6 : deref a6 antipole = A := by rw [hp6.frame antipole (by omega), hanti5]
    -- the points that follow the pivot are points of the rest
    have hR5 : ∀ j, e1 + 1 ≤ j → j < e1 + (past - mid) →
        (0 < cross P (deref a5 j) F ∧ ChainPoint sg P A (deref a5 j) ∧
          NotFurther P A F (deref a5 j)) := by
      intro j hj1 hj2
      obtain ⟨j', hj1', hj2', hj3'⟩ := hrelR j hj1 hj2
      rw [hj3', hp2.frame j' (by omega)]
      exact ⟨(orientation_ccw_iff _ _ _).mp (hg2 j' hj1' hj2'), hQ1 j' (by omega) (by omega)⟩
    have hR6 := hp6.forall_range (fun c =>
      0 < cross P c F ∧ ChainPoint sg P A c ∧ NotFurther P A F c) hR5
    -- the requirements of the second call
    have hB2 : ∀ j, e1 + 1 ≤ j → j < interior →
        (ChainPoint sg F A (deref a6 j) ∧ NotFurther P A F (deref a6 j) ∧
          0 < cross P (deref a6 j) F) := by
      intro j hj1 hj2
      obtain ⟨q0, ⟨q1, q2, q3, q4⟩, q5⟩ := hR6 j hj1 (by omega)
      have hk := (orientation_ne_ccw_iff _ _ _).mp (hk1 j hj1 hj2)
      exact ⟨⟨hk, fun hcol => onSegment_pivot_antipole P A F _ hK q1 q5.1 hcol,
        chain2_x_bound sg hsg P A F _ hK hk q1 q5.1 q3 hFx2, q4⟩, q5, q0⟩
    obtain ⟨a7, e', hch2, hp7, he3, he4⟩ := chain_struct fuel a6 e1 interior antipole
      (by omega) (by omega) (by omega) (by omega)
    rw [hch2] at hres
    simp only [Option.some.injEq, Prod.mk.injEq] at hres
    obtain ⟨rfl, rfl⟩ := hres
    obtain ⟨hT2b, hT3b, hMb⟩ := ih a6 e1 interior antipole sg F A hsg hpole6 hanti6 (by omega)
      (by omega) (by omega) (by omega) (fun j hj1 hj2 => (hB2 j (by omega) hj2).1) a7 e' hch2
    have hB2' := hp7.forall_range
      (fun c => ChainPoint sg F A c ∧ NotFurther P A F c ∧ 0 < cross P c F) hB2
    -- frames of the final sequence
    have hfin_lt : ∀ j, j ≤ e1 → deref a7 j = deref a6 j := fun j hj => hp7.frame j (by omega)
    have hF7 : deref a7 e1 = F := by rw [hfin_lt e1 (le_refl _), hpole6]
    have hkeep : ∀ j, pole ≤ j → j < e1 → deref a7 j = deref a2 j := by
      intro j hj1 hj2
      rw [hfin_lt j (by omega), hp6.frame j (by omega), hrel.frame j (by omega)]
    have hpole7 : deref a7 pole = P := by
      rw [hkeep pole (le_refl _) he1, hp2.frame pole (by omega), hpole1]
    -- the first part, seen from the pivot
    have hU1 : ∀ j, pole ≤ j → j < e1 →
        cross (deref a7 j) F A < 0 ∧ 0 ≤ sg * (F.x - (deref a7 j).x) := by
      intro j hj1 hj2
      by_cases hjp : j = pole
      · rw [hjp, hpole7]
        exact ⟨hK, hFx1⟩
      · obtain ⟨⟨_, _, _, q4⟩, q5⟩ := hB1' j (by omega) (by omega)
        have hy := hT2a pole j (le_refl _) (by omega) hj2
        rw [hp2.frame pole (by omega), hpole1] at hy
        rw [hkeep j hj1 hj2]
        exact ⟨junction_antipole P A F _ hK hy q5.1, q4⟩
    have hU3 : ∀ k, e1 < k → k < e' →
        cross F (deref a7 k) A < 0 ∧ 0 ≤ sg * ((deref a7 k).x - F.x) ∧
          0 ≤ sg * (A.x - (deref a7 k).x) := by
      intro k hk1' hk2'
      obtain ⟨⟨_, _, q3, q4⟩, _⟩ := hB2' k (by omega) (by omega)
      have hz := hT2b e1 k (le_refl _) hk1' hk2'
      rw [hF7] at hz
      exact ⟨hz, q3, q4⟩
    have hU2 : ∀ j k, pole ≤ j → j < e1 → e1 < k → k < e' →
        cross (deref a7 j) F (deref a7 k) < 0 := by
      intro j k hj1 hj2 hk1' hk2'
      obtain ⟨_, r5, r0⟩ := hB2' k (by omega) (by omega)
      by_cases hjp : j = pole
      · rw [hjp, hpole7, cross_swap_last]
        linarith
      · obtain ⟨_, q5⟩ := hB1' j (by omega) (by omega)
        have hy := hT2a pole j (le_refl _) (by omega) hj2
        rw [hp2.frame pole (by omega), hpole1] at hy
        rw [hkeep j hj1 hj2]
        exact junction_pair sg hsg P A F _ _ hK hy (hU3 k hk1' hk2').1 q5.1 r5.1 q5.2 r5.2
          hFx1 hFx2
    refine ⟨?_, ?_, ?_⟩
    · intro i j hi hij hj
      by_cases c1 : j < e1
      · have t := hT2a i j hi hij c1
        rw [← hkeep i hi (by omega), ← hkeep j (by omega) c1] at t
        have m := hMa i j hi hij c1
        rw [← hkeep i hi (by omega), ← hkeep j (by omega) c1] at m
        exact cw_trans_left sg hsg _ _ F A m (hU1 j (by omega) c1).2 hFx2 t
          (hU1 j (by omega) c1).1
      by_cases c2 : j = e1
      · rw [c2, hF7]
        exact (hU1 i hi (by omega)).1
      by_cases c3 : i < e1
      · obtain ⟨u1, u2, u3⟩ := hU3 j (by omega) hj
        exact cw_trans_right sg hsg _ F _ A (hU1 i hi c3).2 u2 u3
          (hU2 i j hi c3 (by omega) hj) u1
      · exact hT2b i j (by omega) hij hj
    · intro i j k hi hij hjk hk
      by_cases c1 : k < e1
      · have t := hT3a i j k hi hij hjk c1
        rw [← hkeep i hi (by omega), ← hkeep j (by omega) (by omega),
          ← hkeep k (by omega) c1] at t
        exact t
      have t2 : ∀ i j, pole ≤ i → i < j → j < e1 →
          cross (deref a7 i) (deref a7 j) F < 0 ∧
            0 ≤ sg * ((deref a7 j).x - (deref a7 i).x) := by
        intro i j hi hij hj
        have t := hT2a i j hi hij hj
        have m := hMa i j hi hij hj
        rw [← hkeep i hi (by omega), ← hkeep j (by omega) hj] at t m
        exact ⟨t, m⟩
      by_cases c2 : k = e1
      · rw [c2, hF7]
        exact (t2 i j hi hij (by omega)).1
      by_cases c3 : j < e1
      · obtain ⟨t, m⟩ := t2 i j hi hij c3
        exact cw_trans_left sg hsg _ _ F _ m (hU1 j (by omega) c3).2
          (hU3 k (by omega) hk).2.1 t (hU2 j k (by omega) c3 (by omega) hk)
      by_cases c4 : j = e1
      · rw [c4, hF7]
        exact hU2 i k hi (by omega) (by omega) hk
      by_cases c5 : i < e1
      · have t := hT3b e1 j k (le_refl _) (by omega) hjk hk
        rw [hF7] at t
        exact cw_trans_right sg hsg _ F _ _ (hU1 i hi c5).2 (hU3 j (by omega) (by omega)).2.1
          (hMb j k (by omega) hjk hk) (hU2 i j hi c5 (by omega) (by omega)) t
      · exact hT3b i j k (by omega) hij hjk hk
    · intro i j hi hij hj
      by_cases c1 : j < e1
      · have m := hMa i j hi hij c1
        rw [← hkeep i hi (by omega), ← hkeep j (by omega) c1] at m
        exact m
      by_cases c3 : i < e1
      · have m1 := (hU1 i hi c3).2
        by_cases c2 : j = e1
        · rw [c2, hF7]
          exact m1
        · have m2 := (hU3 j (by omega) hj).2.1
          have e : sg * ((deref a7 j).x - (deref a7 i).x)
              = sg * (F.x - (deref a7 i).x) + sg * ((deref a7 j).x - F.x) := by ring
          rw [e]
          linarith
      · exact hMb i j (by omega) hij hj

end QuickHull

namespace QuickHull

open Orientation

/-! ### Minimality of `TheirConvexHullInPlaceQuickHull` -/

theorem cross_self_left (p q : Point) : cross p p q = 0 := by
  unfold cross; ring

theorem cross_self_right (p q : Point) : cross p q p = 0 := by
  unfold cross; ring

theorem cross_self_last (p q : Point) : cross p q q = 0 := by
  unfold cross; ring

/-- A point strictly left of the line from the smallest point `w` to the largest point `e`
has a larger x-coordinate than `w`. -/
theorem x_lt_of_left (w e c : Point) (h1 : ¬ c.lt w = true) (h2 : ¬ e.lt c = true)
    (hc : 0 < cross w c e) : w.x < c.x := by
  rw [Point.lt_iff] at h1 h2
  push_neg at h1 h2
  obtain ⟨h1x, h1y⟩ := h1
  obtain ⟨h2x, _⟩ := h2
  rcases lt_or_eq_of_le h1x with h | h
  · exact h
  · exfalso
    have hy := h1y h.symm
    have e1 : cross w c e = - ((c.y - w.y) * (e.x - w.x)) := by
      unfold cross; rw [← h]; ring
    have := mul_nonneg (by linarith : 0 ≤ c.y - w.y) (by linarith : 0 ≤ e.x - w.x)
    linarith

/-- A point strictly right of the line from the smallest point `w` to the largest point `e`
has a smaller x-coordinate than `e`. -/
theorem x_lt_of_right (w e c : Point) (h1 : ¬ c.lt w = true) (h2 : ¬ e.lt c = true)
    (hc : cross w c e < 0) : c.x < e.x := by
  rw [Point.lt_iff] at h1 h2
  push_neg at h1 h2
  obtain ⟨h1x, _⟩ := h1
  obtain ⟨h2x, h2y⟩ := h2
  rcases lt_or_eq_of_le h2x with h | h
  · exact h
  · exfalso
    have hy := h2y h.symm
    have e1 : cross w c e = (e.x - w.x) * (e.y - c.y) := by
      unfold cross; rw [h]; ring
    have := mul_nonneg (by linarith : 0 ≤ e.x - w.x) (by linarith : 0 ≤ e.y - c.y)
    linarith

/-- Minimality of `TheirConvexHullInPlaceQuickHull`, stated on positions: the returned prefix
turns clockwise at every triple of its positions, and no two of its positions hold the same
point. -/
theorem their_minimal_positions (s : PointSequence)
    (h : PointSequenceFulfillsMinimalRequirements s = true) :
    ∃ a r, TheirConvexHullInPlaceQuickHull s = some (a, r) ∧ r ≤ a.length ∧
      (∀ i j k, i < j → j < k → k < r → cross (deref a i) (deref a j) (deref a k) < 0) ∧
      (∀ i j, i < j → j < r → deref a i ≠ deref a j) := by
  have hn := length_of_minimalRequirements s h
  obtain ⟨⟨_, hmn⟩, ⟨_, hmx⟩, hmin, hmax, _⟩ := find_poles_spec s 0 s.length (by omega)
  have hne := find_poles_ne s 0 s.length (by omega)
  obtain ⟨hp1, hw, he⟩ := parallel_iter_swap_spec s s.length _ _ rfl (by omega) hmn hmx hne
  have hequal := their_equal_poles s h
  have haccept := their_accepted s h
  obtain ⟨a1, ha1⟩ : ∃ a1, parallel_iter_swap s 0 (s.length - 1) (find_poles s 0 s.length).1
    (find_poles s 0 s.length).2 = a1 := ⟨_, rfl⟩
  rw [ha1] at hp1 hw he hequal haccept
  have hlen1 := hp1.length_eq
  have hlex1 := hp1.forall_range (fun c =>
    ¬ c.lt (deref s (find_poles s 0 s.length).1) = true ∧
    ¬ (deref s (find_poles s 0 s.length).2).lt c = true)
    (fun j hj1 hj2 => ⟨hmin j hj1 hj2, hmax j hj1 hj2⟩)
  rw [← hw, ← he] at hlex1
  obtain ⟨W, hW⟩ : ∃ W, deref a1 0 = W := ⟨_, rfl⟩
  obtain ⟨E, hE⟩ : ∃ E, deref a1 (s.length - 1) = E := ⟨_, rfl⟩
  rw [hW, hE] at hlex1 hequal haccept
  cases heq : W.eq E with
  | true =>
    refine ⟨a1, 1, hequal heq, by omega, ?_, ?_⟩
    · intro i j k _ _ _; omega
    · intro i j _ _; omega
  | false =>
    have hWE : W ≠ E := by
      intro hcon
      have := (Point.eq_iff W E).mpr hcon
      rw [heq] at this
      exact Bool.false_ne_true this
    obtain ⟨a2, middle, hpart⟩ : ∃ a2 middle,
        partition_left_right a1 0 (s.length - 1) (s.length - 1) = (a2, middle) := ⟨_, _, rfl⟩
    obtain ⟨hp2, hm1, hm2, hg1, hg2⟩ := partition_left_right_spec a1 0 (s.length - 1)
      (s.length - 1) (by omega) (by omega) (by omega)
    rw [hpart] at hp2 hm1 hm2 hg1 hg2
    simp only [hW, hE] at hp2 hm1 hm2 hg1 hg2
    have hlen2 : a2.length = s.length := by rw [hp2.length_eq, hlen1]
    have hW2 : deref a2 0 = W := by rw [hp2.frame 0 (by omega), hW]
    have hE2 : deref a2 (s.length - 1) = E := by rw [hp2.frame (s.length - 1) (by omega), hE]
    have hlex2 := (hp2.mono (Nat.zero_le _) (by omega : s.length - 1 ≤ s.length)).forall_range
      (fun c => ¬ c.lt W = true ∧ ¬ E.lt c = true) hlex1
    obtain ⟨a3, e1, hch, hp3, he1, he2⟩ := chain_struct s.length a2 0 middle (s.length - 1)
      (by omega) (by omega) (by omega) (by omega)
    have hlen3 : a3.length = s.length := by rw [hp3.length_eq, hlen2]
    obtain ⟨hT2a, hT3a, hMa⟩ := chain_minimal s.length a2 0 middle (s.length - 1) 1 W E
      (Or.inl rfl) hW2 hE2 (by omega) (by omega) (by omega) (by omega)
      (by
        intro j hj1 hj2
        obtain ⟨l1, l2⟩ := hlex2 j (Nat.zero_le _) (by omega)
        have hc := (orientation_ne_ccw_iff _ _ _).mp (hg1 j (by omega) hj2)
        refine ⟨hc, fun hcol => onSegment_of_lex_between _ _ _ l1 l2 hcol, ?_, ?_⟩
        · have := x_le_of_not_lt _ _ l1
          linarith
        · have := x_le_of_not_lt _ _ l2
          linarith)
      a3 e1 hch
    obtain ⟨hrel, hrelF, hrelR, hrelG⟩ := relocate_spec a3 e1 middle s.length (by omega)
      (by omega) (by omega)
    have hacc := haccept heq a2 middle hpart a3 e1 hch
    obtain ⟨a5, ha5⟩ : ∃ a5, move_away (iter_swap (iter_swap a3 middle (s.length - 1)) e1 middle)
      (e1 + 1) (middle + 1) s.length = a5 := ⟨_, rfl⟩
    rw [ha5] at hrel hrelF hrelR hrelG hacc
    have hlen5 : a5.length = s.length := by rw [hrel.length_eq, hlen3]
    have hE3 : deref a3 (s.length - 1) = E := by
      rw [hp3.frame (s.length - 1) (by omega), hE2]
    have hW3 : deref a3 0 = W := by rw [hp3.frame 0 (by omega), hW2]
    rw [hE3] at hrelF
    have hW5 : deref a5 0 = W := by rw [hrel.frame 0 (by omega), hW3]
    obtain ⟨a7, e, hch2, hp7, he3, he4⟩ := chain_struct s.length a5 e1
      (e1 + (s.length - middle)) 0 (by omega) (by omega) (by omega) (by omega)
    obtain ⟨hT2b, hT3b, hMb⟩ := chain_minimal s.length a5 e1 (e1 + (s.length - middle)) 0
      (-1) E W (Or.inr rfl) hrelF hW5 (by omega) (by omega) (by omega) (by omega)
      (by
        intro j hj1 hj2
        obtain ⟨j', hj1', hj2', hj3'⟩ := hrelR j (by omega) hj2
        rw [hj3', hp3.frame j' (by omega)]
        obtain ⟨l1, l2⟩ := hlex2 j' (Nat.zero_le _) (by omega)
        have hc := (orientation_ccw_iff _ _ _).mp (hg2 j' hj1' hj2')
        have e : cross E (deref a2 j') W = - cross W (deref a2 j') E := by
          unfold cross; ring
        refine ⟨by linarith, fun hcol => ?_, ?_, ?_⟩
        · exfalso; linarith
        · have := x_le_of_not_lt _ _ l2
          linarith
        · have := x_le_of_not_lt _ _ l1
          linarith)
      a7 e hch2
    -- the final sequence
    have hperm : RangePerm 0 s.length a1 a7 :=
      (((hp2.mono (by omega) (by omega)).trans (hp3.mono (by omega) (by omega))).trans
        (hrel.mono (by omega) (le_refl _))).trans (hp7.mono (by omega) (by omega))
    have hlen7 : a7.length = s.length := by rw [hperm.length_eq, hlen1]
    have hlex7 := hperm.forall_range (fun c => ¬ c.lt W = true ∧ ¬ E.lt c = true) hlex1
    have hkeep : ∀ j, j < e1 → deref a7 j = deref a3 j := by
      intro j hj
      rw [hp7.frame j (by omega), hrel.frame j (by omega)]
    have hW7 : deref a7 0 = W := by rw [hkeep 0 he1, hW3]
    have hE7 : deref a7 e1 = E := by rw [hp7.frame e1 (by omega), hrelF]
    -- the first chain, on the final sequence
    have hUa : ∀ i j, i < j → j < e1 →
        cross (deref a7 i) (deref a7 j) E < 0 ∧
          0 ≤ (deref a7 j).x - (deref a7 i).x := by
      intro i j hij hj
      have t := hT2a i j (Nat.zero_le _) hij hj
      have m := hMa i j (Nat.zero_le _) hij hj
      rw [← hkeep i (by omega), ← hkeep j hj] at t m
      exact ⟨t, by linarith⟩
    have hLa : ∀ i j, e1 ≤ i → i < j → j < e →
        cross (deref a7 i) (deref a7 j) W < 0 ∧
          0 ≤ (deref a7 i).x - (deref a7 j).x := by
      intro i j hi hij hj
      have t := hT2b i j hi hij hj
      have m := hMb i j hi hij hj
      exact ⟨t, by linarith⟩
    -- the points of the first chain behind the western pole
    have hU : ∀ j, 0 < j → j < e1 →
        cross W (deref a7 j) E < 0 ∧ W.x ≤ (deref a7 j).x ∧ (deref a7 j).x < E.x := by
      intro j hj1 hj2
      have t := (hUa 0 j hj1 hj2).1
      rw [hW7] at t
      obtain ⟨l1, l2⟩ := hlex7 j (Nat.zero_le _) (by omega)
      exact ⟨t, x_le_of_not_lt _ _ l1, x_lt_of_right W E _ l1 l2 t⟩
    -- the points of the second chain behind the eastern pole
    have hL : ∀ k, e1 < k → k < e →
        0 < cross W (deref a7 k) E ∧ W.x < (deref a7 k).x ∧ (deref a7 k).x ≤ E.x := by
      intro k hk1 hk2
      have t := (hLa e1 k (le_refl _) hk1 hk2).1
      rw [hE7] at t
      have e' : cross E (deref a7 k) W = - cross W (deref a7 k) E := by
        unfold cross; ring
      have t' : 0 < cross W (deref a7 k) E := by linarith
      obtain ⟨l1, l2⟩ := hlex7 k (Nat.zero_le _) (by omega)
      exact ⟨t', x_lt_of_left W E _ l1 l2 t', x_le_of_not_lt _ _ l2⟩
    refine ⟨a7, e, hacc.trans hch2, by omega, ?_, ?_⟩
    · intro i j k hij hjk hk
      by_cases c1 : k < e1
      · have t := hT3a i j k (Nat.zero_le _) hij hjk c1
        rw [← hkeep i (by omega), ← hkeep j (by omega), ← hkeep k c1] at t
        exact t
      by_cases c2 : k = e1
      · rw [c2, hE7]
        exact (hUa i j hij (by omega)).1
      by_cases c3 : e1 ≤ i
      · exact hT3b i j k c3 hij hjk hk
      obtain ⟨z1, z2, z3⟩ := hL k (by omega) hk
      by_cases c4 : j < e1
      · -- two points of the first chain and one of the second
        obtain ⟨t, m⟩ := hUa i j hij c4
        have hPA : W.x < E.x := by linarith
        apply opposite_side 1 W E _ _ _ (by linarith) z1 (by linarith) (by linarith)
          (by linarith) ?_ (le_of_lt t) (Or.inl ⟨by linarith, t⟩)
        by_cases ci : i = 0
        · rw [ci, hW7, cross_self_right]
        · have t3 := hT3a 0 i j (le_refl _) (by omega) hij c4
          rw [← hkeep 0 (by omega), ← hkeep i (by omega), ← hkeep j c4, hW7] at t3
          rw [cross_rotate W (deref a7 i) (deref a7 j)]
          exact le_of_lt t3
      by_cases c5 : j = e1
      · -- a point of the first chain, the eastern pole, a point of the second chain
        rw [c5, hE7]
        by_cases ci : i = 0
        · rw [ci, hW7]
          have e' : cross W E (deref a7 k) = - cross W (deref a7 k) E := by
            unfold cross; ring
          linarith
        · obtain ⟨u1, u2, u3⟩ := hU i (by omega) (by omega)
          have hPA : W.x < E.x := by linarith
          apply opposite_side 1 W E _ _ _ (by linarith) z1 (by linarith) (by linarith)
            (by linarith) ?_ ?_ (Or.inr (by linarith))
          · rw [cross_rotate W (deref a7 i) E]
            exact le_of_lt u1
          · rw [cross_self_last]
      · -- a point of the first chain and two of the second
        obtain ⟨t, m⟩ := hLa j k (by omega) hjk hk
        have e' : cross (deref a7 i) (deref a7 j) (deref a7 k)
            = cross (deref a7 j) (deref a7 k) (deref a7 i) := by
          unfold cross; ring
        rw [e']
        by_cases ci : i = 0
        · rw [ci, hW7]
          exact t
        · obtain ⟨u1, u2, u3⟩ := hU i (by omega) (by omega)
          have hPA : W.x < E.x := by linarith
          have e'' : cross E (deref a7 i) W = - cross W (deref a7 i) E := by
            unfold cross; ring
          apply opposite_side (-1) E W _ _ _ (by linarith) (by linarith) (by linarith)
            (by linarith) (by linarith) ?_ (le_of_lt t) (Or.inl ⟨by linarith, t⟩)
          have t3 := hT3b e1 j k (le_refl _) (by omega) hjk hk
          rw [hE7] at t3
          rw [cross_rotate E (deref a7 j) (deref a7 k)]
          exact le_of_lt t3
    · intro i j hij hj hcon
      by_cases c1 : j < e1
      · have t := (hUa i j hij c1).1
        rw [hcon, cross_self_left] at t
        exact lt_irrefl _ t
      by_cases c3 : e1 ≤ i
      · have t := (hLa i j c3 hij hj).1
        rw [hcon, cross_self_left] at t
        exact lt_irrefl _ t
      by_cases ci : i = 0
      · rw [ci, hW7] at hcon
        by_cases c2 : j = e1
        · rw [c2, hE7] at hcon
          exact hWE hcon
        · obtain ⟨z1, _, _⟩ := hL j (by omega) hj
          rw [← hcon, cross_self_left] at z1
          exact lt_irrefl _ z1
      · obtain ⟨u1, _, _⟩ := hU i (by omega) (by omega)
        by_cases c2 : j = e1
        · rw [c2, hE7] at hcon
          rw [hcon, cross_self_last] at u1
          exact lt_irrefl _ u1
        · obtain ⟨z1, _, _⟩ := hL j (by omega) hj
          rw [hcon] at u1
          linarith

theorem deref_take (a : PointSequence) (r i : Nat) (hi : i < r) :
    deref (a.take r) i = deref a i := by
  unfold deref
  by_cases hl : i < a.length
  · have h1 : i < (a.take r).length := by simp; omega
    rw [List.getD_eq_getElem _ _ h1, List.getD_eq_getElem _ _ hl, List.getElem_take]
  · have h1 : (a.take r).length ≤ i := by simp; omega
    rw [List.getD_eq_default _ _ h1, List.getD_eq_default _ _ (by omega)]

/-- Claim C5. For every point sequence that meets the minimal requirements,
`TheirConvexHullInPlaceQuickHull` returns, and no point of its output prefix is redundant: no
two positions of the prefix hold the same point, and no point of the prefix lies on the closed
segment between the points at two other positions of the prefix. -/
theorem their_minimality (s : PointSequence)
    (h : PointSequenceFulfillsMinimalRequirements s = true) :
    ∃ r, TheirConvexHullInPlaceQuickHull s = some r ∧
      (∀ i j, i < (outputPoints r).length → j < (outputPoints r).length → i ≠ j →
        deref (outputPoints r) i ≠ deref (outputPoints r) j) ∧
      (∀ i j k, i < (outputPoints r).length → j < (outputPoints r).length →
        k < (outputPoints r).length → i ≠ j → i ≠ k →
        ¬ OnClosedSegment (deref (outputPoints r) j) (deref (outputPoints r) k)
          (deref (outputPoints r) i)) := by
  obtain ⟨a, r, hres, hr, hT, hD⟩ := their_minimal_positions s h
  have hlen : (outputPoints (a, r)).length = r := by
    unfold outputPoints
    simp
    exact hr
  have hdiff : ∀ i j, i < r → j < r → i ≠ j → deref a i ≠ deref a j := by
    intro i j hi hj hij
    rcases Nat.lt_or_gt_of_ne hij with c | c
    · exact hD i j c hj
    · exact fun hcon => hD j i c hi hcon.symm
  refine ⟨(a, r), hres, ?_, ?_⟩
  · intro i j hi hj hij
    rw [hlen] at hi hj
    unfold outputPoints
    rw [deref_take a r i hi, deref_take a r j hj]
    exact hdiff i j hi hj hij
  · intro i j k hi hj hk hij hik hseg
    rw [hlen] at hi hj hk
    unfold outputPoints at hseg
    simp only at hseg
    rw [deref_take a r i hi, deref_take a r j hj, deref_take a r k hk] at hseg
    have h0 := cross_eq_zero_of_onSegment _ _ _ hseg
    by_cases hjk : j = k
    · -- the segment is a single point
      subst hjk
      obtain ⟨t, _, _, hx, hy⟩ := hseg
      apply hdiff i j hi hj hij
      have ex : (deref a i).x = (deref a j).x := by rw [hx]; ring
      have ey : (deref a i).y = (deref a j).y := by rw [hy]; ring
      cases hpi : deref a i
      cases hpj : deref a j
      rw [hpi, hpj] at ex ey
      simp only at ex ey
      rw [ex, ey]
    · -- three positions: the points at them are not collinear
      have key : ∀ p q u : Nat, p < q → q < u → u < r →
          cross (deref a p) (deref a q) (deref a u) ≠ 0 :=
        fun p q u hpq hqu hu => ne_of_lt (hT p q u hpq hqu hu)
      rcases Nat.lt_or_gt_of_ne hij with c1 | c1 <;>
        rcases Nat.lt_or_gt_of_ne hik with c2 | c2 <;>
        rcases Nat.lt_or_gt_of_ne hjk with c3 | c3
      · apply key i j k c1 c3 hk
        rw [← h0]; unfold cross; ring
      · apply key i k j c2 c3 hj
        have : cross (deref a i) (deref a k) (deref a j)
            = - cross (deref a j) (deref a k) (deref a i) := by unfold cross; ring
        rw [this, h0]; ring
      · omega
      · apply key k i j c2 c1 hj
        rw [← h0]; unfold cross; ring
      · apply key j i k c1 c2 hk
        have : cross (deref a j) (deref a i) (deref a k)
            = - cross (deref a j) (deref a k) (deref a i) := by unfold cross; ring
        rw [this, h0]; ring
      · omega
      · apply key j k i c3 c2 hi
        exact h0
      · apply key k j i c3 c1 hi
        have : cross (deref a k) (deref a j) (deref a i)
            = - cross (deref a j) (deref a k) (deref a i) := by unfold cross; ring
        rw [this, h0]; ring

/-- Claim C5 at the square with an interior point: the prefix that
`TheirConvexHullInPlaceQuickHull` returns has no redundant point. -/
theorem their_minimality_witness :
    ∃ r, TheirConvexHullInPlaceQuickHull [⟨0, 0⟩, ⟨4, 0⟩, ⟨4, 4⟩, ⟨0, 4⟩, ⟨2, 2⟩] = some r ∧
      (∀ i j, i < (outputPoints r).length → j < (outputPoints r).length → i ≠ j →
        deref (outputPoints r) i ≠ deref (outputPoints r) j) ∧
      (∀ i j k, i < (outputPoints r).length → j < (outputPoints r).length →
        k < (outputPoints r).length → i ≠ j → i ≠ k →
        ¬ OnClosedSegment (deref (outputPoints r) j) (deref (outputPoints r) k)
          (deref (outputPoints r) i)) :=
  their_minimality [⟨0, 0⟩, ⟨4, 0⟩, ⟨4, 4⟩, ⟨0, 4⟩, ⟨2, 2⟩] (by with_unfolding_all decide)

end QuickHull

namespace QuickHull

open Orientation

/-! ### The minimal-requirements check on degenerate input -/

theorem collinearLoop_of_all (a : PointSequence) (k i : Nat)
    (h : ∀ j, i ≤ j → j < i + k →
      getOrientation (deref a 0) (deref a 1) (deref a j) = COLLINEAR) :
    collinearLoop a k i true = true := by
  induction k generalizing i with
  | zero => rfl
  | succ k ih =>
    have hi : getOrientation (deref a 0) (deref a 1) (deref a i) = COLLINEAR :=
      h i (Nat.le_refl i) (by omega)
    simp only [collinearLoop, if_true, hi, decide_True]
    exact ih (i + 1) (fun j h1 h2 => h j (by omega) (by omega))

theorem deref_mem (a : PointSequence) (i : Nat) (h : i < a.length) : deref a i ∈ a := by
  unfold deref
  rw [List.getD_eq_getElem a default h]
  exact List.getElem_mem h

theorem getOrientation_of_line (a b c : Number) (hab : a ≠ 0 ∨ b ≠ 0) (p q r : Point)
    (hp : a * p.x + b * p.y = c) (hq : a * q.x + b * q.y = c) (hr : a * r.x + b * r.y = c) :
    getOrientation p q r = COLLINEAR := by
  have key : (q.x - p.x) * (r.y - p.y) - (q.y - p.y) * (r.x - p.x) = 0 := by
    rcases hab with ha | hb
    · have h1 : a * ((q.x - p.x) * (r.y - p.y) - (q.y - p.y) * (r.x - p.x)) = 0 := by
        have e1 : a * (q.x - p.x) = -(b * (q.y - p.y)) := by linarith
        have e2 : a * (r.x - p.x) = -(b * (r.y - p.y)) := by linarith
        calc a * ((q.x - p.x) * (r.y - p.y) - (q.y - p.y) * (r.x - p.x))
            = a * (q.x - p.x) * (r.y - p.y) - (q.y - p.y) * (a * (r.x - p.x)) := by ring
          _ = 0 := by rw [e1, e2]; ring
      rcases mul_eq_zero.mp h1 with h | h
      · exact absurd h ha
      · exact h
    · have h1 : b * ((q.x - p.x) * (r.y - p.y) - (q.y - p.y) * (r.x - p.x)) = 0 := by
        have e1 : b * (q.y - p.y) = -(a * (q.x - p.x)) := by linarith
        have e2 : b * (r.y - p.y) = -(a * (r.x - p.x)) := by linarith
        calc b * ((q.x - p.x) * (r.y - p.y) - (q.y - p.y) * (r.x - p.x))
            = (q.x - p.x) * (b * (r.y - p.y)) - b * (q.y - p.y) * (r.x - p.x) := by ring
          _ = 0 := by rw [e1, e2]; ring
      rcases mul_eq_zero.mp h1 with h | h
      · exact absurd h hb
      · exact h
  simp only [getOrientation, key, if_true]

theorem minimalRequirements_false_of_degenerate (s : PointSequence)
    (h : s.length < 3 ∨ OnCommonLine s) :
    PointSequenceFulfillsMinimalRequirements s = false := by
  unfold PointSequenceFulfillsMinimalRequirements
  by_cases hlen : s.length < 3
  · simp [hlen]
  · rcases h with h | ⟨a, b, c, hab, hall⟩
    · exact absurd h hlen
    · have hloop : collinearLoop s (s.length - 2) 2 true = true := by
        apply collinearLoop_of_all
        intro j _ h2
        exact getOrientation_of_line a b c hab _ _ _
          (hall _ (deref_mem s 0 (by omega))) (hall _ (deref_mem s 1 (by omega)))
          (hall _ (deref_mem s j (by omega)))
      simp [hlen, hloop]

/-- Claim C1. Every sequence with fewer than three points, and every sequence whose points all
lie on one line, is rejected by both orchestrators: each returns the begin position (the output
prefix is empty) and the sequence is left as it was. -/
theorem degenerate_rejection (s : PointSequence) (h : s.length < 3 ∨ OnCommonLine s) :
    ConvexHullInPlaceQuickHull s = some (s, 0) ∧
      TheirConvexHullInPlaceQuickHull s = some (s, 0) := by
  have hreq := minimalRequirements_false_of_degenerate s h
  constructor
  · simp [ConvexHullInPlaceQuickHull, hreq]
  · simp [TheirConvexHullInPlaceQuickHull, hreq]

/-- The scenario of claim C1: the collinear input (0,0), (1,0), (2,0) is rejected by both
orchestrators. -/
theorem degenerate_rejection_witness :
    ConvexHullInPlaceQuickHull [⟨0, 0⟩, ⟨1, 0⟩, ⟨2, 0⟩] = some ([⟨0, 0⟩, ⟨1, 0⟩, ⟨2, 0⟩], 0) ∧
      TheirConvexHullInPlaceQuickHull [⟨0, 0⟩, ⟨1, 0⟩, ⟨2, 0⟩]
        = some ([⟨0, 0⟩, ⟨1, 0⟩, ⟨2, 0⟩], 0) :=
  degenerate_rejection [⟨0, 0⟩, ⟨1, 0⟩, ⟨2, 0⟩]
    (Or.inr ⟨0, 1, 0, Or.inr one_ne_zero, by
      intro p hp
      simp only [List.mem_cons, List.mem_singleton, List.not_mem_nil, or_false] at hp
      rcases hp with rfl | rfl | rfl <;> norm_num⟩)

end QuickHull

namespace QuickHull

/-! ### Concrete runs of the two orchestrators -/

/-- Claim C8. On the square with an interior point, (0,0), (4,0), (4,4), (0,4), (2,2), each
orchestrator returns position 4 and the output prefix holds exactly the four corners; the
interior point (2,2) is not in the prefix. -/
theorem square_scenario :
    ∃ ra rb : PointSequence × Nat,
      ConvexHullInPlaceQuickHull [⟨0, 0⟩, ⟨4, 0⟩, ⟨4, 4⟩, ⟨0, 4⟩, ⟨2, 2⟩] = some ra ∧
      TheirConvexHullInPlaceQuickHull [⟨0, 0⟩, ⟨4, 0⟩, ⟨4, 4⟩, ⟨0, 4⟩, ⟨2, 2⟩] = some rb ∧
      ra.2 = 4 ∧ rb.2 = 4 ∧
      (∀ p : Point, p ∈ outputPoints ra ↔ p ∈ [(⟨0, 0⟩ : Point), ⟨4, 0⟩, ⟨4, 4⟩, ⟨0, 4⟩]) ∧
      (∀ p : Point, p ∈ outputPoints rb ↔ p ∈ [(⟨0, 0⟩ : Point), ⟨4, 0⟩, ⟨4, 4⟩, ⟨0, 4⟩]) ∧
      (⟨2, 2⟩ : Point) ∉ outputPoints ra ∧ (⟨2, 2⟩ : Point) ∉ outputPoints rb := by
  have hA : ConvexHullInPlaceQuickHull [⟨0, 0⟩, ⟨4, 0⟩, ⟨4, 4⟩, ⟨0, 4⟩, ⟨2, 2⟩]
      = some ([⟨0, 0⟩, ⟨4, 0⟩, ⟨4, 4⟩, ⟨0, 4⟩, ⟨2, 2⟩], 4) := by
    with_unfolding_all decide
  have hB : TheirConvexHullInPlaceQuickHull [⟨0, 0⟩, ⟨4, 0⟩, ⟨4, 4⟩, ⟨0, 4⟩, ⟨2, 2⟩]
      = some ([⟨0, 0⟩, ⟨0, 4⟩, ⟨4, 4⟩, ⟨4, 0⟩, ⟨2, 2⟩], 4) := by
    with_unfolding_all decide
  refine ⟨_, _, hA, hB, rfl, rfl, ?_, ?_, ?_, ?_⟩
  · intro p
    simp only [outputPoints, List.take, List.mem_cons, List.mem_singleton, List.not_mem_nil,
      or_false]
  · intro p
    simp only [outputPoints, List.take, List.mem_cons, List.mem_singleton, List.not_mem_nil,
      or_false]
    tauto
  · with_unfolding_all decide
  · with_unfolding_all decide

/-- Claim C9, the run of the code. On (0,0), (0,0), (1,1), (2,0) the first two points are equal,
the minimal-requirements check fails, and both orchestrators return the begin position with the
sequence unchanged: the output prefix is empty, not the three hull vertices. -/
theorem duplicate_scenario_rejected :
    PointSequenceFulfillsMinimalRequirements [⟨0, 0⟩, ⟨0, 0⟩, ⟨1, 1⟩, ⟨2, 0⟩] = false ∧
      ConvexHullInPlaceQuickHull [⟨0, 0⟩, ⟨0, 0⟩, ⟨1, 1⟩, ⟨2, 0⟩]
        = some ([⟨0, 0⟩, ⟨0, 0⟩, ⟨1, 1⟩, ⟨2, 0⟩], 0) ∧
      TheirConvexHullInPlaceQuickHull [⟨0, 0⟩, ⟨0, 0⟩, ⟨1, 1⟩, ⟨2, 0⟩]
        = some ([⟨0, 0⟩, ⟨0, 0⟩, ⟨1, 1⟩, ⟨2, 0⟩], 0) := by
  refine ⟨?_, ?_, ?_⟩ <;> with_unfolding_all decide

/-- Claim C4, the run of the code. The input (0,0), (1,0), (2,0), (1,1) meets the minimal
requirements, and `ConvexHullInPlaceQuickHull` returns position 4: the prefix holds (1,0), which
lies on the closed segment between the prefix points (0,0) and (2,0). -/
theorem inplace_output_not_minimal :
    PointSequenceFulfillsMinimalRequirements [⟨0, 0⟩, ⟨1, 0⟩, ⟨2, 0⟩, ⟨1, 1⟩] = true ∧
      ConvexHullInPlaceQuickHull [⟨0, 0⟩, ⟨1, 0⟩, ⟨2, 0⟩, ⟨1, 1⟩]
        = some ([⟨0, 0⟩, ⟨1, 0⟩, ⟨2, 0⟩, ⟨1, 1⟩], 4) ∧
      OnClosedSegment ⟨0, 0⟩ ⟨2, 0⟩ ⟨1, 0⟩ := by
  refine ⟨?_, ?_, ?_⟩
  · with_unfolding_all decide
  · with_unfolding_all decide
  · exact ⟨1 / 2, by norm_num, by norm_num, by norm_num, by norm_num⟩

/-- Claim C6, the run of the code. On (0,0), (1,0), (2,0), (1,1) the output prefix of
`ConvexHullInPlaceQuickHull` holds (1,0), the output prefix of
`TheirConvexHullInPlaceQuickHull` does not: the two vertex sets differ. -/
theorem orchestrators_disagree :
    ∃ ra rb : PointSequence × Nat,
      ConvexHullInPlaceQuickHull [⟨0, 0⟩, ⟨1, 0⟩, ⟨2, 0⟩, ⟨1, 1⟩] = some ra ∧
      TheirConvexHullInPlaceQuickHull [⟨0, 0⟩, ⟨1, 0⟩, ⟨2, 0⟩, ⟨1, 1⟩] = some rb ∧
      outputPoints ra = [⟨0, 0⟩, ⟨1, 0⟩, ⟨2, 0⟩, ⟨1, 1⟩] ∧
      outputPoints rb = [⟨0, 0⟩, ⟨1, 1⟩, ⟨2, 0⟩] ∧
      (⟨1, 0⟩ : Point) ∈ outputPoints ra ∧ (⟨1, 0⟩ : Point) ∉ outputPoints rb := by
  have hA : ConvexHullInPlaceQuickHull [⟨0, 0⟩, ⟨1, 0⟩, ⟨2, 0⟩, ⟨1, 1⟩]
      = some ([⟨0, 0⟩, ⟨1, 0⟩, ⟨2, 0⟩, ⟨1, 1⟩], 4) := by
    with_unfolding_all decide
  have hB : TheirConvexHullInPlaceQuickHull [⟨0, 0⟩, ⟨1, 0⟩, ⟨2, 0⟩, ⟨1, 1⟩]
      = some ([⟨0, 0⟩, ⟨1, 1⟩, ⟨2, 0⟩, ⟨1, 0⟩], 3) := by
    with_unfolding_all decide
  refine ⟨_, _, hA, hB, rfl, rfl, ?_, ?_⟩ <;> with_unfolding_all decide

/-- Claim C7, the run of the code. The sequence (0,0), (1,1), (0,0), (2,0) is a reordering of
(0,0), (0,0), (1,1), (2,0). On the second both orchestrators return an empty prefix, on the
first the prefix is not empty: the output set depends on the order of the input. -/
theorem output_depends_on_order :
    List.Perm [(⟨0, 0⟩ : Point), ⟨1, 1⟩, ⟨0, 0⟩, ⟨2, 0⟩] [⟨0, 0⟩, ⟨0, 0⟩, ⟨1, 1⟩, ⟨2, 0⟩] ∧
      (ConvexHullInPlaceQuickHull [⟨0, 0⟩, ⟨0, 0⟩, ⟨1, 1⟩, ⟨2, 0⟩]).map outputPoints = some [] ∧
      (ConvexHullInPlaceQuickHull [⟨0, 0⟩, ⟨1, 1⟩, ⟨0, 0⟩, ⟨2, 0⟩]).map outputPoints
        = some [⟨0, 0⟩, ⟨0, 0⟩, ⟨2, 0⟩, ⟨1, 1⟩] ∧
      (TheirConvexHullInPlaceQuickHull [⟨0, 0⟩, ⟨0, 0⟩, ⟨1, 1⟩, ⟨2, 0⟩]).map outputPoints
        = some [] ∧
      (TheirConvexHullInPlaceQuickHull [⟨0, 0⟩, ⟨1, 1⟩, ⟨0, 0⟩, ⟨2, 0⟩]).map outputPoints
        = some [⟨0, 0⟩, ⟨1, 1⟩, ⟨2, 0⟩] := by
  refine ⟨?_, ?_, ?_, ?_, ?_⟩
  · exact (List.Perm.swap _ _ _).cons _
  all_goals with_unfolding_all decide

end QuickHull

namespace QuickHull

open Orientation

/-! ### The predicates of PointHandler -/

/-- Claim C17. `getOrientation p q r` is the sign of the cross product of `q - p` and `r - p`:
COLLINEAR exactly when it is zero, CLOCKWISE exactly when it is negative and COUNTERCLOCKWISE
exactly when it is positive. -/
theorem orientation_predicate (p q r : Point) :
    (getOrientation p q r = COLLINEAR ↔
      (q.x - p.x) * (r.y - p.y) - (q.y - p.y) * (r.x - p.x) = 0) ∧
    (getOrientation p q r = CLOCKWISE ↔
      (q.x - p.x) * (r.y - p.y) - (q.y - p.y) * (r.x - p.x) < 0) ∧
    (getOrientation p q r = COUNTERCLOCKWISE ↔
      0 < (q.x - p.x) * (r.y - p.y) - (q.y - p.y) * (r.x - p.x)) := by
  have h1 := orientation_col_iff p q r
  have h2 := orientation_cw_iff p q r
  have h3 := orientation_ccw_iff p q r
  unfold cross at h1 h2 h3
  exact ⟨h1, h2, h3⟩

theorem Point.le_iff (a b : Point) :
    a.le b = true ↔ a.x < b.x ∨ (a.x = b.x ∧ a.y ≤ b.y) := by
  simp [Point.le]

theorem Point.gt_iff (a b : Point) :
    a.gt b = true ↔ b.x < a.x ∨ (a.x = b.x ∧ b.y < a.y) := by
  simp [Point.gt]

theorem Point.ne_iff (a b : Point) : a.ne b = true ↔ a ≠ b := by
  cases a; cases b
  simp [Point.ne]
  tauto

/-- Claim C20. `Point::operator<` is the lexicographic order, x first and y second; it is a
strict total order: irreflexive, transitive, and of `a < b`, `a == b`, `b < a` exactly one
holds, where `==` is equality of both coordinates. The other operators agree with it:
`a > b` is `b < a`, `a <= b` is `a < b or a == b`, and `a != b` is the negation of `a == b`. -/
theorem point_order (a b c : Point) :
    (a.lt b = true ↔ a.x < b.x ∨ (a.x = b.x ∧ a.y < b.y)) ∧
    (a.eq b = true ↔ a = b) ∧
    a.lt a = false ∧
    (a.lt b = true → b.lt c = true → a.lt c = true) ∧
    (a.lt b = true ∨ a.eq b = true ∨ b.lt a = true) ∧
    ¬ (a.lt b = true ∧ a.eq b = true) ∧
    ¬ (a.lt b = true ∧ b.lt a = true) ∧
    ¬ (a.eq b = true ∧ b.lt a = true) ∧
    (a.gt b = true ↔ b.lt a = true) ∧
    (a.le b = true ↔ (a.lt b = true ∨ a.eq b = true)) ∧
    (a.ne b = true ↔ ¬ a.eq b = true) := by
  refine ⟨Point.lt_iff a b, Point.eq_iff a b, Point.lt_irrefl a, Point.lt_trans, ?_, ?_, ?_, ?_,
    ?_, ?_, ?_⟩
  · rw [Point.lt_iff, Point.lt_iff, Point.eq_iff]
    rcases lt_trichotomy a.x b.x with h | h | h
    · left; left; exact h
    · rcases lt_trichotomy a.y b.y with h' | h' | h'
      · left; right; exact ⟨h, h'⟩
      · right; left
        cases a; cases b
        simp only at h h'
        rw [h, h']
      · right; right; right; exact ⟨h.symm, h'⟩
    · right; right; left; exact h
  · rw [Point.lt_iff, Point.eq_iff]
    rintro ⟨h1, h2⟩
    subst h2
    rcases h1 with h | ⟨_, h⟩ <;> exact lt_irrefl _ h
  · rw [Point.lt_iff, Point.lt_iff]
    rintro ⟨h1, h2⟩
    rcases h1 with h | ⟨h, h'⟩ <;> rcases h2 with g | ⟨g, g'⟩ <;> linarith
  · rw [Point.lt_iff, Point.eq_iff]
    rintro ⟨h1, h2⟩
    subst h1
    rcases h2 with h | ⟨_, h⟩ <;> exact lt_irrefl _ h
  · rw [Point.gt_iff, Point.lt_iff]
    constructor
    · rintro (h | ⟨h, h'⟩)
      · left; exact h
      · right; exact ⟨h.symm, h'⟩
    · rintro (h | ⟨h, h'⟩)
      · left; exact h
      · right; exact ⟨h.symm, h'⟩
  · rw [Point.le_iff, Point.lt_iff, Point.eq_iff]
    constructor
    · rintro (h | ⟨h, h'⟩)
      · left; left; exact h
      · rcases lt_or_eq_of_le h' with g | g
        · left; right; exact ⟨h, g⟩
        · right
          cases a; cases b
          simp only at h g
          rw [h, g]
    · rintro ((h | ⟨h, h'⟩) | h)
      · left; exact h
      · right; exact ⟨h, le_of_lt h'⟩
      · subst h
        right; exact ⟨rfl, le_refl _⟩
  · rw [Point.ne_iff, Point.eq_iff]

/-! ### The minimal-requirements check with two equal leading points -/

/-- Claim C19, the run of the code. The sequence (0,0), (0,0), (1,1), (2,0) has four points
that do not lie on one line, and `PointSequenceFulfillsMinimalRequirements` returns false for
it: the check tests the orientation against the first two points only, which are equal. -/
theorem minimalRequirements_rejects_noncollinear :
    PointSequenceFulfillsMinimalRequirements [⟨0, 0⟩, ⟨0, 0⟩, ⟨1, 1⟩, ⟨2, 0⟩] = false ∧
      3 ≤ ([⟨0, 0⟩, ⟨0, 0⟩, ⟨1, 1⟩, ⟨2, 0⟩] : PointSequence).length ∧
      ¬ OnCommonLine [⟨0, 0⟩, ⟨0, 0⟩, ⟨1, 1⟩, ⟨2, 0⟩] := by
  refine ⟨by with_unfolding_all decide, by simp, ?_⟩
  rintro ⟨a, b, c, hab, hall⟩
  have h0 := hall ⟨0, 0⟩ (by simp)
  have h1 := hall ⟨1, 1⟩ (by simp)
  have h2 := hall ⟨2, 0⟩ (by simp)
  simp only at h0 h1 h2
  have ha : a = 0 := by linarith
  have hb : b = 0 := by linarith
  rcases hab with h | h
  · exact h ha
  · exact h hb

/-! ### `move_away` with an empty block -/

/-- Claim C16. When one of the two blocks is empty, `here = rest` or `rest = past`,
`move_away` leaves the whole sequence as it is. -/
theorem move_away_noop (a : PointSequence) (here rest past : Nat)
    (h : here = rest ∨ rest = past) : move_away a here rest past = a := by
  simp [move_away, h]

/-- Claim C16 at two concrete calls, one with an empty first block and one with an empty
second block. -/
theorem move_away_noop_witness :
    move_away [⟨0, 0⟩, ⟨1, 0⟩, ⟨2, 0⟩] 1 1 3 = [⟨0, 0⟩, ⟨1, 0⟩, ⟨2, 0⟩] ∧
      move_away [⟨0, 0⟩, ⟨1, 0⟩, ⟨2, 0⟩] 0 2 2 = [⟨0, 0⟩, ⟨1, 0⟩, ⟨2, 0⟩] :=
  ⟨move_away_noop _ 1 1 3 (Or.inl rfl), move_away_noop _ 0 2 2 (Or.inr rfl)⟩

/-! ### The squared distance to a segment -/

/-- Claim C18. `computeSquaredDistanceFromPointToSegment r p q` is the squared distance from `r`
to `p` when `p = q`; otherwise, with `t` the quotient of the dot product of `r - p` and `q - p`
by the squared length of the segment, it is the squared distance to `p` when `t < 0`, to `q`
when `t > 1`, and the squared cross product of `q - p` and `r - p` divided by the squared
length when `0 ≤ t ≤ 1`. It is the smallest squared distance from `r` to a point of the closed
segment: no point of the segment is closer, and some point of the segment is that close. -/
theorem sqDist_formula (r p q : Point) :
    (p = q → computeSquaredDistanceFromPointToSegment r p q
      = (r.x - p.x) * (r.x - p.x) + (r.y - p.y) * (r.y - p.y)) ∧
    (p ≠ q →
      (((r.x - p.x) * (q.x - p.x) + (r.y - p.y) * (q.y - p.y))
          / ((q.x - p.x) * (q.x - p.x) + (q.y - p.y) * (q.y - p.y)) < 0 →
        computeSquaredDistanceFromPointToSegment r p q
          = (r.x - p.x) * (r.x - p.x) + (r.y - p.y) * (r.y - p.y)) ∧
      (1 < ((r.x - p.x) * (q.x - p.x) + (r.y - p.y) * (q.y - p.y))
          / ((q.x - p.x) * (q.x - p.x) + (q.y - p.y) * (q.y - p.y)) →
        computeSquaredDistanceFromPointToSegment r p q
          = (r.x - q.x) * (r.x - q.x) + (r.y - q.y) * (r.y - q.y)) ∧
      (0 ≤ ((r.x - p.x) * (q.x - p.x) + (r.y - p.y) * (q.y - p.y))
          / ((q.x - p.x) * (q.x - p.x) + (q.y - p.y) * (q.y - p.y)) →
        ((r.x - p.x) * (q.x - p.x) + (r.y - p.y) * (q.y - p.y))
          / ((q.x - p.x) * (q.x - p.x) + (q.y - p.y) * (q.y - p.y)) ≤ 1 →
        computeSquaredDistanceFromPointToSegment r p q
          = ((q.x - p.x) * (r.y - p.y) - (q.y - p.y) * (r.x - p.x))
              * ((q.x - p.x) * (r.y - p.y) - (q.y - p.y) * (r.x - p.x))
            / ((q.x - p.x) * (q.x - p.x) + (q.y - p.y) * (q.y - p.y)))) ∧
    (∀ τ : Number, 0 ≤ τ → τ ≤ 1 →
      computeSquaredDistanceFromPointToSegment r p q ≤
        (r.x - (p.x + τ * (q.x - p.x))) * (r.x - (p.x + τ * (q.x - p.x)))
          + (r.y - (p.y + τ * (q.y - p.y))) * (r.y - (p.y + τ * (q.y - p.y)))) ∧
    (∃ τ : Number, 0 ≤ τ ∧ τ ≤ 1 ∧
      computeSquaredDistanceFromPointToSegment r p q =
        (r.x - (p.x + τ * (q.x - p.x))) * (r.x - (p.x + τ * (q.x - p.x)))
          + (r.y - (p.y + τ * (q.y - p.y))) * (r.y - (p.y + τ * (q.y - p.y)))) := by
  refine ⟨?_, ?_, sqDist_le_point r p q, sqDist_attained r p q⟩
  · intro h
    subst h
    exact sqDist_of_eq r p
  · intro hpq
    have hL := segLen_pos_of_ne p q hpq
    have hcases := sqDist_cases r p q hL
    refine ⟨?_, ?_, ?_⟩
    · intro ht
      rw [div_lt_iff₀ hL, zero_mul] at ht
      rcases hcases with ⟨_, e⟩ | ⟨c, _⟩ | ⟨c, _, _⟩
      · exact e
      · exfalso; linarith
      · exfalso; linarith
    · intro ht
      rw [lt_div_iff₀ hL, one_mul] at ht
      rcases hcases with ⟨c, _⟩ | ⟨_, e⟩ | ⟨_, c, _⟩
      · exfalso; linarith
      · exact e
      · exfalso; linarith
    · intro ht0 ht1
      rw [le_div_iff₀ hL, zero_mul] at ht0
      rw [div_le_iff₀ hL, one_mul] at ht1
      rcases hcases with ⟨c, _⟩ | ⟨c, _⟩ | ⟨_, _, e⟩
      · exfalso; linarith
      · exfalso; linarith
      · rw [eq_div_iff (ne_of_gt hL), e]
        unfold cross
        ring

/-! ### The furthest point -/

/-- The scan of `find_furthest` keeps the earliest position among the points of largest
distance and smallest x-coordinate. -/
theorem furthestLoop_earliest (a : PointSequence) (l r lo : Nat) (k i f : Nat) (m : Number)
    (hf : lo ≤ f ∧ f < i + k) (hi : lo ≤ i)
    (hle : ∀ j, lo ≤ j → j < i →
      computeSquaredDistanceFromPointToSegment (deref a j) (deref a l) (deref a r) ≤ m)
    (heq : (m = computeSquaredDistanceFromPointToSegment (deref a f) (deref a l) (deref a r)
        ∧ f < i) ∨ (m = 0 ∧ f = i))
    (hx : ∀ j, lo ≤ j → j < i →
      computeSquaredDistanceFromPointToSegment (deref a j) (deref a l) (deref a r) = m →
      (deref a f).x ≤ (deref a j).x)
    (he : ∀ j, lo ≤ j → j < i →
      computeSquaredDistanceFromPointToSegment (deref a j) (deref a l) (deref a r) = m →
      (deref a j).x = (deref a f).x → f ≤ j) :
    ∀ j, lo ≤ j → j < i + k →
      computeSquaredDistanceFromPointToSegment (deref a j) (deref a l) (deref a r) =
      computeSquaredDistanceFromPointToSegment (deref a (furthestLoop a l r k i f m))
        (deref a l) (deref a r) →
      (deref a j).x = (deref a (furthestLoop a l r k i f m)).x →
      furthestLoop a l r k i f m ≤ j := by
  induction k generalizing i f m with
  | zero =>
    simp only [furthestLoop, Nat.add_zero] at *
    rcases heq with ⟨h1, _⟩ | ⟨_, h2⟩
    · subst h1
      exact he
    · omega
  | succ k ih =>
    have hik : i + (k + 1) = (i + 1) + k := by omega
    rw [hik]
    simp only [furthestLoop]
    by_cases c1 : m < computeSquaredDistanceFromPointToSegment (deref a i) (deref a l) (deref a r)
    · rw [if_pos c1]
      apply ih
      · omega
      · omega
      · intro j hj1 hj2
        by_cases hji : j = i
        · subst hji; exact le_refl _
        · exact le_trans (hle j hj1 (by omega)) (le_of_lt c1)
      · left; exact ⟨rfl, by omega⟩
      · intro j hj1 hj2 hj3
        by_cases hji : j = i
        · subst hji; exact le_refl _
        · have := hle j hj1 (by omega)
          linarith
      · intro j hj1 hj2 hj3 _
        by_cases hji : j = i
        · omega
        · have := hle j hj1 (by omega)
          linarith
    · rw [if_neg c1]
      by_cases c2 : m = computeSquaredDistanceFromPointToSegment (deref a i) (deref a l)
          (deref a r) ∧ (deref a i).x < (deref a f).x
      · rw [if_pos c2]
        apply ih
        · omega
        · omega
        · intro j hj1 hj2
          by_cases hji : j = i
          · subst hji; exact le_of_eq c2.1.symm
          · exact hle j hj1 (by omega)
        · left; exact ⟨c2.1, by omega⟩
        · intro j hj1 hj2 hj3
          by_cases hji : j = i
          · subst hji; exact le_refl _
          · exact le_trans (le_of_lt c2.2) (hx j hj1 (by omega) hj3)
        · intro j hj1 hj2 hj3 hj4
          by_cases hji : j = i
          · omega
          · have := hx j hj1 (by omega) hj3
            have := c2.2
            linarith
      · rw [if_neg c2]
        have hmi : computeSquaredDistanceFromPointToSegment (deref a i) (deref a l) (deref a r)
            ≤ m := not_lt.mp c1
        apply ih
        · omega
        · omega
        · intro j hj1 hj2
          by_cases hji : j = i
          · subst hji; exact hmi
          · exact hle j hj1 (by omega)
        · rcases heq with ⟨h1, h2⟩ | ⟨h1, h2⟩
          · left; exact ⟨h1, by omega⟩
          · subst h2
            left
            have := sqDist_nonneg (deref a f) (deref a l) (deref a r)
            exact ⟨by linarith, by omega⟩
        · intro j hj1 hj2 hj3
          by_cases hji : j = i
          · subst hji
            by_contra hc
            exact c2 ⟨hj3.symm, not_le.mp hc⟩
          · exact hx j hj1 (by omega) hj3
        · intro j hj1 hj2 hj3 hj4
          by_cases hji : j = i
          · rcases heq with ⟨_, h2⟩ | ⟨_, h2⟩ <;> omega
          · exact he j hj1 (by omega) hj3 hj4

/-- Claim C13. On a non-empty range the four-argument `find_furthest` returns a position of
the range whose point is at least as far from the segment as every point of the range. The
function only reads the sequence: its result is the position and nothing else. -/
theorem find_furthest_maximiser (a : PointSequence) (first past l r : Nat)
    (h : first < past) :
    first ≤ find_furthest a first past l r ∧ find_furthest a first past l r < past ∧
    ∀ i, first ≤ i → i < past →
      computeSquaredDistanceFromPointToSegment (deref a i) (deref a l) (deref a r) ≤
      computeSquaredDistanceFromPointToSegment (deref a (find_furthest a first past l r))
        (deref a l) (deref a r) := by
  obtain ⟨⟨h1, h2⟩, h3, _⟩ := find_furthest_spec a first past l r h
  exact ⟨h1, h2, h3⟩

/-- Claim C13 on three points: the furthest point from the segment between (0,0) and (2,0) is
found at position 1. -/
theorem find_furthest_maximiser_witness :
    0 ≤ find_furthest [⟨0, 0⟩, ⟨1, 2⟩, ⟨2, 0⟩] 0 3 0 2 ∧
    find_furthest [⟨0, 0⟩, ⟨1, 2⟩, ⟨2, 0⟩] 0 3 0 2 < 3 ∧
    ∀ i, 0 ≤ i → i < 3 →
      computeSquaredDistanceFromPointToSegment (deref [⟨0, 0⟩, ⟨1, 2⟩, ⟨2, 0⟩] i)
        (deref [⟨0, 0⟩, ⟨1, 2⟩, ⟨2, 0⟩] 0) (deref [⟨0, 0⟩, ⟨1, 2⟩, ⟨2, 0⟩] 2) ≤
      computeSquaredDistanceFromPointToSegment
        (deref [⟨0, 0⟩, ⟨1, 2⟩, ⟨2, 0⟩] (find_furthest [⟨0, 0⟩, ⟨1, 2⟩, ⟨2, 0⟩] 0 3 0 2))
        (deref [⟨0, 0⟩, ⟨1, 2⟩, ⟨2, 0⟩] 0) (deref [⟨0, 0⟩, ⟨1, 2⟩, ⟨2, 0⟩] 2) :=
  find_furthest_maximiser [⟨0, 0⟩, ⟨1, 2⟩, ⟨2, 0⟩] 0 3 0 2 (by decide)

/-- Claim C14. Among the points of the range that are as far from the segment as the point
returned by the four-argument `find_furthest` (the points of largest distance), the returned
point has the smallest x-coordinate, and among those of that x-coordinate it stands at the
earliest position. -/
theorem find_furthest_tie_break (a : PointSequence) (first past l r : Nat)
    (h : first < past) :
    ∀ j, first ≤ j → j < past →
      computeSquaredDistanceFromPointToSegment (deref a j) (deref a l) (deref a r) =
      computeSquaredDistanceFromPointToSegment (deref a (find_furthest a first past l r))
        (deref a l) (deref a r) →
      (deref a (find_furthest a first past l r)).x ≤ (deref a j).x ∧
      ((deref a j).x = (deref a (find_furthest a first past l r)).x →
        find_furthest a first past l r ≤ j) := by
  obtain ⟨_, _, h3⟩ := find_furthest_spec a first past l r h
  have hk : past = first + (past - first) := by omega
  have key := furthestLoop_earliest a l r first (past - first) first first 0 (by omega)
    (le_refl _) (by intro j h1 h2; omega) (Or.inr ⟨rfl, rfl⟩) (by intro j h1 h2; omega)
    (by intro j h1 h2; omega)
  rw [← hk] at key
  intro j hj1 hj2 hj3
  exact ⟨h3 j hj1 hj2 hj3, key j hj1 hj2 hj3⟩

/-- Claim C14 on four points of which three are at distance 1 from the segment between (0,0)
and (3,0): the scan returns position 2, the earlier of the two points with x-coordinate 1. -/
theorem find_furthest_tie_break_witness :
    find_furthest [⟨0, 0⟩, ⟨2, 1⟩, ⟨1, 1⟩, ⟨1, 1⟩, ⟨3, 0⟩] 0 5 0 4 = 2 ∧
    ∀ j, 0 ≤ j → j < 5 →
      computeSquaredDistanceFromPointToSegment
          (deref [⟨0, 0⟩, ⟨2, 1⟩, ⟨1, 1⟩, ⟨1, 1⟩, ⟨3, 0⟩] j)
          (deref [⟨0, 0⟩, ⟨2, 1⟩, ⟨1, 1⟩, ⟨1, 1⟩, ⟨3, 0⟩] 0)
          (deref [⟨0, 0⟩, ⟨2, 1⟩, ⟨1, 1⟩, ⟨1, 1⟩, ⟨3, 0⟩] 4) =
        computeSquaredDistanceFromPointToSegment
          (deref [⟨0, 0⟩, ⟨2, 1⟩, ⟨1, 1⟩, ⟨1, 1⟩, ⟨3, 0⟩]
            (find_furthest [⟨0, 0⟩, ⟨2, 1⟩, ⟨1, 1⟩, ⟨1, 1⟩, ⟨3, 0⟩] 0 5 0 4))
          (deref [⟨0, 0⟩, ⟨2, 1⟩, ⟨1, 1⟩, ⟨1, 1⟩, ⟨3, 0⟩] 0)
          (deref [⟨0, 0⟩, ⟨2, 1⟩, ⟨1, 1⟩, ⟨1, 1⟩, ⟨3, 0⟩] 4) →
      (deref [⟨0, 0⟩, ⟨2, 1⟩, ⟨1, 1⟩, ⟨1, 1⟩, ⟨3, 0⟩]
          (find_furthest [⟨0, 0⟩, ⟨2, 1⟩, ⟨1, 1⟩, ⟨1, 1⟩, ⟨3, 0⟩] 0 5 0 4)).x ≤
        (deref [⟨0, 0⟩, ⟨2, 1⟩, ⟨1, 1⟩, ⟨1, 1⟩, ⟨3, 0⟩] j).x ∧
      ((deref [⟨0, 0⟩, ⟨2, 1⟩, ⟨1, 1⟩, ⟨1, 1⟩, ⟨3, 0⟩] j).x =
          (deref [⟨0, 0⟩, ⟨2, 1⟩, ⟨1, 1⟩, ⟨1, 1⟩, ⟨3, 0⟩]
            (find_furthest [⟨0, 0⟩, ⟨2, 1⟩, ⟨1, 1⟩, ⟨1, 1⟩, ⟨3, 0⟩] 0 5 0 4)).x →
        find_furthest [⟨0, 0⟩, ⟨2, 1⟩, ⟨1, 1⟩, ⟨1, 1⟩, ⟨3, 0⟩] 0 5 0 4 ≤ j) :=
  ⟨by with_unfolding_all decide,
    find_furthest_tie_break [⟨0, 0⟩, ⟨2, 1⟩, ⟨1, 1⟩, ⟨1, 1⟩, ⟨3, 0⟩] 0 5 0 4 (by decide)⟩

/-! ### The poles -/

/-- Claim C12. Let the first lexicographically smallest point of a sequence of `n ≥ 2` points
stand at position `i` and the last lexicographically largest point at position `j ≠ i`. Then
`find_poles` returns `(i, j)`, and `parallel_iter_swap (0, n - 1, i, j)` yields a permutation of
the sequence that has the smallest point at position 0 and the largest at position `n - 1`,
wherever `i` and `j` are (also for `i = n - 1` and for `j = 0`). -/
theorem pole_selection (a : PointSequence) (i j : Nat) (hn : 2 ≤ a.length)
    (hi : i < a.length) (hj : j < a.length) (hij : i ≠ j)
    (hmin : ∀ k, k < a.length → ¬ (deref a k).lt (deref a i) = true)
    (hfirst : ∀ k, k < i → (deref a i).lt (deref a k) = true)
    (hmax : ∀ k, k < a.length → ¬ (deref a j).lt (deref a k) = true)
    (hlast : ∀ k, j < k → k < a.length → (deref a k).lt (deref a j) = true) :
    find_poles a 0 a.length = (i, j) ∧
    (parallel_iter_swap a 0 (a.length - 1) i j).Perm a ∧
    (parallel_iter_swap a 0 (a.length - 1) i j).length = a.length ∧
    deref (parallel_iter_swap a 0 (a.length - 1) i j) 0 = deref a i ∧
    deref (parallel_iter_swap a 0 (a.length - 1) i j) (a.length - 1) = deref a j := by
  obtain ⟨⟨_, hmn⟩, ⟨_, hmx⟩, gmin, gmax, gfirst, glast⟩ :=
    find_poles_spec a 0 a.length (by omega)
  have e1 : (find_poles a 0 a.length).1 = i := by
    rcases Nat.lt_trichotomy (find_poles a 0 a.length).1 i with c | c | c
    · exact absurd (hfirst _ c) (gmin i (Nat.zero_le _) hi)
    · exact c
    · exact absurd (gfirst i (Nat.zero_le _) c) (hmin _ hmn)
  have e2 : (find_poles a 0 a.length).2 = j := by
    rcases Nat.lt_trichotomy (find_poles a 0 a.length).2 j with c | c | c
    · exact absurd (glast j c hj) (hmax _ hmx)
    · exact c
    · exact absurd (hlast _ c hmx) (gmax j (Nat.zero_le _) hj)
  obtain ⟨hp, hw, he⟩ := parallel_iter_swap_spec a a.length i j rfl hn hi hj hij
  exact ⟨Prod.ext e1 e2, hp.perm (le_refl _), hp.length_eq, hw, he⟩

/-- Claim C12 on three points in falling order: the smallest point stands at the last position
and the largest at position 0, and the two swaps bring both to their places. -/
theorem pole_selection_witness :
    find_poles [⟨2, 0⟩, ⟨1, 0⟩, ⟨0, 0⟩] 0 3 = (2, 0) ∧
    (parallel_iter_swap [⟨2, 0⟩, ⟨1, 0⟩, ⟨0, 0⟩] 0 2 2 0).Perm [⟨2, 0⟩, ⟨1, 0⟩, ⟨0, 0⟩] ∧
    (parallel_iter_swap [⟨2, 0⟩, ⟨1, 0⟩, ⟨0, 0⟩] 0 2 2 0).length = 3 ∧
    deref (parallel_iter_swap [⟨2, 0⟩, ⟨1, 0⟩, ⟨0, 0⟩] 0 2 2 0) 0 = ⟨0, 0⟩ ∧
    deref (parallel_iter_swap [⟨2, 0⟩, ⟨1, 0⟩, ⟨0, 0⟩] 0 2 2 0) 2 = ⟨2, 0⟩ :=
  pole_selection [⟨2, 0⟩, ⟨1, 0⟩, ⟨0, 0⟩] 2 0 (by decide) (by decide) (by decide) (by decide)
    (by
      intro k hk
      have hk' : k < 3 := hk
      interval_cases k <;> with_unfolding_all decide)
    (by
      intro k hk
      interval_cases k <;> with_unfolding_all decide)
    (by
      intro k hk
      have hk' : k < 3 := hk
      interval_cases k <;> with_unfolding_all decide)
    (by
      intro k hk1 hk2
      have hk' : k < 3 := hk2
      interval_cases k <;> with_unfolding_all decide)

end QuickHull

namespace QuickHull

open Orientation

/-! ### What `move_away` does to the two blocks -/

/-- The points of the positions `[l, l + n)` of a sequence, listed by position. -/
theorem slice_eq_map (a : PointSequence) (l n : Nat) (h : l + n ≤ a.length) :
    (a.drop l).take n = (List.range n).map (fun i => deref a (l + i)) := by
  apply List.ext_getElem
  · simp
    omega
  · intro i h1 h2
    have hi : i < n := by
      simp at h2
      exact h2
    simp only [List.getElem_take, List.getElem_drop, List.getElem_map, List.getElem_range]
    unfold deref
    rw [List.getD_eq_getElem _ _ (by omega)]

/-- Two slices whose positions correspond under a bijection hold the same points. -/
theorem slice_perm (a b : PointSequence) (l1 l2 n : Nat) (g ginv : Nat → Nat)
    (hg : ∀ i, i < n → g i < n) (hinv : ∀ i, i < n → ginv i < n)
    (hgi : ∀ i, i < n → g (ginv i) = i) (hig : ∀ i, i < n → ginv (g i) = i)
    (hb : l1 + n ≤ b.length) (ha : l2 + n ≤ a.length)
    (h : ∀ i, i < n → deref b (l1 + i) = deref a (l2 + g i)) :
    ((b.drop l1).take n).Perm ((a.drop l2).take n) := by
  rw [slice_eq_map b l1 n hb, slice_eq_map a l2 n ha]
  have e : (List.range n).map (fun i => deref b (l1 + i))
      = ((List.range n).map g).map (fun t => deref a (l2 + t)) := by
    rw [List.map_map]
    apply List.map_congr_left
    intro i hi
    exact h i (List.mem_range.mp hi)
  rw [e]
  apply List.Perm.map
  apply (List.perm_ext_iff_of_nodup ?_ (List.nodup_range _)).mpr
  · intro x
    simp only [List.mem_map, List.mem_range]
    constructor
    · rintro ⟨i, hi, rfl⟩
      exact hg i hi
    · intro hx
      exact ⟨ginv x, hinv x hx, hgi x hx⟩
  · apply List.Nodup.map_on _ (List.nodup_range _)
    intro x hx y hy hxy
    have h1 := hig x (List.mem_range.mp hx)
    have h2 := hig y (List.mem_range.mp hy)
    rw [hxy] at h1
    rw [← h1, h2]

/-- The positions of `move_away`, block by block, when the first block is the shorter one:
it arrives behind the second block in its order, and its place is taken by the tail of the
second block, turned by one position. -/
theorem move_away_short_first (a : PointSequence) (here rest past : Nat) (h1 : here < rest)
    (h3 : past ≤ a.length) (hlt : rest - here < past - rest) :
    (move_away a here rest past).length = a.length ∧
    ∀ t, deref (move_away a here rest past) t =
      if past - (rest - here) ≤ t ∧ t < past then deref a (here + (t - (past - (rest - here))))
      else if here ≤ t ∧ t < rest - 1 then deref a (past - (rest - here) + (t - here) + 1)
      else if t = rest - 1 then deref a (past - (rest - here))
      else deref a t := by
  have hc : ¬ (here = rest ∨ rest = past) := by omega
  simp only [move_away, hc, if_false, hlt, if_true]
  obtain ⟨hl, hd⟩ := swap_blocks_deref a here rest (past - (rest - here)) h1 (by omega)
    (by omega) (by omega)
  refine ⟨hl, ?_⟩
  intro t
  rw [hd t]
  have e : past - (rest - here) + (rest - here) = past := by omega
  rw [e]

/-- The positions of `move_away`, block by block, when the second block is not longer than the
first: it arrives at the front in its order, and its place is taken by the head of the first
block, turned by one position. -/
theorem move_away_short_second (a : PointSequence) (here rest past : Nat) (h1 : here < rest)
    (h2 : rest < past) (h3 : past ≤ a.length) (hge : ¬ rest - here < past - rest) :
    (move_away a here rest past).length = a.length ∧
    ∀ t, deref (move_away a here rest past) t =
      if here ≤ t ∧ t < here + (past - rest) then deref a (rest + (t - here))
      else if rest ≤ t ∧ t < past - 1 then deref a (here + (t - rest) + 1)
      else if t = past - 1 then deref a here
      else deref a t := by
  have hc : ¬ (here = rest ∨ rest = past) := by omega
  simp only [move_away, hc, if_false, hge]
  exact swap_blocks_deref a rest past here h2 (by omega) (by omega) (by omega)

/-- Claim C15 as stated, refuted. With the first block (0,0) and the second block (1,0), (2,0),
`move_away` leaves (2,0), (1,0), (0,0): the blocks have traded places, but the second block
does not stand in its original order (1,0), (2,0). -/
theorem move_away_order_counterexample :
    move_away [⟨0, 0⟩, ⟨1, 0⟩, ⟨2, 0⟩] 0 1 3 = [⟨2, 0⟩, ⟨1, 0⟩, ⟨0, 0⟩] ∧
      move_away [⟨0, 0⟩, ⟨1, 0⟩, ⟨2, 0⟩] 0 1 3 ≠ [⟨1, 0⟩, ⟨2, 0⟩, ⟨0, 0⟩] := by
  constructor <;> with_unfolding_all decide

/-- A run of `move_away` on two blocks of the same length: with the first block (0,0), (1,0)
and the second block (2,0), (3,0) it leaves (2,0), (3,0), (1,0), (0,0). The second block stands
in front in its original order, the first block stands behind it in the opposite order. -/
theorem move_away_equal_blocks_run :
    move_away [⟨0, 0⟩, ⟨1, 0⟩, ⟨2, 0⟩, ⟨3, 0⟩] 0 2 4 = [⟨2, 0⟩, ⟨3, 0⟩, ⟨1, 0⟩, ⟨0, 0⟩] := by
  with_unfolding_all decide

/-- The content of the two blocks after `move_away (here, rest, past)`: the positions
outside `[here, past)` are unchanged, the first `past - rest` positions of the range hold the
points of the original block `[rest, past)` and the positions behind them hold the points of
the original block `[here, rest)`, each block as a multiset; the second block stands in its
original order when it is not longer than the first one, and the first block stands in its
original order when it is strictly shorter than the second one. -/
theorem move_away_content (a : PointSequence) (here rest past : Nat) (h1 : here ≤ rest)
    (h2 : rest ≤ past) (h3 : past ≤ a.length) :
    (move_away a here rest past).length = a.length ∧
    (∀ t, t < here ∨ past ≤ t → deref (move_away a here rest past) t = deref a t) ∧
    (((move_away a here rest past).drop here).take (past - rest)).Perm
      ((a.drop rest).take (past - rest)) ∧
    (((move_away a here rest past).drop (here + (past - rest))).take (rest - here)).Perm
      ((a.drop here).take (rest - here)) ∧
    (past - rest ≤ rest - here →
      ∀ i, i < past - rest → deref (move_away a here rest past) (here + i) = deref a (rest + i)) ∧
    (rest - here < past - rest →
      ∀ i, i < rest - here →
        deref (move_away a here rest past) (here + (past - rest) + i) = deref a (here + i)) := by
  by_cases hc : here = rest ∨ rest = past
  · rw [move_away_noop a here rest past hc]
    refine ⟨rfl, fun _ _ => rfl, ?_, ?_, ?_, ?_⟩
    · rcases hc with hc | hc
      · rw [hc]
      · have : past - rest = 0 := by omega
        rw [this]
        simp
    · rcases hc with hc | hc
      · have : rest - here = 0 := by omega
        rw [this]
        simp
      · have : here + (past - rest) = here := by omega
        rw [this]
    · intro hle i hi
      rcases hc with hc | hc
      · rw [hc]
      · omega
    · intro hlt i hi
      omega
  by_cases hlt : rest - here < past - rest
  · obtain ⟨hl, hd⟩ := move_away_short_first a here rest past (by omega) h3 hlt
    refine ⟨hl, ?_, ?_, ?_, ?_, ?_⟩
    · intro t ht
      rw [hd t]
      split_ifs <;> first | rfl | (exfalso; omega)
    · apply slice_perm a _ here rest (past - rest)
        (fun i => if i < rest - here - 1 then past - rest - (rest - here) + i + 1
          else if i = rest - here - 1 then past - rest - (rest - here) else i - (rest - here))
        (fun t => if t < past - rest - (rest - here) then t + (rest - here)
          else if t = past - rest - (rest - here) then rest - here - 1
          else t - (past - rest - (rest - here)) - 1)
      · intro i hi
        split_ifs <;> first | omega | contradiction
      · intro i hi
        split_ifs <;> first | omega | contradiction
      · intro i hi
        split_ifs <;> first | omega | contradiction
      · intro i hi
        split_ifs <;> first | omega | contradiction
      · omega
      · omega
      · intro i hi
        rw [hd (here + i)]
        split_ifs <;> first | rfl | (exfalso; omega) | (congr 1; omega)
    · apply slice_perm a _ (here + (past - rest)) here (rest - here) id id
      · intro i hi; exact hi
      · intro i hi; exact hi
      · intro i _; rfl
      · intro i _; rfl
      · omega
      · omega
      · intro i hi
        rw [hd (here + (past - rest) + i)]
        simp only [id]
        split_ifs <;> first | rfl | (exfalso; omega) | (congr 1; omega)
    · intro hle
      omega
    · intro _ i hi
      rw [hd (here + (past - rest) + i)]
      split_ifs <;> first | rfl | (exfalso; omega) | (congr 1; omega)
  · obtain ⟨hl, hd⟩ := move_away_short_second a here rest past (by omega) (by omega) h3 hlt
    refine ⟨hl, ?_, ?_, ?_, ?_, ?_⟩
    · intro t ht
      rw [hd t]
      split_ifs <;> first | rfl | (exfalso; omega)
    · apply slice_perm a _ here rest (past - rest) id id
      · intro i hi; exact hi
      · intro i hi; exact hi
      · intro i _; rfl
      · intro i _; rfl
      · omega
      · omega
      · intro i hi
        rw [hd (here + i)]
        simp only [id]
        split_ifs <;> first | rfl | (exfalso; omega) | (congr 1; omega)
    · apply slice_perm a _ (here + (past - rest)) here (rest - here)
        (fun i => if i < rest - here - (past - rest) then past - rest + i
          else if i = rest - here - 1 then 0 else i - (rest - here - (past - rest)) + 1)
        (fun t => if t = 0 then rest - here - 1
          else if t < past - rest then t - 1 + (rest - here - (past - rest))
          else t - (past - rest))
      · intro i hi
        split_ifs <;> first | omega | contradiction
      · intro i hi
        split_ifs <;> first | omega | contradiction
      · intro i hi
        split_ifs <;> first | omega | contradiction
      · intro i hi
        split_ifs <;> first | omega | contradiction
      · omega
      · omega
      · intro i hi
        rw [hd (here + (past - rest) + i)]
        split_ifs <;> first | rfl | (exfalso; omega) | (congr 1; omega)
    · intro _ i hi
      rw [hd (here + i)]
      split_ifs <;> first | rfl | (exfalso; omega) | (congr 1; omega)
    · intro hcon
      omega

/-- Claim C15, amended. After `move_away (here, rest, past)` the positions outside
`[here, past)` are unchanged, the first `past - rest` positions of the range hold the points of
the original block `[rest, past)` and the positions behind them hold the points of the original
block `[here, rest)`, each block as a multiset. The second block stands in its original
order when it is not longer than the first one (`past - rest ≤ rest - here`), and the first
block stands in its original order when it is strictly shorter than the second one
(`rest - here < past - rest`); the order inside the other block is not kept in general, also
not the order of the first block when the two blocks have the same length. -/
theorem move_away_blocks (a : PointSequence) (here rest past : Nat) (h1 : here ≤ rest)
    (h2 : rest ≤ past) (h3 : past ≤ a.length) :
    (move_away a here rest past).length = a.length ∧
    (∀ t, t < here ∨ past ≤ t → deref (move_away a here rest past) t = deref a t) ∧
    (((move_away a here rest past).drop here).take (past - rest)).Perm
      ((a.drop rest).take (past - rest)) ∧
    (((move_away a here rest past).drop (here + (past - rest))).take (rest - here)).Perm
      ((a.drop here).take (rest - here)) ∧
    (past - rest ≤ rest - here →
      ∀ i, i < past - rest → deref (move_away a here rest past) (here + i) = deref a (rest + i)) ∧
    (rest - here < past - rest →
      ∀ i, i < rest - here →
        deref (move_away a here rest past) (here + (past - rest) + i) = deref a (here + i)) :=
  move_away_content a here rest past h1 h2 h3

/-- Claim C15, amended, at the call that refutes the original claim: the blocks trade places,
the shorter first block keeps its order. -/
theorem move_away_blocks_witness :
    (move_away [⟨0, 0⟩, ⟨1, 0⟩, ⟨2, 0⟩] 0 1 3).length = 3 ∧
    (∀ t, t < 0 ∨ 3 ≤ t →
      deref (move_away [⟨0, 0⟩, ⟨1, 0⟩, ⟨2, 0⟩] 0 1 3) t = deref [⟨0, 0⟩, ⟨1, 0⟩, ⟨2, 0⟩] t) ∧
    (((move_away [⟨0, 0⟩, ⟨1, 0⟩, ⟨2, 0⟩] 0 1 3).drop 0).take (3 - 1)).Perm
      (([⟨0, 0⟩, ⟨1, 0⟩, ⟨2, 0⟩] : PointSequence).drop 1 |>.take (3 - 1)) ∧
    (((move_away [⟨0, 0⟩, ⟨1, 0⟩, ⟨2, 0⟩] 0 1 3).drop (0 + (3 - 1))).take (1 - 0)).Perm
      (([⟨0, 0⟩, ⟨1, 0⟩, ⟨2, 0⟩] : PointSequence).drop 0 |>.take (1 - 0)) ∧
    (3 - 1 ≤ 1 - 0 →
      ∀ i, i < 3 - 1 → deref (move_away [⟨0, 0⟩, ⟨1, 0⟩, ⟨2, 0⟩] 0 1 3) (0 + i)
        = deref [⟨0, 0⟩, ⟨1, 0⟩, ⟨2, 0⟩] (1 + i)) ∧
    (1 - 0 < 3 - 1 →
      ∀ i, i < 1 - 0 →
        deref (move_away [⟨0, 0⟩, ⟨1, 0⟩, ⟨2, 0⟩] 0 1 3) (0 + (3 - 1) + i)
          = deref [⟨0, 0⟩, ⟨1, 0⟩, ⟨2, 0⟩] (0 + i)) :=
  move_away_blocks [⟨0, 0⟩, ⟨1, 0⟩, ⟨2, 0⟩] 0 1 3 (by decide) (by decide) (by decide)

/-- Claim C30. For positions `here ≤ rest ≤ past` of a sequence, with `k = rest - here` and
`j = past - rest`, `move_away` permutes the positions of `[here, past)` and leaves the positions
outside unchanged; the first `j` positions of the range hold the multiset of the original block
`[rest, past)` and the last `k` positions hold the multiset of the original block
`[here, rest)`; the smaller block keeps its order: the second block when `j ≤ k`, the first
block when `k < j`. -/
theorem move_away_guarantee (a : PointSequence) (here rest past : Nat) (h1 : here ≤ rest)
    (h2 : rest ≤ past) (h3 : past ≤ a.length) :
    RangePerm here past a (move_away a here rest past) ∧
    (∀ t, t < here ∨ past ≤ t → deref (move_away a here rest past) t = deref a t) ∧
    (((move_away a here rest past).drop here).take (past - rest)).Perm
      ((a.drop rest).take (past - rest)) ∧
    (((move_away a here rest past).drop (here + (past - rest))).take (rest - here)).Perm
      ((a.drop here).take (rest - here)) ∧
    (past - rest ≤ rest - here →
      ∀ i, i < past - rest → deref (move_away a here rest past) (here + i) = deref a (rest + i)) ∧
    (rest - here < past - rest →
      ∀ i, i < rest - here →
        deref (move_away a here rest past) (here + (past - rest) + i) = deref a (here + i)) :=
  ⟨(move_away_spec a here rest past h1 h2 h3).1,
    (move_away_content a here rest past h1 h2 h3).2⟩

/-- Claim C30 at a call with a first block of three points and a second block of two points:
the second block arrives in front in its order, the first block behind it as a multiset. -/
theorem move_away_guarantee_witness :
    RangePerm 0 5 [⟨0, 0⟩, ⟨1, 0⟩, ⟨2, 0⟩, ⟨3, 0⟩, ⟨4, 0⟩]
      (move_away [⟨0, 0⟩, ⟨1, 0⟩, ⟨2, 0⟩, ⟨3, 0⟩, ⟨4, 0⟩] 0 3 5) ∧
    (∀ t, t < 0 ∨ 5 ≤ t →
      deref (move_away [⟨0, 0⟩, ⟨1, 0⟩, ⟨2, 0⟩, ⟨3, 0⟩, ⟨4, 0⟩] 0 3 5) t
        = deref [⟨0, 0⟩, ⟨1, 0⟩, ⟨2, 0⟩, ⟨3, 0⟩, ⟨4, 0⟩] t) ∧
    (((move_away [⟨0, 0⟩, ⟨1, 0⟩, ⟨2, 0⟩, ⟨3, 0⟩, ⟨4, 0⟩] 0 3 5).drop 0).take (5 - 3)).Perm
      ((([⟨0, 0⟩, ⟨1, 0⟩, ⟨2, 0⟩, ⟨3, 0⟩, ⟨4, 0⟩] : PointSequence).drop 3).take (5 - 3)) ∧
    (((move_away [⟨0, 0⟩, ⟨1, 0⟩, ⟨2, 0⟩, ⟨3, 0⟩, ⟨4, 0⟩] 0 3 5).drop (0 + (5 - 3))).take
      (3 - 0)).Perm
      ((([⟨0, 0⟩, ⟨1, 0⟩, ⟨2, 0⟩, ⟨3, 0⟩, ⟨4, 0⟩] : PointSequence).drop 0).take (3 - 0)) ∧
    (5 - 3 ≤ 3 - 0 →
      ∀ i, i < 5 - 3 →
        deref (move_away [⟨0, 0⟩, ⟨1, 0⟩, ⟨2, 0⟩, ⟨3, 0⟩, ⟨4, 0⟩] 0 3 5) (0 + i)
          = deref [⟨0, 0⟩, ⟨1, 0⟩, ⟨2, 0⟩, ⟨3, 0⟩, ⟨4, 0⟩] (3 + i)) ∧
    (3 - 0 < 5 - 3 →
      ∀ i, i < 3 - 0 →
        deref (move_away [⟨0, 0⟩, ⟨1, 0⟩, ⟨2, 0⟩, ⟨3, 0⟩, ⟨4, 0⟩] 0 3 5) (0 + (5 - 3) + i)
          = deref [⟨0, 0⟩, ⟨1, 0⟩, ⟨2, 0⟩, ⟨3, 0⟩, ⟨4, 0⟩] (0 + i)) :=
  move_away_guarantee [⟨0, 0⟩, ⟨1, 0⟩, ⟨2, 0⟩, ⟨3, 0⟩, ⟨4, 0⟩] 0 3 5 (by decide) (by decide)
    (by decide)

end QuickHull

namespace QuickHull

open Orientation

/-! ### The junction at the furthest point of `findHullInPlace` -/

/-- The turn at the furthest point towards the antipole: a point `y` strictly right of (P, F)
that is not further from the segment than `F` sees `F` and then the antipole `R` in
counterclockwise order. -/
theorem junction_near (P R F y : Point) (hK : cross P R F < 0) (hy : cross P F y < 0)
    (hD : computeSquaredDistanceFromPointToSegment y P R
      ≤ computeSquaredDistanceFromPointToSegment F P R) : 0 < cross y F R := by
  by_contra h
  have h0 : cross y F R ≤ 0 := not_lt.mp h
  have hdec := cross_decompose P y R F
  have e1 : cross F y R = - cross y F R := cross_swap_first y F R
  have e2 : cross P F R = - cross P R F := cross_swap_last P R F
  have e3 : cross P y F = - cross P F y := cross_swap_last P F y
  have hKK : 0 < cross P y R := by linarith
  have hne : cross P y R ≠ 0 := ne_of_gt hKK
  obtain ⟨hx, hy'⟩ := tri_coordinates P y R F hne
  have hsum : cross F y R / cross P y R + cross P F R / cross P y R
      + cross P y F / cross P y R = 1 := by
    rw [← add_div, ← add_div, ← hdec]
    exact div_self hne
  have h1 : 0 ≤ cross F y R / cross P y R := div_nonneg (by linarith) (le_of_lt hKK)
  have h2 : 0 < cross P F R / cross P y R := div_pos (by linarith) hKK
  have h3 : 0 < cross P y F / cross P y R := div_pos (by linarith) hKK
  generalize cross F y R / cross P y R = lP at hx hy' hsum h1
  generalize cross P F R / cross P y R = ly at hx hy' hsum h2
  generalize cross P y F / cross P y R = lR at hx hy' hsum h3
  have hcv := sqDist_convex P R y y F ly 0 lP lR (le_of_lt h2) (le_refl _) h1 (le_of_lt h3)
    (by linarith) (by rw [hx]; ring) (by rw [hy']; ring)
  have hpos : 0 < computeSquaredDistanceFromPointToSegment F P R :=
    sqDist_pos_of_cross_ne F P R (by rw [e2]; exact neg_ne_zero.mpr (ne_of_lt hK))
  have hly : ly < 1 := by linarith
  generalize computeSquaredDistanceFromPointToSegment F P R = DF at hD hcv hpos
  generalize computeSquaredDistanceFromPointToSegment y P R = Dy at hD hcv
  have hb : ly * ly * Dy ≤ ly * ly * DF :=
    mul_le_mul_of_nonneg_left hD (mul_nonneg (le_of_lt h2) (le_of_lt h2))
  have hc : ly * ly < 1 := by nlinarith
  have hd : ly * ly * DF < 1 * DF := mul_lt_mul_of_pos_right hc hpos
  have he : (ly + 0) * (ly * Dy + 0 * Dy) = ly * ly * Dy := by ring
  rw [he] at hcv
  linarith

/-- The turn at the furthest point between a point `y` of the first group and a point `z` that
is not right of (P, F): the furthest point does not lie strictly inside the triangle of the
pole, `y` and `z`. -/
theorem junction_weak (P R F y z : Point) (hK : cross P R F < 0) (hy : cross P F y < 0)
    (hz : 0 ≤ cross P F z)
    (hDy : computeSquaredDistanceFromPointToSegment y P R
      ≤ computeSquaredDistanceFromPointToSegment F P R)
    (hDz : computeSquaredDistanceFromPointToSegment z P R
      ≤ computeSquaredDistanceFromPointToSegment F P R) : 0 ≤ cross y F z := by
  by_contra h
  have h0 : cross y F z < 0 := not_le.mp h
  have hdec := cross_decompose P y z F
  have e1 : cross F y z = - cross y F z := cross_swap_first y F z
  have e3 : cross P y F = - cross P F y := cross_swap_last P F y
  have e2 : cross P F R = - cross P R F := cross_swap_last P R F
  have hKK : 0 < cross P y z := by linarith
  have hne : cross P y z ≠ 0 := ne_of_gt hKK
  obtain ⟨hx, hy'⟩ := tri_coordinates P y z F hne
  have hsum : cross F y z / cross P y z + cross P F z / cross P y z
      + cross P y F / cross P y z = 1 := by
    rw [← add_div, ← add_div, ← hdec]
    exact div_self hne
  have h1 : 0 < cross F y z / cross P y z := div_pos (by linarith) hKK
  have h2 : 0 ≤ cross P F z / cross P y z := div_nonneg hz (le_of_lt hKK)
  have h3 : 0 < cross P y F / cross P y z := div_pos (by linarith) hKK
  generalize cross F y z / cross P y z = lP at hx hy' hsum h1
  generalize cross P F z / cross P y z = ly at hx hy' hsum h2
  generalize cross P y F / cross P y z = lz at hx hy' hsum h3
  have hcv := sqDist_convex P R y z F ly lz lP 0 h2 (le_of_lt h3) (le_of_lt h1) (le_refl _)
    (by linarith) (by rw [hx]; ring) (by rw [hy']; ring)
  have hpos : 0 < computeSquaredDistanceFromPointToSegment F P R :=
    sqDist_pos_of_cross_ne F P R (by rw [e2]; exact neg_ne_zero.mpr (ne_of_lt hK))
  generalize computeSquaredDistanceFromPointToSegment F P R = DF at hDy hDz hcv hpos
  generalize computeSquaredDistanceFromPointToSegment y P R = Dy at hDy hcv
  generalize computeSquaredDistanceFromPointToSegment z P R = Dz at hDz hcv
  have b1 : ly * Dy ≤ ly * DF := mul_le_mul_of_nonneg_left hDy h2
  have b2 : lz * Dz ≤ lz * DF := mul_le_mul_of_nonneg_left hDz (le_of_lt h3)
  have hs : ly + lz < 1 := by linarith
  have hs0 : 0 < ly + lz := by linarith
  have c1 : (ly + lz) * (ly * Dy + lz * Dz) ≤ (ly + lz) * ((ly + lz) * DF) :=
    mul_le_mul_of_nonneg_left (by linarith) (le_of_lt hs0)
  have c2 : (ly + lz) * DF < 1 * DF := mul_lt_mul_of_pos_right hs hpos
  have c3 : (ly + lz) * ((ly + lz) * DF) ≤ (ly + lz) * (1 * DF) :=
    mul_le_mul_of_nonneg_left (le_of_lt c2) (le_of_lt hs0)
  have c4 : (ly + lz) * (1 * DF) < 1 * (1 * DF) :=
    mul_lt_mul_of_pos_right hs (by linarith)
  linarith

/-- A point that is not left of (F, R) and not further than the furthest point `F` is not
right of (P, F). -/
theorem group3_left (P R F z : Point) (hK : cross P R F < 0) (hz : cross F R z ≤ 0)
    (hD : computeSquaredDistanceFromPointToSegment z P R
      ≤ computeSquaredDistanceFromPointToSegment F P R) : 0 ≤ cross P F z := by
  by_contra h
  have := sqDist_lt_of_wedge P R F z hK (not_le.mp h) hz
  linarith

/-! ### Chains that are monotone in x and turn counterclockwise or not at all -/

/-- Along a chain that is monotone in x and moves on in x between `b` and `c`, two consecutive
turns that are not clockwise make the first edge see the fourth point not clockwise. -/
theorem ccw_trans_left (sg : Number) (a b c d : Point)
    (m1 : 0 ≤ sg * (b.x - a.x)) (m2 : 0 < sg * (c.x - b.x)) (m3 : 0 ≤ sg * (d.x - c.x))
    (h1 : 0 ≤ cross a b c) (h2 : 0 ≤ cross b c d) : 0 ≤ cross a b d := by
  have hid : sg * (c.x - b.x) * cross a b d
      = sg * (d.x - b.x) * cross a b c + sg * (b.x - a.x) * cross b c d := by
    unfold cross; ring
  have t1 : 0 ≤ sg * (d.x - b.x) := by
    have : sg * (d.x - b.x) = sg * (d.x - c.x) + sg * (c.x - b.x) := by ring
    linarith
  have t2 := mul_nonneg t1 h1
  have t3 := mul_nonneg m1 h2
  by_contra hneg
  have := mul_neg_of_pos_of_neg m2 (not_le.mp hneg)
  linarith

/-- Along a chain that is monotone in x and moves on in x between `b` and `c`, two consecutive
turns that are not clockwise make the first point see the last edge not clockwise. -/
theorem ccw_trans_right (sg : Number) (a b c d : Point)
    (m1 : 0 ≤ sg * (b.x - a.x)) (m2 : 0 < sg * (c.x - b.x)) (m3 : 0 ≤ sg * (d.x - c.x))
    (h1 : 0 ≤ cross a b c) (h2 : 0 ≤ cross b c d) : 0 ≤ cross a c d := by
  have hid : sg * (c.x - b.x) * cross a c d
      = sg * (c.x - a.x) * cross b c d + sg * (d.x - c.x) * cross a b c := by
    unfold cross; ring
  have t1 : 0 ≤ sg * (c.x - a.x) := by
    have : sg * (c.x - a.x) = sg * (c.x - b.x) + sg * (b.x - a.x) := by ring
    linarith
  have t2 := mul_nonneg t1 h2
  have t3 := mul_nonneg m3 h1
  by_contra hneg
  have := mul_neg_of_pos_of_neg m2 (not_le.mp hneg)
  linarith

/-- A point on the other side of the base of a monotone chain, and between the end points of
the base in x-direction, is not clockwise of any edge of the chain. -/
theorem opposite_side_weak (sg : Number) (P R a b z : Point) (hPR : 0 < sg * (R.x - P.x))
    (hz : 0 ≤ cross P R z) (hzR : 0 ≤ sg * (R.x - z.x)) (hzP : 0 ≤ sg * (z.x - P.x))
    (hab : 0 ≤ sg * (b.x - a.x)) (hP : 0 ≤ cross a b P) (hR : 0 ≤ cross a b R) :
    0 ≤ cross a b z := by
  have hid : sg * (R.x - P.x) * cross a b z
      = sg * (R.x - z.x) * cross a b P + sg * (z.x - P.x) * cross a b R
        + sg * (b.x - a.x) * cross P R z := by
    unfold cross; ring
  have t1 := mul_nonneg hzR hP
  have t2 := mul_nonneg hzP hR
  have t3 := mul_nonneg hab hz
  by_contra hneg
  have := mul_neg_of_pos_of_neg hPR (not_le.mp hneg)
  linarith

/-- The points of the first group lie strictly before the furthest point in x-direction. -/
theorem group1_x_strict (sg : Number) (hsg : sg = 1 ∨ sg = -1) (P R F y : Point)
    (hK : cross P R F < 0) (hy : cross P F y < 0)
    (hD : computeSquaredDistanceFromPointToSegment y P R
      ≤ computeSquaredDistanceFromPointToSegment F P R)
    (hyR : 0 ≤ sg * (R.x - y.x)) (hFP : 0 ≤ sg * (F.x - P.x)) (hRF : 0 ≤ sg * (R.x - F.x)) :
    0 < sg * (F.x - y.x) := by
  have hle := group1_x_bound sg hsg P R F y hK hy hyR hFP hD
  rcases lt_or_eq_of_le hle with h | h
  · exact h
  · exfalso
    have hyx : F.x - y.x = 0 := sg_mul_eq_zero sg hsg _ h.symm
    have hJ := junction_near P R F y hK hy hD
    have e1 : cross P F y = (sg * (F.x - P.x)) * (sg * (y.y - F.y)) := by
      have hyx' : y.x = F.x := by linarith
      rcases hsg with h' | h' <;> rw [h'] <;> unfold cross <;> rw [hyx'] <;> ring
    have e2 : cross y F R = (sg * (y.y - F.y)) * (sg * (R.x - F.x)) := by
      have hyx' : y.x = F.x := by linarith
      rcases hsg with h' | h' <;> rw [h'] <;> unfold cross <;> rw [hyx'] <;> ring
    rw [e1] at hy
    rw [e2] at hJ
    generalize sg * (F.x - P.x) = u at hFP hy
    generalize sg * (R.x - F.x) = w at hRF hJ
    generalize sg * (y.y - F.y) = t at hy hJ
    by_cases ht : 0 ≤ t
    · have := mul_nonneg hFP ht
      linarith
    · have := mul_nonneg (by linarith : 0 ≤ -t) hRF
      linarith

end QuickHull

namespace QuickHull

open Orientation

/-! ### Chains that never turn clockwise -/

theorem WeakChain.congr {sg : Number} {P R : Point} {o o' : Nat → Point} {lo hi : Nat}
    (h : WeakChain sg P R o lo hi) (he : ∀ i, lo ≤ i → i < hi → o' i = o i) :
    WeakChain sg P R o' lo hi := by
  obtain ⟨h1, h2, h3, h4⟩ := h
  refine ⟨?_, ?_, ?_, ?_⟩
  · intro i j a b c
    rw [he i a (by omega), he j (by omega) c]
    exact h1 i j a b c
  · intro i j a b c
    rw [he i a (by omega), he j (by omega) c]
    exact h2 i j a b c
  · intro i j k a b c d
    rw [he i a (by omega), he j (by omega) (by omega), he k (by omega) d]
    exact h3 i j k a b c d
  · intro i j a b c
    rw [he i a (by omega), he j (by omega) c]
    exact h4 i j a b c

/-- A chain of at most one point. -/
theorem weakChain_short (sg : Number) (P R : Point) (o : Nat → Point) (lo hi : Nat)
    (h : hi ≤ lo + 1) : WeakChain sg P R o lo hi := by
  refine ⟨?_, ?_, ?_, ?_⟩
  · intro i j a b c; omega
  · intro i j a b c; omega
  · intro i j k a b c d; omega
  · intro i j a b c; omega

theorem point_eq_of_coords (c P : Point) (hx : c.x = P.x) (hy : c.y = P.y) : c = P := by
  cases c; cases P
  simp only [Point.mk.injEq]
  exact ⟨hx, hy⟩

/-- A candidate with the x-coordinate of the pole is the pole, unless the pole and the
antipole have the same x-coordinate. -/
theorem HullCand.vertical {sg : Number} {P R c : Point} (h : HullCand sg P R c)
    (hx : c.x = P.x) : c = P ∨ R.x = P.x := by
  obtain ⟨_, h2, _, _, h5⟩ := h
  obtain ⟨t, _, _, ex, ey⟩ := h2 (h5 hx)
  have h0 : t * (R.x - P.x) = 0 := by linarith
  rcases mul_eq_zero.mp h0 with ht | ht
  · left
    apply point_eq_of_coords c P hx
    rw [ey, ht]; ring
  · right
    linarith

/-- Three points of one segment are collinear. -/
theorem cross_of_onSegment3 (P R u v w : Point) (hu : OnClosedSegment P R u)
    (hv : OnClosedSegment P R v) (hw : OnClosedSegment P R w) : cross u v w = 0 := by
  obtain ⟨t1, _, _, ux, uy⟩ := hu
  obtain ⟨t2, _, _, vx, vy⟩ := hv
  obtain ⟨t3, _, _, wx, wy⟩ := hw
  unfold cross
  rw [ux, uy, vx, vy, wx, wy]
  ring

/-- Two points of a segment and an end point of the segment are collinear. -/
theorem cross_of_onSegment_pole (P R u v : Point) (hu : OnClosedSegment P R u)
    (hv : OnClosedSegment P R v) : cross P u v = 0 ∧ cross u v R = 0 ∧ cross P u R = 0 := by
  obtain ⟨t1, _, _, ux, uy⟩ := hu
  obtain ⟨t2, _, _, vx, vy⟩ := hv
  unfold cross
  rw [ux, uy, vx, vy]
  refine ⟨by ring, by ring, by ring⟩

/-- When a point right of (P, F) is not further from the segment than `F`, the point `F` is
not on the segment. -/
theorem pivot_strict_of_group1 (P R F y : Point) (hZle : cross P R F ≤ 0)
    (hseg : cross P R F = 0 → OnClosedSegment P R F) (hy : cross P F y < 0)
    (hD : computeSquaredDistanceFromPointToSegment y P R
      ≤ computeSquaredDistanceFromPointToSegment F P R) : cross P R F < 0 := by
  rcases lt_or_eq_of_le hZle with h | h
  · exact h
  · exfalso
    have hF := hseg h
    have hD0 := sqDist_zero_of_onSegment F P R hF
    rw [hD0] at hD
    have hy0 := onSegment_of_sqDist_zero y P R (le_antisymm hD (sqDist_nonneg _ _ _))
    have := (cross_of_onSegment_pole P R F y hF hy0).1
    linarith

/-- A point of the segment from `P` to `R` that does not come before the point `F` of the
segment in x-direction lies between `F` and `R`. -/
theorem onSegment_sub (sg : Number) (P R F z : Point) (hF : OnClosedSegment P R F)
    (hz : OnClosedSegment P R z) (hx : 0 ≤ sg * (z.x - F.x)) (hPR : 0 < sg * (R.x - P.x)) :
    OnClosedSegment F R z := by
  obtain ⟨α, ha0, ha1, fx, fy⟩ := hF
  obtain ⟨β, hb0, hb1, zx, zy⟩ := hz
  have hab : α ≤ β := by
    have e : sg * (z.x - F.x) = (β - α) * (sg * (R.x - P.x)) := by rw [zx, fx]; ring
    rw [e] at hx
    by_contra hlt
    have := mul_neg_of_neg_of_pos (by linarith [not_le.mp hlt] : β - α < 0) hPR
    linarith
  rcases lt_or_eq_of_le ha1 with h1 | h1
  · have hpos : 0 < 1 - α := by linarith
    refine ⟨(β - α) / (1 - α), div_nonneg (by linarith) (le_of_lt hpos),
      (div_le_one hpos).mpr (by linarith), ?_, ?_⟩
    · rw [zx, fx]; field_simp; ring
    · rw [zy, fy]; field_simp; ring
  · have hb : β = 1 := by linarith
    refine ⟨0, le_refl _, zero_le_one, ?_, ?_⟩
    · rw [zx, fx, hb, h1]; ring
    · rw [zy, fy, hb, h1]; ring

/-- The monotone part of joining two chains at the furthest point. -/
theorem mono_join (sg : Number) (F : Point) (o : Nat → Point) (lo c1 hi : Nat) (hF : o c1 = F)
    (h1 : ∀ i j, lo ≤ i → i < j → j < c1 → 0 ≤ sg * ((o j).x - (o i).x))
    (h2 : ∀ i j, c1 + 1 ≤ i → i < j → j < hi → 0 ≤ sg * ((o j).x - (o i).x))
    (hG1 : ∀ i, lo ≤ i → i < c1 → 0 ≤ sg * (F.x - (o i).x))
    (hG3 : ∀ k, c1 < k → k < hi → 0 ≤ sg * ((o k).x - F.x)) :
    ∀ i j, lo ≤ i → i < j → j < hi → 0 ≤ sg * ((o j).x - (o i).x) := by
  intro i j hi1 hij hj
  by_cases hjc : j < c1
  · exact h1 i j hi1 hij hjc
  by_cases hic : c1 < i
  · exact h2 i j (by omega) hij hj
  by_cases hjc' : j = c1
  · rw [hjc', hF]
    exact hG1 i hi1 (by omega)
  by_cases hic' : i = c1
  · rw [hic', hF]
    exact hG3 j (by omega) hj
  · have a := hG1 i hi1 (by omega)
    have b := hG3 j (by omega) hj
    have e : sg * ((o j).x - (o i).x) = sg * ((o j).x - F.x) + sg * (F.x - (o i).x) := by ring
    rw [e]
    linarith

/-- Joining the chains of the two recursive calls of `findHullInPlace` at the furthest point
`F`: when the chain from the pole to `F` and the chain from `F` to the antipole never turn
clockwise, the points of the first chain are strictly right of (P, F), the points of the second
chain are candidates of the second call, and no point is further from the segment than `F`,
then the joined chain from the pole to the antipole never turns clockwise. -/
theorem weakChain_join (sg : Number) (hsg : sg = 1 ∨ sg = -1) (P R F : Point)
    (o : Nat → Point) (lo c1 hi : Nat)
    (hK : cross P R F < 0) (hFP : 0 ≤ sg * (F.x - P.x)) (hRF : 0 ≤ sg * (R.x - F.x))
    (hF : o c1 = F)
    (h1 : WeakChain sg P F o lo c1) (h2 : WeakChain sg F R o (c1 + 1) hi)
    (hG1 : ∀ i, lo ≤ i → i < c1 →
      cross P F (o i) < 0 ∧ 0 ≤ sg * ((o i).x - P.x) ∧ 0 ≤ sg * (R.x - (o i).x) ∧
      computeSquaredDistanceFromPointToSegment (o i) P R
        ≤ computeSquaredDistanceFromPointToSegment F P R)
    (hG3 : ∀ k, c1 < k → k < hi →
      HullCand sg F R (o k) ∧
      computeSquaredDistanceFromPointToSegment (o k) P R
        ≤ computeSquaredDistanceFromPointToSegment F P R)
    (hV : R.x = F.x → hi ≤ c1 + 2) : WeakChain sg P R o lo hi := by
  obtain ⟨p1, r1, t1, m1⟩ := h1
  obtain ⟨p2, r2, t2, m2⟩ := h2
  -- facts about the points of the first chain
  have xs1 : ∀ i, lo ≤ i → i < c1 → 0 < sg * (F.x - (o i).x) := by
    intro i a b
    obtain ⟨q1, _, q3, q4⟩ := hG1 i a b
    exact group1_x_strict sg hsg P R F (o i) hK q1 q4 q3 hFP hRF
  have jn : ∀ i, lo ≤ i → i < c1 → 0 < cross (o i) F R := by
    intro i a b
    obtain ⟨q1, _, _, q4⟩ := hG1 i a b
    exact junction_near P R F (o i) hK q1 q4
  have py : ∀ i, lo ≤ i → i < c1 → 0 < cross P (o i) F := by
    intro i a b
    obtain ⟨q1, _, _, _⟩ := hG1 i a b
    rw [cross_swap_last P F (o i)]
    linarith
  -- facts about the points of the second chain
  have pz : ∀ k, c1 < k → k < hi → 0 ≤ cross P F (o k) := by
    intro k a b
    obtain ⟨⟨q1, _⟩, q2⟩ := hG3 k a b
    exact group3_left P R F (o k) hK q1 q2
  have zr : ∀ k, c1 < k → k < hi → 0 ≤ cross F (o k) R := by
    intro k a b
    obtain ⟨⟨q1, _⟩, _⟩ := hG3 k a b
    rw [cross_swap_last F R (o k)]
    linarith
  have xs3 : ∀ k, c1 < k → k < hi → 0 ≤ sg * ((o k).x - F.x) := by
    intro k a b
    obtain ⟨⟨_, _, q3, _⟩, _⟩ := hG3 k a b
    exact q3
  have sp : ∀ k, c1 < k → k < hi → 0 < sg * ((o k).x - F.x) ∨ o k = F ∨ R.x = F.x := by
    intro k a b
    rcases lt_or_eq_of_le (xs3 k a b) with h | h
    · exact Or.inl h
    · right
      have hx : (o k).x = F.x := by
        have := sg_mul_eq_zero sg hsg _ h.symm
        linarith
      exact (hG3 k a b).1.vertical hx
  have jw : ∀ i k, lo ≤ i → i < c1 → c1 < k → k < hi → 0 ≤ cross (o i) F (o k) := by
    intro i k a b c d
    obtain ⟨q1, _, _, q4⟩ := hG1 i a b
    exact junction_weak P R F (o i) (o k) hK q1 (pz k c d) q4 (hG3 k c d).2
  have mm := mono_join sg F o lo c1 hi hF m1 m2 (fun i a b => le_of_lt (xs1 i a b)) xs3
  refine ⟨?_, ?_, ?_, mm⟩
  · -- the pole in front
    intro i j hi1 hij hj
    by_cases hjc : j < c1
    · exact p1 i j hi1 hij hjc
    by_cases hjc' : j = c1
    · rw [hjc', hF]
      exact le_of_lt (py i hi1 (by omega))
    by_cases hic : i < c1
    · exact ccw_trans_left sg P (o i) F (o j) (hG1 i hi1 hic).2.1 (xs1 i hi1 hic)
        (xs3 j (by omega) hj) (le_of_lt (py i hi1 hic)) (jw i j hi1 hic (by omega) hj)
    by_cases hic' : i = c1
    · rw [hic', hF]
      exact pz j (by omega) hj
    · rcases sp i (by omega) (by omega) with h | h | h
      · exact ccw_trans_right sg P F (o i) (o j) hFP h (m2 i j (by omega) hij hj)
          (pz i (by omega) (by omega)) (p2 i j (by omega) hij hj)
      · rw [h]
        exact pz j (by omega) hj
      · have := hV h
        omega
  · -- the antipole behind
    intro i j hi1 hij hj
    by_cases hic : c1 < i
    · exact r2 i j (by omega) hij hj
    by_cases hic' : i = c1
    · rw [hic', hF]
      exact zr j (by omega) hj
    by_cases hjc : j < c1
    · exact ccw_trans_left sg (o i) (o j) F R (m1 i j hi1 hij hjc) (xs1 j (by omega) hjc) hRF
        (r1 i j hi1 hij hjc) (le_of_lt (jn j (by omega) hjc))
    by_cases hjc' : j = c1
    · rw [hjc', hF]
      exact le_of_lt (jn i hi1 (by omega))
    · rcases sp j (by omega) hj with h | h | h
      · exact ccw_trans_right sg (o i) F (o j) R (le_of_lt (xs1 i hi1 (by omega))) h
          (hG3 j (by omega) hj).1.2.2.2.1 (jw i j hi1 (by omega) (by omega) hj)
          (zr j (by omega) hj)
      · rw [h]
        exact le_of_lt (jn i hi1 (by omega))
      · -- the second chain runs along the vertical segment from F to R
        have hx := xs3 j (by omega) hj
        have hx' := (hG3 j (by omega) hj).1.2.2.2.1
        have hzx : (o j).x = F.x := by
          have e1 : sg * (R.x - (o j).x) = - (sg * ((o j).x - F.x)) := by rw [h]; ring
          have e2 : sg * ((o j).x - F.x) = 0 := by linarith
          have := sg_mul_eq_zero sg hsg _ e2
          linarith
        have hcand := (hG3 j (by omega) hj).1
        obtain ⟨t, ht0, ht1, ex, ey⟩ := hcand.2.1 (hcand.2.2.2.2 hzx)
        have e : cross (o i) (o j) R = (1 - t) * cross (o i) F R := by
          unfold cross; rw [ex, ey]; ring
        rw [e]
        exact mul_nonneg (by linarith) (le_of_lt (jn i hi1 (by omega)))
  · -- three points of the chain
    intro i j k hi1 hij hjk hk
    by_cases hkc : k < c1
    · exact t1 i j k hi1 hij hjk hkc
    by_cases hkc' : k = c1
    · rw [hkc', hF]
      exact r1 i j hi1 hij (by omega)
    by_cases hjc : j < c1
    · exact ccw_trans_left sg (o i) (o j) F (o k) (m1 i j hi1 hij hjc) (xs1 j (by omega) hjc)
        (xs3 k (by omega) hk) (r1 i j hi1 hij hjc) (jw j k (by omega) hjc (by omega) hk)
    by_cases hjc' : j = c1
    · rw [hjc', hF]
      exact jw i k hi1 (by omega) (by omega) hk
    by_cases hic : i < c1
    · rcases sp j (by omega) (by omega) with h | h | h
      · exact ccw_trans_right sg (o i) F (o j) (o k) (le_of_lt (xs1 i hi1 hic)) h
          (m2 j k (by omega) hjk hk) (jw i j hi1 hic (by omega) (by omega))
          (p2 j k (by omega) hjk hk)
      · rw [h]
        exact jw i k hi1 hic (by omega) hk
      · have := hV h
        omega
    by_cases hic' : i = c1
    · rw [hic', hF]
      exact p2 j k (by omega) hjk hk
    · exact t2 i j k (by omega) hij hjk hk

/-- A chain of points of the segment from the pole to the antipole that is monotone in x never
turns clockwise. -/
theorem weakChain_of_onSegment (sg : Number) (P R : Point) (o : Nat → Point) (lo hi : Nat)
    (hS : ∀ i, lo ≤ i → i < hi → OnClosedSegment P R (o i))
    (hM : ∀ i j, lo ≤ i → i < j → j < hi → 0 ≤ sg * ((o j).x - (o i).x)) :
    WeakChain sg P R o lo hi := by
  refine ⟨?_, ?_, ?_, hM⟩
  · intro i j a b c
    exact le_of_eq (cross_of_onSegment_pole P R (o i) (o j) (hS i a (by omega))
      (hS j (by omega) c)).1.symm
  · intro i j a b c
    exact le_of_eq (cross_of_onSegment_pole P R (o i) (o j) (hS i a (by omega))
      (hS j (by omega) c)).2.1.symm
  · intro i j k a b c d
    exact le_of_eq (cross_of_onSegment3 P R (o i) (o j) (o k) (hS i a (by omega))
      (hS j (by omega) (by omega)) (hS k (by omega) d)).symm

end QuickHull

namespace QuickHull

open Orientation

/-! ### The output of `findHullInPlace` never turns clockwise -/

/-- In the third group of `partition[location]` every point behind the first one is strictly
right of the directed line from the furthest point to the antipole. -/
theorem partition_strict_spec (loc : Nat) (a : PointSequence) (first last l r f : Nat)
    (hfl : first < last) (hlast : last ≤ a.length)
    (hl : l < first ∨ last ≤ l) (hr : r < first ∨ last ≤ r) (hf : f < first ∨ last ≤ f)
    (b : PointSequence) (G1 G2 : Nat)
    (hres : partition loc a first (last - 1) l r f = (b, G1, G2)) :
    ∀ j, G2 < j → j < last → cross (deref a f) (deref a r) (deref b j) < 0 := by
  unfold partition at hres
  intro j h1 h2
  by_cases hloc : loc = LOWER
  · rw [if_pos hloc] at hres
    obtain ⟨_, _, _, _, _, _, hC⟩ := lowerPartition_spec a first last l r f hfl hlast hl hr
      hf b G1 G2 hres
    rcases hC j (by omega) h2 with ⟨_, c2⟩ | ⟨c0, _⟩
    · exact (orientation_cw_iff _ _ _).mp c2
    · omega
  · rw [if_neg hloc] at hres
    obtain ⟨_, _, _, _, _, _, hC⟩ := upperPartition_spec a first last l r f hfl hlast hl hr
      hf b G1 G2 hres
    rcases hC j (by omega) h2 with ⟨_, c2⟩ | ⟨c0, _⟩
    · exact (orientation_cw_iff _ _ _).mp c2
    · omega

/-- A candidate of a call of `findHullInPlace` that is strictly right of (P, F) and not further
from the segment than the furthest point `F` is a candidate of the first recursive call. -/
theorem hullCand_first (sg : Number) (hsg : sg = 1 ∨ sg = -1) (P R F y : Point)
    (hy : HullCand sg P R y) (hF : HullCand sg P R F) (hY : cross P F y < 0)
    (hD : computeSquaredDistanceFromPointToSegment y P R
      ≤ computeSquaredDistanceFromPointToSegment F P R) (hV : R.x ≠ P.x) :
    HullCand sg P F y ∧ 0 < sg * (F.x - y.x) := by
  have hZ := pivot_strict_of_group1 P R F y hF.1 hF.2.1 hY hD
  have hx := group1_x_strict sg hsg P R F y hZ hY hD hy.2.2.2.1 hF.2.2.1 hF.2.2.2.1
  refine ⟨⟨le_of_lt hY, ?_, hy.2.2.1, le_of_lt hx, ?_⟩, hx⟩
  · intro h0
    exfalso
    linarith
  · intro hxP
    exfalso
    rcases hy.vertical hxP with h | h
    · rw [h, cross_self_right] at hY
      exact lt_irrefl _ hY
    · exact hV h

/-- A candidate of a call of `findHullInPlace` that is not left of (F, R), not before the
furthest point `F` in x-direction and not further from the segment than `F` is a candidate of
the second recursive call. -/
theorem hullCand_second (sg : Number) (hsg : sg = 1 ∨ sg = -1) (P R F z : Point)
    (hz : HullCand sg P R z) (hF : HullCand sg P R F) (hX : cross F R z ≤ 0)
    (hx : 0 ≤ sg * (z.x - F.x))
    (hD : computeSquaredDistanceFromPointToSegment z P R
      ≤ computeSquaredDistanceFromPointToSegment F P R) (hV : R.x ≠ P.x) :
    HullCand sg F R z := by
  obtain ⟨hZle, hFseg, hFx1, hFx2, hF5⟩ := hF
  obtain ⟨q1, q2, q3, q4, q5⟩ := hz
  rcases lt_or_eq_of_le hZle with hZ | hdeg
  · refine ⟨hX, ?_, hx, q4, ?_⟩
    · intro hcol
      exact onSegment_pivot_antipole_right P R F z hZ q1 hD hcol
    · intro hzx
      by_contra hne
      have hlt : cross F R z < 0 := lt_of_le_of_ne hX hne
      have hpz := group3_left P R F z hZ hX hD
      have e1 : cross F R z = (sg * (R.x - F.x)) * (sg * (z.y - F.y)) := by
        rcases hsg with h' | h' <;> rw [h'] <;> unfold cross <;> rw [hzx] <;> ring
      have e2 : cross P F z = (sg * (F.x - P.x)) * (sg * (z.y - F.y)) := by
        rcases hsg with h' | h' <;> rw [h'] <;> unfold cross <;> rw [hzx] <;> ring
      rw [e1] at hlt
      rw [e2] at hpz
      have hFP0 : sg * (F.x - P.x) = 0 := by
        generalize sg * (F.x - P.x) = u at hFx1 hpz
        generalize sg * (R.x - F.x) = w at hFx2 hlt
        generalize sg * (z.y - F.y) = t at hlt hpz
        have ht : t < 0 := by
          by_contra h
          have := mul_nonneg hFx2 (not_lt.mp h)
          linarith
        by_contra hu
        have hu' : 0 < u := lt_of_le_of_ne hFx1 (Ne.symm hu)
        have := mul_neg_of_pos_of_neg hu' ht
        linarith
      have hFP : F.x = P.x := by
        have := sg_mul_eq_zero sg hsg _ hFP0
        linarith
      have := hF5 hFP
      linarith
  · have hFon := hFseg hdeg
    have hD0 := sqDist_zero_of_onSegment F P R hFon
    rw [hD0] at hD
    have hzon := onSegment_of_sqDist_zero z P R (le_antisymm hD (sqDist_nonneg _ _ _))
    have hPR : 0 < sg * (R.x - P.x) := by
      have e : sg * (R.x - P.x) = sg * (R.x - F.x) + sg * (F.x - P.x) := by ring
      have h0 : 0 ≤ sg * (R.x - P.x) := by rw [e]; linarith
      rcases lt_or_eq_of_le h0 with h | h
      · exact h
      · exfalso
        apply hV
        have := sg_mul_eq_zero sg hsg _ h.symm
        linarith
    have hc0 : cross F R z = 0 := by
      have := (cross_of_onSegment_pole P R F z hFon hzon).2.1
      rw [cross_swap_last F z R, this]
      ring
    refine ⟨hX, fun _ => onSegment_sub sg P R F z hFon hzon hx hPR, hx, q4, fun _ => hc0⟩

/-- The output of `findHullInPlace` never turns clockwise. If every point of the range is a
candidate of the call (not left of the directed line from the pole `P` to the antipole `R`,
between them in x-direction, on the segment when collinear with them) and a range of two or
more points has poles of different x-coordinates, then the points written to the output
form a chain from `P` to `R` that never turns clockwise and is monotone in x, and each of them
is a point of the range. -/
theorem findHull_convex : ∀ (fuel : Nat) (a : PointSequence)
    (first past l r cursor loc : Nat) (P R : Point), deref a l = P → deref a r = R →
    past - first < fuel → cursor ≤ first → first ≤ past → past ≤ a.length →
    (l < cursor ∨ past ≤ l) → (r < cursor ∨ past ≤ r) →
    (∀ i, first ≤ i → i < past → HullCand (sideSign loc) P R (deref a i)) →
    (P.x = R.x → past - first ≤ 1) →
    ∀ a' c', findHullInPlace fuel a first past l r cursor loc = some (a', c') →
      WeakChain (sideSign loc) P R (deref a') cursor c' ∧
      (∀ k, cursor ≤ k → k < c' → ∃ j, first ≤ j ∧ j < past ∧ deref a' k = deref a j) := by
  intro fuel
  induction fuel with
  | zero => intro a first past l r cursor loc P R _ _ h; omega
  | succ fuel ih =>
    intro a first past l r cursor loc P R hP hR hfuel hcf hfp hlen hl hr hInv hV a' c' hres
    have hsg := sideSign_cases loc
    by_cases h0 : past - first = 0
    · rw [findHullInPlace_empty fuel a first past l r cursor loc h0] at hres
      simp only [Option.some.injEq, Prod.mk.injEq] at hres
      obtain ⟨rfl, rfl⟩ := hres
      exact ⟨weakChain_short _ _ _ _ _ _ (by omega), by intro k h1 h2; omega⟩
    by_cases h1 : past - first = 1
    · rw [findHullInPlace_single fuel a first past l r cursor loc h1] at hres
      simp only [Option.some.injEq, Prod.mk.injEq] at hres
      obtain ⟨rfl, rfl⟩ := hres
      refine ⟨weakChain_short _ _ _ _ _ _ (by omega), ?_⟩
      intro k hk1 hk2
      have hk : k = cursor := by omega
      subst hk
      exact ⟨first, le_refl _, by omega,
        deref_iter_swap_right a first k (by omega) (by omega)⟩
    have hVne : R.x ≠ P.x := by
      intro h
      have := hV h.symm
      omega
    obtain ⟨⟨hf1, hf2⟩, hmax, _⟩ := find_furthest_spec a first past l r (by omega)
    rw [hP, hR] at hmax
    obtain ⟨f, hf⟩ : ∃ f, find_furthest a first past l r = f := ⟨_, rfl⟩
    rw [hf] at hf1 hf2 hmax
    obtain ⟨F, hF⟩ : ∃ F, deref a f = F := ⟨_, rfl⟩
    rw [hF] at hmax
    have hFc := hInv f hf1 hf2
    rw [hF] at hFc
    have hsw : RangePerm first past a (iter_swap a f (past - 1)) :=
      iter_swap_rangePerm a first past _ _ hf1 hf2 (by omega) (by omega) hlen
    have hlen0 : (iter_swap a f (past - 1)).length = a.length := length_iter_swap _ _ _
    have hF0 : deref (iter_swap a f (past - 1)) (past - 1) = F := by
      rw [deref_iter_swap_right a f (past - 1) (by omega) (by omega), hF]
    have hP0 : deref (iter_swap a f (past - 1)) l = P := by
      rw [hsw.frame l (by omega), hP]
    have hR0 : deref (iter_swap a f (past - 1)) r = R := by
      rw [hsw.frame r (by omega), hR]
    obtain ⟨a2, g1, g2, hpart⟩ : ∃ a2 g1 g2,
        partition loc (iter_swap a (find_furthest a first past l r) (past - 1)) first
          (past - 1 - 1) l r (past - 1) = (a2, g1, g2) := ⟨_, _, _, rfl⟩
    have hpart' := hpart
    rw [hf] at hpart'
    obtain ⟨hp, hg1, hg12, hg2⟩ := partition_spec loc _ first (past - 1) l r (past - 1)
      (by omega) (by omega) (by omega) (by omega) (by omega) a2 g1 g2 hpart'
    obtain ⟨hA, _, hC⟩ := partition_geom_spec loc _ first (past - 1) l r (past - 1)
      (by omega) (by omega) (by omega) (by omega) (by omega) a2 g1 g2 hpart'
    have hCs := partition_strict_spec loc _ first (past - 1) l r (past - 1)
      (by omega) (by omega) (by omega) (by omega) (by omega) a2 g1 g2 hpart'
    simp only [hP0, hR0, hF0] at hA hC hCs
    have hlen2 : a2.length = a.length := by rw [hp.length_eq, hlen0]
    have hpa2 : RangePerm first past a a2 := hsw.trans (hp.mono (le_refl _) (by omega))
    have hP2 : deref a2 l = P := by rw [hpa2.frame l (by omega), hP]
    have hR2 : deref a2 r = R := by rw [hpa2.frame r (by omega), hR]
    have hF2 : deref a2 (past - 1) = F := by rw [hp.frame (past - 1) (by omega), hF0]
    have hInv2 := hpa2.forall_range (fun c =>
      HullCand (sideSign loc) P R c ∧
      computeSquaredDistanceFromPointToSegment c P R
        ≤ computeSquaredDistanceFromPointToSegment F P R)
      (fun j hj1 hj2 => ⟨hInv j hj1 hj2, hmax j hj1 hj2⟩)
    -- the points of the first group
    have hG1 : ∀ j, first ≤ j → j < g1 →
        HullCand (sideSign loc) P F (deref a2 j) ∧
          0 < sideSign loc * (F.x - (deref a2 j).x) := by
      intro j hj1 hj2
      obtain ⟨q1, q2⟩ := hInv2 j hj1 (by omega)
      exact hullCand_first _ hsg P R F _ q1 hFc (hA j hj1 hj2) q2 hVne
    -- the points of the third group
    have hG3 : ∀ j, g2 ≤ j → j < past - 1 →
        HullCand (sideSign loc) F R (deref a2 j) := by
      intro j hj1 hj2
      obtain ⟨q1, q2⟩ := hInv2 j (by omega) (by omega)
      have hCj := hC j hj1 hj2
      have hX : cross F R (deref a2 j) ≤ 0 := by
        rcases hCj with ⟨_, hX⟩ | ⟨_, hX⟩
        · exact le_of_lt hX
        · exact hX
      exact hullCand_second _ hsg P R F _ q1 hFc hX
        (group2_x_bound _ hsg P R F _ hFc.1 q1.2.2.1 hFc.2.2.2.1 hCj) q2 hVne
    obtain ⟨a3, c1, hc1, hp3, hc1a, hc1b⟩ := findHullInPlace_struct fuel a2 first g1 l
      (past - 1) cursor loc (by omega) hcf hg1 (by omega) (by omega) (by omega)
    have hlen3 : a3.length = a.length := by rw [hp3.length_eq, hlen2]
    obtain ⟨hW1, hS1⟩ := ih a2 first g1 l (past - 1) cursor loc P F hP2 hF2 (by omega) hcf hg1
      (by omega) (by omega) (by omega) (fun j hj1 hj2 => (hG1 j hj1 hj2).1)
      (by
        intro hx
        by_contra hn
        have := (hG1 first (le_refl _) (by omega)).2
        have h3 := (hG1 first (le_refl _) (by omega)).1.2.2.1
        have e : sideSign loc * (F.x - (deref a2 first).x)
            = - (sideSign loc * ((deref a2 first).x - P.x)) := by rw [← hx]; ring
        linarith)
      a3 c1 hc1
    rw [findHullInPlace_general fuel a first past l r cursor loc (by omega) a2 g1 g2 hpart a3 c1
      hc1] at hres
    obtain ⟨s1, s2, s3, s4⟩ := second_range_spec a3 c1 g2 (past - 1) (by omega) hg2
      (by omega)
    have hF3 : deref a3 (past - 1) = F := by rw [hp3.frame (past - 1) (by omega), hF2]
    rw [hF3] at s1
    have hlen4 : (iter_swap a3 (past - 1) c1).length = a.length := by
      rw [length_iter_swap, hlen3]
    have hR4 : deref (iter_swap a3 (past - 1) c1) r = R := by
      rw [deref_iter_swap_other a3 (past - 1) c1 r (by omega) (by omega) (by omega) (by omega),
        hp3.frame r (by omega), hR2]
    obtain ⟨a5, c2, hc2, hp5, hc2a, hc2b⟩ := findHullInPlace_struct fuel
      (iter_swap a3 (past - 1) c1) (if c1 = g2 then g2 + 1 else g2)
      (if c1 = g2 then past - 1 + 1 else past - 1) c1 r (c1 + 1) loc
      (by split_ifs <;> omega) (by split_ifs <;> omega) (by split_ifs <;> omega)
      (by split_ifs <;> omega) (by omega) (by split_ifs <;> omega)
    rw [hc2] at hres
    simp only [Option.some.injEq, Prod.mk.injEq] at hres
    obtain ⟨rfl, rfl⟩ := hres
    have hsize : (if c1 = g2 then past - 1 + 1 else past - 1)
        - (if c1 = g2 then g2 + 1 else g2) = past - 1 - g2 := by split_ifs <;> omega
    have hV2 : F.x = R.x → past - 1 - g2 ≤ 1 := by
      intro hx
      by_contra hn
      have hs := hCs (g2 + 1) (by omega) (by omega)
      obtain ⟨_, _, q3, q4, _⟩ := hG3 (g2 + 1) (by omega) (by omega)
      have e : sideSign loc * (R.x - (deref a2 (g2 + 1)).x)
          = - (sideSign loc * ((deref a2 (g2 + 1)).x - F.x)) := by rw [← hx]; ring
      have e0 : sideSign loc * ((deref a2 (g2 + 1)).x - F.x) = 0 := by linarith
      have e1 := sg_mul_eq_zero _ hsg _ e0
      have e2 : cross F R (deref a2 (g2 + 1)) = 0 := by
        unfold cross
        rw [e1, ← hx]
        ring
      linarith
    obtain ⟨hW2, hS2⟩ := ih (iter_swap a3 (past - 1) c1) (if c1 = g2 then g2 + 1 else g2)
      (if c1 = g2 then past - 1 + 1 else past - 1) c1 r (c1 + 1) loc F R s1 hR4
      (by split_ifs <;> omega) (by split_ifs <;> omega) (by split_ifs <;> omega)
      (by split_ifs <;> omega) (by omega) (by split_ifs <;> omega)
      (by
        intro j' hj1 hj2
        obtain ⟨j, hj3, hj4, hj5⟩ := s3 j' hj1 hj2
        rw [hj5, hp3.frame j (by omega)]
        exact hG3 j hj3 hj4)
      (by
        intro hx
        rw [hsize]
        exact hV2 hx)
      a5 c2 hc2
    -- the final sequence
    have hF5 : deref a5 c1 = F := by rw [hp5.frame c1 (by omega), s1]
    have hkeep : ∀ k, k < c1 → deref a5 k = deref a3 k := by
      intro k hk
      rw [hp5.frame k (by omega), s2 k hk]
    have src1 : ∀ k, cursor ≤ k → k < c1 →
        ∃ j, first ≤ j ∧ j < g1 ∧ deref a5 k = deref a2 j := by
      intro k hk1 hk2
      obtain ⟨j, hj1, hj2, hj3⟩ := hS1 k hk1 hk2
      exact ⟨j, hj1, hj2, by rw [hkeep k hk2, hj3]⟩
    have src3 : ∀ k, c1 < k → k < c2 →
        ∃ j, g2 ≤ j ∧ j < past - 1 ∧ deref a5 k = deref a2 j := by
      intro k hk1 hk2
      obtain ⟨j', hj1, hj2, hj3⟩ := hS2 k (by omega) hk2
      obtain ⟨j, hj4, hj5, hj6⟩ := s3 j' hj1 hj2
      exact ⟨j, hj4, hj5, by rw [hj3, hj6, hp3.frame j (by omega)]⟩
    have hc2le : c2 ≤ c1 + 1 + (past - 1 - g2) := by
      rw [hsize] at hc2b
      exact hc2b
    refine ⟨?_, ?_⟩
    · by_cases hdeg : cross P R F = 0
      · -- all points of the range lie on the segment from P to R
        have hFon := hFc.2.1 hdeg
        have hD0 := sqDist_zero_of_onSegment F P R hFon
        have hon : ∀ j, first ≤ j → j < past → OnClosedSegment P R (deref a2 j) := by
          intro j hj1 hj2
          have hD := (hInv2 j hj1 hj2).2
          rw [hD0] at hD
          exact onSegment_of_sqDist_zero _ P R (le_antisymm hD (sqDist_nonneg _ _ _))
        have hempty : g1 = first := by
          by_contra hn
          have hY := hA first (le_refl _) (by omega)
          have := (cross_of_onSegment_pole P R F _ hFon (hon first (le_refl _) (by omega))).1
          linarith
        have hcc : c1 = cursor := by omega
        apply weakChain_of_onSegment
        · intro k hk1 hk2
          by_cases hk : k = c1
          · rw [hk, hF5]; exact hFon
          · obtain ⟨j, hj1, hj2, hj3⟩ := src3 k (by omega) hk2
            rw [hj3]
            exact hon j (by omega) (by omega)
        · apply mono_join (sideSign loc) F (deref a5) cursor c1 c2 hF5
          · intro i j h1 h2 h3; omega
          · exact hW2.2.2.2
          · intro i h1 h2; omega
          · intro k hk1 hk2
            obtain ⟨j, hj1, hj2, hj3⟩ := src3 k hk1 hk2
            rw [hj3]
            exact (hG3 j hj1 hj2).2.2.1
      · have hZ : cross P R F < 0 := lt_of_le_of_ne hFc.1 hdeg
        apply weakChain_join (sideSign loc) hsg P R F (deref a5) cursor c1 c2 hZ hFc.2.2.1
          hFc.2.2.2.1 hF5 (hW1.congr (fun k _ hk => hkeep k hk)) hW2
        · intro k hk1 hk2
          obtain ⟨j, hj1, hj2, hj3⟩ := src1 k hk1 hk2
          rw [hj3]
          obtain ⟨q1, q2⟩ := hInv2 j hj1 (by omega)
          exact ⟨hA j hj1 hj2, q1.2.2.1, q1.2.2.2.1, q2⟩
        · intro k hk1 hk2
          obtain ⟨j, hj1, hj2, hj3⟩ := src3 k hk1 hk2
          rw [hj3]
          exact ⟨hG3 j hj1 hj2, (hInv2 j (by omega) (by omega)).2⟩
        · intro hx
          have := hV2 hx.symm
          omega
    · intro k hk1 hk2
      have back : ∀ j, first ≤ j → j < past → ∃ i, first ≤ i ∧ i < past
          ∧ deref a2 j = deref a i := fun j hj1 hj2 => hpa2.exists_source j hj1 hj2
      by_cases hkc : k < c1
      · obtain ⟨j, hj1, hj2, hj3⟩ := src1 k hk1 hkc
        obtain ⟨i, hi1, hi2, hi3⟩ := back j hj1 (by omega)
        exact ⟨i, hi1, hi2, by rw [hj3, hi3]⟩
      by_cases hkc' : k = c1
      · exact ⟨f, hf1, hf2, by rw [hkc', hF5, hF]⟩
      · obtain ⟨j, hj1, hj2, hj3⟩ := src3 k (by omega) hk2
        obtain ⟨i, hi1, hi2, hi3⟩ := back j (by omega) (by omega)
        exact ⟨i, hi1, hi2, by rw [hj3, hi3]⟩

end QuickHull

namespace QuickHull

open Orientation

/-! ### Sequences of points in counterclockwise order -/

/-- A point on the boundary line of a closed half-plane that holds a set of points is not an
interior point of the convex hull of the set. -/
theorem not_mem_interior_of_support (S : Set (ℚ × ℚ)) (p : ℚ × ℚ) (A B : ℚ)
    (hAB : A ≠ 0 ∨ B ≠ 0) (h : ∀ q ∈ S, 0 ≤ A * (q.1 - p.1) + B * (q.2 - p.2)) :
    p ∉ interior (convexHull ℚ S) := by
  intro hp
  have hconv : Convex ℚ {q : ℚ × ℚ | 0 ≤ A * (q.1 - p.1) + B * (q.2 - p.2)} := by
    intro x hx y hy a b ha hb hab
    simp only [Set.mem_setOf_eq] at hx hy ⊢
    simp only [Prod.fst_add, Prod.snd_add, Prod.smul_fst, Prod.smul_snd, smul_eq_mul]
    have e : A * (a * x.1 + b * y.1 - p.1) + B * (a * x.2 + b * y.2 - p.2)
        = a * (A * (x.1 - p.1) + B * (x.2 - p.2)) + b * (A * (y.1 - p.1) + B * (y.2 - p.2)) := by
      have hb1 : b = 1 - a := by linarith
      rw [hb1]; ring
    rw [e]
    exact add_nonneg (mul_nonneg ha hx) (mul_nonneg hb hy)
  have hsub : convexHull ℚ S ⊆ {q : ℚ × ℚ | 0 ≤ A * (q.1 - p.1) + B * (q.2 - p.2)} :=
    convexHull_min h hconv
  have hpH := interior_mono hsub hp
  have hg : Continuous (fun δ : ℚ => ((p.1 - δ * A, p.2 - δ * B) : ℚ × ℚ)) := by
    continuity
  have hopen : Set.preimage (fun δ : ℚ => ((p.1 - δ * A, p.2 - δ * B) : ℚ × ℚ))
      (interior {q : ℚ × ℚ | 0 ≤ A * (q.1 - p.1) + B * (q.2 - p.2)}) ∈ nhds (0 : ℚ) := by
    apply hg.continuousAt.preimage_mem_nhds
    have hp0 : ((p.1 - 0 * A, p.2 - 0 * B) : ℚ × ℚ) = p := by simp
    rw [hp0]
    exact isOpen_interior.mem_nhds hpH
  obtain ⟨l, u, ⟨hl, hu⟩, hsubI⟩ := mem_nhds_iff_exists_Ioo_subset.mp hopen
  have hmem : u / 2 ∈ Set.Ioo l u := ⟨by linarith, by linarith⟩
  have hin := interior_subset (hsubI hmem)
  simp only [Set.mem_setOf_eq] at hin
  have hpos : 0 < A * A + B * B := by
    rcases hAB with hA | hB
    · have := mul_self_pos.mpr hA
      have := mul_self_nonneg B
      linarith
    · have := mul_self_pos.mpr hB
      have := mul_self_nonneg A
      linarith
  have e : A * (p.1 - u / 2 * A - p.1) + B * (p.2 - u / 2 * B - p.2)
      = - (u / 2 * (A * A + B * B)) := by ring
  rw [e] at hin
  have := mul_pos (by linarith : 0 < u / 2) hpos
  linarith

/-- In a sequence in which no three points taken in order turn clockwise, every point has a
line through it with all other points of the sequence on one closed side. -/
theorem support_of_counterclockwise (t : List Point)
    (h : ∀ i j k, i < j → j < k → k < t.length →
      0 ≤ cross (deref t i) (deref t j) (deref t k))
    (i : Nat) (hi : i < t.length) :
    ∃ A B : ℚ, (A ≠ 0 ∨ B ≠ 0) ∧ ∀ j, j < t.length → j ≠ i →
      0 ≤ A * ((deref t j).x - (deref t i).x) + B * ((deref t j).y - (deref t i).y) := by
  classical
  have hne : ∀ M p : Point, M ≠ p → - (M.y - p.y) ≠ 0 ∨ M.x - p.x ≠ 0 := by
    intro M p hMp
    by_contra hcon
    push_neg at hcon
    exact hMp (point_eq_of_coords M p (by linarith [hcon.2]) (by linarith [hcon.1]))
  by_cases hex : ∃ m, i < m ∧ m < t.length ∧ deref t m ≠ deref t i
  · -- the next point that differs from the point at position i
    obtain ⟨hm1, hm2, hm3⟩ := Nat.find_spec hex
    have hmin : ∀ j, i < j → j < Nat.find hex → deref t j = deref t i := by
      intro j hj1 hj2
      by_contra hcon
      exact Nat.find_min hex hj2 ⟨hj1, by omega, hcon⟩
    generalize Nat.find hex = m at hm1 hm2 hm3 hmin
    refine ⟨- ((deref t m).y - (deref t i).y), (deref t m).x - (deref t i).x,
      hne _ _ hm3, ?_⟩
    intro j hj hji
    have e : - ((deref t m).y - (deref t i).y) * ((deref t j).x - (deref t i).x)
        + ((deref t m).x - (deref t i).x) * ((deref t j).y - (deref t i).y)
        = cross (deref t i) (deref t m) (deref t j) := by unfold cross; ring
    rw [e]
    by_cases c1 : m < j
    · exact h i m j hm1 c1 hj
    by_cases c2 : j = m
    · rw [c2, cross_self_last]
    by_cases c3 : i < j
    · rw [hmin j c3 (by omega), cross_self_right]
    · rw [cross_rotate (deref t j) (deref t i) (deref t m)]
      exact h j i m (by omega) hm1 hm2
  · push_neg at hex
    by_cases hex2 : ∃ d, d < i ∧ deref t (i - 1 - d) ≠ deref t i
    · -- the last point before position i that differs from the point at position i
      obtain ⟨hd1, hd2⟩ := Nat.find_spec hex2
      have hmin : ∀ j, i - 1 - Nat.find hex2 < j → j < i → deref t j = deref t i := by
        intro j hj1 hj2
        by_contra hcon
        apply Nat.find_min hex2 (by omega : i - 1 - j < Nat.find hex2)
        refine ⟨by omega, ?_⟩
        have e : i - 1 - (i - 1 - j) = j := by omega
        rw [e]
        exact hcon
      have hmi : i - 1 - Nat.find hex2 < i := by omega
      generalize i - 1 - Nat.find hex2 = m at hd2 hmin hmi
      refine ⟨- ((deref t i).y - (deref t m).y), (deref t i).x - (deref t m).x, ?_, ?_⟩
      · rcases hne _ _ hd2 with hq | hq
        · left
          intro h0
          apply hq
          linarith
        · right
          intro h0
          apply hq
          linarith
      · intro j hj hji
        have e : - ((deref t i).y - (deref t m).y) * ((deref t j).x - (deref t i).x)
            + ((deref t i).x - (deref t m).x) * ((deref t j).y - (deref t i).y)
            = cross (deref t m) (deref t i) (deref t j) := by unfold cross; ring
        rw [e]
        by_cases c1 : i < j
        · rw [hex j c1 hj, cross_self_last]
        by_cases c2 : m < j
        · rw [hmin j c2 (by omega), cross_self_last]
        by_cases c3 : j = m
        · rw [c3, cross_self_right]
        · rw [cross_rotate (deref t j) (deref t m) (deref t i)]
          exact h j m i (by omega) hmi hi
    · push_neg at hex2
      refine ⟨1, 0, Or.inl one_ne_zero, ?_⟩
      intro j hj hji
      have hEq : deref t j = deref t i := by
        by_cases c1 : i < j
        · exact hex j c1 hj
        · have := hex2 (i - 1 - j) (by omega)
          have e : i - 1 - (i - 1 - j) = j := by omega
          rw [e] at this
          exact this
      rw [hEq]
      simp

/-- In counterclockwise order no three points of the sequence taken in order turn clockwise,
in terms of cross products. -/
theorem counterclockwiseOrder_iff (t : List Point) :
    CounterclockwiseOrder t ↔ ∀ i j k, i < j → j < k → k < t.length →
      0 ≤ cross (deref t i) (deref t j) (deref t k) := by
  unfold CounterclockwiseOrder
  constructor
  · intro h i j k a b c
    exact (orientation_ne_cw_iff _ _ _).mp (h i j k a b c)
  · intro h i j k a b c
    exact (orientation_ne_cw_iff _ _ _).mpr (h i j k a b c)

/-- In a sequence in counterclockwise order no three cyclically adjacent points turn
clockwise. -/
theorem adjacent_of_counterclockwiseOrder (t : List Point) (h : CounterclockwiseOrder t) :
    AdjacentNotClockwise t := by
  rw [counterclockwiseOrder_iff] at h
  intro i hi
  rw [orientation_ne_cw_iff]
  by_cases c1 : i + 2 < t.length
  · rw [Nat.mod_eq_of_lt (by omega : i + 1 < t.length), Nat.mod_eq_of_lt c1]
    exact h i (i + 1) (i + 2) (by omega) (by omega) c1
  by_cases c2 : i + 2 = t.length
  · rw [Nat.mod_eq_of_lt (by omega : i + 1 < t.length), c2, Nat.mod_self]
    by_cases c3 : i = 0
    · rw [c3, cross_self_right]
    · rw [cross_rotate]
      exact h 0 i (i + 1) (by omega) (by omega) (by omega)
  · have c4 : i + 1 = t.length := by omega
    have e2 : (i + 2) % t.length = 1 % t.length := by
      have : i + 2 = 1 + t.length := by omega
      rw [this, Nat.add_mod_right]
    rw [c4, Nat.mod_self, e2]
    by_cases c5 : 2 < t.length
    · rw [Nat.mod_eq_of_lt (by omega : 1 < t.length),
        ← cross_rotate (deref t i) (deref t 0) (deref t 1)]
      exact h 0 1 i (by omega) (by omega) hi
    by_cases c6 : t.length = 2
    · have hi1 : i = 1 := by omega
      rw [c6, hi1]
      simp only [Nat.mod_succ]
      rw [cross_self_right]
    · have c7 : t.length = 1 := by omega
      have hi0 : i = 0 := by omega
      rw [c7, hi0]
      simp only [Nat.mod_self]
      rw [cross_self_right]

/-- In a sequence in counterclockwise order no point lies strictly inside the convex hull of
the points at the other positions. -/
theorem noPointInside_of_counterclockwiseOrder (t : List Point)
    (h : CounterclockwiseOrder t) : NoPointStrictlyInside t := by
  rw [counterclockwiseOrder_iff] at h
  intro i hi
  obtain ⟨A, B, hAB, hall⟩ := support_of_counterclockwise t h i hi
  apply not_mem_interior_of_support _ _ A B hAB
  rintro q ⟨j, hj, hji, rfl⟩
  exact hall j hj hji

end QuickHull

namespace QuickHull

open Orientation

/-! ### The output of `ConvexHullInPlaceQuickHull` is in counterclockwise order -/

/-- Closing the two chains of `ConvexHullInPlaceQuickHull`: the smallest point `W`, the chain
below the line from `W` to the largest point `E`, then `E` and the chain above the line
never turn clockwise at any three of their points taken in order. -/
theorem weakChain_close (W E : Point) (o : Nat → Point) (c1 c2 : Nat) (hWE : W.x < E.x)
    (hc1 : 1 ≤ c1) (hW : o 0 = W) (hE : o c1 = E)
    (hL : WeakChain 1 W E o 1 c1) (hU : WeakChain (-1) E W o (c1 + 1) c2)
    (hl : ∀ i, 1 ≤ i → i < c1 → HullCand 1 W E (o i))
    (hu : ∀ k, c1 < k → k < c2 → HullCand (-1) E W (o k) ∧ cross W (o k) E < 0) :
    ∀ i j k, i < j → j < k → k < c2 → 0 ≤ cross (o i) (o j) (o k) := by
  obtain ⟨pL, rL, tL, mL⟩ := hL
  obtain ⟨pU, rU, tU, mU⟩ := hU
  have hPR : 0 < (1 : Number) * (E.x - W.x) := by linarith
  have hPR' : 0 < (-1 : Number) * (W.x - E.x) := by linarith
  have lf : ∀ i, 1 ≤ i → i < c1 →
      0 ≤ (1 : Number) * ((o i).x - W.x) ∧ 0 ≤ (1 : Number) * (E.x - (o i).x)
        ∧ 0 ≤ cross W (o i) E := by
    intro i a b
    obtain ⟨q1, _, q3, q4, _⟩ := hl i a b
    refine ⟨q3, q4, ?_⟩
    rw [cross_swap_last W E (o i)]
    linarith
  have uf : ∀ k, c1 < k → k < c2 →
      0 ≤ (1 : Number) * ((o k).x - W.x) ∧ 0 ≤ (1 : Number) * (E.x - (o k).x)
        ∧ 0 ≤ cross W E (o k) := by
    intro k a b
    obtain ⟨⟨_, _, q3, q4, _⟩, q6⟩ := hu k a b
    refine ⟨by linarith, by linarith, ?_⟩
    rw [cross_swap_last W (o k) E]
    linarith
  intro i j k hij hjk hk
  by_cases hkc : k < c1
  · by_cases hi0 : i = 0
    · rw [hi0, hW]
      exact pL j k (by omega) hjk hkc
    · exact tL i j k (by omega) hij hjk hkc
  by_cases hkc' : k = c1
  · rw [hkc', hE]
    by_cases hi0 : i = 0
    · rw [hi0, hW]
      exact (lf j (by omega) (by omega)).2.2
    · exact rL i j (by omega) hij (by omega)
  obtain ⟨u1, u2, u3⟩ := uf k (by omega) hk
  by_cases hjc : j < c1
  · obtain ⟨l1, l2, l3⟩ := lf j (by omega) hjc
    by_cases hi0 : i = 0
    · rw [hi0, hW]
      exact opposite_side_weak 1 W E W (o j) (o k) hPR u3 u2 u1 l1
        (by rw [cross_self_right]) l3
    · exact opposite_side_weak 1 W E (o i) (o j) (o k) hPR u3 u2 u1
        (mL i j (by omega) hij hjc)
        (by rw [cross_rotate]; exact pL i j (by omega) hij hjc) (rL i j (by omega) hij hjc)
  by_cases hjc' : j = c1
  · rw [hjc', hE]
    by_cases hi0 : i = 0
    · rw [hi0, hW]
      exact u3
    · obtain ⟨l1, l2, l3⟩ := lf i (by omega) (by omega)
      exact opposite_side_weak 1 W E (o i) E (o k) hPR u3 u2 u1 l2
        (by rw [cross_rotate]; exact l3) (by rw [cross_self_last])
  by_cases hi0 : i = 0
  · rw [hi0, hW, ← cross_rotate W (o j) (o k)]
    exact rU j k (by omega) hjk hk
  by_cases hic : i < c1
  · obtain ⟨l1, l2, l3⟩ := lf i (by omega) hic
    rw [← cross_rotate (o i) (o j) (o k)]
    exact opposite_side_weak (-1) E W (o j) (o k) (o i) hPR'
      (by rw [cross_rotate, cross_rotate]; exact l3) (by linarith) (by linarith)
      (mU j k (by omega) hjk hk)
      (by rw [cross_rotate]; exact pU j k (by omega) hjk hk) (rU j k (by omega) hjk hk)
  by_cases hic' : i = c1
  · rw [hic', hE]
    exact pU j k (by omega) hjk hk
  · exact tU i j k (by omega) hij hjk hk

/-- The smallest and the largest point of a sequence that meets the minimal requirements have
different x-coordinates. -/
theorem poles_x_lt (s : PointSequence) (h : PointSequenceFulfillsMinimalRequirements s = true)
    (W E : Point) (hlex : ∀ i, i < s.length → ¬ (deref s i).lt W = true ∧
      ¬ E.lt (deref s i) = true) (hW : ∃ i, i < s.length ∧ deref s i = W) : W.x < E.x := by
  obtain ⟨i0, hi0, hWi⟩ := hW
  have hle : W.x ≤ E.x := by
    have := x_le_of_not_lt _ _ (hlex i0 hi0).2
    rw [hWi] at this
    exact this
  rcases lt_or_eq_of_le hle with hlt | heq
  · exact hlt
  · exfalso
    have hfalse := minimalRequirements_false_of_degenerate s (Or.inr ⟨1, 0, W.x,
      Or.inl one_ne_zero, by
        intro p hp
        obtain ⟨i, hi, rfl⟩ := exists_pos_of_mem s p hp
        obtain ⟨l1, l2⟩ := hlex i hi
        have a1 := x_le_of_not_lt _ _ l1
        have a2 := x_le_of_not_lt _ _ l2
        linarith⟩)
    rw [h] at hfalse
    exact Bool.noConfusion hfalse

/-- A point that is not smaller than `W`, has the x-coordinate of `W` and is not left of the
line from `W` to `E` lies on that line. -/
theorem cross_zero_of_pole_x (W E c : Point) (hWE : W.x < E.x) (h1 : ¬ c.lt W = true)
    (hx : c.x = W.x) (hc : cross W E c ≤ 0) : cross W E c = 0 := by
  rw [Point.lt_iff] at h1
  push_neg at h1
  have hy := h1.2 hx
  have e : cross W E c = (E.x - W.x) * (c.y - W.y) := by
    unfold cross; rw [hx]; ring
  have := mul_nonneg (by linarith : 0 ≤ E.x - W.x) (by linarith : 0 ≤ c.y - W.y)
  linarith

/-- Convexity of `ConvexHullInPlaceQuickHull`, stated on positions: no three entries of the
returned prefix taken in the order of their positions turn clockwise. -/
theorem inPlace_convex_positions (s : PointSequence)
    (h : PointSequenceFulfillsMinimalRequirements s = true) :
    ∃ a r, ConvexHullInPlaceQuickHull s = some (a, r) ∧ r ≤ a.length ∧
      ∀ i j k, i < j → j < k → k < r →
        0 ≤ cross (deref a i) (deref a j) (deref a k) := by
  have hn := length_of_minimalRequirements s h
  obtain ⟨⟨_, hmn⟩, ⟨_, hmx⟩, hmin, hmax, _⟩ := find_poles_spec s 0 s.length (by omega)
  have hne := find_poles_ne s 0 s.length (by omega)
  obtain ⟨hp1, hw, he⟩ := parallel_iter_swap_spec s s.length _ _ rfl (by omega) hmn hmx hne
  have haccept := inPlace_accepted s h
  have hWE0 := poles_x_lt s h _ _ (fun i hi => ⟨hmin i (Nat.zero_le _) hi,
    hmax i (Nat.zero_le _) hi⟩) ⟨_, hmn, rfl⟩
  obtain ⟨a1, ha1⟩ : ∃ a1, parallel_iter_swap s 0 (s.length - 1) (find_poles s 0 s.length).1
    (find_poles s 0 s.length).2 = a1 := ⟨_, rfl⟩
  rw [ha1] at hp1 hw he haccept
  have hlen1 := hp1.length_eq
  have hlex1 := hp1.forall_range (fun c =>
    ¬ c.lt (deref s (find_poles s 0 s.length).1) = true ∧
    ¬ (deref s (find_poles s 0 s.length).2).lt c = true)
    (fun j hj1 hj2 => ⟨hmin j hj1 hj2, hmax j hj1 hj2⟩)
  rw [← hw, ← he] at hlex1 hWE0
  obtain ⟨W, hW⟩ : ∃ W, deref a1 0 = W := ⟨_, rfl⟩
  obtain ⟨E, hE⟩ : ∃ E, deref a1 (s.length - 1) = E := ⟨_, rfl⟩
  rw [hW, hE] at hlex1 hWE0
  obtain ⟨a2, g2, hpart⟩ : ∃ a2 g2,
      partition_right_left a1 1 (s.length - 1) 0 (s.length - 1) = (a2, g2) := ⟨_, _, rfl⟩
  obtain ⟨hp2, hg1, hg2, hlo, hup⟩ := partition_right_left_spec a1 1 (s.length - 1) 0
    (s.length - 1) (by omega) (by omega) (by omega) (by omega)
  rw [hpart] at hp2 hg1 hg2 hlo hup
  simp only [hW, hE] at hp2 hg1 hg2 hlo hup
  have hlen2 : a2.length = s.length := by rw [hp2.length_eq, hlen1]
  have hW2 : deref a2 0 = W := by rw [hp2.frame 0 (by omega), hW]
  have hE2 : deref a2 (s.length - 1) = E := by rw [hp2.frame (s.length - 1) (by omega), hE]
  have hlex2 := (hp2.mono (Nat.zero_le _) (by omega : s.length - 1 ≤ s.length)).forall_range
    (fun c => ¬ c.lt W = true ∧ ¬ E.lt c = true) hlex1
  have hlower : ∀ j, 1 ≤ j → j < g2 → HullCand 1 W E (deref a2 j) := by
    intro j hj1 hj2
    obtain ⟨l1, l2⟩ := hlex2 j (Nat.zero_le _) (by omega)
    have hc := (orientation_ne_cw_iff _ _ _).mp (hlo j hj1 hj2)
    have e := cross_swap_last W (deref a2 j) E
    have hle : cross W E (deref a2 j) ≤ 0 := by linarith
    refine ⟨hle, ?_, ?_, ?_, ?_⟩
    · intro h0
      exact onSegment_of_lex_between _ _ _ l1 l2 (by linarith)
    · have := x_le_of_not_lt _ _ l1
      linarith
    · have := x_le_of_not_lt _ _ l2
      linarith
    · intro hx
      exact cross_zero_of_pole_x W E _ hWE0 l1 hx hle
  have hupper : ∀ j, g2 ≤ j → j < s.length - 1 →
      HullCand (-1) E W (deref a2 j) ∧ cross W (deref a2 j) E < 0 := by
    intro j hj1 hj2
    obtain ⟨l1, l2⟩ := hlex2 j (Nat.zero_le _) (by omega)
    have hc := (orientation_cw_iff _ _ _).mp (hup j hj1 hj2)
    have e : cross E W (deref a2 j) = cross W (deref a2 j) E := by
      unfold cross; ring
    refine ⟨⟨by rw [e]; exact le_of_lt hc, ?_, ?_, ?_, ?_⟩, hc⟩
    · intro h0
      exfalso
      linarith
    · have := x_le_of_not_lt _ _ l2
      linarith
    · have := x_le_of_not_lt _ _ l1
      linarith
    · intro hx
      exfalso
      have := x_lt_of_right W E _ l1 l2 hc
      linarith
  obtain ⟨a3, c1, hlow, hp3, hc1a, hc1b⟩ := findHullInPlace_struct s.length a2 1 g2 0
    (s.length - 1) 1 LOWER (by omega) (le_refl _) hg1 (by omega) (by omega) (by omega)
  have hlen3 : a3.length = s.length := by rw [hp3.length_eq, hlen2]
  obtain ⟨hWL, hSL⟩ := findHull_convex s.length a2 1 g2 0 (s.length - 1) 1 LOWER W E hW2 hE2
    (by omega) (le_refl _) hg1 (by omega) (by omega) (by omega)
    (by rw [sideSign_lower]; exact hlower)
    (by intro hx; exfalso; linarith)
    a3 c1 hlow
  rw [sideSign_lower] at hWL
  have hacc := haccept a2 g2 hpart a3 c1 hlow
  obtain ⟨s1, s2, s3, s4⟩ := second_range_spec a3 c1 g2 (s.length - 1) (by omega) hg2
    (by omega)
  have hE3 : deref a3 (s.length - 1) = E := by rw [hp3.frame (s.length - 1) (by omega), hE2]
  have hW3 : deref a3 0 = W := by rw [hp3.frame 0 (by omega), hW2]
  rw [hE3] at s1
  have hW4 : deref (iter_swap a3 (s.length - 1) c1) 0 = W := by
    rw [s2 0 (by omega), hW3]
  have hlen4 : (iter_swap a3 (s.length - 1) c1).length = s.length := by
    rw [length_iter_swap, hlen3]
  obtain ⟨a5, c2, hupperCall, hp5, hc2a, hc2b⟩ := findHullInPlace_struct s.length
    (iter_swap a3 (s.length - 1) c1) (if c1 = g2 then g2 + 1 else g2)
    (if c1 = g2 then s.length - 1 + 1 else s.length - 1) c1 0 (c1 + 1) UPPER
    (by split_ifs <;> omega) (by split_ifs <;> omega) (by split_ifs <;> omega)
    (by split_ifs <;> omega) (by omega) (by omega)
  obtain ⟨hWU, hSU⟩ := findHull_convex s.length (iter_swap a3 (s.length - 1) c1)
    (if c1 = g2 then g2 + 1 else g2) (if c1 = g2 then s.length - 1 + 1 else s.length - 1)
    c1 0 (c1 + 1) UPPER E W s1 hW4
    (by split_ifs <;> omega) (by split_ifs <;> omega) (by split_ifs <;> omega)
    (by split_ifs <;> omega) (by omega) (by omega)
    (by
      intro j' hj1 hj2
      obtain ⟨j, hj3, hj4, hj5⟩ := s3 j' hj1 hj2
      rw [hj5, hp3.frame j (by omega), sideSign_upper]
      exact (hupper j hj3 hj4).1)
    (by intro hx; exfalso; linarith)
    a5 c2 hupperCall
  rw [sideSign_upper] at hWU
  have hc2le : c2 ≤ s.length := by
    revert hc2b
    split_ifs <;> intro hc2b <;> omega
  have hW5 : deref a5 0 = W := by rw [hp5.frame 0 (by omega), hW4]
  have hE5 : deref a5 c1 = E := by rw [hp5.frame c1 (by omega), s1]
  have hkeep : ∀ k, k < c1 → deref a5 k = deref a3 k := by
    intro k hk
    rw [hp5.frame k (by omega), s2 k hk]
  have hlen5 : a5.length = s.length := by rw [hp5.length_eq, hlen4]
  refine ⟨a5, c2, hacc.trans hupperCall, by omega, ?_⟩
  apply weakChain_close W E (deref a5) c1 c2 hWE0 (by omega) hW5 hE5
    (hWL.congr (fun k _ hk => hkeep k hk)) hWU
  · intro i hi1 hi2
    obtain ⟨j, hj1, hj2, hj3⟩ := hSL i hi1 hi2
    rw [hkeep i hi2, hj3]
    exact hlower j hj1 hj2
  · intro k hk1 hk2
    obtain ⟨j', hj1, hj2, hj3⟩ := hSU k (by omega) hk2
    obtain ⟨j, hj4, hj5, hj6⟩ := s3 j' hj1 hj2
    rw [hj3, hj6, hp3.frame j (by omega)]
    exact hupper j hj4 hj5

end QuickHull

namespace QuickHull

open Orientation

/-! ### Convexity of the output of both orchestrators -/

theorem deref_reverse (t : List Point) (i : Nat) (hi : i < t.length) :
    deref t.reverse i = deref t (t.length - 1 - i) := by
  unfold deref
  rw [List.getD_eq_getElem _ _ (by rw [List.length_reverse]; exact hi),
    List.getD_eq_getElem _ _ (by omega), List.getElem_reverse]

/-- Claim C11. For every point sequence that meets the minimal requirements, both orchestrators
return, and the points of the output prefix, taken in the order of the prefix for
`ConvexHullInPlaceQuickHull` and in the reverse order of the prefix for
`TheirConvexHullInPlaceQuickHull`, are in counterclockwise order: no three of them taken in
that order turn clockwise. In that order `getOrientation u v w` is not `CLOCKWISE` for every
three cyclically adjacent points `u`, `v`, `w`, and no point of the prefix lies strictly inside
the convex hull of the points at the other positions of the prefix. -/
theorem hull_convexity (s : PointSequence)
    (h : PointSequenceFulfillsMinimalRequirements s = true) :
    (∃ r, ConvexHullInPlaceQuickHull s = some r ∧
      CounterclockwiseOrder (outputPoints r) ∧ AdjacentNotClockwise (outputPoints r) ∧
      NoPointStrictlyInside (outputPoints r)) ∧
    (∃ r, TheirConvexHullInPlaceQuickHull s = some r ∧
      CounterclockwiseOrder (outputPoints r).reverse ∧
      AdjacentNotClockwise (outputPoints r).reverse ∧
      NoPointStrictlyInside (outputPoints r).reverse) := by
  constructor
  · obtain ⟨a, r, hres, hr, hT⟩ := inPlace_convex_positions s h
    have hlen : (outputPoints (a, r)).length = r := by
      unfold outputPoints
      simp
      exact hr
    have hccw : CounterclockwiseOrder (outputPoints (a, r)) := by
      rw [counterclockwiseOrder_iff]
      intro i j k hij hjk hk
      rw [hlen] at hk
      unfold outputPoints
      rw [deref_take a r i (by omega), deref_take a r j (by omega), deref_take a r k hk]
      exact hT i j k hij hjk hk
    exact ⟨(a, r), hres, hccw, adjacent_of_counterclockwiseOrder _ hccw,
      noPointInside_of_counterclockwiseOrder _ hccw⟩
  · obtain ⟨a, r, hres, hr, hT, _⟩ := their_minimal_positions s h
    have hlen : (outputPoints (a, r)).length = r := by
      unfold outputPoints
      simp
      exact hr
    have hccw : CounterclockwiseOrder (outputPoints (a, r)).reverse := by
      rw [counterclockwiseOrder_iff]
      intro i j k hij hjk hk
      rw [List.length_reverse, hlen] at hk
      rw [deref_reverse _ i (by omega), deref_reverse _ j (by omega),
        deref_reverse _ k (by omega), hlen]
      unfold outputPoints
      rw [deref_take a r _ (by omega), deref_take a r _ (by omega),
        deref_take a r _ (by omega)]
      have hneg := hT (r - 1 - k) (r - 1 - j) (r - 1 - i) (by omega) (by omega) (by omega)
      have e : cross (deref a (r - 1 - i)) (deref a (r - 1 - j)) (deref a (r - 1 - k))
          = - cross (deref a (r - 1 - k)) (deref a (r - 1 - j)) (deref a (r - 1 - i)) := by
        unfold cross; ring
      rw [e]
      linarith
    exact ⟨(a, r), hres, hccw, adjacent_of_counterclockwiseOrder _ hccw,
      noPointInside_of_counterclockwiseOrder _ hccw⟩

/-- Claim C11 at a triangle with a fourth point on one of its sides: the prefix of both
orchestrators, in the order named in the claim, never turns clockwise and has no point strictly
inside the convex hull of the others. -/
theorem hull_convexity_witness :
    (∃ r, ConvexHullInPlaceQuickHull [⟨0, 0⟩, ⟨1, 0⟩, ⟨2, 0⟩, ⟨1, 1⟩] = some r ∧
      CounterclockwiseOrder (outputPoints r) ∧ AdjacentNotClockwise (outputPoints r) ∧
      NoPointStrictlyInside (outputPoints r)) ∧
    (∃ r, TheirConvexHullInPlaceQuickHull [⟨0, 0⟩, ⟨1, 0⟩, ⟨2, 0⟩, ⟨1, 1⟩] = some r ∧
      CounterclockwiseOrder (outputPoints r).reverse ∧
      AdjacentNotClockwise (outputPoints r).reverse ∧
      NoPointStrictlyInside (outputPoints r).reverse) :=
  hull_convexity [⟨0, 0⟩, ⟨1, 0⟩, ⟨2, 0⟩, ⟨1, 1⟩] (by with_unfolding_all decide)

end QuickHull

namespace QuickHull

open Orientation

/-! ### Termination of `findHullInPlace` and `chain` -/

/-- The position that `std::partition` returns lies in the range, whatever the sequence and
the predicate are. -/
theorem partitionLoop_bounds (pred : PointSequence → Point → Bool) :
    ∀ (fuel : Nat) (a : PointSequence) (first last : Nat), first ≤ last →
      first ≤ (partitionLoop pred fuel a first last).2 ∧
      (partitionLoop pred fuel a first last).2 ≤ last := by
  intro fuel
  induction fuel with
  | zero =>
    intro a first last h
    simp only [partitionLoop]
    exact ⟨le_refl _, h⟩
  | succ fuel ih =>
    intro a first last h
    obtain ⟨f1, f2, _, _⟩ := partitionFwd_spec pred a (last - first) first
    simp only [partitionLoop]
    generalize partitionFwd pred a (last - first) first = F at f1 f2
    by_cases hF : F = last
    · rw [if_pos hF]
      exact ⟨f1, by omega⟩
    · rw [if_neg hF]
      obtain ⟨b1, b2, _, _⟩ := partitionBwd_spec pred a (last - 1 - F) (last - 1) (by omega)
      generalize partitionBwd pred a (last - 1 - F) (last - 1) = B at b1 b2
      by_cases hB : F = B
      · rw [if_pos hB]
        exact ⟨f1, by omega⟩
      · rw [if_neg hB]
        obtain ⟨i1, i2⟩ := ih (iter_swap a F B) (F + 1) B (by omega)
        exact ⟨by omega, by omega⟩

theorem std_partition_bounds (pred : PointSequence → Point → Bool) (a : PointSequence)
    (first last : Nat) (h : first ≤ last) :
    first ≤ (std_partition pred a first last).2 ∧ (std_partition pred a first last).2 ≤ last :=
  partitionLoop_bounds pred (last - first + 1) a first last h

/-- The cursors of the loop of `lowerPartition` and `upperPartition` stay in the range,
whatever the sequence is: the loop ends with `current` at the cursor of the third group. -/
theorem partition3Loop_bounds (l r f lo hi : Nat) :
    ∀ (k : Nat) (a : PointSequence) (cur g1 g2 : Nat),
      lo ≤ g1 → g1 ≤ cur → cur + k = g2 → g2 ≤ hi →
      (partition3Loop l r f k a cur g1 g2).2.1 = (partition3Loop l r f k a cur g1 g2).2.2.2 ∧
      lo ≤ (partition3Loop l r f k a cur g1 g2).2.2.1 ∧
      (partition3Loop l r f k a cur g1 g2).2.2.1 ≤ (partition3Loop l r f k a cur g1 g2).2.1 ∧
      (partition3Loop l r f k a cur g1 g2).2.1 ≤ hi := by
  intro k
  induction k with
  | zero =>
    intro a cur g1 g2 h1 h2 h3 h4
    simp only [partition3Loop]
    exact ⟨by omega, h1, h2, by omega⟩
  | succ k ih =>
    intro a cur g1 g2 h1 h2 h3 h4
    simp only [partition3Loop]
    split_ifs
    · exact ih _ (cur + 1) (g1 + 1) g2 (by omega) (by omega) (by omega) h4
    · exact ih _ cur g1 (g2 - 1) h1 h2 (by omega) (by omega)
    · exact ih _ (cur + 1) g1 g2 h1 (by omega) (by omega) h4

/-- The group cursors that `partition[location]` returns for a range `[first, last)` with the
furthest point at `last`: the first group ends at or before `last`, and the third group starts
at or behind `first`. -/
theorem partition_bounds (loc : Nat) (a : PointSequence) (first last l r f : Nat)
    (hfl : first < last) :
    first ≤ (partition loc a first (last - 1) l r f).2.1 ∧
    (partition loc a first (last - 1) l r f).2.1 ≤ (partition loc a first (last - 1) l r f).2.2 ∧
    (partition loc a first (last - 1) l r f).2.2 ≤ last := by
  obtain ⟨p1, p2, p3, p4⟩ := partition3Loop_bounds l r f first (last - 1) (last - 1 - first) a
    first first (last - 1) (le_refl _) (le_refl _) (by omega) (le_refl _)
  unfold partition lowerPartition upperPartition
  generalize partition3Loop l r f (last - 1 - first) a first first (last - 1) = res at *
  obtain ⟨c, cur, g1, g2⟩ := res
  simp only at p1 p2 p3 p4 ⊢
  subst p1
  split_ifs <;> simp only <;> omega

/-- Totality of `findHullInPlace`: with more fuel than the range has points the call returns,
whatever the sequence, the poles and the output cursor are. -/
theorem findHullInPlace_total : ∀ (fuel : Nat) (a : PointSequence)
    (first past l r cursor loc : Nat), past - first < fuel →
    ∃ res, findHullInPlace fuel a first past l r cursor loc = some res := by
  intro fuel
  induction fuel with
  | zero => intro a first past l r cursor loc h; omega
  | succ fuel ih =>
    intro a first past l r cursor loc hfuel
    by_cases h0 : past - first = 0
    · exact ⟨_, findHullInPlace_empty fuel a first past l r cursor loc h0⟩
    by_cases h1 : past - first = 1
    · exact ⟨_, findHullInPlace_single fuel a first past l r cursor loc h1⟩
    obtain ⟨a2, g1, g2, hpart⟩ : ∃ a2 g1 g2,
        partition loc (iter_swap a (find_furthest a first past l r) (past - 1)) first
          (past - 1 - 1) l r (past - 1) = (a2, g1, g2) := ⟨_, _, _, rfl⟩
    obtain ⟨b1, b2, b3⟩ := partition_bounds loc
      (iter_swap a (find_furthest a first past l r) (past - 1)) first (past - 1) l r (past - 1)
      (by omega)
    rw [hpart] at b1 b2 b3
    simp only at b1 b2 b3
    obtain ⟨⟨a3, c1⟩, hc1⟩ := ih a2 first g1 l (past - 1) cursor loc (by omega)
    rw [findHullInPlace_general fuel a first past l r cursor loc (by omega) a2 g1 g2 hpart a3 c1
      hc1]
    exact ih _ _ _ c1 r (c1 + 1) loc (by split_ifs <;> omega)

/-- Totality of `chain`: with more fuel than the range has points the call returns, whatever
the sequence and the antipole are. -/
theorem chain_total : ∀ (fuel : Nat) (a : PointSequence) (pole past antipole : Nat),
    past - pole < fuel → ∃ res, chain fuel a pole past antipole = some res := by
  intro fuel
  induction fuel with
  | zero => intro a pole past antipole h; omega
  | succ fuel ih =>
    intro a pole past antipole hfuel
    by_cases h1 : past - pole = 1
    · exact ⟨_, chain_one fuel a pole past antipole h1⟩
    by_cases h2 : past - pole = 2
    · rw [chain_two fuel a pole past antipole h2]
      split_ifs
      · exact ⟨_, rfl⟩
      · exact ⟨_, rfl⟩
    by_cases hc : getOrientation (deref a (find_furthest3 a pole past antipole)) (deref a pole)
        (deref a antipole) = COLLINEAR
    · exact ⟨_, chain_collapse fuel a pole past antipole h1 h2 hc⟩
    by_cases h0 : past - pole = 0
    · exfalso
      apply hc
      have hk : past - (pole + 1) = 0 := by omega
      have e : find_furthest3 a pole past antipole = pole := by
        simp only [find_furthest3, hk, furthestLoop]
      rw [e]
      exact getOrientation_self_left _ _
    obtain ⟨a1, mid, hpart⟩ : ∃ a1 mid, partition_left_right
        (iter_swap a (find_furthest3 a pole past antipole) (past - 1)) pole (past - 1)
          (past - 1) = (a1, mid) := ⟨_, _, rfl⟩
    have hb := std_partition_bounds
      (fun s q => decide (COUNTERCLOCKWISE ≠ getOrientation (deref s pole) q
        (deref s (past - 1))))
      (iter_swap a (find_furthest3 a pole past antipole) (past - 1)) (pole + 1) (past - 1)
      (by omega)
    have hmid : pole + 1 ≤ mid ∧ mid ≤ past - 1 := by
      have e : mid = (partition_left_right
        (iter_swap a (find_furthest3 a pole past antipole) (past - 1)) pole (past - 1)
          (past - 1)).2 := by rw [hpart]
      rw [e]
      exact hb
    obtain ⟨⟨a2, e1⟩, hch⟩ := ih a1 pole mid (past - 1) (by omega)
    rw [chain_general fuel a pole past antipole h1 h2 hc a1 mid hpart a2 e1 hch]
    have hb2 := std_partition_bounds
      (fun s q => decide (COUNTERCLOCKWISE ≠ getOrientation (deref s e1) q (deref s antipole)))
      (move_away (iter_swap (iter_swap a2 mid (past - 1)) e1 mid) (e1 + 1) (mid + 1) past)
      (e1 + 1) (e1 + (past - mid)) (by omega)
    apply ih
    have e : (partition_left_right
        (move_away (iter_swap (iter_swap a2 mid (past - 1)) e1 mid) (e1 + 1) (mid + 1) past)
        e1 (e1 + (past - mid)) antipole).2 ≤ e1 + (past - mid) := hb2.2
    omega

end QuickHull

namespace QuickHull

open Orientation

/-! ### Base cases, bookkeeping and termination of the two recursions -/

/-- Claim C25. `findHullInPlace` on an empty range returns the sequence and the output cursor
`c` as they are. On a range that holds exactly one point, at position `first`, it swaps the
entries at `first` and `c` and returns `c + 1`: the entry of `first` stands at `c`, the entry
of `c` stands at `first`, every other position keeps its entry and the length is kept. -/
theorem findHull_base_cases (fuel : Nat) (a : PointSequence) (first past l r c loc : Nat) :
    (past = first → findHullInPlace (fuel + 1) a first past l r c loc = some (a, c)) ∧
    (past = first + 1 → first < a.length → c < a.length →
      ∃ b, findHullInPlace (fuel + 1) a first past l r c loc = some (b, c + 1) ∧
        b = iter_swap a first c ∧ b.length = a.length ∧
        deref b c = deref a first ∧ deref b first = deref a c ∧
        ∀ k, k ≠ first → k ≠ c → deref b k = deref a k) := by
  constructor
  · intro h
    exact findHullInPlace_empty fuel a first past l r c loc (by omega)
  · intro h hf hc
    refine ⟨iter_swap a first c,
      findHullInPlace_single fuel a first past l r c loc (by omega), rfl,
      length_iter_swap _ _ _, deref_iter_swap_right a first c hf hc,
      deref_iter_swap_left a first c hf hc, ?_⟩
    intro k hk1 hk2
    exact deref_iter_swap_other a first c k hf hc hk1 hk2

/-- Claim C25 on three points: the empty range `[2, 2)` changes nothing, and the range
`[2, 3)` with output cursor 1 swaps the entries of the positions 2 and 1. -/
theorem findHull_base_cases_witness :
    findHullInPlace 1 [⟨0, 0⟩, ⟨4, 0⟩, ⟨2, -1⟩] 2 2 0 1 1 0
      = some ([⟨0, 0⟩, ⟨4, 0⟩, ⟨2, -1⟩], 1) ∧
    ∃ b, findHullInPlace 1 [⟨0, 0⟩, ⟨4, 0⟩, ⟨2, -1⟩] 2 3 0 1 1 0 = some (b, 1 + 1) ∧
      b = iter_swap [⟨0, 0⟩, ⟨4, 0⟩, ⟨2, -1⟩] 2 1 ∧
      b.length = ([⟨0, 0⟩, ⟨4, 0⟩, ⟨2, -1⟩] : PointSequence).length ∧
      deref b 1 = deref [⟨0, 0⟩, ⟨4, 0⟩, ⟨2, -1⟩] 2 ∧
      deref b 2 = deref [⟨0, 0⟩, ⟨4, 0⟩, ⟨2, -1⟩] 1 ∧
      ∀ k, k ≠ 2 → k ≠ 1 → deref b k = deref [⟨0, 0⟩, ⟨4, 0⟩, ⟨2, -1⟩] k :=
  ⟨(findHull_base_cases 0 [⟨0, 0⟩, ⟨4, 0⟩, ⟨2, -1⟩] 2 2 0 1 1 0).1 rfl,
    (findHull_base_cases 0 [⟨0, 0⟩, ⟨4, 0⟩, ⟨2, -1⟩] 2 3 0 1 1 0).2 rfl (by decide)
      (by decide)⟩

/-- Claim C26. On a range of size 1 `chain` returns `past` and leaves the sequence as it is.
On a range of size 2 it leaves the sequence as it is and returns `pole + 1` when
`getOrientation` of the second point, the pole and the antipole is `COLLINEAR`, which says
that the three points lie on one line, and `past` otherwise. -/
theorem chain_base_cases (fuel : Nat) (a : PointSequence) (pole past antipole : Nat) :
    (past - pole = 1 → chain (fuel + 1) a pole past antipole = some (a, past)) ∧
    (past - pole = 2 →
      (getOrientation (deref a (pole + 1)) (deref a pole) (deref a antipole) = COLLINEAR →
        chain (fuel + 1) a pole past antipole = some (a, pole + 1)) ∧
      (getOrientation (deref a (pole + 1)) (deref a pole) (deref a antipole) ≠ COLLINEAR →
        chain (fuel + 1) a pole past antipole = some (a, past)) ∧
      (getOrientation (deref a (pole + 1)) (deref a pole) (deref a antipole) = COLLINEAR ↔
        cross (deref a pole) (deref a antipole) (deref a (pole + 1)) = 0)) := by
  constructor
  · intro h
    exact chain_one fuel a pole past antipole h
  · intro h
    refine ⟨?_, ?_, ?_⟩
    · intro hc
      rw [chain_two fuel a pole past antipole h, if_pos hc]
    · intro hc
      rw [chain_two fuel a pole past antipole h, if_neg hc]
    · rw [orientation_col_iff]
      have e : cross (deref a (pole + 1)) (deref a pole) (deref a antipole)
          = cross (deref a pole) (deref a antipole) (deref a (pole + 1)) := by
        unfold cross; ring
      rw [e]

/-- Claim C26 on a sequence of four points with the antipole at position 3: the range `[0, 1)`
returns 1, the range `[1, 3)`, whose second point (2,0) lies on the line through (1,0) and
(4,0), returns 2, and the range `[0, 2)` returns 2, all without a change of the sequence. -/
theorem chain_base_cases_witness :
    chain 1 [⟨0, 1⟩, ⟨1, 0⟩, ⟨2, 0⟩, ⟨4, 0⟩] 0 1 3 = some ([⟨0, 1⟩, ⟨1, 0⟩, ⟨2, 0⟩, ⟨4, 0⟩], 1) ∧
    chain 1 [⟨0, 1⟩, ⟨1, 0⟩, ⟨2, 0⟩, ⟨4, 0⟩] 1 3 3
      = some ([⟨0, 1⟩, ⟨1, 0⟩, ⟨2, 0⟩, ⟨4, 0⟩], 1 + 1) ∧
    chain 1 [⟨0, 1⟩, ⟨1, 0⟩, ⟨2, 0⟩, ⟨4, 0⟩] 0 2 3
      = some ([⟨0, 1⟩, ⟨1, 0⟩, ⟨2, 0⟩, ⟨4, 0⟩], 2) :=
  ⟨(chain_base_cases 0 [⟨0, 1⟩, ⟨1, 0⟩, ⟨2, 0⟩, ⟨4, 0⟩] 0 1 3).1 (by decide),
    ((chain_base_cases 0 [⟨0, 1⟩, ⟨1, 0⟩, ⟨2, 0⟩, ⟨4, 0⟩] 1 3 3).2 (by decide)).1
      (by with_unfolding_all decide),
    ((chain_base_cases 0 [⟨0, 1⟩, ⟨1, 0⟩, ⟨2, 0⟩, ⟨4, 0⟩] 0 2 3).2 (by decide)).2.1
      (by with_unfolding_all decide)⟩

/-- Claim C28. For every point sequence that meets the minimal requirements, in the sequence
`a` that `find_poles` and `parallel_iter_swap` leave the first point is the lexicographic
minimum of the input, the last point is the lexicographic maximum, and the two differ: the
first one is smaller, so the test `*west == *east` of `TheirConvexHullInPlaceQuickHull` is
false and the early return is not taken. -/
theorem equal_poles_unreachable (s : PointSequence)
    (h : PointSequenceFulfillsMinimalRequirements s = true) (a : PointSequence)
    (ha : a = parallel_iter_swap s 0 (s.length - 1) (find_poles s 0 s.length).1
      (find_poles s 0 s.length).2) :
    (∀ p ∈ s, ¬ p.lt (deref a 0) = true) ∧
    (∀ p ∈ s, ¬ (deref a (s.length - 1)).lt p = true) ∧
    deref a 0 ≠ deref a (s.length - 1) ∧
    (deref a 0).lt (deref a (s.length - 1)) = true ∧
    (deref a 0).eq (deref a (s.length - 1)) = false := by
  have hn := length_of_minimalRequirements s h
  obtain ⟨⟨_, hmn⟩, ⟨_, hmx⟩, hmin, hmax, _⟩ := find_poles_spec s 0 s.length (by omega)
  have hne := find_poles_ne s 0 s.length (by omega)
  obtain ⟨_, hw, he⟩ := parallel_iter_swap_spec s s.length _ _ rfl (by omega) hmn hmx hne
  have hWE := poles_x_lt s h _ _ (fun i hi => ⟨hmin i (Nat.zero_le _) hi,
    hmax i (Nat.zero_le _) hi⟩) ⟨_, hmn, rfl⟩
  rw [ha, hw, he]
  generalize deref s (find_poles s 0 s.length).1 = W at hmin hWE
  generalize deref s (find_poles s 0 s.length).2 = E at hmax hWE
  have hne' : W ≠ E := by
    intro hcon
    rw [hcon] at hWE
    exact lt_irrefl _ hWE
  refine ⟨?_, ?_, hne', ?_, ?_⟩
  · intro p hp
    obtain ⟨i, hi, rfl⟩ := exists_pos_of_mem s p hp
    exact hmin i (Nat.zero_le _) hi
  · intro p hp
    obtain ⟨i, hi, rfl⟩ := exists_pos_of_mem s p hp
    exact hmax i (Nat.zero_le _) hi
  · rw [Point.lt_iff]
    exact Or.inl hWE
  · cases hq : W.eq E with
    | false => rfl
    | true => exact absurd ((Point.eq_iff W E).mp hq) hne'

/-- Claim C28 at the square with an interior point, given in an order in which the largest
point stands first: the swaps leave (0,0) first and (4,4) last, and the two differ. -/
theorem equal_poles_unreachable_witness :
    (∀ p ∈ ([⟨4, 4⟩, ⟨0, 4⟩, ⟨2, 2⟩, ⟨0, 0⟩, ⟨4, 0⟩] : PointSequence),
      ¬ p.lt (deref [⟨0, 0⟩, ⟨0, 4⟩, ⟨2, 2⟩, ⟨4, 0⟩, ⟨4, 4⟩] 0) = true) ∧
    (∀ p ∈ ([⟨4, 4⟩, ⟨0, 4⟩, ⟨2, 2⟩, ⟨0, 0⟩, ⟨4, 0⟩] : PointSequence),
      ¬ (deref [⟨0, 0⟩, ⟨0, 4⟩, ⟨2, 2⟩, ⟨4, 0⟩, ⟨4, 4⟩]
        (([⟨4, 4⟩, ⟨0, 4⟩, ⟨2, 2⟩, ⟨0, 0⟩, ⟨4, 0⟩] : PointSequence).length - 1)).lt p
          = true) ∧
    deref [⟨0, 0⟩, ⟨0, 4⟩, ⟨2, 2⟩, ⟨4, 0⟩, ⟨4, 4⟩] 0
      ≠ deref [⟨0, 0⟩, ⟨0, 4⟩, ⟨2, 2⟩, ⟨4, 0⟩, ⟨4, 4⟩]
        (([⟨4, 4⟩, ⟨0, 4⟩, ⟨2, 2⟩, ⟨0, 0⟩, ⟨4, 0⟩] : PointSequence).length - 1) ∧
    (deref [⟨0, 0⟩, ⟨0, 4⟩, ⟨2, 2⟩, ⟨4, 0⟩, ⟨4, 4⟩] 0).lt
      (deref [⟨0, 0⟩, ⟨0, 4⟩, ⟨2, 2⟩, ⟨4, 0⟩, ⟨4, 4⟩]
        (([⟨4, 4⟩, ⟨0, 4⟩, ⟨2, 2⟩, ⟨0, 0⟩, ⟨4, 0⟩] : PointSequence).length - 1)) = true ∧
    (deref [⟨0, 0⟩, ⟨0, 4⟩, ⟨2, 2⟩, ⟨4, 0⟩, ⟨4, 4⟩] 0).eq
      (deref [⟨0, 0⟩, ⟨0, 4⟩, ⟨2, 2⟩, ⟨4, 0⟩, ⟨4, 4⟩]
        (([⟨4, 4⟩, ⟨0, 4⟩, ⟨2, 2⟩, ⟨0, 0⟩, ⟨4, 0⟩] : PointSequence).length - 1)) = false :=
  equal_poles_unreachable [⟨4, 4⟩, ⟨0, 4⟩, ⟨2, 2⟩, ⟨0, 0⟩, ⟨4, 0⟩]
    (by with_unfolding_all decide) [⟨0, 0⟩, ⟨0, 4⟩, ⟨2, 2⟩, ⟨4, 0⟩, ⟨4, 4⟩]
    (by with_unfolding_all decide)

end QuickHull

namespace QuickHull

open Orientation

/-! ### The range of the second recursive call of `findHullInPlace` -/

/-- Claim C24. In a general-case call of `findHullInPlace` (two or more points, output cursor
at or before `first`, poles outside the range) let the partition leave the sequence `a2` with
the group cursors `g1` and `g2` and the furthest point `F` at `past - 1`. Then the first
recursive call returns, with a sequence `a3` and the cursor `c1`, and after the swap of `F` to
`c1` the call continues with the second recursive call on the range `[g2', last')`, where both
ends are advanced by one when `c1 = g2`. That range has as many positions as the third group
`[g2, past - 1)` of `a2` and holds the same points as a multiset; `F` stands at `c1`; the new
cursor `c1 + 1` is not behind the start `g2'` of the range, so neither `F` nor a position before
the cursor, where the confirmed vertices stand, is in the range; and the range ends at or
before `past`. -/
theorem second_range_bookkeeping (fuel : Nat) (a : PointSequence)
    (first past l r cursor loc : Nat) (h2 : 2 ≤ past - first) (hfuel : past - first ≤ fuel)
    (hcf : cursor ≤ first) (hlen : past ≤ a.length)
    (hl : l < cursor ∨ past ≤ l) (hr : r < cursor ∨ past ≤ r)
    (a2 : PointSequence) (g1 g2 : Nat)
    (hpart : partition loc (iter_swap a (find_furthest a first past l r) (past - 1)) first
      (past - 1 - 1) l r (past - 1) = (a2, g1, g2)) :
    deref a2 (past - 1) = deref a (find_furthest a first past l r) ∧
    ∃ a3 c1, findHullInPlace fuel a2 first g1 l (past - 1) cursor loc = some (a3, c1) ∧
      findHullInPlace (fuel + 1) a first past l r cursor loc =
        findHullInPlace fuel (iter_swap a3 (past - 1) c1) (if c1 = g2 then g2 + 1 else g2)
          (if c1 = g2 then past - 1 + 1 else past - 1) c1 r (c1 + 1) loc ∧
      deref (iter_swap a3 (past - 1) c1) c1 = deref a2 (past - 1) ∧
      (if c1 = g2 then past - 1 + 1 else past - 1) - (if c1 = g2 then g2 + 1 else g2)
        = past - 1 - g2 ∧
      (((iter_swap a3 (past - 1) c1).drop (if c1 = g2 then g2 + 1 else g2)).take
        (past - 1 - g2)).Perm ((a2.drop g2).take (past - 1 - g2)) ∧
      cursor ≤ c1 ∧ c1 + 1 ≤ (if c1 = g2 then g2 + 1 else g2) ∧
      (if c1 = g2 then past - 1 + 1 else past - 1) ≤ past := by
  obtain ⟨hf1, hf2⟩ := (find_furthest_spec a first past l r (by omega)).1
  have hsw : RangePerm first past a (iter_swap a (find_furthest a first past l r) (past - 1)) :=
    iter_swap_rangePerm a first past _ _ hf1 hf2 (by omega) (by omega) hlen
  have hlen0 : (iter_swap a (find_furthest a first past l r) (past - 1)).length = a.length :=
    length_iter_swap _ _ _
  obtain ⟨hp, hg1, hg12, hg2⟩ := partition_spec loc _ first (past - 1) l r (past - 1)
    (by omega) (by omega) (by omega) (by omega) (by omega) a2 g1 g2 hpart
  have hlen2 : a2.length = a.length := by rw [hp.length_eq, hlen0]
  have hF2 : deref a2 (past - 1) = deref a (find_furthest a first past l r) := by
    rw [hp.frame (past - 1) (by omega),
      deref_iter_swap_right a _ (past - 1) (by omega) (by omega)]
  obtain ⟨a3, c1, hc1, hp3, hc1a, hc1b⟩ := findHullInPlace_struct fuel a2 first g1 l
    (past - 1) cursor loc (by omega) hcf hg1 (by omega) (by omega) (by omega)
  have hlen3 : a3.length = a.length := by rw [hp3.length_eq, hlen2]
  refine ⟨hF2, a3, c1, hc1,
    findHullInPlace_general fuel a first past l r cursor loc h2 a2 g1 g2 hpart a3 c1 hc1,
    ?_, by split_ifs <;> omega, ?_, hc1a, by split_ifs <;> omega, by split_ifs <;> omega⟩
  · rw [deref_iter_swap_right a3 (past - 1) c1 (by omega) (by omega),
      hp3.frame (past - 1) (by omega)]
  · by_cases hcg : c1 = g2
    · rw [if_pos hcg]
      apply slice_perm a2 _ (g2 + 1) g2 (past - 1 - g2)
        (fun i => if i = past - 1 - g2 - 1 then 0 else i + 1)
        (fun i => if i = 0 then past - 1 - g2 - 1 else i - 1)
      · intro i hi
        split_ifs <;> first | omega | contradiction
      · intro i hi
        split_ifs <;> first | omega | contradiction
      · intro i hi
        split_ifs <;> first | omega | contradiction
      · intro i hi
        split_ifs <;> first | omega | contradiction
      · rw [length_iter_swap, hlen3]
        omega
      · rw [hlen2]
        omega
      · intro i hi
        by_cases hlast : i = past - 1 - g2 - 1
        · rw [if_pos hlast]
          have e : g2 + 1 + i = past - 1 := by omega
          rw [e, deref_iter_swap_left a3 (past - 1) c1 (by omega) (by omega), hcg,
            hp3.frame g2 (by omega)]
          rfl
        · rw [if_neg hlast, deref_iter_swap_other a3 (past - 1) c1 _ (by omega) (by omega)
            (by omega) (by omega), hp3.frame _ (by omega)]
          congr 1
          omega
    · rw [if_neg hcg]
      apply slice_perm a2 _ g2 g2 (past - 1 - g2) (fun i => i) (fun i => i)
        (fun i hi => hi) (fun i hi => hi) (fun i _ => rfl) (fun i _ => rfl)
      · rw [length_iter_swap, hlen3]
        omega
      · rw [hlen2]
        omega
      · intro i hi
        rw [deref_iter_swap_other a3 (past - 1) c1 _ (by omega) (by omega)
          (by omega) (by omega), hp3.frame _ (by omega)]

/-- Claim C24 on a call with two candidates below the segment from (0,0) to (4,0): the
partition puts (3,-1) into the third group, the first recursive call has nothing to do, the
furthest point (2,-2) is swapped to the cursor, which stands at the start of the third group,
and the second recursive call gets the range `[2, 3)` that holds (3,-1). -/
theorem second_range_bookkeeping_witness :
    deref [⟨0, 0⟩, ⟨3, -1⟩, ⟨2, -2⟩, ⟨4, 0⟩] (3 - 1)
      = deref [⟨0, 0⟩, ⟨2, -2⟩, ⟨3, -1⟩, ⟨4, 0⟩]
        (find_furthest [⟨0, 0⟩, ⟨2, -2⟩, ⟨3, -1⟩, ⟨4, 0⟩] 1 3 0 3) ∧
    ∃ a3 c1, findHullInPlace 2 [⟨0, 0⟩, ⟨3, -1⟩, ⟨2, -2⟩, ⟨4, 0⟩] 1 1 0 (3 - 1) 1 0
        = some (a3, c1) ∧
      findHullInPlace (2 + 1) [⟨0, 0⟩, ⟨2, -2⟩, ⟨3, -1⟩, ⟨4, 0⟩] 1 3 0 3 1 0 =
        findHullInPlace 2 (iter_swap a3 (3 - 1) c1) (if c1 = 1 then 1 + 1 else 1)
          (if c1 = 1 then 3 - 1 + 1 else 3 - 1) c1 3 (c1 + 1) 0 ∧
      deref (iter_swap a3 (3 - 1) c1) c1 = deref [⟨0, 0⟩, ⟨3, -1⟩, ⟨2, -2⟩, ⟨4, 0⟩] (3 - 1) ∧
      (if c1 = 1 then 3 - 1 + 1 else 3 - 1) - (if c1 = 1 then 1 + 1 else 1) = 3 - 1 - 1 ∧
      (((iter_swap a3 (3 - 1) c1).drop (if c1 = 1 then 1 + 1 else 1)).take
        (3 - 1 - 1)).Perm
          ((([⟨0, 0⟩, ⟨3, -1⟩, ⟨2, -2⟩, ⟨4, 0⟩] : PointSequence).drop 1).take (3 - 1 - 1)) ∧
      1 ≤ c1 ∧ c1 + 1 ≤ (if c1 = 1 then 1 + 1 else 1) ∧
      (if c1 = 1 then 3 - 1 + 1 else 3 - 1) ≤ 3 :=
  second_range_bookkeeping 2 [⟨0, 0⟩, ⟨2, -2⟩, ⟨3, -1⟩, ⟨4, 0⟩] 1 3 0 3 1 0 (by decide)
    (by decide) (by decide) (by decide) (by decide) (by decide)
    [⟨0, 0⟩, ⟨3, -1⟩, ⟨2, -2⟩, ⟨4, 0⟩] 1 1 (by with_unfolding_all decide)

/-- Claim C29. `findHullInPlace` and `chain` are total: with more fuel than the range has
points the call returns, for every sequence, every range, every choice of poles and of the
output cursor (the range of `chain` starts at its pole, so it is not empty). In the general
case each recursive call gets a range that is strictly shorter than the range of the caller:
the first group `[first, g1)` and the third group, whose size is `past - 1 - g2` wherever the
output cursor `c1` stands, for `findHullInPlace`; the ranges `[pole, mid)` and
`[pivot, interior)` for `chain`, whatever sequence `b` and pivot position `e1` the first
recursive call leaves. -/
theorem recursion_terminates (a : PointSequence) (first past l r cursor loc fuel : Nat)
    (pole pastC antipole fuelC : Nat) (hfuel : past - first < fuel) (hpole : pole < pastC)
    (hfuelC : pastC - pole < fuelC) :
    (∃ res, findHullInPlace fuel a first past l r cursor loc = some res) ∧
    (2 ≤ past - first →
      (partition loc (iter_swap a (find_furthest a first past l r) (past - 1)) first
        (past - 1 - 1) l r (past - 1)).2.1 - first < past - first ∧
      ∀ c1, (if c1 = (partition loc (iter_swap a (find_furthest a first past l r) (past - 1))
            first (past - 1 - 1) l r (past - 1)).2.2 then past - 1 + 1 else past - 1)
          - (if c1 = (partition loc (iter_swap a (find_furthest a first past l r) (past - 1))
            first (past - 1 - 1) l r (past - 1)).2.2
            then (partition loc (iter_swap a (find_furthest a first past l r) (past - 1))
              first (past - 1 - 1) l r (past - 1)).2.2 + 1
            else (partition loc (iter_swap a (find_furthest a first past l r) (past - 1))
              first (past - 1 - 1) l r (past - 1)).2.2)
          < past - first) ∧
    (∃ res, chain fuelC a pole pastC antipole = some res) ∧
    (3 ≤ pastC - pole →
      (partition_left_right (iter_swap a (find_furthest3 a pole pastC antipole) (pastC - 1))
        pole (pastC - 1) (pastC - 1)).2 - pole < pastC - pole ∧
      ∀ (b : PointSequence) (e1 : Nat),
        (partition_left_right b e1
          (e1 + (pastC - (partition_left_right
            (iter_swap a (find_furthest3 a pole pastC antipole) (pastC - 1))
            pole (pastC - 1) (pastC - 1)).2)) antipole).2 - e1 < pastC - pole) := by
  refine ⟨findHullInPlace_total fuel a first past l r cursor loc hfuel, ?_,
    chain_total fuelC a pole pastC antipole hfuelC, ?_⟩
  · intro h2
    obtain ⟨b1, b2, b3⟩ := partition_bounds loc
      (iter_swap a (find_furthest a first past l r) (past - 1)) first (past - 1) l r (past - 1)
      (by omega)
    refine ⟨by omega, ?_⟩
    intro c1
    split_ifs <;> omega
  · intro h3
    have hb := std_partition_bounds
      (fun s q => decide (COUNTERCLOCKWISE ≠ getOrientation (deref s pole) q
        (deref s (pastC - 1))))
      (iter_swap a (find_furthest3 a pole pastC antipole) (pastC - 1)) (pole + 1) (pastC - 1)
      (by omega)
    have hmid : pole + 1 ≤ (partition_left_right
        (iter_swap a (find_furthest3 a pole pastC antipole) (pastC - 1))
        pole (pastC - 1) (pastC - 1)).2 ∧ (partition_left_right
        (iter_swap a (find_furthest3 a pole pastC antipole) (pastC - 1))
        pole (pastC - 1) (pastC - 1)).2 ≤ pastC - 1 := hb
    generalize (partition_left_right
        (iter_swap a (find_furthest3 a pole pastC antipole) (pastC - 1))
        pole (pastC - 1) (pastC - 1)).2 = mid at hmid ⊢
    refine ⟨by omega, ?_⟩
    intro b e1
    have hb2 := std_partition_bounds
      (fun s q => decide (COUNTERCLOCKWISE ≠ getOrientation (deref s e1) q (deref s antipole)))
      b (e1 + 1) (e1 + (pastC - mid)) (by omega)
    have e : (partition_left_right b e1 (e1 + (pastC - mid)) antipole).2
        ≤ e1 + (pastC - mid) := hb2.2
    omega

/-- Claim C29 on four points: the call of `findHullInPlace` on the range `[1, 3)` and the call
of `chain` on the range `[0, 3)` return with fuel 3 and 4, and the recursive calls get shorter
ranges. -/
theorem recursion_terminates_witness :
    (∃ res, findHullInPlace 3 [⟨0, 0⟩, ⟨2, -2⟩, ⟨3, -1⟩, ⟨4, 0⟩] 1 3 0 3 1 0 = some res) ∧
    (2 ≤ 3 - 1 →
      (partition 0 (iter_swap [⟨0, 0⟩, ⟨2, -2⟩, ⟨3, -1⟩, ⟨4, 0⟩]
        (find_furthest [⟨0, 0⟩, ⟨2, -2⟩, ⟨3, -1⟩, ⟨4, 0⟩] 1 3 0 3) (3 - 1)) 1
        (3 - 1 - 1) 0 3 (3 - 1)).2.1 - 1 < 3 - 1 ∧
      ∀ c1, (if c1 = (partition 0 (iter_swap [⟨0, 0⟩, ⟨2, -2⟩, ⟨3, -1⟩, ⟨4, 0⟩]
            (find_furthest [⟨0, 0⟩, ⟨2, -2⟩, ⟨3, -1⟩, ⟨4, 0⟩] 1 3 0 3) (3 - 1))
            1 (3 - 1 - 1) 0 3 (3 - 1)).2.2 then 3 - 1 + 1 else 3 - 1)
          - (if c1 = (partition 0 (iter_swap [⟨0, 0⟩, ⟨2, -2⟩, ⟨3, -1⟩, ⟨4, 0⟩]
            (find_furthest [⟨0, 0⟩, ⟨2, -2⟩, ⟨3, -1⟩, ⟨4, 0⟩] 1 3 0 3) (3 - 1))
            1 (3 - 1 - 1) 0 3 (3 - 1)).2.2
            then (partition 0 (iter_swap [⟨0, 0⟩, ⟨2, -2⟩, ⟨3, -1⟩, ⟨4, 0⟩]
              (find_furthest [⟨0, 0⟩, ⟨2, -2⟩, ⟨3, -1⟩, ⟨4, 0⟩] 1 3 0 3) (3 - 1))
              1 (3 - 1 - 1) 0 3 (3 - 1)).2.2 + 1
            else (partition 0 (iter_swap [⟨0, 0⟩, ⟨2, -2⟩, ⟨3, -1⟩, ⟨4, 0⟩]
              (find_furthest [⟨0, 0⟩, ⟨2, -2⟩, ⟨3, -1⟩, ⟨4, 0⟩] 1 3 0 3) (3 - 1))
              1 (3 - 1 - 1) 0 3 (3 - 1)).2.2)
          < 3 - 1) ∧
    (∃ res, chain 4 [⟨0, 0⟩, ⟨2, -2⟩, ⟨3, -1⟩, ⟨4, 0⟩] 0 3 3 = some res) ∧
    (3 ≤ 3 - 0 →
      (partition_left_right (iter_swap [⟨0, 0⟩, ⟨2, -2⟩, ⟨3, -1⟩, ⟨4, 0⟩]
        (find_furthest3 [⟨0, 0⟩, ⟨2, -2⟩, ⟨3, -1⟩, ⟨4, 0⟩] 0 3 3) (3 - 1))
        0 (3 - 1) (3 - 1)).2 - 0 < 3 - 0 ∧
      ∀ (b : PointSequence) (e1 : Nat),
        (partition_left_right b e1
          (e1 + (3 - (partition_left_right
            (iter_swap [⟨0, 0⟩, ⟨2, -2⟩, ⟨3, -1⟩, ⟨4, 0⟩]
              (find_furthest3 [⟨0, 0⟩, ⟨2, -2⟩, ⟨3, -1⟩, ⟨4, 0⟩] 0 3 3) (3 - 1))
            0 (3 - 1) (3 - 1)).2)) 3).2 - e1 < 3 - 0) :=
  recursion_terminates [⟨0, 0⟩, ⟨2, -2⟩, ⟨3, -1⟩, ⟨4, 0⟩] 1 3 0 3 1 0 3 0 3 3 4 (by decide)
    (by decide) (by decide)

end QuickHull

namespace QuickHull

open Orientation

/-! ### The three-way partition and the collapse of `chain` on concrete and general input -/

/-- Claim C22, the run of the code. In the range `[1, 3)` of (0,0), (2,-2), (3,-1), (4,0)
with the pole (0,0) and the antipole (4,0), `find_furthest` selects (2,-2); with it swapped to
the end of the range, `lowerPartition` returns the group cursors 1 and 1, so the third group
`[1, 2)` holds (3,-1), which is `COLLINEAR` with the furthest point and the antipole and not
`CLOCKWISE` of them. `upperPartition` does the same on the mirrored input. -/
theorem partition_third_group_not_strict :
    find_furthest [⟨0, 0⟩, ⟨2, -2⟩, ⟨3, -1⟩, ⟨4, 0⟩] 1 3 0 3 = 1 ∧
    iter_swap [⟨0, 0⟩, ⟨2, -2⟩, ⟨3, -1⟩, ⟨4, 0⟩] 1 2 = [⟨0, 0⟩, ⟨3, -1⟩, ⟨2, -2⟩, ⟨4, 0⟩] ∧
    lowerPartition [⟨0, 0⟩, ⟨3, -1⟩, ⟨2, -2⟩, ⟨4, 0⟩] 1 1 0 3 2
      = ([⟨0, 0⟩, ⟨3, -1⟩, ⟨2, -2⟩, ⟨4, 0⟩], 1, 1) ∧
    getOrientation ⟨2, -2⟩ ⟨4, 0⟩ ⟨3, -1⟩ = COLLINEAR ∧
    find_furthest [⟨4, 0⟩, ⟨2, 2⟩, ⟨1, 1⟩, ⟨0, 0⟩] 1 3 0 3 = 1 ∧
    iter_swap [⟨4, 0⟩, ⟨2, 2⟩, ⟨1, 1⟩, ⟨0, 0⟩] 1 2 = [⟨4, 0⟩, ⟨1, 1⟩, ⟨2, 2⟩, ⟨0, 0⟩] ∧
    upperPartition [⟨4, 0⟩, ⟨1, 1⟩, ⟨2, 2⟩, ⟨0, 0⟩] 1 1 0 3 2
      = ([⟨4, 0⟩, ⟨1, 1⟩, ⟨2, 2⟩, ⟨0, 0⟩], 1, 1) ∧
    getOrientation ⟨2, 2⟩ ⟨0, 0⟩ ⟨1, 1⟩ = COLLINEAR := by
  refine ⟨?_, ?_, ?_, ?_, ?_, ?_, ?_, ?_⟩ <;> with_unfolding_all decide

/-- Claim C23 as stated, refuted. On (0,0), (1,-2), (2,-3), (4,0) with the pole (0,0), the
antipole (4,0), the furthest point (2,-3) and the range that holds (1,-2), `lowerPartition`
puts (1,-2) into the first group and returns the cursors 2 and 2, and `upperPartition` puts it
into the middle group and returns the cursors 1 and 2. -/
theorem mirrored_partitions_differ :
    lowerPartition [⟨0, 0⟩, ⟨1, -2⟩, ⟨2, -3⟩, ⟨4, 0⟩] 1 1 0 3 2
      = ([⟨0, 0⟩, ⟨1, -2⟩, ⟨2, -3⟩, ⟨4, 0⟩], 2, 2) ∧
    upperPartition [⟨0, 0⟩, ⟨1, -2⟩, ⟨2, -3⟩, ⟨4, 0⟩] 1 1 0 3 2
      = ([⟨0, 0⟩, ⟨1, -2⟩, ⟨2, -3⟩, ⟨4, 0⟩], 1, 2) ∧
    lowerPartition [⟨0, 0⟩, ⟨1, -2⟩, ⟨2, -3⟩, ⟨4, 0⟩] 1 1 0 3 2
      ≠ upperPartition [⟨0, 0⟩, ⟨1, -2⟩, ⟨2, -3⟩, ⟨4, 0⟩] 1 1 0 3 2 := by
  refine ⟨?_, ?_, ?_⟩ <;> with_unfolding_all decide

/-- Claim C23, amended. `lowerPartition` and `upperPartition` run the same loop on the same
arguments and differ only in the treatment of the element `c` at which the loop stops. They
return the same two group cursors and the same sequence if and only if `c` has the
x-coordinate of the furthest point `F`, or `c` is not `CLOCKWISE` of (pole, F) and is
`COUNTERCLOCKWISE` of (F, antipole). -/
theorem mirrored_partitions_agree_iff (a : PointSequence) (g1 g2 l r f : Nat) :
    lowerPartition a g1 g2 l r f = upperPartition a g1 g2 l r f ↔
      ((deref (partition3Loop l r f (g2 - g1) a g1 g1 g2).1
          (partition3Loop l r f (g2 - g1) a g1 g1 g2).2.1).x
        = (deref (partition3Loop l r f (g2 - g1) a g1 g1 g2).1 f).x ∨
      (getOrientation (deref (partition3Loop l r f (g2 - g1) a g1 g1 g2).1 l)
          (deref (partition3Loop l r f (g2 - g1) a g1 g1 g2).1 f)
          (deref (partition3Loop l r f (g2 - g1) a g1 g1 g2).1
            (partition3Loop l r f (g2 - g1) a g1 g1 g2).2.1) ≠ CLOCKWISE ∧
        getOrientation (deref (partition3Loop l r f (g2 - g1) a g1 g1 g2).1 f)
          (deref (partition3Loop l r f (g2 - g1) a g1 g1 g2).1 r)
          (deref (partition3Loop l r f (g2 - g1) a g1 g1 g2).1
            (partition3Loop l r f (g2 - g1) a g1 g1 g2).2.1) = COUNTERCLOCKWISE)) := by
  unfold lowerPartition upperPartition
  generalize partition3Loop l r f (g2 - g1) a g1 g1 g2 = res
  obtain ⟨b, cur, h1, h2⟩ := res
  simp only
  generalize deref b cur = c
  generalize deref b f = F
  generalize getOrientation (deref b l) F c = o1
  generalize getOrientation F (deref b r) c = o2
  rcases lt_trichotomy c.x F.x with hx | hx | hx
  · have hgt : ¬ c.x > F.x := by
      intro hcon
      exact lt_irrefl _ (lt_trans hx hcon)
    have hne : c.x ≠ F.x := ne_of_lt hx
    rw [if_pos hx, if_neg hgt]
    by_cases hc1 : o1 = CLOCKWISE <;> by_cases hc2 : o2 = COUNTERCLOCKWISE <;>
      simp [hc1, hc2, hne]
  · have hlt : ¬ c.x < F.x := by rw [hx]; exact lt_irrefl _
    have hgt : ¬ c.x > F.x := by rw [hx]; exact lt_irrefl _
    rw [if_neg hlt, if_neg hgt]
    simp [hx]
  · have hlt : ¬ c.x < F.x := by
      intro hcon
      exact lt_irrefl _ (lt_trans hx hcon)
    have hne : c.x ≠ F.x := ne_of_gt hx
    have hgt : c.x > F.x := hx
    rw [if_neg hlt, if_pos hgt]
    by_cases hc1 : o1 = CLOCKWISE <;> by_cases hc2 : o2 = COUNTERCLOCKWISE <;>
      simp [hc1, hc2, hne]

/-- Claim C27. Take a range `[pole, past)` of size at least 3 in which every point lies on
the closed segment from the pole to the antipole or strictly left of the directed line from the
pole to the antipole. If the point `F` returned by the three-argument `find_furthest` is
collinear with the pole and the antipole (the test of `chain`), then every point of the range is
collinear with the pole and the antipole, and lies on the segment between them, and `chain`
returns `pole + 1` and leaves the sequence unchanged. -/
theorem chain_collapse_sound (fuel : Nat) (a : PointSequence) (pole past antipole : Nat)
    (h3 : 3 ≤ past - pole)
    (hleft : ∀ i, pole ≤ i → i < past →
      OnClosedSegment (deref a pole) (deref a antipole) (deref a i) ∨
      getOrientation (deref a pole) (deref a antipole) (deref a i) = COUNTERCLOCKWISE)
    (hcol : getOrientation (deref a (find_furthest3 a pole past antipole)) (deref a pole)
      (deref a antipole) = COLLINEAR) :
    (∀ i, pole ≤ i → i < past →
      getOrientation (deref a pole) (deref a antipole) (deref a i) = COLLINEAR ∧
      OnClosedSegment (deref a pole) (deref a antipole) (deref a i)) ∧
    chain (fuel + 1) a pole past antipole = some (a, pole + 1) := by
  obtain ⟨⟨hF1, hF2⟩, hmax, _⟩ := find_furthest3_spec a pole past antipole (by omega)
  have hF : OnClosedSegment (deref a pole) (deref a antipole)
      (deref a (find_furthest3 a pole past antipole)) := by
    rcases hleft _ hF1 hF2 with h | h
    · exact h
    · exfalso
      rw [orientation_ccw_iff] at h
      rw [orientation_col_iff] at hcol
      have e : cross (deref a pole) (deref a antipole)
          (deref a (find_furthest3 a pole past antipole))
          = cross (deref a (find_furthest3 a pole past antipole)) (deref a pole)
            (deref a antipole) := by unfold cross; ring
      rw [e, hcol] at h
      exact lt_irrefl _ h
  have hD0 := sqDist_zero_of_onSegment _ _ _ hF
  refine ⟨?_, chain_collapse fuel a pole past antipole (by omega) (by omega) hcol⟩
  intro i hi1 hi2
  have hD := hmax i hi1 hi2
  rw [hD0] at hD
  have hon := onSegment_of_sqDist_zero _ _ _ (le_antisymm hD (sqDist_nonneg _ _ _))
  exact ⟨(orientation_col_iff _ _ _).mpr (cross_eq_zero_of_onSegment _ _ _ hon), hon⟩

/-- Claim C27 on the range `[0, 3)` of (0,0), (1,0), (2,0) with the antipole (4,0): the three
points lie on the segment from (0,0) to (4,0), the furthest point is collinear with the pole
and the antipole, and the range collapses to the pole. -/
theorem chain_collapse_sound_witness :
    (∀ i, 0 ≤ i → i < 3 →
      getOrientation (deref [⟨0, 0⟩, ⟨1, 0⟩, ⟨2, 0⟩, ⟨4, 0⟩] 0)
        (deref [⟨0, 0⟩, ⟨1, 0⟩, ⟨2, 0⟩, ⟨4, 0⟩] 3)
        (deref [⟨0, 0⟩, ⟨1, 0⟩, ⟨2, 0⟩, ⟨4, 0⟩] i) = COLLINEAR ∧
      OnClosedSegment (deref [⟨0, 0⟩, ⟨1, 0⟩, ⟨2, 0⟩, ⟨4, 0⟩] 0)
        (deref [⟨0, 0⟩, ⟨1, 0⟩, ⟨2, 0⟩, ⟨4, 0⟩] 3)
        (deref [⟨0, 0⟩, ⟨1, 0⟩, ⟨2, 0⟩, ⟨4, 0⟩] i)) ∧
    chain (3 + 1) [⟨0, 0⟩, ⟨1, 0⟩, ⟨2, 0⟩, ⟨4, 0⟩] 0 3 3
      = some ([⟨0, 0⟩, ⟨1, 0⟩, ⟨2, 0⟩, ⟨4, 0⟩], 0 + 1) :=
  chain_collapse_sound 3 [⟨0, 0⟩, ⟨1, 0⟩, ⟨2, 0⟩, ⟨4, 0⟩] 0 3 3 (by decide)
    (by
      intro i _ hi
      left
      interval_cases i
      · exact ⟨0, le_refl _, zero_le_one, by with_unfolding_all decide,
          by with_unfolding_all decide⟩
      · exact ⟨1 / 4, by norm_num, by norm_num, by with_unfolding_all decide,
          by with_unfolding_all decide⟩
      · exact ⟨1 / 2, by norm_num, by norm_num, by with_unfolding_all decide,
          by with_unfolding_all decide⟩)
    (by with_unfolding_all decide)

end QuickHull

namespace QuickHull

open Orientation

/-! ### The loops of the out-of-place `findHull` -/

theorem deref_append_left (s t : PointSequence) (i : Nat) (h : i < s.length) :
    deref (s ++ t) i = deref s i := by
  unfold deref
  rw [List.getD_eq_getElem _ _ (by rw [List.length_append]; omega),
    List.getD_eq_getElem _ _ h, List.getElem_append_left h]

theorem deref_append_pair (s : PointSequence) (p q : Point) :
    deref (s ++ [p, q]) s.length = p ∧ deref (s ++ [p, q]) (s.length + 1) = q := by
  unfold deref
  constructor
  · rw [List.getD_eq_getElem _ _ (by rw [List.length_append]; simp),
      List.getElem_append_right (le_refl _)]
    simp
  · rw [List.getD_eq_getElem _ _ (by rw [List.length_append]; simp),
      List.getElem_append_right (by omega)]
    simp

/-- The scan of the out-of-place `findHull` is the scan of the four-argument `find_furthest`
on the sequence with the two end points of the segment appended. -/
theorem furthestIndexLoop_eq (s : PointSequence) (p q : Point) :
    ∀ (k i index : Nat) (m : Number), i + k ≤ s.length → index < s.length →
      OutOfPlace.furthestIndexLoop s p q k i index m
        = furthestLoop (s ++ [p, q]) s.length (s.length + 1) k i index m := by
  intro k
  induction k with
  | zero =>
    intro i index m _ _
    simp only [OutOfPlace.furthestIndexLoop, furthestLoop]
  | succ k ih =>
    intro i index m hi hidx
    obtain ⟨e1, e2⟩ := deref_append_pair s p q
    simp only [OutOfPlace.furthestIndexLoop, furthestLoop, e1, e2,
      deref_append_left s [p, q] i (by omega), deref_append_left s [p, q] index hidx]
    rw [ih (i + 1) i _ (by omega) (by omega), ih (i + 1) i m (by omega) (by omega),
      ih (i + 1) index m (by omega) hidx]

/-- The point that the out-of-place `findHull` selects in a non-empty sequence: it is a point
of the sequence at the largest squared distance from the segment, with the smallest
x-coordinate among the points at that distance. -/
theorem furthestIndex_spec (s : PointSequence) (p q : Point) (h : 0 < s.length) :
    OutOfPlace.furthestIndexLoop s p q s.length 0 0 0 < s.length ∧
    ∀ c ∈ s, NotFurther p q (deref s (OutOfPlace.furthestIndexLoop s p q s.length 0 0 0)) c := by
  obtain ⟨e1, e2⟩ := deref_append_pair s p q
  have heq := furthestIndexLoop_eq s p q s.length 0 0 0 (by omega) h
  obtain ⟨⟨_, hlt⟩, hmax, htie⟩ := find_furthest_spec (s ++ [p, q]) 0 s.length s.length
    (s.length + 1) h
  have hff : find_furthest (s ++ [p, q]) 0 s.length s.length (s.length + 1)
      = OutOfPlace.furthestIndexLoop s p q s.length 0 0 0 := by
    rw [heq]
    simp only [find_furthest, Nat.sub_zero]
  rw [hff, e1, e2] at hmax htie
  rw [hff] at hlt
  rw [deref_append_left s [p, q] _ hlt] at hmax htie
  refine ⟨hlt, ?_⟩
  intro c hc
  obtain ⟨j, hj, rfl⟩ := exists_pos_of_mem s c hc
  have h1 := hmax j (Nat.zero_le _) hj
  have h2 := htie j (Nat.zero_le _) hj
  rw [deref_append_left s [p, q] j hj] at h1 h2
  exact ⟨h1, h2⟩

theorem splitLower_eq (p q F : Point) : ∀ (l : List Point) (s1 s2 : PointSequence),
    OutOfPlace.splitLower p q F l s1 s2
      = (s1 ++ l.filter (fun c => decide (c.x < F.x ∧ getOrientation p F c = CLOCKWISE)),
        s2 ++ l.filter (fun c => decide (¬ c.x < F.x ∧ getOrientation F q c = CLOCKWISE))) := by
  intro l
  induction l with
  | nil => intro s1 s2; simp [OutOfPlace.splitLower]
  | cons c rest ih =>
    intro s1 s2
    simp only [OutOfPlace.splitLower]
    by_cases hx : c.x < F.x
    · by_cases ho : getOrientation p F c = CLOCKWISE
      · rw [if_pos hx, if_pos ho, ih]
        simp [List.filter_cons, hx, ho]
      · rw [if_pos hx, if_neg ho, ih]
        simp [List.filter_cons, hx, ho]
    · by_cases ho : getOrientation F q c = CLOCKWISE
      · rw [if_neg hx, if_pos ho, ih]
        have hx' := not_lt.mp hx
        simp [List.filter_cons, hx, hx', ho]
      · rw [if_neg hx, if_neg ho, ih]
        simp [List.filter_cons, hx, ho]

theorem splitUpper_eq (p q F : Point) : ∀ (l : List Point) (s1 s2 : PointSequence),
    OutOfPlace.splitUpper p q F l s1 s2
      = (s1 ++ l.filter (fun c => decide (c.x > F.x ∧ getOrientation p F c = CLOCKWISE)),
        s2 ++ l.filter (fun c => decide (¬ c.x > F.x ∧ getOrientation F q c = CLOCKWISE))) := by
  intro l
  induction l with
  | nil => intro s1 s2; simp [OutOfPlace.splitUpper]
  | cons c rest ih =>
    intro s1 s2
    simp only [OutOfPlace.splitUpper]
    by_cases hx : c.x > F.x
    · by_cases ho : getOrientation p F c = CLOCKWISE
      · rw [if_pos hx, if_pos ho, ih]
        simp [List.filter_cons, hx, ho]
      · rw [if_pos hx, if_neg ho, ih]
        simp [List.filter_cons, hx, ho]
    · by_cases ho : getOrientation F q c = CLOCKWISE
      · rw [if_neg hx, if_pos ho, ih]
        have hx' := not_lt.mp hx
        simp [List.filter_cons, hx, hx', ho]
      · rw [if_neg hx, if_neg ho, ih]
        simp [List.filter_cons, hx, ho]

theorem outOfPlace_sideSign_cases (loc : Nat) :
    OutOfPlace.sideSign loc = 1 ∨ OutOfPlace.sideSign loc = -1 := by
  unfold OutOfPlace.sideSign
  split_ifs
  · exact Or.inl rfl
  · exact Or.inr rfl

theorem length_filter_lt_of_mem (l : List Point) (t : Point → Bool) (F : Point) (hF : F ∈ l)
    (ht : t F = false) : (l.filter t).length < l.length := by
  induction l with
  | nil => exact absurd hF (List.not_mem_nil _)
  | cons c rest ih =>
    rcases List.mem_cons.mp hF with h | h
    · subst h
      rw [List.filter_cons_of_neg (by rw [ht]; exact Bool.false_ne_true)]
      have := List.length_filter_le t rest
      simp only [List.length_cons]
      omega
    · have := ih h
      by_cases hc : t c = true
      · rw [List.filter_cons_of_pos hc]
        simp only [List.length_cons]
        omega
      · rw [List.filter_cons_of_neg hc]
        simp only [List.length_cons]
        omega

/-- The two sequences into which the out-of-place `findHull` splits its sequence: the first
holds the points strictly before the furthest point `F` in x-direction and strictly right of
(p, F), the second the other points that are strictly right of (F, q); both are shorter than
the sequence when `F` is one of its points. -/
theorem split_spec (loc : Nat) (p q F : Point) (s : PointSequence) (r : PointSequence × PointSequence)
    (hr : r = if loc = OutOfPlace.LOWER then OutOfPlace.splitLower p q F s [] []
      else OutOfPlace.splitUpper p q F s [] []) :
    (∀ c, c ∈ r.1 ↔ c ∈ s ∧ 0 < OutOfPlace.sideSign loc * (F.x - c.x) ∧ cross p F c < 0) ∧
    (∀ c, c ∈ r.2 ↔ c ∈ s ∧ 0 ≤ OutOfPlace.sideSign loc * (c.x - F.x) ∧ cross F q c < 0) ∧
    (F ∈ s → r.1.length < s.length ∧ r.2.length < s.length) := by
  have hpF : getOrientation p F F ≠ CLOCKWISE := by
    rw [orientation_ne_cw_iff, cross_self_last]
  have hFq : getOrientation F q F ≠ CLOCKWISE := by
    rw [orientation_ne_cw_iff, cross_self_right]
  by_cases hloc : loc = OutOfPlace.LOWER
  · rw [if_pos hloc, splitLower_eq] at hr
    have hs : OutOfPlace.sideSign loc = 1 := by simp [OutOfPlace.sideSign, hloc]
    rw [hr, hs]
    simp only [List.nil_append]
    refine ⟨?_, ?_, ?_⟩
    · intro c
      rw [List.mem_filter, decide_eq_true_iff, orientation_cw_iff]
      constructor
      · rintro ⟨h1, h2, h3⟩
        exact ⟨h1, by linarith, h3⟩
      · rintro ⟨h1, h2, h3⟩
        exact ⟨h1, by linarith, h3⟩
    · intro c
      rw [List.mem_filter, decide_eq_true_iff, orientation_cw_iff]
      constructor
      · rintro ⟨h1, h2, h3⟩
        exact ⟨h1, by linarith [not_lt.mp h2], h3⟩
      · rintro ⟨h1, h2, h3⟩
        exact ⟨h1, not_lt.mpr (by linarith), h3⟩
    · intro hF
      constructor
      · apply length_filter_lt_of_mem s _ F hF
        simp [hpF]
      · apply length_filter_lt_of_mem s _ F hF
        simp [hFq]
  · rw [if_neg hloc, splitUpper_eq] at hr
    have hs : OutOfPlace.sideSign loc = -1 := by simp [OutOfPlace.sideSign, hloc]
    rw [hr, hs]
    simp only [List.nil_append]
    refine ⟨?_, ?_, ?_⟩
    · intro c
      rw [List.mem_filter, decide_eq_true_iff, orientation_cw_iff]
      constructor
      · rintro ⟨h1, h2, h3⟩
        exact ⟨h1, by linarith, h3⟩
      · rintro ⟨h1, h2, h3⟩
        exact ⟨h1, by linarith, h3⟩
    · intro c
      rw [List.mem_filter, decide_eq_true_iff, orientation_cw_iff]
      constructor
      · rintro ⟨h1, h2, h3⟩
        exact ⟨h1, by linarith [not_lt.mp h2], h3⟩
      · rintro ⟨h1, h2, h3⟩
        exact ⟨h1, not_lt.mpr (by linarith), h3⟩
    · intro hF
      constructor
      · apply length_filter_lt_of_mem s _ F hF
        simp [hpF]
      · apply length_filter_lt_of_mem s _ F hF
        simp [hFq]

end QuickHull

namespace QuickHull

open Orientation

/-! ### Chains that turn counterclockwise at every triple -/

/-- Along a chain that is monotone in x, two consecutive counterclockwise turns make the first
edge see the fourth point counterclockwise. -/
theorem ccw_strict_left (sg : Number) (hsg : sg = 1 ∨ sg = -1) (a b c d : Point)
    (m1 : 0 ≤ sg * (b.x - a.x)) (m2 : 0 ≤ sg * (c.x - b.x)) (m3 : 0 ≤ sg * (d.x - c.x))
    (h1 : 0 < cross a b c) (h2 : 0 < cross b c d) : 0 < cross a b d := by
  have e1 : cross d c b = - cross b c d := by unfold cross; ring
  have e2 : cross c b a = - cross a b c := by unfold cross; ring
  have key := cw_trans_right (-sg) (neg_sg_cases sg hsg) d c b a
    (by have : -sg * (c.x - d.x) = sg * (d.x - c.x) := by ring
        rw [this]; exact m3)
    (by have : -sg * (b.x - c.x) = sg * (c.x - b.x) := by ring
        rw [this]; exact m2)
    (by have : -sg * (a.x - b.x) = sg * (b.x - a.x) := by ring
        rw [this]; exact m1)
    (by rw [e1]; linarith) (by rw [e2]; linarith)
  have e : cross a b d = - cross d b a := by unfold cross; ring
  rw [e]
  linarith

/-- Along a chain that is monotone in x, two consecutive counterclockwise turns make the first
point see the last edge counterclockwise. -/
theorem ccw_strict_right (sg : Number) (hsg : sg = 1 ∨ sg = -1) (a b c d : Point)
    (m1 : 0 ≤ sg * (b.x - a.x)) (m2 : 0 ≤ sg * (c.x - b.x)) (m3 : 0 ≤ sg * (d.x - c.x))
    (h1 : 0 < cross a b c) (h2 : 0 < cross b c d) : 0 < cross a c d := by
  have e1 : cross d c b = - cross b c d := by unfold cross; ring
  have e2 : cross c b a = - cross a b c := by unfold cross; ring
  have key := cw_trans_left (-sg) (neg_sg_cases sg hsg) d c b a
    (by have : -sg * (c.x - d.x) = sg * (d.x - c.x) := by ring
        rw [this]; exact m3)
    (by have : -sg * (b.x - c.x) = sg * (c.x - b.x) := by ring
        rw [this]; exact m2)
    (by have : -sg * (a.x - b.x) = sg * (b.x - a.x) := by ring
        rw [this]; exact m1)
    (by rw [e1]; linarith) (by rw [e2]; linarith)
  have e : cross a c d = - cross d c a := by unfold cross; ring
  rw [e]
  linarith

theorem StrictChain.transport {sg : Number} {P R : Point} {o o' : Nat → Point} {lo hi : Nat}
    (h : StrictChain sg P R o lo hi) (he : ∀ i, lo ≤ i → i < hi → o' i = o i) :
    StrictChain sg P R o' lo hi := by
  obtain ⟨h1, h2, h3, h4⟩ := h
  refine ⟨?_, ?_, ?_, ?_⟩
  · intro i j a b c
    rw [he i a (by omega), he j (by omega) c]
    exact h1 i j a b c
  · intro i j a b c
    rw [he i a (by omega), he j (by omega) c]
    exact h2 i j a b c
  · intro i j k a b c d
    rw [he i a (by omega), he j (by omega) (by omega), he k (by omega) d]
    exact h3 i j k a b c d
  · intro i j a b c
    rw [he i a (by omega), he j (by omega) c]
    exact h4 i j a b c

/-- A chain keeps its properties when its positions are shifted. -/
theorem StrictChain.shift {sg : Number} {P R : Point} {o o' : Nat → Point} {n : Nat}
    (h : StrictChain sg P R o 0 n) (d : Nat) (he : ∀ i, i < n → o' (d + i) = o i) :
    StrictChain sg P R o' d (d + n) := by
  obtain ⟨h1, h2, h3, h4⟩ := h
  have key : ∀ i, d ≤ i → i < d + n → o' i = o (i - d) := by
    intro i a b
    have := he (i - d) (by omega)
    rw [← this]
    congr 1
    omega
  refine ⟨?_, ?_, ?_, ?_⟩
  · intro i j a b c
    rw [key i a (by omega), key j (by omega) c]
    exact h1 _ _ (Nat.zero_le _) (by omega) (by omega)
  · intro i j a b c
    rw [key i a (by omega), key j (by omega) c]
    exact h2 _ _ (Nat.zero_le _) (by omega) (by omega)
  · intro i j k a b c e
    rw [key i a (by omega), key j (by omega) (by omega), key k (by omega) e]
    exact h3 _ _ _ (Nat.zero_le _) (by omega) (by omega) (by omega)
  · intro i j a b c
    rw [key i a (by omega), key j (by omega) c]
    exact h4 _ _ (Nat.zero_le _) (by omega) (by omega)

theorem strictChain_short (sg : Number) (P R : Point) (o : Nat → Point) (lo hi : Nat)
    (h : hi ≤ lo + 1) : StrictChain sg P R o lo hi := by
  refine ⟨?_, ?_, ?_, ?_⟩
  · intro i j a b c; omega
  · intro i j a b c; omega
  · intro i j k a b c d; omega
  · intro i j a b c; omega

/-- Joining the chains of the two recursive calls of the out-of-place `findHull` at the
furthest point `F`: the joined chain from `P` to `R` turns counterclockwise at every triple. -/
theorem strictChain_join (sg : Number) (hsg : sg = 1 ∨ sg = -1) (P R F : Point)
    (o : Nat → Point) (lo c1 hi : Nat)
    (hK : cross P R F < 0) (hFP : 0 ≤ sg * (F.x - P.x)) (hRF : 0 ≤ sg * (R.x - F.x))
    (hF : o c1 = F)
    (h1 : StrictChain sg P F o lo c1) (h2 : StrictChain sg F R o (c1 + 1) hi)
    (hG1 : ∀ i, lo ≤ i → i < c1 →
      cross P F (o i) < 0 ∧ 0 ≤ sg * ((o i).x - P.x) ∧ 0 ≤ sg * (F.x - (o i).x) ∧
      NotFurther P R F (o i))
    (hG3 : ∀ k, c1 < k → k < hi →
      cross F R (o k) < 0 ∧ 0 ≤ sg * ((o k).x - F.x) ∧ 0 ≤ sg * (R.x - (o k).x) ∧
      NotFurther P R F (o k)) : StrictChain sg P R o lo hi := by
  obtain ⟨p1, r1, t1, m1⟩ := h1
  obtain ⟨p2, r2, t2, m2⟩ := h2
  have hK' : cross R F P < 0 := by rw [cross_rotate]; exact hK
  have xs1 : ∀ i, lo ≤ i → i < c1 → 0 ≤ sg * (F.x - (o i).x) :=
    fun i a b => (hG1 i a b).2.2.1
  have xs3 : ∀ k, c1 < k → k < hi → 0 ≤ sg * ((o k).x - F.x) :=
    fun k a b => (hG3 k a b).2.1
  have py : ∀ i, lo ≤ i → i < c1 → 0 < cross P (o i) F := by
    intro i a b
    rw [cross_swap_last P F (o i)]
    linarith [(hG1 i a b).1]
  have jn : ∀ i, lo ≤ i → i < c1 → 0 < cross (o i) F R := by
    intro i a b
    obtain ⟨q1, _, _, q4, _⟩ := hG1 i a b
    exact junction_near P R F (o i) hK q1 q4
  have zr : ∀ k, c1 < k → k < hi → 0 < cross F (o k) R := by
    intro k a b
    rw [cross_swap_last F R (o k)]
    linarith [(hG3 k a b).1]
  have pz : ∀ k, c1 < k → k < hi → 0 < cross P F (o k) := by
    intro k a b
    obtain ⟨q1, _, _, q4, _⟩ := hG3 k a b
    have := junction_antipole R P F (o k) hK' (by rw [cross_rotate]; exact q1)
      (by rw [sqDist_symm (o k) R P, sqDist_symm F R P]; exact q4)
    have e : cross P F (o k) = - cross (o k) F P := by unfold cross; ring
    rw [e]
    linarith
  have jw : ∀ i k, lo ≤ i → i < c1 → c1 < k → k < hi → 0 < cross (o i) F (o k) := by
    intro i k a b c d
    obtain ⟨y1, _, _, y4, y5⟩ := hG1 i a b
    obtain ⟨z1, _, _, z4, z5⟩ := hG3 k c d
    have := junction_pair (-sg) (neg_sg_cases sg hsg) R P F (o k) (o i) hK'
      (by rw [cross_rotate]; exact z1) (by rw [cross_rotate]; exact y1)
      (by rw [sqDist_symm (o k) R P, sqDist_symm F R P]; exact z4)
      (by rw [sqDist_symm (o i) R P, sqDist_symm F R P]; exact y4)
      (by rw [sqDist_symm (o k) R P, sqDist_symm F R P]; exact z5)
      (by rw [sqDist_symm (o i) R P, sqDist_symm F R P]; exact y5)
      (by have : -sg * (F.x - R.x) = sg * (R.x - F.x) := by ring
          rw [this]; exact hRF)
      (by have : -sg * (P.x - F.x) = sg * (F.x - P.x) := by ring
          rw [this]; exact hFP)
    have e : cross (o i) F (o k) = - cross (o k) F (o i) := by unfold cross; ring
    rw [e]
    linarith
  have mm := mono_join sg F o lo c1 hi hF m1 m2 xs1 xs3
  refine ⟨?_, ?_, ?_, mm⟩
  · intro i j hi1 hij hj
    by_cases hjc : j < c1
    · exact p1 i j hi1 hij hjc
    by_cases hjc' : j = c1
    · rw [hjc', hF]
      exact py i hi1 (by omega)
    by_cases hic : i < c1
    · exact ccw_strict_left sg hsg P (o i) F (o j) (hG1 i hi1 hic).2.1 (xs1 i hi1 hic)
        (xs3 j (by omega) hj) (py i hi1 hic) (jw i j hi1 hic (by omega) hj)
    by_cases hic' : i = c1
    · rw [hic', hF]
      exact pz j (by omega) hj
    · exact ccw_strict_right sg hsg P F (o i) (o j) hFP (xs3 i (by omega) (by omega))
        (m2 i j (by omega) hij hj) (pz i (by omega) (by omega)) (p2 i j (by omega) hij hj)
  · intro i j hi1 hij hj
    by_cases hic : c1 < i
    · exact r2 i j (by omega) hij hj
    by_cases hic' : i = c1
    · rw [hic', hF]
      exact zr j (by omega) hj
    by_cases hjc : j < c1
    · exact ccw_strict_left sg hsg (o i) (o j) F R (m1 i j hi1 hij hjc) (xs1 j (by omega) hjc)
        hRF (r1 i j hi1 hij hjc) (jn j (by omega) hjc)
    by_cases hjc' : j = c1
    · rw [hjc', hF]
      exact jn i hi1 (by omega)
    · exact ccw_strict_right sg hsg (o i) F (o j) R (xs1 i hi1 (by omega))
        (xs3 j (by omega) hj) (hG3 j (by omega) hj).2.2.1
        (jw i j hi1 (by omega) (by omega) hj) (zr j (by omega) hj)
  · intro i j k hi1 hij hjk hk
    by_cases hkc : k < c1
    · exact t1 i j k hi1 hij hjk hkc
    by_cases hkc' : k = c1
    · rw [hkc', hF]
      exact r1 i j hi1 hij (by omega)
    by_cases hjc : j < c1
    · exact ccw_strict_left sg hsg (o i) (o j) F (o k) (m1 i j hi1 hij hjc)
        (xs1 j (by omega) hjc) (xs3 k (by omega) hk) (r1 i j hi1 hij hjc)
        (jw j k (by omega) hjc (by omega) hk)
    by_cases hjc' : j = c1
    · rw [hjc', hF]
      exact jw i k hi1 (by omega) (by omega) hk
    by_cases hic : i < c1
    · exact ccw_strict_right sg hsg (o i) F (o j) (o k) (xs1 i hi1 hic)
        (xs3 j (by omega) (by omega)) (m2 j k (by omega) hjk hk)
        (jw i j hi1 hic (by omega) (by omega)) (p2 j k (by omega) hjk hk)
    by_cases hic' : i = c1
    · rw [hic', hF]
      exact p2 j k (by omega) hjk hk
    · exact t2 i j k (by omega) hij hjk hk

/-! ### The out-of-place `findHull` -/

theorem outOfPlace_findHull_general (fuel : Nat) (s : PointSequence) (P R : Point)
    (acc : List Point) (loc : Nat) (h : 2 ≤ s.length) (acc1 : List Point)
    (h1 : OutOfPlace.findHull fuel
      (if loc = OutOfPlace.LOWER then
        OutOfPlace.splitLower P R
          (deref s (OutOfPlace.furthestIndexLoop s P R s.length 0 0 0)) s [] []
       else OutOfPlace.splitUpper P R
          (deref s (OutOfPlace.furthestIndexLoop s P R s.length 0 0 0)) s [] []).1
      P (deref s (OutOfPlace.furthestIndexLoop s P R s.length 0 0 0)) acc loc = some acc1) :
    OutOfPlace.findHull (fuel + 1) s P R acc loc =
      OutOfPlace.findHull fuel
        (if loc = OutOfPlace.LOWER then
          OutOfPlace.splitLower P R
            (deref s (OutOfPlace.furthestIndexLoop s P R s.length 0 0 0)) s [] []
         else OutOfPlace.splitUpper P R
            (deref s (OutOfPlace.furthestIndexLoop s P R s.length 0 0 0)) s [] []).2
        (deref s (OutOfPlace.furthestIndexLoop s P R s.length 0 0 0)) R
        (acc1 ++ [deref s (OutOfPlace.furthestIndexLoop s P R s.length 0 0 0)]) loc := by
  have e0 : ¬ s.length = 0 := by omega
  have e1 : ¬ s.length = 1 := by omega
  simp only [OutOfPlace.findHull, e0, e1, if_false, h1]

theorem deref_append_mid (out1 out2 : List Point) (F : Point) :
    deref (out1 ++ F :: out2) out1.length = F ∧
    ∀ i, i < out2.length → deref (out1 ++ F :: out2) (out1.length + 1 + i) = deref out2 i := by
  unfold deref
  constructor
  · rw [List.getD_eq_getElem _ _ (by rw [List.length_append]; simp),
      List.getElem_append_right (le_refl _)]
    simp
  · intro i hi
    rw [List.getD_eq_getElem _ _ (by rw [List.length_append]; simp; omega),
      List.getD_eq_getElem _ _ hi, List.getElem_append_right (by omega)]
    have e : out1.length + 1 + i - out1.length = i + 1 := by omega
    simp only [e, List.getElem_cons_succ]

/-- The output of the out-of-place `findHull`. When every point of the sequence is strictly
right of the directed line from `P` to `R` and between them in x-direction, the call returns,
appends to `ccwPointSeq` a chain of points of the sequence that, from `P` to `R`, turns
counterclockwise at every triple and is monotone in x, and appends at least one point when the
sequence is not empty. -/
theorem outOfPlace_findHull_strict : ∀ (fuel : Nat) (s : PointSequence) (P R : Point)
    (acc : List Point) (loc : Nat), s.length < fuel →
    (∀ c ∈ s, RightCand (OutOfPlace.sideSign loc) P R c) →
    ∃ out, OutOfPlace.findHull fuel s P R acc loc = some (acc ++ out) ∧
      (s ≠ [] → out ≠ []) ∧ (∀ c ∈ out, c ∈ s) ∧
      StrictChain (OutOfPlace.sideSign loc) P R (deref out) 0 out.length := by
  intro fuel
  induction fuel with
  | zero => intro s P R acc loc h; omega
  | succ fuel ih =>
    intro s P R acc loc hfuel hInv
    have hsg := outOfPlace_sideSign_cases loc
    by_cases h0 : s.length = 0
    · refine ⟨[], by simp [OutOfPlace.findHull, h0], ?_, ?_, strictChain_short _ _ _ _ _ _
        (by simp)⟩
      · intro hne
        exact absurd (List.length_eq_zero.mp h0) hne
      · intro c hc
        exact absurd hc (List.not_mem_nil _)
    by_cases h1 : s.length = 1
    · refine ⟨[deref s 0], by simp [OutOfPlace.findHull, h1], fun _ => List.cons_ne_nil _ _,
        ?_, strictChain_short _ _ _ _ _ _ (by simp)⟩
      intro c hc
      rw [List.mem_singleton] at hc
      rw [hc]
      exact deref_mem s 0 (by omega)
    obtain ⟨hidx, hNF⟩ := furthestIndex_spec s P R (by omega)
    have hFs := deref_mem s _ hidx
    obtain ⟨spec1, spec2, speclen⟩ := split_spec loc P R
      (deref s (OutOfPlace.furthestIndexLoop s P R s.length 0 0 0)) s _ rfl
    obtain ⟨len1, len2⟩ := speclen hFs
    have hgen := outOfPlace_findHull_general fuel s P R acc loc (by omega)
    generalize (if loc = OutOfPlace.LOWER then
        OutOfPlace.splitLower P R
          (deref s (OutOfPlace.furthestIndexLoop s P R s.length 0 0 0)) s [] []
       else OutOfPlace.splitUpper P R
          (deref s (OutOfPlace.furthestIndexLoop s P R s.length 0 0 0)) s [] []) = r
      at spec1 spec2 len1 len2 hgen
    generalize deref s (OutOfPlace.furthestIndexLoop s P R s.length 0 0 0) = F
      at hNF hFs spec1 spec2 hgen
    obtain ⟨hK, hFP, hRF⟩ := hInv F hFs
    obtain ⟨out1, hc1, _, hm1, hS1⟩ := ih r.1 P F acc loc (by omega)
      (by
        intro c hc
        obtain ⟨q1, q2, q3⟩ := (spec1 c).mp hc
        exact ⟨q3, (hInv c q1).2.1, le_of_lt q2⟩)
    obtain ⟨out2, hc2, _, hm2, hS2⟩ := ih r.2 F R (acc ++ out1 ++ [F]) loc (by omega)
      (by
        intro c hc
        obtain ⟨q1, q2, q3⟩ := (spec2 c).mp hc
        exact ⟨q3, q2, (hInv c q1).2.2⟩)
    obtain ⟨e1, e2⟩ := deref_append_mid out1 out2 F
    refine ⟨out1 ++ F :: out2, ?_, fun _ => by simp, ?_, ?_⟩
    · rw [hgen (acc ++ out1) hc1, hc2]
      simp
    · intro c hc
      rcases List.mem_append.mp hc with h | h
      · exact ((spec1 c).mp (hm1 c h)).1
      · rcases List.mem_cons.mp h with h | h
        · rw [h]; exact hFs
        · exact ((spec2 c).mp (hm2 c h)).1
    · have hlen : (out1 ++ F :: out2).length = out1.length + 1 + out2.length := by
        rw [List.length_append, List.length_cons]
        omega
      rw [hlen]
      apply strictChain_join (OutOfPlace.sideSign loc) hsg P R F (deref (out1 ++ F :: out2)) 0
        out1.length (out1.length + 1 + out2.length) hK hFP hRF e1
      · exact hS1.transport (fun i _ hi => deref_append_left out1 (F :: out2) i hi)
      · exact hS2.shift (out1.length + 1) e2
      · intro i _ hi
        rw [deref_append_left out1 (F :: out2) i hi]
        have hmem := hm1 _ (deref_mem out1 i hi)
        obtain ⟨q1, q2, q3⟩ := (spec1 _).mp hmem
        exact ⟨q3, (hInv _ q1).2.1, le_of_lt q2, hNF _ q1⟩
      · intro k hk1 hk2
        have e : k = out1.length + 1 + (k - out1.length - 1) := by omega
        rw [e, e2 _ (by omega)]
        have hmem := hm2 _ (deref_mem out2 (k - out1.length - 1) (by omega))
        obtain ⟨q1, q2, q3⟩ := (spec2 _).mp hmem
        exact ⟨q3, q2, (hInv _ q1).2.2, hNF _ q1⟩

end QuickHull

namespace QuickHull

open Orientation

/-! ### The out-of-place `ConvexHullQuickHull` -/

theorem Point.gt_iff_lt (a b : Point) : a.gt b = true ↔ b.lt a = true := by
  rw [Point.gt_iff, Point.lt_iff]
  constructor
  · rintro (h | ⟨h1, h2⟩)
    · exact Or.inl h
    · exact Or.inr ⟨h1.symm, h2⟩
  · rintro (h | ⟨h1, h2⟩)
    · exact Or.inl h
    · exact Or.inr ⟨h1.symm, h2⟩

/-- The scan of `ConvexHullQuickHull` for the two extreme points keeps the smallest and the
largest point seen so far. -/
theorem extremesLoop_spec (s : PointSequence) : ∀ (k i : Nat) (l r : Point),
    i + k = s.length → l ∈ s → r ∈ s → ¬ r.lt l = true →
    (∀ j, j < i → ¬ (deref s j).lt l = true ∧ ¬ r.lt (deref s j) = true) →
    (extremesLoop s k i l r).1 ∈ s ∧ (extremesLoop s k i l r).2 ∈ s ∧
    ∀ j, j < s.length → ¬ (deref s j).lt (extremesLoop s k i l r).1 = true ∧
      ¬ (extremesLoop s k i l r).2.lt (deref s j) = true := by
  intro k
  induction k with
  | zero =>
    intro i l r hi hl hr hlr hinv
    simp only [extremesLoop]
    exact ⟨hl, hr, fun j hj => hinv j (by omega)⟩
  | succ k ih =>
    intro i l r hi hl hr hlr hinv
    have hmem := deref_mem s i (by omega)
    simp only [extremesLoop]
    by_cases h1 : (deref s i).lt l = true
    · rw [if_pos h1]
      apply ih (i + 1) _ _ (by omega) hmem hr
      · intro hcon
        exact hlr (Point.lt_trans hcon h1)
      · intro j hj
        by_cases hji : j = i
        · rw [hji]
          refine ⟨by rw [Point.lt_irrefl]; exact Bool.false_ne_true, ?_⟩
          intro hcon
          exact hlr (Point.lt_trans hcon h1)
        · obtain ⟨a1, a2⟩ := hinv j (by omega)
          exact ⟨fun hcon => a1 (Point.lt_trans hcon h1), a2⟩
    · rw [if_neg h1]
      by_cases h2 : (deref s i).gt r = true
      · rw [if_pos h2]
        have h2' := (Point.gt_iff_lt _ _).mp h2
        apply ih (i + 1) _ _ (by omega) hl hmem h1
        intro j hj
        by_cases hji : j = i
        · rw [hji]
          exact ⟨h1, by rw [Point.lt_irrefl]; exact Bool.false_ne_true⟩
        · obtain ⟨a1, a2⟩ := hinv j (by omega)
          exact ⟨a1, fun hcon => a2 (Point.lt_trans h2' hcon)⟩
      · rw [if_neg h2]
        have h2' : ¬ r.lt (deref s i) = true := fun hcon => h2 ((Point.gt_iff_lt _ _).mpr hcon)
        apply ih (i + 1) _ _ (by omega) hl hr hlr
        intro j hj
        by_cases hji : j = i
        · rw [hji]
          exact ⟨h1, h2'⟩
        · exact hinv j (by omega)

theorem sideLoop_eq (W E : Point) : ∀ (l : List Point) (ab be : PointSequence),
    sideLoop W E l ab be
      = (ab ++ l.filter (fun c => decide (getOrientation W E c = COUNTERCLOCKWISE)),
        be ++ l.filter (fun c => decide (getOrientation W E c = CLOCKWISE))) := by
  intro l
  induction l with
  | nil => intro ab be; simp [sideLoop]
  | cons c rest ih =>
    intro ab be
    simp only [sideLoop]
    by_cases h1 : getOrientation W E c = COUNTERCLOCKWISE
    · have h2 : ¬ getOrientation W E c = CLOCKWISE := by rw [h1]; decide
      rw [if_pos h1, ih]
      simp [List.filter_cons, h1]
    · by_cases h2 : getOrientation W E c = CLOCKWISE
      · rw [if_neg h1, if_pos h2, ih]
        simp [List.filter_cons, h2]
      · rw [if_neg h1, if_neg h2, ih]
        simp [List.filter_cons, h1, h2]

/-- `ConvexHullQuickHull` on an accepted sequence, unfolded once. -/
theorem outOfPlace_accepted (s : PointSequence)
    (h : PointSequenceFulfillsMinimalRequirements s = true) (W E : Point)
    (he : extremesLoop s (s.length - 1) 1 (deref s 0) (deref s 0) = (W, E))
    (ab be : PointSequence) (hside : sideLoop W E s [] [] = (ab, be)) (acc1 : List Point)
    (h1 : OutOfPlace.findHull (s.length + 1) be W E [W] OutOfPlace.LOWER = some acc1) :
    ConvexHullQuickHull s
      = OutOfPlace.findHull (s.length + 1) ab E W (acc1 ++ [E]) OutOfPlace.UPPER := by
  simp only [ConvexHullQuickHull, h, Bool.not_true, Bool.false_eq_true, if_false, he, hside, h1]

/-- A point on the other side of the base of a monotone chain that turns counterclockwise, and
between the end points of the base in x-direction, is counterclockwise of every edge of the
chain. -/
theorem opposite_side_ccw (sg : Number) (P R a b z : Point) (hPR : 0 < sg * (R.x - P.x))
    (hz : 0 < cross P R z) (hzR : 0 ≤ sg * (R.x - z.x)) (hzP : 0 ≤ sg * (z.x - P.x))
    (hab : 0 ≤ sg * (b.x - a.x)) (hP : 0 ≤ cross a b P) (hR : 0 ≤ cross a b R)
    (hs : (0 < sg * (R.x - z.x) ∧ 0 < cross a b P) ∨ (0 < sg * (z.x - P.x) ∧ 0 < cross a b R)
      ∨ 0 < sg * (b.x - a.x)) : 0 < cross a b z := by
  have hid : sg * (R.x - P.x) * cross a b z
      = sg * (R.x - z.x) * cross a b P + sg * (z.x - P.x) * cross a b R
        + sg * (b.x - a.x) * cross P R z := by
    unfold cross; ring
  have t1 := mul_nonneg hzR hP
  have t2 := mul_nonneg hzP hR
  have t3 := mul_nonneg hab (le_of_lt hz)
  have hsum : 0 < sg * (R.x - P.x) * cross a b z := by
    rw [hid]
    rcases hs with ⟨s1, s2⟩ | ⟨s1, s2⟩ | s1
    · have := mul_pos s1 s2
      linarith
    · have := mul_pos s1 s2
      linarith
    · have := mul_pos s1 hz
      linarith
  by_contra hneg
  have := mul_nonpos_of_nonneg_of_nonpos (le_of_lt hPR) (not_lt.mp hneg)
  linarith

/-- Closing the two chains of `ConvexHullQuickHull`: the smallest point `W`, the chain below
the line from `W` to the largest point `E`, then `E` and the chain above the line turn
counterclockwise at any three of their points taken in order. -/
theorem strictChain_close (W E : Point) (o : Nat → Point) (c1 c2 : Nat) (hWE : W.x < E.x)
    (hc1 : 1 ≤ c1) (hW : o 0 = W) (hE : o c1 = E)
    (hL : StrictChain 1 W E o 1 c1) (hU : StrictChain (-1) E W o (c1 + 1) c2)
    (hl : ∀ i, 1 ≤ i → i < c1 → cross W E (o i) < 0 ∧ W.x < (o i).x ∧ (o i).x ≤ E.x)
    (hu : ∀ k, c1 < k → k < c2 → 0 < cross W E (o k) ∧ W.x ≤ (o k).x ∧ (o k).x < E.x) :
    ∀ i j k, i < j → j < k → k < c2 → 0 < cross (o i) (o j) (o k) := by
  obtain ⟨pL, rL, tL, mL⟩ := hL
  obtain ⟨pU, rU, tU, mU⟩ := hU
  have hPR : 0 < (1 : Number) * (E.x - W.x) := by linarith
  have hPR' : 0 < (-1 : Number) * (W.x - E.x) := by linarith
  have lf : ∀ i, 1 ≤ i → i < c1 → 0 < cross W (o i) E := by
    intro i a b
    rw [cross_swap_last W E (o i)]
    linarith [(hl i a b).1]
  intro i j k hij hjk hk
  by_cases hkc : k < c1
  · by_cases hi0 : i = 0
    · rw [hi0, hW]
      exact pL j k (by omega) hjk hkc
    · exact tL i j k (by omega) hij hjk hkc
  by_cases hkc' : k = c1
  · rw [hkc', hE]
    by_cases hi0 : i = 0
    · rw [hi0, hW]
      exact lf j (by omega) (by omega)
    · exact rL i j (by omega) hij (by omega)
  obtain ⟨u1, u2, u3⟩ := hu k (by omega) hk
  by_cases hjc : j < c1
  · obtain ⟨l1, l2, l3⟩ := hl j (by omega) hjc
    by_cases hi0 : i = 0
    · rw [hi0, hW]
      exact opposite_side_ccw 1 W E W (o j) (o k) hPR u1 (by linarith) (by linarith)
        (by linarith) (by rw [cross_self_right]) (le_of_lt (lf j (by omega) hjc))
        (Or.inr (Or.inr (by linarith)))
    · have hp : 0 < cross (o i) (o j) W := by
        rw [cross_rotate]
        exact pL i j (by omega) hij hjc
      exact opposite_side_ccw 1 W E (o i) (o j) (o k) hPR u1 (by linarith) (by linarith)
        (mL i j (by omega) hij hjc) (le_of_lt hp) (le_of_lt (rL i j (by omega) hij hjc))
        (Or.inl ⟨by linarith, hp⟩)
  by_cases hjc' : j = c1
  · rw [hjc', hE]
    by_cases hi0 : i = 0
    · rw [hi0, hW]
      exact u1
    · obtain ⟨l1, l2, l3⟩ := hl i (by omega) (by omega)
      have hp : 0 < cross (o i) E W := by
        rw [cross_rotate]
        exact lf i (by omega) (by omega)
      exact opposite_side_ccw 1 W E (o i) E (o k) hPR u1 (by linarith) (by linarith)
        (by linarith) (le_of_lt hp) (by rw [cross_self_last]) (Or.inl ⟨by linarith, hp⟩)
  by_cases hi0 : i = 0
  · rw [hi0, hW, ← cross_rotate W (o j) (o k)]
    exact rU j k (by omega) hjk hk
  by_cases hic : i < c1
  · obtain ⟨l1, l2, l3⟩ := hl i (by omega) hic
    have hp : 0 < cross (o j) (o k) E := by
      rw [cross_rotate]
      exact pU j k (by omega) hjk hk
    rw [← cross_rotate (o i) (o j) (o k)]
    exact opposite_side_ccw (-1) E W (o j) (o k) (o i) hPR'
      (by rw [cross_rotate, cross_rotate]; exact lf i (by omega) hic) (by linarith)
      (by linarith) (mU j k (by omega) hjk hk) (le_of_lt hp)
      (le_of_lt (rU j k (by omega) hjk hk)) (Or.inl ⟨by linarith, hp⟩)
  by_cases hic' : i = c1
  · rw [hic', hE]
    exact pU j k (by omega) hjk hk
  · exact tU i j k (by omega) hij hjk hk

/-- In a sequence of three or more points that turns counterclockwise at every triple taken in
order, every three cyclically consecutive points turn counterclockwise. -/
theorem cyclic_of_strict (t : List Point) (hn : 3 ≤ t.length)
    (h : ∀ i j k, i < j → j < k → k < t.length →
      0 < cross (deref t i) (deref t j) (deref t k)) :
    ∀ i, i < t.length →
      getOrientation (deref t i) (deref t ((i + 1) % t.length)) (deref t ((i + 2) % t.length))
        = COUNTERCLOCKWISE := by
  intro i hi
  rw [orientation_ccw_iff]
  by_cases c1 : i + 2 < t.length
  · rw [Nat.mod_eq_of_lt (by omega : i + 1 < t.length), Nat.mod_eq_of_lt c1]
    exact h i (i + 1) (i + 2) (by omega) (by omega) c1
  by_cases c2 : i + 2 = t.length
  · rw [Nat.mod_eq_of_lt (by omega : i + 1 < t.length), c2, Nat.mod_self, cross_rotate]
    exact h 0 i (i + 1) (by omega) (by omega) (by omega)
  · have c4 : i + 1 = t.length := by omega
    have e2 : (i + 2) % t.length = 1 % t.length := by
      have : i + 2 = 1 + t.length := by omega
      rw [this, Nat.add_mod_right]
    rw [c4, Nat.mod_self, e2, Nat.mod_eq_of_lt (by omega : 1 < t.length),
      ← cross_rotate (deref t i) (deref t 0) (deref t 1)]
    exact h 0 1 i (by omega) (by omega) hi

theorem outOfPlace_sideSign_lower : OutOfPlace.sideSign OutOfPlace.LOWER = 1 := by
  simp [OutOfPlace.sideSign]

theorem outOfPlace_sideSign_upper : OutOfPlace.sideSign OutOfPlace.UPPER = -1 := by
  simp [OutOfPlace.sideSign, OutOfPlace.LOWER, OutOfPlace.UPPER]

theorem deref_cons_succ (c : Point) (l : List Point) (i : Nat) :
    deref (c :: l) (i + 1) = deref l i := by
  unfold deref
  simp [List.getD]

/-- The output of `ConvexHullQuickHull` on a sequence that meets the minimal requirements: it
starts with the lexicographically smallest point of the input, has three or more points, and
turns counterclockwise at every three of its points taken in order. -/
theorem outOfPlace_strict_positions (s : PointSequence)
    (h : PointSequenceFulfillsMinimalRequirements s = true) :
    ∃ out, ConvexHullQuickHull s = some out ∧ 3 ≤ out.length ∧ deref out 0 ∈ s ∧
      (∀ p ∈ s, ¬ p.lt (deref out 0) = true) ∧
      ∀ i j k, i < j → j < k → k < out.length →
        0 < cross (deref out i) (deref out j) (deref out k) := by
  have hn := length_of_minimalRequirements s h
  have h0mem := deref_mem s 0 (by omega)
  obtain ⟨hWm, hEm, hlex⟩ := extremesLoop_spec s (s.length - 1) 1 (deref s 0) (deref s 0)
    (by omega) h0mem h0mem (by rw [Point.lt_irrefl]; exact Bool.false_ne_true)
    (by
      intro j hj
      have : j = 0 := by omega
      rw [this, Point.lt_irrefl]
      exact ⟨Bool.false_ne_true, Bool.false_ne_true⟩)
  obtain ⟨W, E, he⟩ : ∃ W E, extremesLoop s (s.length - 1) 1 (deref s 0) (deref s 0) = (W, E) :=
    ⟨_, _, rfl⟩
  rw [he] at hWm hEm hlex
  simp only at hWm hEm hlex
  have hWE : W.x < E.x := poles_x_lt s h W E hlex (exists_pos_of_mem s W hWm)
  have hlexm : ∀ c ∈ s, ¬ c.lt W = true ∧ ¬ E.lt c = true := by
    intro c hc
    obtain ⟨i, hi, rfl⟩ := exists_pos_of_mem s c hc
    exact hlex i hi
  have hside := sideLoop_eq W E s [] []
  simp only [List.nil_append] at hside
  obtain ⟨ab, hab⟩ : ∃ ab, ab = s.filter
    (fun c => decide (getOrientation W E c = COUNTERCLOCKWISE)) := ⟨_, rfl⟩
  obtain ⟨be, hbe⟩ : ∃ be, be = s.filter
    (fun c => decide (getOrientation W E c = CLOCKWISE)) := ⟨_, rfl⟩
  rw [← hab, ← hbe] at hside
  have hbm : ∀ c, c ∈ be → c ∈ s ∧ cross W E c < 0 := by
    intro c hc
    rw [hbe, List.mem_filter, decide_eq_true_iff, orientation_cw_iff] at hc
    exact hc
  have ham : ∀ c, c ∈ ab → c ∈ s ∧ 0 < cross W E c := by
    intro c hc
    rw [hab, List.mem_filter, decide_eq_true_iff, orientation_ccw_iff] at hc
    exact hc
  have hblen : be.length ≤ s.length := by rw [hbe]; exact List.length_filter_le _ _
  have halen : ab.length ≤ s.length := by rw [hab]; exact List.length_filter_le _ _
  -- some point is off the line through the two extreme points
  have hoff : be ≠ [] ∨ ab ≠ [] := by
    by_contra hcon
    push_neg at hcon
    obtain ⟨hb0, ha0⟩ := hcon
    have hline : OnCommonLine s := by
      refine ⟨-(E.y - W.y), E.x - W.x, -(E.y - W.y) * W.x + (E.x - W.x) * W.y,
        Or.inr (by linarith), ?_⟩
      intro c hc
      have hcw : ¬ getOrientation W E c = CLOCKWISE := by
        intro hcon
        have : c ∈ be := by
          rw [hbe, List.mem_filter, decide_eq_true_iff]
          exact ⟨hc, hcon⟩
        rw [hb0] at this
        exact absurd this (List.not_mem_nil _)
      have hccw : ¬ getOrientation W E c = COUNTERCLOCKWISE := by
        intro hcon
        have : c ∈ ab := by
          rw [hab, List.mem_filter, decide_eq_true_iff]
          exact ⟨hc, hcon⟩
        rw [ha0] at this
        exact absurd this (List.not_mem_nil _)
      rw [orientation_cw_iff] at hcw
      rw [orientation_ccw_iff] at hccw
      have h0 : cross W E c = 0 := le_antisymm (not_lt.mp hccw) (not_lt.mp hcw)
      unfold cross at h0
      linarith
    have := minimalRequirements_false_of_degenerate s (Or.inr hline)
    rw [h] at this
    exact Bool.noConfusion this
  obtain ⟨out1, hc1, hne1, hm1, hS1⟩ := outOfPlace_findHull_strict (s.length + 1) be W E [W]
    OutOfPlace.LOWER (by omega)
    (by
      intro c hc
      obtain ⟨q1, q2⟩ := hbm c hc
      obtain ⟨l1, l2⟩ := hlexm c q1
      have a1 := x_le_of_not_lt _ _ l1
      have a2 := x_le_of_not_lt _ _ l2
      rw [outOfPlace_sideSign_lower]
      exact ⟨q2, by linarith, by linarith⟩)
  obtain ⟨out2, hc2, hne2, hm2, hS2⟩ := outOfPlace_findHull_strict (s.length + 1) ab E W
    ([W] ++ out1 ++ [E]) OutOfPlace.UPPER (by omega)
    (by
      intro c hc
      obtain ⟨q1, q2⟩ := ham c hc
      obtain ⟨l1, l2⟩ := hlexm c q1
      have a1 := x_le_of_not_lt _ _ l1
      have a2 := x_le_of_not_lt _ _ l2
      have e : cross E W c = - cross W E c := by unfold cross; ring
      rw [outOfPlace_sideSign_upper]
      exact ⟨by rw [e]; linarith, by linarith, by linarith⟩)
  rw [outOfPlace_sideSign_lower] at hS1
  rw [outOfPlace_sideSign_upper] at hS2
  have hres : ConvexHullQuickHull s = some (W :: (out1 ++ E :: out2)) := by
    rw [outOfPlace_accepted s h W E he ab be hside ([W] ++ out1) hc1, hc2]
    simp
  obtain ⟨e1, e2⟩ := deref_append_mid out1 out2 E
  have hlen : (W :: (out1 ++ E :: out2)).length = out1.length + 1 + (1 + out2.length) := by
    simp only [List.length_cons, List.length_append]
    omega
  have hlen1 : 0 < out1.length ∨ 0 < out2.length := by
    rcases hoff with hb | ha
    · exact Or.inl (List.length_pos.mpr (hne1 hb))
    · exact Or.inr (List.length_pos.mpr (hne2 ha))
  have hW0 : deref (W :: (out1 ++ E :: out2)) 0 = W := by
    unfold deref
    simp
  refine ⟨W :: (out1 ++ E :: out2), hres, by rw [hlen]; omega, by rw [hW0]; exact hWm, ?_, ?_⟩
  · intro p hp
    rw [hW0]
    exact (hlexm p hp).1
  · rw [hlen]
    have hEpos : deref (W :: (out1 ++ E :: out2)) (out1.length + 1) = E := by
      rw [deref_cons_succ]
      exact e1
    have hLpos : ∀ i, i < out1.length →
        deref (W :: (out1 ++ E :: out2)) (1 + i) = deref out1 i := by
      intro i hi
      rw [Nat.add_comm, deref_cons_succ, deref_append_left out1 (E :: out2) i hi]
    have hUpos : ∀ i, i < out2.length →
        deref (W :: (out1 ++ E :: out2)) (out1.length + 1 + 1 + i) = deref out2 i := by
      intro i hi
      have e : out1.length + 1 + 1 + i = (out1.length + 1 + i) + 1 := by omega
      rw [e, deref_cons_succ]
      exact e2 i hi
    have hclose := strictChain_close W E (deref (W :: (out1 ++ E :: out2))) (out1.length + 1)
      (out1.length + 1 + (1 + out2.length)) hWE (by omega) hW0 hEpos
      (by
        have := hS1.shift 1 hLpos
        rw [Nat.add_comm 1 out1.length] at this
        exact this)
      (by
        have := hS2.shift (out1.length + 1 + 1) hUpos
        rw [Nat.add_assoc (out1.length + 1) 1 out2.length] at this
        exact this)
      (by
        intro i hi1 hi2
        have e : i = 1 + (i - 1) := by omega
        rw [e, hLpos _ (by omega)]
        obtain ⟨q1, q2⟩ := hbm _ (hm1 _ (deref_mem out1 (i - 1) (by omega)))
        obtain ⟨l1, l2⟩ := hlexm _ q1
        refine ⟨q2, ?_, x_le_of_not_lt _ _ l2⟩
        apply x_lt_of_left W E _ l1 l2
        rw [cross_swap_last W E _]
        linarith)
      (by
        intro k hk1 hk2
        have e : k = out1.length + 1 + 1 + (k - out1.length - 2) := by omega
        rw [e, hUpos _ (by omega)]
        obtain ⟨q1, q2⟩ := ham _ (hm2 _ (deref_mem out2 (k - out1.length - 2) (by omega)))
        obtain ⟨l1, l2⟩ := hlexm _ q1
        refine ⟨q2, x_le_of_not_lt _ _ l1, ?_⟩
        apply x_lt_of_right W E _ l1 l2
        rw [cross_swap_last W E _]
        linarith)
    exact hclose

end QuickHull

namespace QuickHull

open Orientation

/-- Claim C21. For a sequence that fails the minimal requirements `ConvexHullQuickHull`
returns the empty sequence. For a sequence that meets them it returns a sequence of three or
more points that starts with the lexicographically smallest point of the input and in which
`getOrientation u v w` is `COUNTERCLOCKWISE` for every three cyclically consecutive points
`u`, `v`, `w`; the successor of the last point is the first one. -/
theorem outOfPlace_counterclockwise (s : PointSequence) :
    (PointSequenceFulfillsMinimalRequirements s = false → ConvexHullQuickHull s = some []) ∧
    (PointSequenceFulfillsMinimalRequirements s = true →
      ∃ out, ConvexHullQuickHull s = some out ∧ 3 ≤ out.length ∧
        deref out 0 ∈ s ∧ (∀ p ∈ s, ¬ p.lt (deref out 0) = true) ∧
        ∀ i, i < out.length →
          getOrientation (deref out i) (deref out ((i + 1) % out.length))
            (deref out ((i + 2) % out.length)) = COUNTERCLOCKWISE) := by
  constructor
  · intro h
    simp [ConvexHullQuickHull, h]
  · intro h
    obtain ⟨out, hres, hlen, hmem, hmin, hT⟩ := outOfPlace_strict_positions s h
    exact ⟨out, hres, hlen, hmem, hmin, cyclic_of_strict out hlen hT⟩

/-- Claim C21 on three points of one line, which fail the minimal requirements, and on the
square with an interior point, which meets them. -/
theorem outOfPlace_counterclockwise_witness :
    ConvexHullQuickHull [⟨0, 0⟩, ⟨1, 1⟩, ⟨2, 2⟩] = some [] ∧
    ∃ out, ConvexHullQuickHull [⟨0, 0⟩, ⟨4, 0⟩, ⟨4, 4⟩, ⟨0, 4⟩, ⟨2, 2⟩] = some out ∧
      3 ≤ out.length ∧
      deref out 0 ∈ ([⟨0, 0⟩, ⟨4, 0⟩, ⟨4, 4⟩, ⟨0, 4⟩, ⟨2, 2⟩] : PointSequence) ∧
      (∀ p ∈ ([⟨0, 0⟩, ⟨4, 0⟩, ⟨4, 4⟩, ⟨0, 4⟩, ⟨2, 2⟩] : PointSequence),
        ¬ p.lt (deref out 0) = true) ∧
      ∀ i, i < out.length →
        getOrientation (deref out i) (deref out ((i + 1) % out.length))
          (deref out ((i + 2) % out.length)) = COUNTERCLOCKWISE :=
  ⟨(outOfPlace_counterclockwise [⟨0, 0⟩, ⟨1, 1⟩, ⟨2, 2⟩]).1 (by with_unfolding_all decide),
    (outOfPlace_counterclockwise [⟨0, 0⟩, ⟨4, 0⟩, ⟨4, 4⟩, ⟨0, 4⟩, ⟨2, 2⟩]).2
      (by with_unfolding_all decide)⟩

/-- The run of `ConvexHullQuickHull` on the square with an interior point: the four corners in
counterclockwise order from (0,0). -/
theorem outOfPlace_square_run :
    ConvexHullQuickHull [⟨0, 0⟩, ⟨4, 0⟩, ⟨4, 4⟩, ⟨0, 4⟩, ⟨2, 2⟩]
      = some [⟨0, 0⟩, ⟨4, 0⟩, ⟨4, 4⟩, ⟨0, 4⟩] := by
  with_unfolding_all decide

end QuickHull
namespace QuickHull

open Orientation

/-! ### Frames of `chain` and `findHullInPlace`, contracts of the two-way partitions -/

/-- A permutation of the positions of a range leaves the slice of the range the same multiset
of points. -/
theorem RangePerm.slice {lo hi : Nat} {a b : PointSequence} (h : RangePerm lo hi a b)
    (hhi : hi ≤ a.length) :
    ((b.drop lo).take (hi - lo)).Perm ((a.drop lo).take (hi - lo)) := by
  by_cases hlh : lo ≤ hi
  swap
  · have e0 : hi - lo = 0 := by omega
    rw [e0, List.take_zero, List.take_zero]
  obtain ⟨l, σ, f, e⟩ := h
  have fs : ∀ i, i < lo ∨ hi ≤ i → σ.symm i = i := by
    intro i hin
    exact (Equiv.symm_apply_eq σ).mpr (f i hin).symm
  apply slice_perm a b lo lo (hi - lo) (fun i => σ (lo + i) - lo)
    (fun i => σ.symm (lo + i) - lo)
  · intro i hin
    have := perm_maps_range σ lo hi f (lo + i) (by omega) (by omega)
    omega
  · intro i hin
    have := perm_maps_range σ.symm lo hi fs (lo + i) (by omega) (by omega)
    omega
  · intro i hin
    have h1 := perm_maps_range σ.symm lo hi fs (lo + i) (by omega) (by omega)
    have e1 : lo + (σ.symm (lo + i) - lo) = σ.symm (lo + i) := by omega
    rw [e1]
    simp
  · intro i hin
    have h1 := perm_maps_range σ lo hi f (lo + i) (by omega) (by omega)
    have e1 : lo + (σ (lo + i) - lo) = σ (lo + i) := by omega
    rw [e1]
    simp
  · omega
  · omega
  · intro i hin
    have h1 := perm_maps_range σ lo hi f (lo + i) (by omega) (by omega)
    have e1 : lo + (σ (lo + i) - lo) = σ (lo + i) := by omega
    rw [e1]
    exact e (lo + i)

/-- Claim C31. A call `chain(pole, past, antipole)` on a non-empty range `[pole, past)` of the
sequence with the antipole outside the range returns (with more fuel than the range has
points). The returned position `e` satisfies `pole < e ≤ past`, the point at `pole` is the same
as before, the range `[pole, past)` holds the same points as before as a multiset (the final
sequence arises by a permutation of the positions of the range), and every position outside
the range, in particular the antipole, holds the same point as before. -/
theorem chain_frame (fuel : Nat) (a : PointSequence) (pole past antipole : Nat)
    (hfuel : past - pole < fuel) (hne : pole < past) (hlen : past ≤ a.length)
    (hanti : antipole < pole ∨ past ≤ antipole) :
    ∃ a' e, chain fuel a pole past antipole = some (a', e) ∧
      pole < e ∧ e ≤ past ∧
      deref a' pole = deref a pole ∧
      RangePerm pole past a a' ∧
      ((a'.drop pole).take (past - pole)).Perm ((a.drop pole).take (past - pole)) ∧
      (∀ j, j < pole ∨ past ≤ j → deref a' j = deref a j) ∧
      deref a' antipole = deref a antipole := by
  obtain ⟨a', e, hres, hp, he1, he2⟩ := chain_struct fuel a pole past antipole hfuel hne hlen
    hanti
  have hp' : RangePerm pole past a a' := hp.mono (by omega) (le_refl _)
  exact ⟨a', e, hres, he1, he2, hp.frame pole (by omega), hp', hp'.slice hlen,
    fun j hj => hp'.frame j hj, hp'.frame antipole hanti⟩

/-- Claim C31 on the range `[0, 3)` with the antipole at position 3: the call returns 2, the
pole (0,0) keeps its place and so does the antipole (4,0). -/
theorem chain_frame_witness :
    ∃ a' e, chain 4 [⟨0, 0⟩, ⟨1, 1⟩, ⟨2, 3⟩, ⟨4, 0⟩] 0 3 3 = some (a', e) ∧
      0 < e ∧ e ≤ 3 ∧
      deref a' 0 = deref [⟨0, 0⟩, ⟨1, 1⟩, ⟨2, 3⟩, ⟨4, 0⟩] 0 ∧
      RangePerm 0 3 [⟨0, 0⟩, ⟨1, 1⟩, ⟨2, 3⟩, ⟨4, 0⟩] a' ∧
      ((a'.drop 0).take (3 - 0)).Perm
        ((([⟨0, 0⟩, ⟨1, 1⟩, ⟨2, 3⟩, ⟨4, 0⟩] : PointSequence).drop 0).take (3 - 0)) ∧
      (∀ j, j < 0 ∨ 3 ≤ j → deref a' j = deref [⟨0, 0⟩, ⟨1, 1⟩, ⟨2, 3⟩, ⟨4, 0⟩] j) ∧
      deref a' 3 = deref [⟨0, 0⟩, ⟨1, 1⟩, ⟨2, 3⟩, ⟨4, 0⟩] 3 :=
  chain_frame 4 [⟨0, 0⟩, ⟨1, 1⟩, ⟨2, 3⟩, ⟨4, 0⟩] 0 3 3 (by decide) (by decide) (by decide)
    (by decide)

/-- Claim C32. A call `findHullInPlace(first, past, pole, antipole, cursor, side)` on a range
`[first, past)` of the sequence with `cursor ≤ first` and with the positions of the pole and of
the antipole outside `[cursor, past)` returns (with more fuel than the range has points). The
points at the positions of the pole and of the antipole are the same on return as at entry,
the final sequence arises by a permutation of the positions of `[cursor, past)`, so that every
position outside `[cursor, past)` holds the same point as before and `[cursor, past)` holds the
same points as a multiset, and the returned cursor `c` satisfies `cursor ≤ c ≤ past`. -/
theorem findHullInPlace_frame (fuel : Nat) (a : PointSequence)
    (first past l r cursor loc : Nat) (hfuel : past - first < fuel) (hcf : cursor ≤ first)
    (hfp : first ≤ past) (hlen : past ≤ a.length) (hl : l < cursor ∨ past ≤ l)
    (hr : r < cursor ∨ past ≤ r) :
    ∃ a' c, findHullInPlace fuel a first past l r cursor loc = some (a', c) ∧
      deref a' l = deref a l ∧ deref a' r = deref a r ∧
      RangePerm cursor past a a' ∧
      (∀ j, j < cursor ∨ past ≤ j → deref a' j = deref a j) ∧
      ((a'.drop cursor).take (past - cursor)).Perm ((a.drop cursor).take (past - cursor)) ∧
      cursor ≤ c ∧ c ≤ past := by
  obtain ⟨a', c, hres, hp, hc1, hc2⟩ := findHullInPlace_struct fuel a first past l r cursor loc
    hfuel hcf hfp hlen hl hr
  exact ⟨a', c, hres, hp.frame l hl, hp.frame r hr, hp, fun j hj => hp.frame j hj,
    hp.slice hlen, hc1, by omega⟩

/-- Claim C32 on the range `[1, 3)` below the segment from (0,0) to (4,0), with the cursor at
position 1 and the poles at the positions 0 and 3. -/
theorem findHullInPlace_frame_witness :
    ∃ a' c, findHullInPlace 3 [⟨0, 0⟩, ⟨2, -2⟩, ⟨3, -1⟩, ⟨4, 0⟩] 1 3 0 3 1 LOWER
        = some (a', c) ∧
      deref a' 0 = deref [⟨0, 0⟩, ⟨2, -2⟩, ⟨3, -1⟩, ⟨4, 0⟩] 0 ∧
      deref a' 3 = deref [⟨0, 0⟩, ⟨2, -2⟩, ⟨3, -1⟩, ⟨4, 0⟩] 3 ∧
      RangePerm 1 3 [⟨0, 0⟩, ⟨2, -2⟩, ⟨3, -1⟩, ⟨4, 0⟩] a' ∧
      (∀ j, j < 1 ∨ 3 ≤ j → deref a' j = deref [⟨0, 0⟩, ⟨2, -2⟩, ⟨3, -1⟩, ⟨4, 0⟩] j) ∧
      ((a'.drop 1).take (3 - 1)).Perm
        ((([⟨0, 0⟩, ⟨2, -2⟩, ⟨3, -1⟩, ⟨4, 0⟩] : PointSequence).drop 1).take (3 - 1)) ∧
      1 ≤ c ∧ c ≤ 3 :=
  findHullInPlace_frame 3 [⟨0, 0⟩, ⟨2, -2⟩, ⟨3, -1⟩, ⟨4, 0⟩] 1 3 0 3 1 LOWER (by decide)
    (by decide) (by decide) (by decide) (by decide) (by decide)

/-- Claim C39 fails for a range that holds one of the two reference positions. On
`[(0,0), (0,0), (0,1), (1,0)]` the call `partition_right_left(0, 3, 3, 2)` has `L` = (1,0)
outside the range and `R` = (0,1) at position 2 inside it. The partition swaps the positions 0
and 2 while it runs, so the later tests read another point as `R`. The call returns position 2
and leaves `[(0,1), (0,0), (0,0), (1,0)]`. With the points that stood at `L` and `R` at entry,
(0,0) at position 1 stands in front of the returned position although
`getOrientation (1,0) (0,0) (0,1)` is `CLOCKWISE`; with the points that stand at `L` and `R` on
return, (0,0) at position 2 stands behind the returned position although
`getOrientation (1,0) (0,0) (0,0)` is `COLLINEAR`. -/
theorem two_way_partition_counterexample :
    (partition_right_left [⟨0, 0⟩, ⟨0, 0⟩, ⟨0, 1⟩, ⟨1, 0⟩] 0 3 3 2).2 = 2 ∧
    (partition_right_left [⟨0, 0⟩, ⟨0, 0⟩, ⟨0, 1⟩, ⟨1, 0⟩] 0 3 3 2).1
      = [⟨0, 1⟩, ⟨0, 0⟩, ⟨0, 0⟩, ⟨1, 0⟩] ∧
    ¬ (∀ j, 0 ≤ j →
        j < (partition_right_left [⟨0, 0⟩, ⟨0, 0⟩, ⟨0, 1⟩, ⟨1, 0⟩] 0 3 3 2).2 →
        getOrientation (deref [⟨0, 0⟩, ⟨0, 0⟩, ⟨0, 1⟩, ⟨1, 0⟩] 3)
          (deref (partition_right_left [⟨0, 0⟩, ⟨0, 0⟩, ⟨0, 1⟩, ⟨1, 0⟩] 0 3 3 2).1 j)
          (deref [⟨0, 0⟩, ⟨0, 0⟩, ⟨0, 1⟩, ⟨1, 0⟩] 2) ≠ CLOCKWISE) ∧
    ¬ (∀ j, (partition_right_left [⟨0, 0⟩, ⟨0, 0⟩, ⟨0, 1⟩, ⟨1, 0⟩] 0 3 3 2).2 ≤ j →
        j < 3 →
        getOrientation
          (deref (partition_right_left [⟨0, 0⟩, ⟨0, 0⟩, ⟨0, 1⟩, ⟨1, 0⟩] 0 3 3 2).1 3)
          (deref (partition_right_left [⟨0, 0⟩, ⟨0, 0⟩, ⟨0, 1⟩, ⟨1, 0⟩] 0 3 3 2).1 j)
          (deref (partition_right_left [⟨0, 0⟩, ⟨0, 0⟩, ⟨0, 1⟩, ⟨1, 0⟩] 0 3 3 2).1 2)
          = CLOCKWISE) := by
  have h1 : partition_right_left [⟨0, 0⟩, ⟨0, 0⟩, ⟨0, 1⟩, ⟨1, 0⟩] 0 3 3 2
      = ([⟨0, 1⟩, ⟨0, 0⟩, ⟨0, 0⟩, ⟨1, 0⟩], 2) := by with_unfolding_all decide
  rw [h1]
  refine ⟨rfl, rfl, ?_, ?_⟩
  · intro h
    exact h 1 (by decide) (by decide) (by with_unfolding_all decide)
  · intro h
    exact absurd (h 2 (by decide) (by decide)) (by with_unfolding_all decide)

/-- Claim C39, amended. For every range `[first, last)` of the sequence with the positions `L`
and `R` outside it, `partition_right_left(first, last, L, R)` returns a position `m` with
`first ≤ m ≤ last`; the range holds the same points as before as a multiset and the positions
outside it are untouched; every point `q` of `[first, m)` has
`getOrientation(L, q, R) ≠ CLOCKWISE` and every point of `[m, last)` has
`getOrientation(L, q, R) = CLOCKWISE`. For every non-empty range `[pole, past)` with the
antipole outside `[pole + 1, past)`, `partition_left_right(pole, past, antipole)` returns a
position `m` with `pole + 1 ≤ m ≤ past`, leaves the pole (and every position outside
`[pole + 1, past)`) in place, keeps the points of `[pole + 1, past)` as a multiset, and every
point `q` of `[pole + 1, m)` has `getOrientation(pole, q, antipole) ≠ COUNTERCLOCKWISE` while
every point of `[m, past)` has `getOrientation(pole, q, antipole) = COUNTERCLOCKWISE`. -/
theorem two_way_partitions (a : PointSequence) (first last l r : Nat)
    (pole past antipole : Nat)
    (hfl : first ≤ last) (hlast : last ≤ a.length)
    (hl : l < first ∨ last ≤ l) (hr : r < first ∨ last ≤ r)
    (hpp : pole < past) (hpast : past ≤ a.length)
    (hanti : antipole ≤ pole ∨ past ≤ antipole) :
    (first ≤ (partition_right_left a first last l r).2 ∧
      (partition_right_left a first last l r).2 ≤ last ∧
      RangePerm first last a (partition_right_left a first last l r).1 ∧
      (((partition_right_left a first last l r).1.drop first).take (last - first)).Perm
        ((a.drop first).take (last - first)) ∧
      (∀ j, first ≤ j → j < (partition_right_left a first last l r).2 →
        getOrientation (deref a l) (deref (partition_right_left a first last l r).1 j)
          (deref a r) ≠ CLOCKWISE) ∧
      (∀ j, (partition_right_left a first last l r).2 ≤ j → j < last →
        getOrientation (deref a l) (deref (partition_right_left a first last l r).1 j)
          (deref a r) = CLOCKWISE)) ∧
    (pole + 1 ≤ (partition_left_right a pole past antipole).2 ∧
      (partition_left_right a pole past antipole).2 ≤ past ∧
      deref (partition_left_right a pole past antipole).1 pole = deref a pole ∧
      RangePerm (pole + 1) past a (partition_left_right a pole past antipole).1 ∧
      (((partition_left_right a pole past antipole).1.drop (pole + 1)).take
        (past - (pole + 1))).Perm ((a.drop (pole + 1)).take (past - (pole + 1))) ∧
      (∀ j, pole + 1 ≤ j → j < (partition_left_right a pole past antipole).2 →
        getOrientation (deref a pole) (deref (partition_left_right a pole past antipole).1 j)
          (deref a antipole) ≠ COUNTERCLOCKWISE) ∧
      (∀ j, (partition_left_right a pole past antipole).2 ≤ j → j < past →
        getOrientation (deref a pole) (deref (partition_left_right a pole past antipole).1 j)
          (deref a antipole) = COUNTERCLOCKWISE)) := by
  obtain ⟨h1, h2, h3, h4, h5⟩ := partition_right_left_spec a first last l r hfl hlast hl hr
  obtain ⟨k1, k2, k3, k4, k5⟩ := partition_left_right_spec a pole past antipole (by omega)
    hpast hanti
  exact ⟨⟨h2, h3, h1, h1.slice hlast, h4, h5⟩,
    ⟨k2, k3, k1.frame pole (by omega), k1, k1.slice hpast, k4, k5⟩⟩

/-- Claim C39, amended, on the sequence of the counterexample with both reference positions
outside the ranges: `partition_right_left(0, 2, 3, 2)` and `partition_left_right(0, 2, 3)`. -/
theorem two_way_partitions_witness :
    (0 ≤ (partition_right_left [⟨0, 0⟩, ⟨0, 0⟩, ⟨0, 1⟩, ⟨1, 0⟩] 0 2 3 2).2 ∧
      (partition_right_left [⟨0, 0⟩, ⟨0, 0⟩, ⟨0, 1⟩, ⟨1, 0⟩] 0 2 3 2).2 ≤ 2 ∧
      RangePerm 0 2 [⟨0, 0⟩, ⟨0, 0⟩, ⟨0, 1⟩, ⟨1, 0⟩]
        (partition_right_left [⟨0, 0⟩, ⟨0, 0⟩, ⟨0, 1⟩, ⟨1, 0⟩] 0 2 3 2).1 ∧
      (((partition_right_left [⟨0, 0⟩, ⟨0, 0⟩, ⟨0, 1⟩, ⟨1, 0⟩] 0 2 3 2).1.drop 0).take
        (2 - 0)).Perm
        ((([⟨0, 0⟩, ⟨0, 0⟩, ⟨0, 1⟩, ⟨1, 0⟩] : PointSequence).drop 0).take (2 - 0)) ∧
      (∀ j, 0 ≤ j → j < (partition_right_left [⟨0, 0⟩, ⟨0, 0⟩, ⟨0, 1⟩, ⟨1, 0⟩] 0 2 3 2).2 →
        getOrientation (deref [⟨0, 0⟩, ⟨0, 0⟩, ⟨0, 1⟩, ⟨1, 0⟩] 3)
          (deref (partition_right_left [⟨0, 0⟩, ⟨0, 0⟩, ⟨0, 1⟩, ⟨1, 0⟩] 0 2 3 2).1 j)
          (deref [⟨0, 0⟩, ⟨0, 0⟩, ⟨0, 1⟩, ⟨1, 0⟩] 2) ≠ CLOCKWISE) ∧
      (∀ j, (partition_right_left [⟨0, 0⟩, ⟨0, 0⟩, ⟨0, 1⟩, ⟨1, 0⟩] 0 2 3 2).2 ≤ j → j < 2 →
        getOrientation (deref [⟨0, 0⟩, ⟨0, 0⟩, ⟨0, 1⟩, ⟨1, 0⟩] 3)
          (deref (partition_right_left [⟨0, 0⟩, ⟨0, 0⟩, ⟨0, 1⟩, ⟨1, 0⟩] 0 2 3 2).1 j)
          (deref [⟨0, 0⟩, ⟨0, 0⟩, ⟨0, 1⟩, ⟨1, 0⟩] 2) = CLOCKWISE)) ∧
    (0 + 1 ≤ (partition_left_right [⟨0, 0⟩, ⟨0, 0⟩, ⟨0, 1⟩, ⟨1, 0⟩] 0 2 3).2 ∧
      (partition_left_right [⟨0, 0⟩, ⟨0, 0⟩, ⟨0, 1⟩, ⟨1, 0⟩] 0 2 3).2 ≤ 2 ∧
      deref (partition_left_right [⟨0, 0⟩, ⟨0, 0⟩, ⟨0, 1⟩, ⟨1, 0⟩] 0 2 3).1 0
        = deref [⟨0, 0⟩, ⟨0, 0⟩, ⟨0, 1⟩, ⟨1, 0⟩] 0 ∧
      RangePerm (0 + 1) 2 [⟨0, 0⟩, ⟨0, 0⟩, ⟨0, 1⟩, ⟨1, 0⟩]
        (partition_left_right [⟨0, 0⟩, ⟨0, 0⟩, ⟨0, 1⟩, ⟨1, 0⟩] 0 2 3).1 ∧
      (((partition_left_right [⟨0, 0⟩, ⟨0, 0⟩, ⟨0, 1⟩, ⟨1, 0⟩] 0 2 3).1.drop (0 + 1)).take
        (2 - (0 + 1))).Perm
        ((([⟨0, 0⟩, ⟨0, 0⟩, ⟨0, 1⟩, ⟨1, 0⟩] : PointSequence).drop (0 + 1)).take
          (2 - (0 + 1))) ∧
      (∀ j, 0 + 1 ≤ j → j < (partition_left_right [⟨0, 0⟩, ⟨0, 0⟩, ⟨0, 1⟩, ⟨1, 0⟩] 0 2 3).2 →
        getOrientation (deref [⟨0, 0⟩, ⟨0, 0⟩, ⟨0, 1⟩, ⟨1, 0⟩] 0)
          (deref (partition_left_right [⟨0, 0⟩, ⟨0, 0⟩, ⟨0, 1⟩, ⟨1, 0⟩] 0 2 3).1 j)
          (deref [⟨0, 0⟩, ⟨0, 0⟩, ⟨0, 1⟩, ⟨1, 0⟩] 3) ≠ COUNTERCLOCKWISE) ∧
      (∀ j, (partition_left_right [⟨0, 0⟩, ⟨0, 0⟩, ⟨0, 1⟩, ⟨1, 0⟩] 0 2 3).2 ≤ j → j < 2 →
        getOrientation (deref [⟨0, 0⟩, ⟨0, 0⟩, ⟨0, 1⟩, ⟨1, 0⟩] 0)
          (deref (partition_left_right [⟨0, 0⟩, ⟨0, 0⟩, ⟨0, 1⟩, ⟨1, 0⟩] 0 2 3).1 j)
          (deref [⟨0, 0⟩, ⟨0, 0⟩, ⟨0, 1⟩, ⟨1, 0⟩] 3) = COUNTERCLOCKWISE)) :=
  two_way_partitions [⟨0, 0⟩, ⟨0, 0⟩, ⟨0, 1⟩, ⟨1, 0⟩] 0 2 3 2 0 2 3 (by decide) (by decide)
    (by decide) (by decide) (by decide) (by decide) (by decide)

end QuickHull
namespace QuickHull

open Orientation

/-! ### The minimal-requirements check, symmetries of the orientation, the squared distance -/

theorem collinearLoop_false (a : PointSequence) (k i : Nat) :
    collinearLoop a k i false = false := by
  cases k <;> simp [collinearLoop]

theorem collinearLoop_iff (a : PointSequence) (k i : Nat) :
    collinearLoop a k i true = true ↔
      ∀ j, i ≤ j → j < i + k →
        getOrientation (deref a 0) (deref a 1) (deref a j) = COLLINEAR := by
  constructor
  · induction k generalizing i with
    | zero =>
      intro _ j h1 h2
      omega
    | succ k ih =>
      intro h j h1 h2
      by_cases hi : getOrientation (deref a 0) (deref a 1) (deref a i) = COLLINEAR
      · simp only [collinearLoop, if_true, hi, decide_True] at h
        by_cases hji : j = i
        · rw [hji]
          exact hi
        · exact ih (i + 1) h j (by omega) (by omega)
      · simp only [collinearLoop, if_true, hi, decide_False] at h
        rw [collinearLoop_false] at h
        exact absurd h (by decide)
  · exact collinearLoop_of_all a k i

/-- Claim C35. `PointSequenceFulfillsMinimalRequirements s` is true if and only if `s` has at
least three points and some index `i ≥ 2` of `s` has
`getOrientation(s[0], s[1], s[i]) ≠ COLLINEAR`. Consequently it is false for every sequence whose
first two points are equal, for instance for `[(0,0), (0,0), (1,1), (2,0)]`. -/
theorem minimalRequirements_characterisation (s : PointSequence) :
    (PointSequenceFulfillsMinimalRequirements s = true ↔
      3 ≤ s.length ∧ ∃ i, 2 ≤ i ∧ i < s.length ∧
        getOrientation (deref s 0) (deref s 1) (deref s i) ≠ COLLINEAR) ∧
    (deref s 0 = deref s 1 → PointSequenceFulfillsMinimalRequirements s = false) ∧
    PointSequenceFulfillsMinimalRequirements [⟨0, 0⟩, ⟨0, 0⟩, ⟨1, 1⟩, ⟨2, 0⟩] = false := by
  have hiff : PointSequenceFulfillsMinimalRequirements s = true ↔
      3 ≤ s.length ∧ ∃ i, 2 ≤ i ∧ i < s.length ∧
        getOrientation (deref s 0) (deref s 1) (deref s i) ≠ COLLINEAR := by
    unfold PointSequenceFulfillsMinimalRequirements
    by_cases hlen : s.length < 3
    · simp only [hlen, if_true]
      constructor
      · intro h
        exact absurd h (by decide)
      · intro h
        omega
    · simp only [hlen, if_false]
      by_cases hloop : collinearLoop s (s.length - 2) 2 true = true
      · simp only [hloop, if_true]
        constructor
        · intro h
          exact absurd h (by decide)
        · rintro ⟨_, i, h1, h2, h3⟩
          exact absurd ((collinearLoop_iff s _ 2).mp hloop i h1 (by omega)) h3
      · simp only [hloop, if_false]
        constructor
        · intro _
          refine ⟨by omega, ?_⟩
          by_contra hno
          apply hloop
          apply collinearLoop_of_all
          intro j h1 h2
          by_contra hj
          exact hno ⟨j, h1, by omega, hj⟩
        · intro _
          trivial
  refine ⟨hiff, ?_, by with_unfolding_all decide⟩
  intro heq
  cases hm : PointSequenceFulfillsMinimalRequirements s with
  | false => rfl
  | true =>
    obtain ⟨_, i, _, _, h3⟩ := hiff.mp hm
    rw [heq] at h3
    exact absurd (getOrientation_self_left _ _) h3

/-- Claim C35 on `[(0,0), (0,0), (1,1), (2,0)]`: the first two points are equal, no index
passes the test, and the check fails although the points are not collinear. -/
theorem minimalRequirements_characterisation_witness :
    (PointSequenceFulfillsMinimalRequirements [⟨0, 0⟩, ⟨0, 0⟩, ⟨1, 1⟩, ⟨2, 0⟩] = true ↔
      3 ≤ ([⟨0, 0⟩, ⟨0, 0⟩, ⟨1, 1⟩, ⟨2, 0⟩] : PointSequence).length ∧
      ∃ i, 2 ≤ i ∧ i < ([⟨0, 0⟩, ⟨0, 0⟩, ⟨1, 1⟩, ⟨2, 0⟩] : PointSequence).length ∧
        getOrientation (deref [⟨0, 0⟩, ⟨0, 0⟩, ⟨1, 1⟩, ⟨2, 0⟩] 0)
          (deref [⟨0, 0⟩, ⟨0, 0⟩, ⟨1, 1⟩, ⟨2, 0⟩] 1)
          (deref [⟨0, 0⟩, ⟨0, 0⟩, ⟨1, 1⟩, ⟨2, 0⟩] i) ≠ COLLINEAR) ∧
    PointSequenceFulfillsMinimalRequirements [⟨0, 0⟩, ⟨0, 0⟩, ⟨1, 1⟩, ⟨2, 0⟩] = false :=
  ⟨(minimalRequirements_characterisation [⟨0, 0⟩, ⟨0, 0⟩, ⟨1, 1⟩, ⟨2, 0⟩]).1,
    (minimalRequirements_characterisation [⟨0, 0⟩, ⟨0, 0⟩, ⟨1, 1⟩, ⟨2, 0⟩]).2.1
      (by with_unfolding_all decide)⟩

/-- Claim C37. For all points `p`, `q`, `r`: `getOrientation` does not change under a cyclic
rotation of its arguments; swapping two arguments (the first two, the last two, or the first
and the last) turns `CLOCKWISE` into `COUNTERCLOCKWISE`, `COUNTERCLOCKWISE` into `CLOCKWISE`
and keeps `COLLINEAR`; and when two of the three arguments are equal the result is
`COLLINEAR`. -/
theorem orientation_symmetries (p q r : Point) :
    getOrientation p q r = getOrientation q r p ∧
    getOrientation p q r = getOrientation r p q ∧
    ((getOrientation p q r = CLOCKWISE → getOrientation q p r = COUNTERCLOCKWISE) ∧
      (getOrientation p q r = COUNTERCLOCKWISE → getOrientation q p r = CLOCKWISE) ∧
      (getOrientation p q r = COLLINEAR → getOrientation q p r = COLLINEAR)) ∧
    ((getOrientation p q r = CLOCKWISE → getOrientation p r q = COUNTERCLOCKWISE) ∧
      (getOrientation p q r = COUNTERCLOCKWISE → getOrientation p r q = CLOCKWISE) ∧
      (getOrientation p q r = COLLINEAR → getOrientation p r q = COLLINEAR)) ∧
    ((getOrientation p q r = CLOCKWISE → getOrientation r q p = COUNTERCLOCKWISE) ∧
      (getOrientation p q r = COUNTERCLOCKWISE → getOrientation r q p = CLOCKWISE) ∧
      (getOrientation p q r = COLLINEAR → getOrientation r q p = COLLINEAR)) ∧
    getOrientation p p r = COLLINEAR ∧ getOrientation p q q = COLLINEAR ∧
    getOrientation p q p = COLLINEAR := by
  have e1 : cross q r p = cross p q r := by unfold cross; ring
  have e2 : cross r p q = cross p q r := by unfold cross; ring
  have e3 : cross q p r = - cross p q r := by unfold cross; ring
  have e4 : cross p r q = - cross p q r := by unfold cross; ring
  have e5 : cross r q p = - cross p q r := by unfold cross; ring
  refine ⟨?_, ?_, ⟨?_, ?_, ?_⟩, ⟨?_, ?_, ?_⟩, ⟨?_, ?_, ?_⟩, ?_, ?_, ?_⟩
  · rw [getOrientation_eq_cross p q r, getOrientation_eq_cross q r p, e1]
  · rw [getOrientation_eq_cross p q r, getOrientation_eq_cross r p q, e2]
  · intro h
    have := (orientation_cw_iff _ _ _).mp h
    exact (orientation_ccw_iff _ _ _).mpr (by rw [e3]; linarith)
  · intro h
    have := (orientation_ccw_iff _ _ _).mp h
    exact (orientation_cw_iff _ _ _).mpr (by rw [e3]; linarith)
  · intro h
    have := (orientation_col_iff _ _ _).mp h
    exact (orientation_col_iff _ _ _).mpr (by rw [e3]; linarith)
  · intro h
    have := (orientation_cw_iff _ _ _).mp h
    exact (orientation_ccw_iff _ _ _).mpr (by rw [e4]; linarith)
  · intro h
    have := (orientation_ccw_iff _ _ _).mp h
    exact (orientation_cw_iff _ _ _).mpr (by rw [e4]; linarith)
  · intro h
    have := (orientation_col_iff _ _ _).mp h
    exact (orientation_col_iff _ _ _).mpr (by rw [e4]; linarith)
  · intro h
    have := (orientation_cw_iff _ _ _).mp h
    exact (orientation_ccw_iff _ _ _).mpr (by rw [e5]; linarith)
  · intro h
    have := (orientation_ccw_iff _ _ _).mp h
    exact (orientation_cw_iff _ _ _).mpr (by rw [e5]; linarith)
  · intro h
    have := (orientation_col_iff _ _ _).mp h
    exact (orientation_col_iff _ _ _).mpr (by rw [e5]; linarith)
  · exact (orientation_col_iff _ _ _).mpr (by unfold cross; ring)
  · exact (orientation_col_iff _ _ _).mpr (by unfold cross; ring)
  · exact (orientation_col_iff _ _ _).mpr (by unfold cross; ring)

/-- Claim C37 at the points (0,0), (1,0), (0,1), which turn counterclockwise: the rotations
keep the result and the three swaps give `CLOCKWISE`. -/
theorem orientation_symmetries_witness :
    getOrientation ⟨0, 0⟩ ⟨1, 0⟩ ⟨0, 1⟩ = COUNTERCLOCKWISE ∧
    getOrientation ⟨1, 0⟩ ⟨0, 0⟩ ⟨0, 1⟩ = CLOCKWISE ∧
    getOrientation ⟨0, 0⟩ ⟨0, 1⟩ ⟨1, 0⟩ = CLOCKWISE ∧
    getOrientation ⟨0, 1⟩ ⟨1, 0⟩ ⟨0, 0⟩ = CLOCKWISE :=
  ⟨by with_unfolding_all decide,
    (orientation_symmetries ⟨0, 0⟩ ⟨1, 0⟩ ⟨0, 1⟩).2.2.1.2.1 (by with_unfolding_all decide),
    (orientation_symmetries ⟨0, 0⟩ ⟨1, 0⟩ ⟨0, 1⟩).2.2.2.1.2.1 (by with_unfolding_all decide),
    (orientation_symmetries ⟨0, 0⟩ ⟨1, 0⟩ ⟨0, 1⟩).2.2.2.2.1.2.1 (by with_unfolding_all decide)⟩

/-- Claim C38. For all points `r`, `p`, `q`: `computeSquaredDistanceFromPointToSegment r p q`
is not negative, it is 0 if and only if `r` lies on the closed segment from `p` to `q`, and it
has the same value when the endpoints `p` and `q` are exchanged. -/
theorem squared_distance_is_distance (r p q : Point) :
    0 ≤ computeSquaredDistanceFromPointToSegment r p q ∧
    (computeSquaredDistanceFromPointToSegment r p q = 0 ↔ OnClosedSegment p q r) ∧
    computeSquaredDistanceFromPointToSegment r p q
      = computeSquaredDistanceFromPointToSegment r q p :=
  ⟨sqDist_nonneg r p q,
    ⟨onSegment_of_sqDist_zero r p q, sqDist_zero_of_onSegment r p q⟩,
    sqDist_symm r p q⟩

end QuickHull
namespace QuickHull

open Orientation

/-! ### The poles in the output of the orchestrators -/

/-- `ConvexHullInPlaceQuickHull` leaves the smallest point of `find_poles` at position 0 and the
largest one inside the output prefix. -/
theorem inPlace_poles_positions (s : PointSequence)
    (h : PointSequenceFulfillsMinimalRequirements s = true) :
    ∃ a r, ConvexHullInPlaceQuickHull s = some (a, r) ∧
      deref a 0 = deref s (find_poles s 0 s.length).1 ∧
      ∃ k, 0 < k ∧ k < r ∧ deref a k = deref s (find_poles s 0 s.length).2 := by
  have hn := length_of_minimalRequirements s h
  obtain ⟨⟨_, hmn⟩, ⟨_, hmx⟩, _, _, _⟩ := find_poles_spec s 0 s.length (by omega)
  have hne := find_poles_ne s 0 s.length (by omega)
  obtain ⟨hp1, hw, he⟩ := parallel_iter_swap_spec s s.length _ _ rfl (by omega) hmn hmx hne
  have haccept := inPlace_accepted s h
  obtain ⟨a1, ha1⟩ : ∃ a1, parallel_iter_swap s 0 (s.length - 1) (find_poles s 0 s.length).1
    (find_poles s 0 s.length).2 = a1 := ⟨_, rfl⟩
  rw [ha1] at hp1 hw he haccept
  have hlen1 := hp1.length_eq
  rw [← hw, ← he]
  obtain ⟨a2, g2, hpart⟩ : ∃ a2 g2,
      partition_right_left a1 1 (s.length - 1) 0 (s.length - 1) = (a2, g2) := ⟨_, _, rfl⟩
  obtain ⟨hp2, hg1, hg2, _, _⟩ := partition_right_left_spec a1 1 (s.length - 1) 0
    (s.length - 1) (by omega) (by omega) (by omega) (by omega)
  rw [hpart] at hp2 hg1 hg2
  simp only at hp2 hg1 hg2
  have hlen2 : a2.length = s.length := by rw [hp2.length_eq, hlen1]
  have hW2 : deref a2 0 = deref a1 0 := hp2.frame 0 (by omega)
  have hE2 : deref a2 (s.length - 1) = deref a1 (s.length - 1) :=
    hp2.frame (s.length - 1) (by omega)
  obtain ⟨a3, c1, hlow, hp3, hc1a, hc1b⟩ := findHullInPlace_struct s.length a2 1 g2 0
    (s.length - 1) 1 LOWER (by omega) (le_refl _) hg1 (by omega) (by omega) (by omega)
  have hlen3 : a3.length = s.length := by rw [hp3.length_eq, hlen2]
  have hacc := haccept a2 g2 hpart a3 c1 hlow
  obtain ⟨s1, s2, _, _⟩ := second_range_spec a3 c1 g2 (s.length - 1) (by omega) hg2
    (by omega)
  have hE3 : deref a3 (s.length - 1) = deref a1 (s.length - 1) := by
    rw [hp3.frame (s.length - 1) (by omega), hE2]
  have hW3 : deref a3 0 = deref a1 0 := by rw [hp3.frame 0 (by omega), hW2]
  rw [hE3] at s1
  have hW4 : deref (iter_swap a3 (s.length - 1) c1) 0 = deref a1 0 := by
    rw [s2 0 (by omega), hW3]
  have hlen4 : (iter_swap a3 (s.length - 1) c1).length = s.length := by
    rw [length_iter_swap, hlen3]
  obtain ⟨a5, c2, hupper, hp5, hc2a, hc2b⟩ := findHullInPlace_struct s.length
    (iter_swap a3 (s.length - 1) c1) (if c1 = g2 then g2 + 1 else g2)
    (if c1 = g2 then s.length - 1 + 1 else s.length - 1) c1 0 (c1 + 1) UPPER
    (by split_ifs <;> omega) (by split_ifs <;> omega) (by split_ifs <;> omega)
    (by split_ifs <;> omega) (by omega) (by omega)
  have hW5 : deref a5 0 = deref a1 0 := by rw [hp5.frame 0 (by omega), hW4]
  have hE5 : deref a5 c1 = deref a1 (s.length - 1) := by rw [hp5.frame c1 (by omega), s1]
  exact ⟨a5, c2, hacc.trans hupper, hW5, c1, by omega, by omega, hE5⟩

/-- `TheirConvexHullInPlaceQuickHull` leaves the smallest point of `find_poles` at position 0
and the largest one inside the output prefix. -/
theorem their_poles_positions (s : PointSequence)
    (h : PointSequenceFulfillsMinimalRequirements s = true) :
    ∃ a r, TheirConvexHullInPlaceQuickHull s = some (a, r) ∧
      deref a 0 = deref s (find_poles s 0 s.length).1 ∧
      ∃ k, 0 < k ∧ k < r ∧ deref a k = deref s (find_poles s 0 s.length).2 := by
  have hn := length_of_minimalRequirements s h
  obtain ⟨⟨_, hmn⟩, ⟨_, hmx⟩, hmin, hmax, _⟩ := find_poles_spec s 0 s.length (by omega)
  have hne := find_poles_ne s 0 s.length (by omega)
  obtain ⟨hp1, hw, he⟩ := parallel_iter_swap_spec s s.length _ _ rfl (by omega) hmn hmx hne
  have hWE := poles_x_lt s h _ _ (fun i hi => ⟨hmin i (Nat.zero_le _) hi,
    hmax i (Nat.zero_le _) hi⟩) ⟨_, hmn, rfl⟩
  have haccept := their_accepted s h
  obtain ⟨a1, ha1⟩ : ∃ a1, parallel_iter_swap s 0 (s.length - 1) (find_poles s 0 s.length).1
    (find_poles s 0 s.length).2 = a1 := ⟨_, rfl⟩
  rw [ha1] at hp1 hw he haccept
  have hlen1 := hp1.length_eq
  rw [← hw, ← he] at hWE ⊢
  have heq : (deref a1 0).eq (deref a1 (s.length - 1)) = false := by
    cases hq : (deref a1 0).eq (deref a1 (s.length - 1)) with
    | false => rfl
    | true =>
      have := (Point.eq_iff _ _).mp hq
      rw [this] at hWE
      exact absurd hWE (lt_irrefl _)
  obtain ⟨a2, middle, hpart⟩ : ∃ a2 middle,
      partition_left_right a1 0 (s.length - 1) (s.length - 1) = (a2, middle) := ⟨_, _, rfl⟩
  obtain ⟨hp2, hm1, hm2, _, _⟩ := partition_left_right_spec a1 0 (s.length - 1)
    (s.length - 1) (by omega) (by omega) (by omega)
  rw [hpart] at hp2 hm1 hm2
  simp only at hp2 hm1 hm2
  have hlen2 : a2.length = s.length := by rw [hp2.length_eq, hlen1]
  have hW2 : deref a2 0 = deref a1 0 := hp2.frame 0 (by omega)
  have hE2 : deref a2 (s.length - 1) = deref a1 (s.length - 1) :=
    hp2.frame (s.length - 1) (by omega)
  obtain ⟨a3, e1, hch, hp3, he1, he2⟩ := chain_struct s.length a2 0 middle (s.length - 1)
    (by omega) (by omega) (by omega) (by omega)
  have hlen3 : a3.length = s.length := by rw [hp3.length_eq, hlen2]
  obtain ⟨hrel, hrelF, _, _⟩ := relocate_spec a3 e1 middle s.length (by omega)
    (by omega) (by omega)
  have hacc := haccept heq a2 middle hpart a3 e1 hch
  obtain ⟨a5, ha5⟩ : ∃ a5, move_away (iter_swap (iter_swap a3 middle (s.length - 1)) e1 middle)
    (e1 + 1) (middle + 1) s.length = a5 := ⟨_, rfl⟩
  rw [ha5] at hrel hrelF hacc
  have hlen5 : a5.length = s.length := by rw [hrel.length_eq, hlen3]
  have hE3 : deref a3 (s.length - 1) = deref a1 (s.length - 1) := by
    rw [hp3.frame (s.length - 1) (by omega), hE2]
  have hW3 : deref a3 0 = deref a1 0 := by rw [hp3.frame 0 (by omega), hW2]
  rw [hE3] at hrelF
  have hW5 : deref a5 0 = deref a1 0 := by rw [hrel.frame 0 (by omega), hW3]
  obtain ⟨a7, e, hch2, hp7, he3, he4⟩ := chain_struct s.length a5 e1
    (e1 + (s.length - middle)) 0 (by omega) (by omega) (by omega) (by omega)
  have hW7 : deref a7 0 = deref a1 0 := by rw [hp7.frame 0 (by omega), hW5]
  have hE7 : deref a7 e1 = deref a1 (s.length - 1) := by
    rw [hp7.frame e1 (by omega), hrelF]
  exact ⟨a7, e, hacc.trans hch2, hW7, e1, by omega, he3, hE7⟩

/-- When the convex hull of at most two points holds every point of `s`, the points of `s` lie
on one line. -/
theorem onCommonLine_of_small_hull (s a : PointSequence) (r : Nat) (hr : r ≤ 2)
    (hall : ∀ p ∈ s, p.toVec ∈ convexHull ℚ (rangeSet a 0 r)) : OnCommonLine s := by
  obtain ⟨X, hX⟩ : ∃ X, deref a 0 = X := ⟨_, rfl⟩
  obtain ⟨Y, hY⟩ : ∃ Y, deref a 1 = Y := ⟨_, rfl⟩
  have hsub : rangeSet a 0 r ⊆ {X.toVec, Y.toVec} := by
    rintro v ⟨j, _, hj, rfl⟩
    have hj' : j = 0 ∨ j = 1 := by omega
    rcases hj' with rfl | rfl
    · rw [hX]
      exact Set.mem_insert _ _
    · rw [hY]
      exact Set.mem_insert_of_mem _ rfl
  have hseg : ∀ p ∈ s, ∃ u v : ℚ, u + v = 1 ∧ p.x = u * X.x + v * Y.x ∧
      p.y = u * X.y + v * Y.y := by
    intro p hp
    have h1 := convexHull_mono hsub (hall p hp)
    rw [convexHull_pair] at h1
    obtain ⟨u, v, _, _, huv, hcomb⟩ := h1
    refine ⟨u, v, huv, ?_, ?_⟩
    · have := congrArg Prod.fst hcomb
      simp [Point.toVec] at this
      linarith
    · have := congrArg Prod.snd hcomb
      simp [Point.toVec] at this
      linarith
  by_cases hxy : X.x = Y.x ∧ X.y = Y.y
  · refine ⟨1, 0, X.x, Or.inl one_ne_zero, ?_⟩
    intro p hp
    obtain ⟨u, v, huv, h1, _⟩ := hseg p hp
    rw [h1, ← hxy.1]
    have : u * X.x + v * X.x = (u + v) * X.x := by ring
    rw [one_mul, zero_mul, add_zero, this, huv, one_mul]
  · refine ⟨Y.y - X.y, X.x - Y.x, (Y.y - X.y) * X.x + (X.x - Y.x) * X.y, ?_, ?_⟩
    · by_contra hc
      push_neg at hc
      apply hxy
      constructor
      · linarith [hc.2]
      · linarith [hc.1]
    · intro p hp
      obtain ⟨u, v, huv, h1, h2⟩ := hseg p hp
      rw [h1, h2]
      have hu : u = 1 - v := by linarith
      rw [hu]
      ring

end QuickHull
namespace QuickHull

open Orientation

/-! ### The poles in the output, the boundary order of the output of algorithm A -/

/-- A closed half-plane that holds a set of points holds the convex hull of the set. -/
theorem halfplane_of_hull (S : Set (ℚ × ℚ)) (p : ℚ × ℚ) (A B : ℚ)
    (h : ∀ q ∈ S, 0 ≤ A * (q.1 - p.1) + B * (q.2 - p.2)) :
    ∀ q ∈ convexHull ℚ S, 0 ≤ A * (q.1 - p.1) + B * (q.2 - p.2) := by
  have hconv : Convex ℚ {q : ℚ × ℚ | 0 ≤ A * (q.1 - p.1) + B * (q.2 - p.2)} := by
    intro x hx y hy a b ha hb hab
    simp only [Set.mem_setOf_eq] at hx hy ⊢
    simp only [Prod.fst_add, Prod.snd_add, Prod.smul_fst, Prod.smul_snd, smul_eq_mul]
    have e : A * (a * x.1 + b * y.1 - p.1) + B * (a * x.2 + b * y.2 - p.2)
        = a * (A * (x.1 - p.1) + B * (x.2 - p.2)) + b * (A * (y.1 - p.1) + B * (y.2 - p.2)) := by
      have hb1 : b = 1 - a := by linarith
      rw [hb1]; ring
    rw [e]
    exact add_nonneg (mul_nonneg ha hx) (mul_nonneg hb hy)
  exact fun q hq => convexHull_min h hconv hq

/-- The lexicographically smallest and largest point that `find_poles` selects, as members of
the sequence. -/
theorem find_poles_extreme (s : PointSequence) (hn : 0 < s.length) :
    (deref s (find_poles s 0 s.length).1 ∈ s ∧
      ∀ p ∈ s, ¬ p.lt (deref s (find_poles s 0 s.length).1) = true) ∧
    (deref s (find_poles s 0 s.length).2 ∈ s ∧
      ∀ p ∈ s, ¬ (deref s (find_poles s 0 s.length).2).lt p = true) := by
  obtain ⟨⟨_, hmn⟩, ⟨_, hmx⟩, hmin, hmax, _⟩ := find_poles_spec s 0 s.length hn
  refine ⟨⟨deref_mem s _ hmn, ?_⟩, ⟨deref_mem s _ hmx, ?_⟩⟩
  · intro p hp
    obtain ⟨i, hi, rfl⟩ := exists_pos_of_mem s p hp
    exact hmin i (Nat.zero_le _) hi
  · intro p hp
    obtain ⟨i, hi, rfl⟩ := exists_pos_of_mem s p hp
    exact hmax i (Nat.zero_le _) hi

/-- Claim C33. Both orchestrators return on every sequence `s`, with a final sequence `a` and a
position `r`, and `r = 0` if and only if `s` fails the minimal requirements. When `s` meets the
minimal requirements, the point at position 0 of `a` is the lexicographically smallest point
of `s` (a point of `s` that no point of `s` is smaller than), the lexicographically largest
point of `s` stands at a position of the prefix `[0, r)`, and `r ≥ 3`. -/
theorem poles_in_output (s : PointSequence) :
    (∃ a r, ConvexHullInPlaceQuickHull s = some (a, r) ∧
      (r = 0 ↔ PointSequenceFulfillsMinimalRequirements s = false) ∧
      (PointSequenceFulfillsMinimalRequirements s = true →
        (deref a 0 ∈ s ∧ ∀ p ∈ s, ¬ p.lt (deref a 0) = true) ∧
        (∃ k, k < r ∧ deref a k ∈ s ∧ ∀ p ∈ s, ¬ (deref a k).lt p = true) ∧
        3 ≤ r)) ∧
    (∃ a r, TheirConvexHullInPlaceQuickHull s = some (a, r) ∧
      (r = 0 ↔ PointSequenceFulfillsMinimalRequirements s = false) ∧
      (PointSequenceFulfillsMinimalRequirements s = true →
        (deref a 0 ∈ s ∧ ∀ p ∈ s, ¬ p.lt (deref a 0) = true) ∧
        (∃ k, k < r ∧ deref a k ∈ s ∧ ∀ p ∈ s, ¬ (deref a k).lt p = true) ∧
        3 ≤ r)) := by
  cases hm : PointSequenceFulfillsMinimalRequirements s with
  | false =>
    exact ⟨⟨s, 0, inPlace_rejected s hm, ⟨fun _ => rfl, fun _ => rfl⟩,
        fun hc => absurd hc (by decide)⟩,
      ⟨s, 0, their_rejected s hm, ⟨fun _ => rfl, fun _ => rfl⟩,
        fun hc => absurd hc (by decide)⟩⟩
  | true =>
    have hn := length_of_minimalRequirements s hm
    obtain ⟨⟨x1, x2⟩, ⟨x3, x4⟩⟩ := find_poles_extreme s (by omega)
    constructor
    · obtain ⟨a, r, hres, hW, k, _, hk, hE⟩ := inPlace_poles_positions s hm
      obtain ⟨a', r', hres', _, _, hall⟩ := inPlace_complete_positions s hm
      have e := hres.symm.trans hres'
      simp only [Option.some.injEq, Prod.mk.injEq] at e
      obtain ⟨rfl, rfl⟩ := e
      have h3 : 3 ≤ r := by
        by_contra hc
        have hline := onCommonLine_of_small_hull s a r (by omega) hall
        have := minimalRequirements_false_of_degenerate s (Or.inr hline)
        rw [hm] at this
        exact absurd this (by decide)
      refine ⟨a, r, hres, ⟨fun h0 => by omega, fun hc => absurd hc (by decide)⟩, fun _ => ?_⟩
      rw [hW]
      exact ⟨⟨x1, x2⟩, ⟨k, hk, by rw [hE]; exact ⟨x3, x4⟩⟩, h3⟩
    · obtain ⟨a, r, hres, hW, k, _, hk, hE⟩ := their_poles_positions s hm
      obtain ⟨a', r', hres', hperm, _, hall⟩ := their_complete_positions s hm
      have e := hres.symm.trans hres'
      simp only [Option.some.injEq, Prod.mk.injEq] at e
      obtain ⟨rfl, rfl⟩ := e
      have h3 : 3 ≤ r := by
        by_contra hc
        have hline := onCommonLine_of_small_hull s a r (by omega) (by
          intro p hp
          obtain ⟨i, hi, rfl⟩ := exists_pos_of_mem s p hp
          obtain ⟨j, _, hj, hij⟩ := hperm.symm.exists_source i (Nat.zero_le _) hi
          rw [hij]
          exact hall j hj)
        have := minimalRequirements_false_of_degenerate s (Or.inr hline)
        rw [hm] at this
        exact absurd this (by decide)
      refine ⟨a, r, hres, ⟨fun h0 => by omega, fun hc => absurd hc (by decide)⟩, fun _ => ?_⟩
      rw [hW]
      exact ⟨⟨x1, x2⟩, ⟨k, hk, by rw [hE]; exact ⟨x3, x4⟩⟩, h3⟩

/-- Claim C33 at a triangle with a fourth point on one of its sides, which meets the minimal
requirements: both orchestrators return a position `r ≥ 3`, with the smallest point of the
input at position 0 and the largest one inside the prefix. -/
theorem poles_in_output_witness :
    (∃ a r, ConvexHullInPlaceQuickHull [⟨0, 0⟩, ⟨1, 0⟩, ⟨2, 0⟩, ⟨1, 1⟩] = some (a, r) ∧
      (deref a 0 ∈ ([⟨0, 0⟩, ⟨1, 0⟩, ⟨2, 0⟩, ⟨1, 1⟩] : PointSequence) ∧
        ∀ p ∈ ([⟨0, 0⟩, ⟨1, 0⟩, ⟨2, 0⟩, ⟨1, 1⟩] : PointSequence),
          ¬ p.lt (deref a 0) = true) ∧
      (∃ k, k < r ∧ deref a k ∈ ([⟨0, 0⟩, ⟨1, 0⟩, ⟨2, 0⟩, ⟨1, 1⟩] : PointSequence) ∧
        ∀ p ∈ ([⟨0, 0⟩, ⟨1, 0⟩, ⟨2, 0⟩, ⟨1, 1⟩] : PointSequence),
          ¬ (deref a k).lt p = true) ∧
      3 ≤ r) ∧
    (∃ a r, TheirConvexHullInPlaceQuickHull [⟨0, 0⟩, ⟨1, 0⟩, ⟨2, 0⟩, ⟨1, 1⟩] = some (a, r) ∧
      (deref a 0 ∈ ([⟨0, 0⟩, ⟨1, 0⟩, ⟨2, 0⟩, ⟨1, 1⟩] : PointSequence) ∧
        ∀ p ∈ ([⟨0, 0⟩, ⟨1, 0⟩, ⟨2, 0⟩, ⟨1, 1⟩] : PointSequence),
          ¬ p.lt (deref a 0) = true) ∧
      (∃ k, k < r ∧ deref a k ∈ ([⟨0, 0⟩, ⟨1, 0⟩, ⟨2, 0⟩, ⟨1, 1⟩] : PointSequence) ∧
        ∀ p ∈ ([⟨0, 0⟩, ⟨1, 0⟩, ⟨2, 0⟩, ⟨1, 1⟩] : PointSequence),
          ¬ (deref a k).lt p = true) ∧
      3 ≤ r) := by
  obtain ⟨⟨a, r, h1, _, h2⟩, ⟨b, t, h3, _, h4⟩⟩ :=
    poles_in_output [⟨0, 0⟩, ⟨1, 0⟩, ⟨2, 0⟩, ⟨1, 1⟩]
  exact ⟨⟨a, r, h1, h2 (by with_unfolding_all decide)⟩,
    ⟨b, t, h3, h4 (by with_unfolding_all decide)⟩⟩

/-- Claim C34. For every sequence `s` that meets the minimal requirements,
`ConvexHullInPlaceQuickHull` returns and its output prefix has at least three points, starts
with the lexicographically smallest (leftmost) point of `s`, and is in counterclockwise boundary
order: every three cyclically consecutive points `u`, `v`, `w` of the prefix have
`getOrientation(u, v, w) ≠ CLOCKWISE` (the successor of the last point is the first one), and
more generally no three points taken in the order of the prefix turn clockwise. Every point of
the prefix lies on the boundary of the hull: it is a point of `s` that is not an interior
point of the convex hull of the points of `s`. -/
theorem inPlace_boundary_order (s : PointSequence)
    (h : PointSequenceFulfillsMinimalRequirements s = true) :
    ∃ r, ConvexHullInPlaceQuickHull s = some r ∧
      3 ≤ (outputPoints r).length ∧
      (deref (outputPoints r) 0 ∈ s ∧ ∀ p ∈ s, ¬ p.lt (deref (outputPoints r) 0) = true) ∧
      AdjacentNotClockwise (outputPoints r) ∧
      CounterclockwiseOrder (outputPoints r) ∧
      ∀ q ∈ outputPoints r, q ∈ s ∧
        q.toVec ∉ interior (convexHull ℚ {v : ℚ × ℚ | ∃ p ∈ s, p.toVec = v}) := by
  have hn := length_of_minimalRequirements s h
  obtain ⟨⟨x1, x2⟩, _⟩ := find_poles_extreme s (by omega)
  obtain ⟨a, r, hres, hr, hT⟩ := inPlace_convex_positions s h
  obtain ⟨a', r', hres', hW, k, _, hk, _⟩ := inPlace_poles_positions s h
  have e := hres.symm.trans hres'
  simp only [Option.some.injEq, Prod.mk.injEq] at e
  obtain ⟨rfl, rfl⟩ := e
  obtain ⟨a', r', hres', hperm, _, hall⟩ := inPlace_complete_positions s h
  have e := hres.symm.trans hres'
  simp only [Option.some.injEq, Prod.mk.injEq] at e
  obtain ⟨rfl, rfl⟩ := e
  have h3 : 3 ≤ r := by
    by_contra hc
    have hline := onCommonLine_of_small_hull s a r (by omega) hall
    have := minimalRequirements_false_of_degenerate s (Or.inr hline)
    rw [h] at this
    exact absurd this (by decide)
  have hlen : (outputPoints (a, r)).length = r := by
    unfold outputPoints
    simp
    exact hr
  have hd : ∀ i, i < r → deref (outputPoints (a, r)) i = deref a i := by
    intro i hi
    unfold outputPoints
    exact deref_take a r i hi
  have hT' : ∀ i j k, i < j → j < k → k < (outputPoints (a, r)).length →
      0 ≤ cross (deref (outputPoints (a, r)) i) (deref (outputPoints (a, r)) j)
        (deref (outputPoints (a, r)) k) := by
    intro i j k hij hjk hk
    rw [hlen] at hk
    rw [hd i (by omega), hd j (by omega), hd k hk]
    exact hT i j k hij hjk hk
  have hccw : CounterclockwiseOrder (outputPoints (a, r)) :=
    (counterclockwiseOrder_iff _).mpr hT'
  refine ⟨(a, r), hres, by omega, ?_, adjacent_of_counterclockwiseOrder _ hccw, hccw, ?_⟩
  · rw [hd 0 (by omega), hW]
    exact ⟨x1, x2⟩
  · intro q hq
    obtain ⟨i, hi, rfl⟩ := exists_pos_of_mem _ q hq
    have hi' : i < r := by omega
    constructor
    · rw [hd i hi']
      obtain ⟨j, _, hj, hij⟩ := hperm.exists_source i (Nat.zero_le _) (by omega)
      rw [hij]
      exact deref_mem s j hj
    · obtain ⟨A, B, hAB, hsup⟩ := support_of_counterclockwise _ hT' i hi
      apply not_mem_interior_of_support _ _ A B hAB
      rintro v ⟨p, hp, rfl⟩
      apply halfplane_of_hull (rangeSet a 0 r) _ A B _ _ (hall p hp)
      rintro w ⟨j, _, hj, rfl⟩
      by_cases hji : j = i
      · rw [hji, hd i hi']
        simp
      · have := hsup j (by omega) hji
        rw [hd j hj] at this
        exact this

/-- Claim C34 at a triangle with a fourth point on one of its sides: the prefix of
`ConvexHullInPlaceQuickHull` starts at (0,0), never turns clockwise, and none of its points is
an interior point of the hull of the input. -/
theorem inPlace_boundary_order_witness :
    ∃ r, ConvexHullInPlaceQuickHull [⟨0, 0⟩, ⟨1, 0⟩, ⟨2, 0⟩, ⟨1, 1⟩] = some r ∧
      3 ≤ (outputPoints r).length ∧
      (deref (outputPoints r) 0 ∈ ([⟨0, 0⟩, ⟨1, 0⟩, ⟨2, 0⟩, ⟨1, 1⟩] : PointSequence) ∧
        ∀ p ∈ ([⟨0, 0⟩, ⟨1, 0⟩, ⟨2, 0⟩, ⟨1, 1⟩] : PointSequence),
          ¬ p.lt (deref (outputPoints r) 0) = true) ∧
      AdjacentNotClockwise (outputPoints r) ∧
      CounterclockwiseOrder (outputPoints r) ∧
      ∀ q ∈ outputPoints r, q ∈ ([⟨0, 0⟩, ⟨1, 0⟩, ⟨2, 0⟩, ⟨1, 1⟩] : PointSequence) ∧
        q.toVec ∉ interior (convexHull ℚ
          {v : ℚ × ℚ | ∃ p ∈ ([⟨0, 0⟩, ⟨1, 0⟩, ⟨2, 0⟩, ⟨1, 1⟩] : PointSequence),
            p.toVec = v}) :=
  inPlace_boundary_order [⟨0, 0⟩, ⟨1, 0⟩, ⟨2, 0⟩, ⟨1, 1⟩] (by with_unfolding_all decide)

end QuickHull
namespace QuickHull

open Orientation

/-! ### Completeness of the out-of-place QuickHull -/

/-- Completeness of the out-of-place `findHull`. When every point of the sequence is strictly
right of the directed line from `P` to `R` and between them in x-direction, every point of
the sequence lies in the convex hull of the points that the call appends and of `P` and `R`. -/
theorem outOfPlace_findHull_complete : ∀ (fuel : Nat) (s : PointSequence) (P R : Point)
    (acc : List Point) (loc : Nat), s.length < fuel →
    (∀ c ∈ s, RightCand (OutOfPlace.sideSign loc) P R c) →
    ∃ out, OutOfPlace.findHull fuel s P R acc loc = some (acc ++ out) ∧
      (∀ c ∈ out, c ∈ s) ∧
      ∀ c ∈ s, c.toVec ∈
        convexHull ℚ ({v : ℚ × ℚ | ∃ p ∈ out, p.toVec = v} ∪ {P.toVec, R.toVec}) := by
  intro fuel
  induction fuel with
  | zero => intro s P R acc loc h; omega
  | succ fuel ih =>
    intro s P R acc loc hfuel hInv
    have hsg := outOfPlace_sideSign_cases loc
    by_cases h0 : s.length = 0
    · refine ⟨[], by simp [OutOfPlace.findHull, h0], ?_, ?_⟩
      · intro c hc
        exact absurd hc (List.not_mem_nil _)
      · intro c hc
        rw [List.length_eq_zero.mp h0] at hc
        exact absurd hc (List.not_mem_nil _)
    by_cases h1 : s.length = 1
    · refine ⟨[deref s 0], by simp [OutOfPlace.findHull, h1], ?_, ?_⟩
      · intro c hc
        rw [List.mem_singleton] at hc
        rw [hc]
        exact deref_mem s 0 (by omega)
      · intro c hc
        obtain ⟨i, hi, rfl⟩ := exists_pos_of_mem s c hc
        have hi0 : i = 0 := by omega
        rw [hi0]
        apply subset_convexHull
        left
        exact ⟨deref s 0, List.mem_singleton.mpr rfl, rfl⟩
    obtain ⟨hidx, hNF⟩ := furthestIndex_spec s P R (by omega)
    have hFs := deref_mem s _ hidx
    obtain ⟨spec1, spec2, speclen⟩ := split_spec loc P R
      (deref s (OutOfPlace.furthestIndexLoop s P R s.length 0 0 0)) s _ rfl
    obtain ⟨len1, len2⟩ := speclen hFs
    have hgen := outOfPlace_findHull_general fuel s P R acc loc (by omega)
    generalize (if loc = OutOfPlace.LOWER then
        OutOfPlace.splitLower P R
          (deref s (OutOfPlace.furthestIndexLoop s P R s.length 0 0 0)) s [] []
       else OutOfPlace.splitUpper P R
          (deref s (OutOfPlace.furthestIndexLoop s P R s.length 0 0 0)) s [] []) = r
      at spec1 spec2 len1 len2 hgen
    generalize deref s (OutOfPlace.furthestIndexLoop s P R s.length 0 0 0) = F
      at hNF hFs spec1 spec2 hgen
    obtain ⟨hK, hFP, hRF⟩ := hInv F hFs
    obtain ⟨out1, hc1, hm1, hall1⟩ := ih r.1 P F acc loc (by omega)
      (by
        intro c hc
        obtain ⟨q1, q2, q3⟩ := (spec1 c).mp hc
        exact ⟨q3, (hInv c q1).2.1, le_of_lt q2⟩)
    obtain ⟨out2, hc2, hm2, hall2⟩ := ih r.2 F R (acc ++ out1 ++ [F]) loc (by omega)
      (by
        intro c hc
        obtain ⟨q1, q2, q3⟩ := (spec2 c).mp hc
        exact ⟨q3, q2, (hInv c q1).2.2⟩)
    have hPh : P.toVec ∈ convexHull ℚ
        ({v : ℚ × ℚ | ∃ p ∈ out1 ++ F :: out2, p.toVec = v} ∪ {P.toVec, R.toVec}) :=
      subset_convexHull ℚ _ (Or.inr (Set.mem_insert _ _))
    have hRh : R.toVec ∈ convexHull ℚ
        ({v : ℚ × ℚ | ∃ p ∈ out1 ++ F :: out2, p.toVec = v} ∪ {P.toVec, R.toVec}) :=
      subset_convexHull ℚ _ (Or.inr (Set.mem_insert_of_mem _ rfl))
    have hFh : F.toVec ∈ convexHull ℚ
        ({v : ℚ × ℚ | ∃ p ∈ out1 ++ F :: out2, p.toVec = v} ∪ {P.toVec, R.toVec}) :=
      subset_convexHull ℚ _ (Or.inl ⟨F, by simp, rfl⟩)
    have hsub1 : {v : ℚ × ℚ | ∃ p ∈ out1, p.toVec = v} ∪ {P.toVec, F.toVec} ⊆ convexHull ℚ
        ({v : ℚ × ℚ | ∃ p ∈ out1 ++ F :: out2, p.toVec = v} ∪ {P.toVec, R.toVec}) := by
      intro v hv
      rcases hv with ⟨p, hp, rfl⟩ | hv
      · exact subset_convexHull ℚ _ (Or.inl ⟨p, List.mem_append_left _ hp, rfl⟩)
      · rcases hv with hv | hv
        · rw [hv]; exact hPh
        · rw [Set.mem_singleton_iff] at hv
          rw [hv]; exact hFh
    have hsub2 : {v : ℚ × ℚ | ∃ p ∈ out2, p.toVec = v} ∪ {F.toVec, R.toVec} ⊆ convexHull ℚ
        ({v : ℚ × ℚ | ∃ p ∈ out1 ++ F :: out2, p.toVec = v} ∪ {P.toVec, R.toVec}) := by
      intro v hv
      rcases hv with ⟨p, hp, rfl⟩ | hv
      · exact subset_convexHull ℚ _
          (Or.inl ⟨p, List.mem_append_right _ (List.mem_cons_of_mem _ hp), rfl⟩)
      · rcases hv with hv | hv
        · rw [hv]; exact hFh
        · rw [Set.mem_singleton_iff] at hv
          rw [hv]; exact hRh
    refine ⟨out1 ++ F :: out2, ?_, ?_, ?_⟩
    · rw [hgen (acc ++ out1) hc1, hc2]
      simp
    · intro c hc
      rcases List.mem_append.mp hc with h | h
      · exact ((spec1 c).mp (hm1 c h)).1
      · rcases List.mem_cons.mp h with h | h
        · rw [h]; exact hFs
        · exact ((spec2 c).mp (hm2 c h)).1
    · intro c hc
      by_cases hr1 : c ∈ r.1
      · exact hull_mono_of_subset hsub1 (hall1 c hr1)
      by_cases hr2 : c ∈ r.2
      · exact hull_mono_of_subset hsub2 (hall2 c hr2)
      obtain ⟨q1, q2, q3⟩ := hInv c hc
      have hYX : 0 ≤ cross P F c ∧ 0 ≤ cross F R c := by
        by_cases hT : 0 < OutOfPlace.sideSign loc * (F.x - c.x)
        · have hY : 0 ≤ cross P F c := by
            by_contra hneg
            exact hr1 ((spec1 c).mpr ⟨hc, hT, not_le.mp hneg⟩)
          exact ⟨hY, cross_nonneg_of_poleSide _ hsg P R F c hT q2 hRF (le_of_lt hK) hY⟩
        · have hT' : 0 ≤ OutOfPlace.sideSign loc * (c.x - F.x) := by
            have e : OutOfPlace.sideSign loc * (c.x - F.x)
                = - (OutOfPlace.sideSign loc * (F.x - c.x)) := by ring
            rw [e]
            linarith [not_lt.mp hT]
          have hX : 0 ≤ cross F R c := by
            by_contra hneg
            exact hr2 ((spec2 c).mpr ⟨hc, hT', not_le.mp hneg⟩)
          refine ⟨?_, hX⟩
          by_contra hneg
          by_cases hX0 : 0 < cross F R c
          · have := cross_nonneg_of_antipoleSide _ hsg P R F c hT' q3 hFP (le_of_lt hK) hX0
            exact hneg this
          · have h1 := sqDist_lt_of_wedge P R F c hK (not_le.mp hneg) (not_lt.mp hX0)
            have h2 := (hNF c hc).1
            linarith
      exact hull_of_triangle_right _ P R F c hPh hFh hRh hK (le_of_lt q1) hYX.1 hYX.2

/-- Completeness of `ConvexHullQuickHull`: on a sequence that meets the minimal requirements
it returns points of the sequence whose convex hull holds every point of the sequence. -/
theorem outOfPlace_complete_positions (s : PointSequence)
    (h : PointSequenceFulfillsMinimalRequirements s = true) :
    ∃ out, ConvexHullQuickHull s = some out ∧ (∀ c ∈ out, c ∈ s) ∧
      ∀ p ∈ s, p.toVec ∈ convexHull ℚ {v : ℚ × ℚ | ∃ q ∈ out, q.toVec = v} := by
  have hn := length_of_minimalRequirements s h
  have h0mem := deref_mem s 0 (by omega)
  obtain ⟨hWm, hEm, hlex⟩ := extremesLoop_spec s (s.length - 1) 1 (deref s 0) (deref s 0)
    (by omega) h0mem h0mem (by rw [Point.lt_irrefl]; exact Bool.false_ne_true)
    (by
      intro j hj
      have : j = 0 := by omega
      rw [this, Point.lt_irrefl]
      exact ⟨Bool.false_ne_true, Bool.false_ne_true⟩)
  obtain ⟨W, E, he⟩ : ∃ W E, extremesLoop s (s.length - 1) 1 (deref s 0) (deref s 0) = (W, E) :=
    ⟨_, _, rfl⟩
  rw [he] at hWm hEm hlex
  simp only at hWm hEm hlex
  have hlexm : ∀ c ∈ s, ¬ c.lt W = true ∧ ¬ E.lt c = true := by
    intro c hc
    obtain ⟨i, hi, rfl⟩ := exists_pos_of_mem s c hc
    exact hlex i hi
  have hside := sideLoop_eq W E s [] []
  simp only [List.nil_append] at hside
  obtain ⟨ab, hab⟩ : ∃ ab, ab = s.filter
    (fun c => decide (getOrientation W E c = COUNTERCLOCKWISE)) := ⟨_, rfl⟩
  obtain ⟨be, hbe⟩ : ∃ be, be = s.filter
    (fun c => decide (getOrientation W E c = CLOCKWISE)) := ⟨_, rfl⟩
  rw [← hab, ← hbe] at hside
  have hbm : ∀ c, c ∈ be ↔ c ∈ s ∧ cross W E c < 0 := by
    intro c
    rw [hbe, List.mem_filter, decide_eq_true_iff, orientation_cw_iff]
  have ham : ∀ c, c ∈ ab ↔ c ∈ s ∧ 0 < cross W E c := by
    intro c
    rw [hab, List.mem_filter, decide_eq_true_iff, orientation_ccw_iff]
  have hblen : be.length ≤ s.length := by rw [hbe]; exact List.length_filter_le _ _
  have halen : ab.length ≤ s.length := by rw [hab]; exact List.length_filter_le _ _
  obtain ⟨out1, hc1, hm1, hall1⟩ := outOfPlace_findHull_complete (s.length + 1) be W E [W]
    OutOfPlace.LOWER (by omega)
    (by
      intro c hc
      obtain ⟨q1, q2⟩ := (hbm c).mp hc
      obtain ⟨l1, l2⟩ := hlexm c q1
      have a1 := x_le_of_not_lt _ _ l1
      have a2 := x_le_of_not_lt _ _ l2
      rw [outOfPlace_sideSign_lower]
      exact ⟨q2, by linarith, by linarith⟩)
  obtain ⟨out2, hc2, hm2, hall2⟩ := outOfPlace_findHull_complete (s.length + 1) ab E W
    ([W] ++ out1 ++ [E]) OutOfPlace.UPPER (by omega)
    (by
      intro c hc
      obtain ⟨q1, q2⟩ := (ham c).mp hc
      obtain ⟨l1, l2⟩ := hlexm c q1
      have a1 := x_le_of_not_lt _ _ l1
      have a2 := x_le_of_not_lt _ _ l2
      have e : cross E W c = - cross W E c := by unfold cross; ring
      rw [outOfPlace_sideSign_upper]
      exact ⟨by rw [e]; linarith, by linarith, by linarith⟩)
  have hres : ConvexHullQuickHull s = some (W :: (out1 ++ E :: out2)) := by
    rw [outOfPlace_accepted s h W E he ab be hside ([W] ++ out1) hc1, hc2]
    simp
  have hWh : W.toVec ∈ convexHull ℚ
      {v : ℚ × ℚ | ∃ q ∈ W :: (out1 ++ E :: out2), q.toVec = v} :=
    subset_convexHull ℚ _ ⟨W, by simp, rfl⟩
  have hEh : E.toVec ∈ convexHull ℚ
      {v : ℚ × ℚ | ∃ q ∈ W :: (out1 ++ E :: out2), q.toVec = v} :=
    subset_convexHull ℚ _ ⟨E, by simp, rfl⟩
  have hsub1 : {v : ℚ × ℚ | ∃ p ∈ out1, p.toVec = v} ∪ {W.toVec, E.toVec} ⊆ convexHull ℚ
      {v : ℚ × ℚ | ∃ q ∈ W :: (out1 ++ E :: out2), q.toVec = v} := by
    intro v hv
    rcases hv with ⟨p, hp, rfl⟩ | hv
    · exact subset_convexHull ℚ _
        ⟨p, List.mem_cons_of_mem _ (List.mem_append_left _ hp), rfl⟩
    · rcases hv with hv | hv
      · rw [hv]; exact hWh
      · rw [Set.mem_singleton_iff] at hv
        rw [hv]; exact hEh
  have hsub2 : {v : ℚ × ℚ | ∃ p ∈ out2, p.toVec = v} ∪ {E.toVec, W.toVec} ⊆ convexHull ℚ
      {v : ℚ × ℚ | ∃ q ∈ W :: (out1 ++ E :: out2), q.toVec = v} := by
    intro v hv
    rcases hv with ⟨p, hp, rfl⟩ | hv
    · exact subset_convexHull ℚ _
        ⟨p, List.mem_cons_of_mem _ (List.mem_append_right _ (List.mem_cons_of_mem _ hp)), rfl⟩
    · rcases hv with hv | hv
      · rw [hv]; exact hEh
      · rw [Set.mem_singleton_iff] at hv
        rw [hv]; exact hWh
  refine ⟨W :: (out1 ++ E :: out2), hres, ?_, ?_⟩
  · intro c hc
    rcases List.mem_cons.mp hc with h1 | h1
    · rw [h1]; exact hWm
    rcases List.mem_append.mp h1 with h2 | h2
    · exact ((hbm c).mp (hm1 c h2)).1
    rcases List.mem_cons.mp h2 with h3 | h3
    · rw [h3]; exact hEm
    · exact ((ham c).mp (hm2 c h3)).1
  · intro p hp
    by_cases hlo : cross W E p < 0
    · exact hull_mono_of_subset hsub1 (hall1 p ((hbm p).mpr ⟨hp, hlo⟩))
    by_cases hup : 0 < cross W E p
    · exact hull_mono_of_subset hsub2 (hall2 p ((ham p).mpr ⟨hp, hup⟩))
    have h0 : cross W E p = 0 := le_antisymm (not_lt.mp hup) (not_lt.mp hlo)
    obtain ⟨l1, l2⟩ := hlexm p hp
    apply hull_of_onSegment _ W E p hWh hEh
    apply onSegment_of_lex_between W E p l1 l2
    rw [cross_swap_last W E p, h0, neg_zero]

end QuickHull
namespace QuickHull

open Orientation

/-! ### Sequences in strictly convex position and the sets of their points -/

/-- In a sequence of three or more points that turns counterclockwise at every triple taken in
order, every point has a line through it with all other points of the sequence strictly on one
side. -/
theorem strict_support (t : List Point) (hn : 3 ≤ t.length)
    (h : ∀ i j k, i < j → j < k → k < t.length →
      0 < cross (deref t i) (deref t j) (deref t k))
    (i : Nat) (hi : i < t.length) :
    ∃ A B : ℚ, ∀ j, j < t.length → j ≠ i →
      0 < A * ((deref t j).x - (deref t i).x) + B * ((deref t j).y - (deref t i).y) := by
  obtain ⟨nx, hnx⟩ : ∃ nx, nx = if i + 1 < t.length then i + 1 else 0 := ⟨_, rfl⟩
  obtain ⟨pv, hpv⟩ : ∃ pv, pv = if 0 < i then i - 1 else t.length - 1 := ⟨_, rfl⟩
  have hnx' : (i + 1 < t.length ∧ nx = i + 1) ∨ (i + 1 = t.length ∧ nx = 0) := by
    rw [hnx]
    split_ifs <;> omega
  have hpv' : (0 < i ∧ pv = i - 1) ∨ (i = 0 ∧ pv = t.length - 1) := by
    rw [hpv]
    split_ifs <;> omega
  have h1 : ∀ j, j < t.length → j ≠ i → j ≠ nx →
      0 < cross (deref t i) (deref t nx) (deref t j) := by
    intro j hj hji hjn
    rcases hnx' with ⟨c1, c2⟩ | ⟨c1, c2⟩
    · rw [c2]
      by_cases c3 : i < j
      · exact h i (i + 1) j (by omega) (by omega) hj
      · have e : cross (deref t i) (deref t (i + 1)) (deref t j)
            = cross (deref t j) (deref t i) (deref t (i + 1)) := by unfold cross; ring
        rw [e]
        exact h j i (i + 1) (by omega) (by omega) c1
    · rw [c2]
      have e : cross (deref t i) (deref t 0) (deref t j)
          = cross (deref t 0) (deref t j) (deref t i) := by unfold cross; ring
      rw [e]
      exact h 0 j i (by omega) (by omega) hi
  have h2 : ∀ j, j < t.length → j ≠ i → j ≠ pv →
      0 < cross (deref t pv) (deref t i) (deref t j) := by
    intro j hj hji hjp
    rcases hpv' with ⟨c1, c2⟩ | ⟨c1, c2⟩
    · rw [c2]
      by_cases c3 : i < j
      · exact h (i - 1) i j (by omega) c3 hj
      · have e : cross (deref t (i - 1)) (deref t i) (deref t j)
            = cross (deref t j) (deref t (i - 1)) (deref t i) := by unfold cross; ring
        rw [e]
        exact h j (i - 1) i (by omega) (by omega) hi
    · rw [c2]
      have e : cross (deref t (t.length - 1)) (deref t i) (deref t j)
          = cross (deref t i) (deref t j) (deref t (t.length - 1)) := by unfold cross; ring
      rw [e]
      exact h i j (t.length - 1) (by omega) (by omega) (by omega)
  have hnp : nx ≠ pv := by omega
  have hnxlt : nx < t.length := by omega
  have hpvlt : pv < t.length := by omega
  have hnxi : nx ≠ i := by omega
  have hpvi : pv ≠ i := by omega
  refine ⟨- ((deref t nx).y - (deref t i).y) - ((deref t i).y - (deref t pv).y),
    ((deref t nx).x - (deref t i).x) + ((deref t i).x - (deref t pv).x), ?_⟩
  intro j hj hji
  have e : (- ((deref t nx).y - (deref t i).y) - ((deref t i).y - (deref t pv).y))
        * ((deref t j).x - (deref t i).x)
      + (((deref t nx).x - (deref t i).x) + ((deref t i).x - (deref t pv).x))
        * ((deref t j).y - (deref t i).y)
      = cross (deref t i) (deref t nx) (deref t j)
        + cross (deref t pv) (deref t i) (deref t j) := by unfold cross; ring
  rw [e]
  by_cases c1 : j = nx
  · rw [c1, cross_self_last]
    have := h2 nx hnxlt hnxi hnp
    linarith
  by_cases c2 : j = pv
  · rw [c2, cross_self_right]
    have := h1 pv hpvlt hpvi (Ne.symm hnp)
    linarith
  · have := h1 j hj hji c1
    have := h2 j hj hji c2
    linarith

/-- When every point of a set other than `p` lies strictly on one side of a line through `p`,
so does every point of the convex hull of the set other than `p`. -/
theorem hull_strict_support (S : Set (ℚ × ℚ)) (p : ℚ × ℚ) (A B : ℚ)
    (h : ∀ q ∈ S, q = p ∨ 0 < A * (q.1 - p.1) + B * (q.2 - p.2)) :
    ∀ q ∈ convexHull ℚ S, q = p ∨ 0 < A * (q.1 - p.1) + B * (q.2 - p.2) := by
  have hconv : Convex ℚ {q : ℚ × ℚ | q = p ∨ 0 < A * (q.1 - p.1) + B * (q.2 - p.2)} := by
    intro x hx y hy a b ha hb hab
    simp only [Set.mem_setOf_eq] at hx hy ⊢
    have e : A * ((a • x + b • y).1 - p.1) + B * ((a • x + b • y).2 - p.2)
        = a * (A * (x.1 - p.1) + B * (x.2 - p.2)) + b * (A * (y.1 - p.1) + B * (y.2 - p.2)) := by
      simp only [Prod.fst_add, Prod.snd_add, Prod.smul_fst, Prod.smul_snd, smul_eq_mul]
      have hb1 : b = 1 - a := by linarith
      rw [hb1]; ring
    rw [e]
    rcases hx with hx | hx
    · rcases hy with hy | hy
      · left
        rw [hx, hy, ← add_smul, hab, one_smul]
      · by_cases hb0 : b = 0
        · left
          have ha1 : a = 1 := by linarith
          rw [hb0, ha1, hx, one_smul, zero_smul, add_zero]
        · right
          have hbpos : 0 < b := lt_of_le_of_ne hb (Ne.symm hb0)
          have h0 : A * (x.1 - p.1) + B * (x.2 - p.2) = 0 := by rw [hx]; ring
          rw [h0, mul_zero, zero_add]
          exact mul_pos hbpos hy
    · by_cases ha0 : a = 0
      · have hb1 : b = 1 := by linarith
        rcases hy with hy | hy
        · left
          rw [ha0, hb1, hy, one_smul, zero_smul, zero_add]
        · right
          rw [ha0, hb1, zero_mul, zero_add, one_mul]
          exact hy
      · right
        have hapos : 0 < a := lt_of_le_of_ne ha (Ne.symm ha0)
        have hy' : 0 ≤ A * (y.1 - p.1) + B * (y.2 - p.2) := by
          rcases hy with hy | hy
          · rw [hy]
            apply le_of_eq
            ring
          · exact le_of_lt hy
        have := mul_pos hapos hx
        have := mul_nonneg hb hy'
        linarith
  exact fun q hq => convexHull_min h hconv hq

/-- A point with a strict supporting line with respect to a set `S1` that lies in the convex
hull of a set `S2` of points of the convex hull of `S1` is a point of `S2`. -/
theorem mem_of_strict_support (S1 S2 : Set (ℚ × ℚ)) (p : ℚ × ℚ) (A B : ℚ)
    (h : ∀ q ∈ S1, q = p ∨ 0 < A * (q.1 - p.1) + B * (q.2 - p.2))
    (h21 : S2 ⊆ convexHull ℚ S1) (hp : p ∈ convexHull ℚ S2) : p ∈ S2 := by
  by_contra hnot
  have hS2 : ∀ q ∈ S2, 0 < A * (q.1 - p.1) + B * (q.2 - p.2) := by
    intro q hq
    rcases hull_strict_support S1 p A B h q (h21 hq) with h1 | h1
    · rw [h1] at hq
      exact absurd hq hnot
    · exact h1
  have hconv : Convex ℚ {q : ℚ × ℚ | 0 < A * (q.1 - p.1) + B * (q.2 - p.2)} := by
    intro x hx y hy a b ha hb hab
    simp only [Set.mem_setOf_eq] at hx hy ⊢
    have e : A * ((a • x + b • y).1 - p.1) + B * ((a • x + b • y).2 - p.2)
        = a * (A * (x.1 - p.1) + B * (x.2 - p.2)) + b * (A * (y.1 - p.1) + B * (y.2 - p.2)) := by
      simp only [Prod.fst_add, Prod.snd_add, Prod.smul_fst, Prod.smul_snd, smul_eq_mul]
      have hb1 : b = 1 - a := by linarith
      rw [hb1]; ring
    rw [e]
    by_cases ha0 : a = 0
    · have hb1 : b = 1 := by linarith
      rw [ha0, hb1, zero_mul, zero_add, one_mul]
      exact hy
    · have hapos : 0 < a := lt_of_le_of_ne ha (Ne.symm ha0)
      have := mul_pos hapos hx
      have := mul_nonneg hb (le_of_lt hy)
      linarith
  have h3 : 0 < A * (p.1 - p.1) + B * (p.2 - p.2) := convexHull_min hS2 hconv hp
  rw [sub_self, sub_self, mul_zero, mul_zero, add_zero] at h3
  exact lt_irrefl _ h3

/-- In a sequence without three collinear points at different positions the points at any three
different positions are not collinear, in whatever order they are taken. -/
theorem cross_ne_zero_of_general (s : PointSequence)
    (hgen : ∀ i j k, i < j → j < k → k < s.length →
      getOrientation (deref s i) (deref s j) (deref s k) ≠ COLLINEAR)
    (x y z : Nat) (hx : x < s.length) (hy : y < s.length) (hz : z < s.length)
    (hxy : x ≠ y) (hxz : x ≠ z) (hyz : y ≠ z) :
    cross (deref s x) (deref s y) (deref s z) ≠ 0 := by
  have key : ∀ i j k, i < j → j < k → k < s.length →
      cross (deref s i) (deref s j) (deref s k) ≠ 0 := by
    intro i j k hij hjk hk h0
    exact hgen i j k hij hjk hk ((orientation_col_iff _ _ _).mpr h0)
  intro h0
  by_cases c1 : x < y
  · by_cases c2 : y < z
    · exact key x y z c1 c2 hz h0
    · by_cases c3 : x < z
      · apply key x z y c3 (by omega) hy
        rw [cross_swap_last (deref s x) (deref s y) (deref s z), h0, neg_zero]
      · apply key z x y (by omega) c1 hy
        have e : cross (deref s z) (deref s x) (deref s y)
            = cross (deref s x) (deref s y) (deref s z) := by unfold cross; ring
        rw [e, h0]
  · by_cases c2 : x < z
    · apply key y x z (by omega) c2 hz
      rw [cross_swap_first (deref s x) (deref s y) (deref s z), h0, neg_zero]
    · by_cases c3 : y < z
      · apply key y z x c3 (by omega) hx
        have e : cross (deref s y) (deref s z) (deref s x)
            = cross (deref s x) (deref s y) (deref s z) := by unfold cross; ring
        rw [e, h0]
      · apply key z y x (by omega) (by omega) hx
        have e : cross (deref s z) (deref s y) (deref s x)
            = - cross (deref s x) (deref s y) (deref s z) := by unfold cross; ring
        rw [e, h0, neg_zero]

/-- Points with the same coordinates are equal. -/
theorem toVec_injective (p q : Point) (h : p.toVec = q.toVec) : p = q := by
  unfold Point.toVec at h
  rw [Prod.mk.injEq] at h
  exact point_eq_of_coords p q h.1 h.2

/-- Two lists of points of a sequence, each in strictly convex position (counterclockwise at
every triple) and each with a convex hull that holds every point of the sequence, have the same
points. -/
theorem mem_of_strict_complete (s t1 t2 : List Point) (hn : 3 ≤ t1.length)
    (h1 : ∀ i j k, i < j → j < k → k < t1.length →
      0 < cross (deref t1 i) (deref t1 j) (deref t1 k))
    (hs1 : ∀ c ∈ t1, c ∈ s) (hs2 : ∀ c ∈ t2, c ∈ s)
    (hc1 : ∀ p ∈ s, p.toVec ∈ convexHull ℚ {v : ℚ × ℚ | ∃ q ∈ t1, q.toVec = v})
    (hc2 : ∀ p ∈ s, p.toVec ∈ convexHull ℚ {v : ℚ × ℚ | ∃ q ∈ t2, q.toVec = v}) :
    ∀ p ∈ t1, p ∈ t2 := by
  intro p hp
  obtain ⟨i, hi, rfl⟩ := exists_pos_of_mem t1 p hp
  obtain ⟨A, B, hsup⟩ := strict_support t1 hn h1 i hi
  have hmem := mem_of_strict_support {v : ℚ × ℚ | ∃ q ∈ t1, q.toVec = v}
    {v : ℚ × ℚ | ∃ q ∈ t2, q.toVec = v} (deref t1 i).toVec A B
    (by
      rintro v ⟨q, hq, rfl⟩
      obtain ⟨j, hj, rfl⟩ := exists_pos_of_mem t1 q hq
      by_cases hji : j = i
      · left
        rw [hji]
      · right
        exact hsup j hj hji)
    (by
      rintro v ⟨q, hq, rfl⟩
      exact hc1 q (hs2 q hq))
    (hc2 _ (hs1 _ hp))
  obtain ⟨q, hq, hqv⟩ := hmem
  rw [← toVec_injective q _ hqv]
  exact hq

end QuickHull
namespace QuickHull

open Orientation

/-! ### The out-of-place and the in-place QuickHull return the same points -/

/-- Claim C36. For every sequence `s` of pairwise distinct points, no three of them collinear,
that meets the minimal requirements, `ConvexHullQuickHull` and `ConvexHullInPlaceQuickHull`
(each run on `s`) both return, and a point is among the points returned by
`ConvexHullQuickHull` if and only if it is among the points of the output prefix of
`ConvexHullInPlaceQuickHull`. -/
theorem outOfPlace_inPlace_agree (s : PointSequence)
    (hmin : PointSequenceFulfillsMinimalRequirements s = true) (_hdist : s.Nodup)
    (hgen : ∀ i j k, i < j → j < k → k < s.length →
      getOrientation (deref s i) (deref s j) (deref s k) ≠ COLLINEAR) :
    ∃ out r, ConvexHullQuickHull s = some out ∧ ConvexHullInPlaceQuickHull s = some r ∧
      ∀ p, p ∈ out ↔ p ∈ outputPoints r := by
  obtain ⟨out, hres, hlen3, _, _, hstrict⟩ := outOfPlace_strict_positions s hmin
  obtain ⟨out', hres', hsubO, hcompO⟩ := outOfPlace_complete_positions s hmin
  have e := hres.symm.trans hres'
  simp only [Option.some.injEq] at e
  subst e
  obtain ⟨a, r, hresA, hr, hT⟩ := inPlace_convex_positions s hmin
  obtain ⟨a', r', hresA', hperm, hrle, hall⟩ := inPlace_complete_positions s hmin
  have e := hresA.symm.trans hresA'
  simp only [Option.some.injEq, Prod.mk.injEq] at e
  obtain ⟨rfl, rfl⟩ := e
  have h3 : 3 ≤ r := by
    by_contra hc
    have hline := onCommonLine_of_small_hull s a r (by omega) hall
    have := minimalRequirements_false_of_degenerate s (Or.inr hline)
    rw [hmin] at this
    exact absurd this (by decide)
  have hlen : (outputPoints (a, r)).length = r := by
    unfold outputPoints
    simp
    exact hr
  have hd : ∀ i, i < r → deref (outputPoints (a, r)) i = deref a i := by
    intro i hi
    unfold outputPoints
    exact deref_take a r i hi
  obtain ⟨_, σ, hf, he⟩ := hperm
  have hσ : ∀ i, i < s.length → σ i < s.length := fun i hi =>
    (perm_maps_range σ 0 s.length hf i (Nat.zero_le _) hi).2
  have hstrictA : ∀ i j k, i < j → j < k → k < (outputPoints (a, r)).length →
      0 < cross (deref (outputPoints (a, r)) i) (deref (outputPoints (a, r)) j)
        (deref (outputPoints (a, r)) k) := by
    intro i j k hij hjk hk
    rw [hlen] at hk
    rw [hd i (by omega), hd j (by omega), hd k hk]
    have hweak := hT i j k hij hjk hk
    have hne : cross (deref a i) (deref a j) (deref a k) ≠ 0 := by
      rw [he i, he j, he k]
      apply cross_ne_zero_of_general s hgen _ _ _ (hσ i (by omega)) (hσ j (by omega))
        (hσ k (by omega))
      · intro hc
        have := σ.injective hc
        omega
      · intro hc
        have := σ.injective hc
        omega
      · intro hc
        have := σ.injective hc
        omega
    exact lt_of_le_of_ne hweak (Ne.symm hne)
  have hsubA : ∀ c ∈ outputPoints (a, r), c ∈ s := by
    intro c hc
    obtain ⟨i, hi, rfl⟩ := exists_pos_of_mem _ c hc
    rw [hlen] at hi
    rw [hd i hi, he i]
    exact deref_mem s _ (hσ i (by omega))
  have hcompA : ∀ p ∈ s, p.toVec ∈
      convexHull ℚ {v : ℚ × ℚ | ∃ q ∈ outputPoints (a, r), q.toVec = v} := by
    intro p hp
    apply convexHull_mono _ (hall p hp)
    rintro v ⟨j, _, hj, rfl⟩
    refine ⟨deref (outputPoints (a, r)) j, deref_mem _ j (by rw [hlen]; exact hj), ?_⟩
    rw [hd j hj]
  refine ⟨out, (a, r), hres, hresA, fun p => ⟨?_, ?_⟩⟩
  · exact mem_of_strict_complete s out (outputPoints (a, r)) hlen3 hstrict hsubO hsubA hcompO
      hcompA p
  · exact mem_of_strict_complete s (outputPoints (a, r)) out (by rw [hlen]; exact h3) hstrictA
      hsubA hsubO hcompA hcompO p

/-- Claim C36 at a triangle with one point inside: the four points are pairwise distinct, no
three of them are collinear, and both algorithms return the three corners. -/
theorem outOfPlace_inPlace_agree_witness :
    ∃ out r, ConvexHullQuickHull [⟨0, 0⟩, ⟨4, 0⟩, ⟨2, 3⟩, ⟨2, 1⟩] = some out ∧
      ConvexHullInPlaceQuickHull [⟨0, 0⟩, ⟨4, 0⟩, ⟨2, 3⟩, ⟨2, 1⟩] = some r ∧
      ∀ p, p ∈ out ↔ p ∈ outputPoints r :=
  outOfPlace_inPlace_agree [⟨0, 0⟩, ⟨4, 0⟩, ⟨2, 3⟩, ⟨2, 1⟩] (by with_unfolding_all decide)
    (by with_unfolding_all decide)
    (by
      intro i j k hij hjk hk
      have hk' : k < 4 := hk
      interval_cases k <;> interval_cases j <;> interval_cases i <;>
        with_unfolding_all decide)

end QuickHull
